import Mathlib

/-!
# Class linking in `machine.cpp`

A shallow embedding of the class linker of `src/machine.cpp` (field layout,
reference bitmaps, virtual tables, interface tables, the associative map they
are built with) together with the properties proved about it.

Conventions of the embedding

* Heap objects are values.  A null reference is `none`.
* `unsigned` quantities are natural numbers; the counts handled here are read
  with `read2` (at most 65535 entries of at most 8 bytes each), and the width
  of the stored record fields is declared outside `machine.cpp`.
* `abort(t)`, a failed `assert`/`expect`, and an access through a null
  reference or outside an array are results of type `Fault`.
* The byte stream and the constant pool are consumed before the functions
  modelled here: a declaration is the record of the values the stream reader
  returned for it, with its name and descriptor fetched from the pool.
-/

set_option autoImplicit false

namespace vm

/-- A byte array object: its bytes, the terminating zero included. -/
abbrev Bytes := List Nat

/-- Ways in which the linker stops instead of returning. -/
inductive Fault where
  | abort
  | nullPointer
  | outOfBounds
  | pendingException
deriving DecidableEq, Repr

/-- Modelled from the spec: `constants.h` is not part of the sources; the
access flag of the class-file format for `static` members. -/
def ACC_STATIC : Nat := 0x0008

/-- Modelled from the spec: `constants.h` is not part of the sources; the
access flag of the class-file format for `native` methods. -/
def ACC_NATIVE : Nat := 0x0100

/-- Modelled from the spec: `constants.h` is not part of the sources; the
access flag of the class-file format for interfaces. -/
def ACC_INTERFACE : Nat := 0x0200

/-- The field kinds returned by `fieldCode`; the enumeration itself is declared
in `machine.h`. -/
inductive FieldCode where
  | VoidField
  | ByteField
  | CharField
  | DoubleField
  | FloatField
  | IntField
  | LongField
  | ShortField
  | BooleanField
  | ObjectField
deriving DecidableEq, Repr

open FieldCode

/-- The function `fieldCode`: the kind of a field from the first byte of its
descriptor; any other byte aborts. -/
def fieldCode (javaCode : Nat) : Except Fault FieldCode :=
  if javaCode = 66 then .ok ByteField          -- 'B'
  else if javaCode = 67 then .ok CharField     -- 'C'
  else if javaCode = 68 then .ok DoubleField   -- 'D'
  else if javaCode = 70 then .ok FloatField    -- 'F'
  else if javaCode = 73 then .ok IntField      -- 'I'
  else if javaCode = 74 then .ok LongField     -- 'J'
  else if javaCode = 83 then .ok ShortField    -- 'S'
  else if javaCode = 86 then .ok VoidField     -- 'V'
  else if javaCode = 90 then .ok BooleanField  -- 'Z'
  else if javaCode = 76 then .ok ObjectField   -- 'L'
  else if javaCode = 91 then .ok ObjectField   -- '['
  else .error .abort

/-- The function `primitiveSize`: bytes taken by a primitive field; the
reference kind is not a primitive and aborts. -/
def primitiveSize : FieldCode → Except Fault Nat
  | VoidField => .ok 0
  | ByteField => .ok 1
  | BooleanField => .ok 1
  | CharField => .ok 2
  | ShortField => .ok 2
  | FloatField => .ok 4
  | IntField => .ok 4
  | DoubleField => .ok 8
  | LongField => .ok 8
  | ObjectField => .error .abort

/-- Modelled from the spec: `fieldSize` is declared in `machine.h`; a reference
field takes one pointer width (the spec's "increases fixed size by one pointer
width"), any other field its primitive size. -/
def fieldSize (BytesPerWord : Nat) (code : FieldCode) : Except Fault Nat :=
  if code = ObjectField then .ok BytesPerWord else primitiveSize code

/-- Modelled from the spec: `pad` is declared outside `machine.cpp`; it rounds a
byte count up to the next multiple of the word size (the spec's word-aligned
fixed size). -/
def pad (BytesPerWord : Nat) (n : Nat) : Nat :=
  let extra := n % BytesPerWord
  if extra ≠ 0 then n + BytesPerWord - extra else n

/-- Modelled from the spec: `divide` is declared outside `machine.cpp`; integer
division rounding up, used to count the units needed to cover a size. -/
def divide (n d : Nat) : Nat :=
  n / d + (if n % d ≠ 0 then 1 else 0)

/-- A field record as built by `makeField`: flags, byte offset (instance) or
slot index (static), kind, name, descriptor, and the name of the owning
class. -/
structure Field where
  flags : Nat
  offset : Nat
  code : FieldCode
  name : Bytes
  spec : Bytes
  class_ : Bytes
deriving DecidableEq, Repr

/-- The body of a method: bytecode as returned by `parseCode` (kept as its raw
code bytes), or the linkage name stored for a native method. -/
inductive MethodCode where
  | code (maxStack maxLocals : Nat) (body : Bytes)
  | jniName (name : Bytes)
deriving DecidableEq, Repr

/-- A method record as built by `makeMethod`. -/
structure Method where
  flags : Nat
  offset : Nat
  parameterCount : Nat
  parameterFootprint : Nat
  name : Bytes
  spec : Bytes
  class_ : Bytes
  code : Option MethodCode
deriving DecidableEq, Repr

/-- An element of an interface table: an interface, or the array of methods
that stands next to it in the table of a concrete class. -/
inductive TableEntry (C : Type) where
  | interface (c : C)
  | vtable (methods : List (Option Method))

/-- A class object as built by `makeClass`.  The static table is represented by
its length (its slots are null when linking ends); the field and method tables
hold no null entry, every slot being stored before the table is attached. -/
structure Class where
  flags : Nat
  vmFlags : Nat
  arrayDimensions : Nat
  fixedSize : Nat
  arrayElementSize : Nat
  objectMask : Option (List Nat)
  name : Bytes
  super : Option Class
  interfaceTable : Option (List (Option (TableEntry Class)))
  virtualTable : Option (List (Option Method))
  fieldTable : Option (List Field)
  methodTable : Option (List Method)
  staticTable : Option Nat
  initializer : Option Method

/-- The classes visited by `for (object c = class_; c; c = classSuper(t, c))`:
the class itself, then its superclasses, nearest first. -/
def Class.ancestors : Class → List Class
  | ⟨fl, vf, ad, fs, es, om, nm, none, it, vt, ft, mt, st, ini⟩ =>
    [⟨fl, vf, ad, fs, es, om, nm, none, it, vt, ft, mt, st, ini⟩]
  | ⟨fl, vf, ad, fs, es, om, nm, some s, it, vt, ft, mt, st, ini⟩ =>
    ⟨fl, vf, ad, fs, es, om, nm, some s, it, vt, ft, mt, st, ini⟩ :: s.ancestors

/-- A field declaration as the stream reader returns it: access flags, and the
pool entries of its name and descriptor (attributes are skipped). -/
structure FieldDecl where
  flags : Nat
  name : Bytes
  spec : Bytes
deriving DecidableEq, Repr

/-- The variables of the declaration loop of `parseFieldTable`. -/
structure FieldLoop where
  memberOffset : Nat
  staticOffset : Nat
  fields : List Field
deriving DecidableEq, Repr

/-- One iteration of the declaration loop of `parseFieldTable`: a static field
takes the next static slot, an instance field the current member offset, which
is first raised to a word boundary when the field is a reference. -/
def parseField (BytesPerWord : Nat) (owner : Bytes) (st : FieldLoop)
    (d : FieldDecl) : Except Fault FieldLoop :=
  match fieldCode (d.spec.headD 0) with
  | .error e => .error e
  | .ok code =>
    if d.flags &&& ACC_STATIC ≠ 0 then
      .ok { st with
            staticOffset := st.staticOffset + 1
            fields := st.fields ++ [⟨d.flags, st.staticOffset, code, d.name, d.spec, owner⟩] }
    else
      let excess := st.memberOffset % BytesPerWord
      let memberOffset :=
        if excess ≠ 0 ∧ code = ObjectField then st.memberOffset + (BytesPerWord - excess)
        else st.memberOffset
      match fieldSize BytesPerWord code with
      | .error e => .error e
      | .ok size =>
        .ok { st with
              memberOffset := memberOffset + size
              fields := st.fields ++ [⟨d.flags, memberOffset, code, d.name, d.spec, owner⟩] }

/-- The declaration loop of `parseFieldTable`, from a given state. -/
def parseFieldsFrom (BytesPerWord : Nat) (owner : Bytes) :
    FieldLoop → List FieldDecl → Except Fault FieldLoop
  | st, [] => .ok st
  | st, d :: ds =>
    match parseField BytesPerWord owner st d with
    | .error e => .error e
    | .ok st1 => parseFieldsFrom BytesPerWord owner st1 ds

/-- The member offset `parseFieldTable` starts from: the fixed size of the
superclass, one word when there is none. -/
def initialMemberOffset (BytesPerWord : Nat) (class_ : Class) : Nat :=
  match class_.super with
  | some s => s.fixedSize
  | none => BytesPerWord

/-- The declaration loop of `parseFieldTable` run on a whole field table. -/
def parseFields (BytesPerWord : Nat) (class_ : Class) (decls : List FieldDecl) :
    Except Fault FieldLoop :=
  parseFieldsFrom BytesPerWord class_.name
    ⟨initialMemberOffset BytesPerWord class_, 0, []⟩ decls

/-- The statement `intArrayBody(t, mask, index / 32) |= 1 << (index % 32)`; a
word outside the array is a fault. -/
def setMaskBit (mask : List Nat) (index : Nat) : Except Fault (List Nat) :=
  if index / 32 < mask.length then
    .ok (mask.set (index / 32) (mask.getD (index / 32) 0 ||| (1 <<< (index % 32))))
  else .error .outOfBounds

/-- The body of the inner bitmap loop of `parseFieldTable` for one field. -/
def markField (BytesPerWord : Nat) (acc : List Nat × Bool) (field : Field) :
    Except Fault (List Nat × Bool) :=
  if field.code = ObjectField then
    match setMaskBit acc.1 (field.offset / BytesPerWord) with
    | .error e => .error e
    | .ok mask => .ok (mask, true)
  else .ok acc

/-- The inner bitmap loop over one field table (in the order given). -/
def markFields (BytesPerWord : Nat) :
    List Nat × Bool → List Field → Except Fault (List Nat × Bool)
  | acc, [] => .ok acc
  | acc, f :: fs =>
    match markField BytesPerWord acc f with
    | .error e => .error e
    | .ok acc1 => markFields BytesPerWord acc1 fs

/-- The outer bitmap loop of `parseFieldTable` over the class and its
superclasses; each field table is walked from its last entry to its first. -/
def markClasses (BytesPerWord : Nat) :
    List Nat × Bool → List Class → Except Fault (List Nat × Bool)
  | acc, [] => .ok acc
  | acc, c :: cs =>
    match c.fieldTable with
    | none => markClasses BytesPerWord acc cs
    | some fieldTable =>
      match markFields BytesPerWord acc fieldTable.reverse with
      | .error e => .error e
      | .ok acc1 => markClasses BytesPerWord acc1 cs

/-- The `else` branch at the end of `parseFieldTable`: a fresh bitmap sized
from the fixed size, bit 0 set, then one bit per reference field found in the
field tables of the class and of its superclasses; the bitmap is attached only
when such a field was seen. -/
def computeObjectMask (BytesPerWord BitsPerWord : Nat) (class_ : Class) :
    Except Fault Class :=
  let mask := List.replicate (divide class_.fixedSize (BitsPerWord * BytesPerWord)) 0
  if 0 < mask.length then
    match markClasses BytesPerWord (mask.set 0 1, false) class_.ancestors with
    | .error e => .error e
    | .ok (mask1, sawReferenceField) =>
      if sawReferenceField then .ok { class_ with objectMask := some mask1 }
      else .ok class_
  else .error .outOfBounds

/-- The function `parseFieldTable`. -/
def parseFieldTable (BytesPerWord BitsPerWord : Nat) (class_ : Class)
    (decls : List FieldDecl) : Except Fault Class :=
  match parseFields BytesPerWord class_ decls with
  | .error e => .error e
  | .ok st =>
    let class1 : Class :=
      if decls.length ≠ 0 then
        { class_ with
          fieldTable := some st.fields
          staticTable := if st.staticOffset ≠ 0 then some st.staticOffset
                         else class_.staticTable }
      else class_
    let class2 : Class := { class1 with fixedSize := pad BytesPerWord st.memberOffset }
    match class_.super with
    | some s =>
      if st.memberOffset = s.fixedSize then .ok { class2 with objectMask := s.objectMask }
      else computeObjectMask BytesPerWord BitsPerWord class2
    | none => computeObjectMask BytesPerWord BitsPerWord class2

/-- Bit `i` of a reference bitmap stored as 32-bit words. -/
def maskBit (mask : List Nat) (i : Nat) : Bool :=
  (mask.getD (i / 32) 0).testBit (i % 32)

/-! ## The associative map

Only normal maps are modelled (every map the class linker creates is
`makeHashMap(t, NormalMap, 0, 0)`): the stored key is the key itself.  A node is
a triple (key, value, next); a bucket is the list of the (key, value) pairs of
its chain, head first. -/

/-- A hash map object: entry count and bucket array (null until the first
insertion). -/
structure HashMap (κ ν : Type) where
  size : Nat
  array : Option (List (List (κ × ν)))
deriving Repr

/-- The call `makeHashMap(t, NormalMap, 0, 0)`. -/
def makeHashMap (κ ν : Type) : HashMap κ ν := ⟨0, none⟩

/-- The chain walk of `hashMapFindNode`: the first node whose key is equal to
the key looked for. -/
def chainFindNode {κ ν : Type} (equal : κ → κ → Bool) (key : κ) :
    List (κ × ν) → Option (κ × ν)
  | [] => none
  | n :: rest => if equal key n.1 then some n else chainFindNode equal key rest

/-- The function `hashMapFindNode` (normal map). -/
def hashMapFindNode {κ ν : Type} (hash : κ → Nat) (equal : κ → κ → Bool)
    (map : HashMap κ ν) (key : κ) : Option (κ × ν) :=
  match map.array with
  | none => none
  | some array =>
    let index := hash key &&& (array.length - 1)
    chainFindNode equal key (array.getD index [])

/-- Modelled from the spec: `hashMapFind` is declared in `machine.h`; the value
of the node found for the key, null when there is no node. -/
def hashMapFind {κ ν : Type} (hash : κ → Nat) (equal : κ → κ → Bool)
    (map : HashMap κ (Option ν)) (key : κ) : Option ν :=
  match hashMapFindNode hash equal map key with
  | none => none
  | some n => n.2

/-- Modelled from the spec: `nextPowerOfTwo` is declared outside `machine.cpp`;
the least power of two not below `n` ("bucket count is always a power of
two"), computed by doubling from 1. -/
def nextPowerOfTwoLoop : Nat → Nat → Nat → Nat
  | 0, r, _ => r
  | fuel + 1, r, n => if r < n then nextPowerOfTwoLoop fuel (2 * r) n else r

/-- Modelled from the spec: see `nextPowerOfTwoLoop`; `n` doublings always
reach `n`. -/
def nextPowerOfTwo (n : Nat) : Nat := nextPowerOfTwoLoop n 1 n

/-- The two statements of `hashMapResize` that push a node on the front of its
new bucket. -/
def rehashNode {κ ν : Type} (hash : κ → Nat) (newLength : Nat)
    (newArray : List (List (κ × ν))) (p : κ × ν) : List (List (κ × ν)) :=
  let index := hash p.1 &&& (newLength - 1)
  newArray.set index (p :: newArray.getD index [])

/-- The function `hashMapResize` (normal map): a new bucket array of
`nextPowerOfTwo(size)` buckets, filled by walking the old buckets in order and
each chain from its head; no array at all for size zero. -/
def hashMapResize {κ ν : Type} (hash : κ → Nat) (map : HashMap κ ν) (size : Nat) :
    HashMap κ ν :=
  if size ≠ 0 then
    let newLength := nextPowerOfTwo size
    let newArray : List (List (κ × ν)) := List.replicate newLength []
    match map.array with
    | none => { map with array := some newArray }
    | some oldArray =>
      { map with
        array := some (oldArray.foldl
          (fun acc chain => chain.foldl (rehashNode hash newLength) acc) newArray) }
  else { map with array := none }

/-- The function `hashMapInsert` (normal map): count the entry, grow the bucket
array when there is none or the count reaches twice its length, then push a new
node on the front of the key's bucket. -/
def hashMapInsert {κ ν : Type} (hash : κ → Nat) (map : HashMap κ ν) (key : κ)
    (value : ν) : HashMap κ ν :=
  let map1 : HashMap κ ν := { map with size := map.size + 1 }
  let map2 : HashMap κ ν :=
    match map1.array with
    | none => hashMapResize hash map1 16
    | some array =>
      if map1.size ≥ array.length * 2 then hashMapResize hash map1 (array.length * 2)
      else map1
  match map2.array with
  | none => map2
  | some array =>
    let index := hash key &&& (array.length - 1)
    { map2 with array := some (array.set index ((key, value) :: array.getD index [])) }

/-- Modelled from the spec: `hashMapInsertMaybe` is declared in `machine.h`; it
inserts the pair unless a node with an equal key exists ("deduplicate using an
associative map") and tells whether it inserted. -/
def hashMapInsertMaybe {κ ν : Type} (hash : κ → Nat) (equal : κ → κ → Bool)
    (map : HashMap κ ν) (key : κ) (value : ν) : HashMap κ ν × Bool :=
  match hashMapFindNode hash equal map key with
  | none => (hashMapInsert hash map key value, true)
  | some _ => (map, false)

/-- The statement `set(t, tripleSecond(t, p), value)` on a chain, for the node
`p` that the chain walk of `hashMapFindNode` returns for the key. -/
def chainSetSecond {κ ν : Type} (equal : κ → κ → Bool) (key : κ) (value : ν) :
    List (κ × ν) → List (κ × ν)
  | [] => []
  | n :: rest =>
    if equal key n.1 then (n.1, value) :: rest
    else n :: chainSetSecond equal key value rest

/-- The statement `set(t, tripleSecond(t, p), value)` for the node `p` that
`hashMapFindNode` returns for the key (the map is unchanged when there is no
such node). -/
def hashMapSetSecond {κ ν : Type} (hash : κ → Nat) (equal : κ → κ → Bool)
    (map : HashMap κ ν) (key : κ) (value : ν) : HashMap κ ν :=
  match map.array with
  | none => map
  | some array =>
    let index := hash key &&& (array.length - 1)
    { map with
      array := some (array.set index (chainSetSecond equal key value (array.getD index []))) }

/-- A hash map iterator object: the map, the current node, and the index from
which the bucket scan resumes.  The node is given with the rest of its chain
(what its `next` link leads to). -/
structure HashMapIterator (κ ν : Type) where
  map : HashMap κ ν
  node : κ × ν
  next : List (κ × ν)
  index : Nat

/-- The bucket scan shared by `hashMapIterator` and `hashMapIteratorNext`:
`for (i = index; i < length; ++i) if (array[i]) return iterator(array[i], i + 1)`,
run on the buckets from `index` on. -/
def scanBuckets {κ ν : Type} (map : HashMap κ ν) :
    List (List (κ × ν)) → Nat → Option (HashMapIterator κ ν)
  | [], _ => none
  | [] :: rest, i => scanBuckets map rest (i + 1)
  | (n :: chain) :: _, i => some ⟨map, n, chain, i + 1⟩

/-- The function `hashMapIterator`. -/
def hashMapIterator {κ ν : Type} (map : HashMap κ ν) : Option (HashMapIterator κ ν) :=
  match map.array with
  | none => none
  | some array => scanBuckets map array 0

/-- The function `hashMapIteratorNext`: the next node of the chain, with index
plus one, when the current node has a successor; otherwise the first node of
the first non-empty bucket from the index on. -/
def hashMapIteratorNext {κ ν : Type} (it : HashMapIterator κ ν) :
    Option (HashMapIterator κ ν) :=
  match it.next with
  | n :: chain => some ⟨it.map, n, chain, it.index + 1⟩
  | [] =>
    match it.map.array with
    | none => none
    | some array => scanBuckets it.map (array.drop it.index) it.index

/-- The loop `for (; it; it = hashMapIteratorNext(t, it))`: the nodes it visits,
in order.  The first argument bounds the number of iterations. -/
def hashMapIterate {κ ν : Type} : Nat → Option (HashMapIterator κ ν) → List (κ × ν)
  | 0, _ => []
  | _, none => []
  | fuel + 1, some it => it.node :: hashMapIterate fuel (hashMapIteratorNext it)

/-- The number of nodes held by a map; no iteration visits more nodes. -/
def hashMapNodeCount {κ ν : Type} (map : HashMap κ ν) : Nat :=
  match map.array with
  | none => 0
  | some array => (array.map List.length).sum

/-- The nodes visited by iterating over a map from `hashMapIterator` until the
iterator is null. -/
def hashMapNodes {κ ν : Type} (map : HashMap κ ν) : List (κ × ν) :=
  hashMapIterate (hashMapNodeCount map + 1) (hashMapIterator map)

/-- All the nodes of a map, bucket by bucket. -/
def HashMap.nodes {κ ν : Type} (map : HashMap κ ν) : List (κ × ν) :=
  (map.array.getD []).flatten

/-- A bucket array is well formed when it has a bucket and every node sits in
the bucket its key hashes to. -/
def bucketsWF {κ ν : Type} (hash : κ → Nat) (array : List (List (κ × ν))) : Prop :=
  0 < array.length ∧
  ∀ i, ∀ n ∈ array.getD i [], hash n.1 &&& (array.length - 1) = i

/-- A map is well formed when its bucket array, if any, is. -/
def HashMap.WF {κ ν : Type} (hash : κ → Nat) (map : HashMap κ ν) : Prop :=
  ∀ array, map.array = some array → bucketsWF hash array

/-- The iterator only ever stands on nodes of its map. -/
def iteratorInv {κ ν : Type} (map : HashMap κ ν) (it : HashMapIterator κ ν) : Prop :=
  it.map = map ∧ it.node ∈ map.nodes ∧ ∀ x ∈ it.next, x ∈ map.nodes

/-! ## Method descriptors and native linkage names -/

/-- The loop `while (*s and *s != ';') ++ s;` on the rest of a string. -/
def skipToSemicolon : List Nat → List Nat
  | [] => []
  | c :: rest => if c ≠ 0 ∧ c ≠ 59 then skipToSemicolon rest else c :: rest

/-- The loop `while (*s == '[') ++ s;` on the rest of a string. -/
def skipBrackets : List Nat → List Nat
  | [] => []
  | c :: rest => if c = 91 then skipBrackets rest else c :: rest

/-- The `switch` of `parameterCount` and `parameterFootprint`: the rest of the
string after one parameter type starting at `s` (whose first byte is `c`). -/
def skipParameter (c : Nat) (s : List Nat) : List Nat :=
  if c = 76 then (skipToSemicolon s).tail
  else if c = 91 then
    let s1 := skipBrackets s
    if s1.head? = some 76 then (skipToSemicolon s1).tail else s1.tail
  else s.tail

/-- The `while` loop of `parameterCount` on the rest of the descriptor; reading
past the end of the byte array is a fault.  The first argument bounds the
number of iterations (each consumes at least one byte). -/
def parameterCountLoop : Nat → List Nat → Nat → Except Fault Nat
  | 0, _, _ => .error .outOfBounds
  | fuel + 1, s, count =>
    match s with
    | [] => .error .outOfBounds
    | c :: _ =>
      if c ≠ 0 ∧ c ≠ 41 then parameterCountLoop fuel (skipParameter c s) (count + 1)
      else .ok count

/-- The function `parameterCount` on the bytes of a descriptor. -/
def parameterCount (spec : Bytes) : Except Fault Nat :=
  parameterCountLoop (spec.length + 1) spec.tail 0

/-- The `while` loop of `parameterFootprint`: as `parameterCountLoop`, a `J` or
`D` parameter counting twice. -/
def parameterFootprintLoop : Nat → List Nat → Nat → Except Fault Nat
  | 0, _, _ => .error .outOfBounds
  | fuel + 1, s, footprint =>
    match s with
    | [] => .error .outOfBounds
    | c :: _ =>
      if c ≠ 0 ∧ c ≠ 41 then
        if c = 74 ∨ c = 68 then
          parameterFootprintLoop fuel s.tail (footprint + 1 + 1)
        else parameterFootprintLoop fuel (skipParameter c s) (footprint + 1)
      else .ok footprint

/-- The function `parameterFootprint` on the bytes of a descriptor. -/
def parameterFootprint (spec : Bytes) : Except Fault Nat :=
  parameterFootprintLoop (spec.length + 1) spec.tail 0

/-- The function `mangledSize`. -/
def mangledSize (c : Nat) : Nat :=
  if c = 95 ∨ c = 59 ∨ c = 91 then 2      -- '_', ';', '['
  else if c = 36 then 6                   -- '$'
  else 1

/-- The function `mangle`: the bytes it writes at `dst` (their number is its
return value). -/
def mangle (c : Nat) : List Nat :=
  if c = 47 then [95]                           -- '/'  gives "_"
  else if c = 95 then [95, 49]                  -- '_'  gives "_1"
  else if c = 59 then [95, 50]                  -- ';'  gives "_2"
  else if c = 91 then [95, 51]                  -- '['  gives "_3"
  else if c = 36 then [95, 48, 48, 48, 50, 52]  -- '$'  gives "_00024"
  else [c]

/-- The indices `i` visited by the loop
`for (i = 1; i < length - 1 and spec[i] != ')'; ++i)` of `makeJNIName`. -/
def decorationIndices (spec : Bytes) : List Nat :=
  (List.range (((spec.dropLast).drop 1).takeWhile (fun c => c ≠ 41)).length).map (· + 1)

/-- The function `makeJNIName`, given the name of the method's class.  The size
is computed first, the bytes are then written in order into an array of
`size + 1` bytes; writing past the array or reading a byte array outside its
bounds is a fault, and the final `assert(t, index == size + 1)` aborts. -/
def makeJNIName (className methodName methodSpec : Bytes) (decorate : Bool) :
    Except Fault Bytes :=
  if className.length = 0 ∨ methodName.length = 0 ∨ (decorate ∧ methodSpec.length = 0) then
    .error .outOfBounds
  else
    let size := 5 + ((className.dropLast).map mangledSize).sum + 1
      + ((methodName.dropLast).map mangledSize).sum
      + (if decorate then
          2 + ((decorationIndices methodSpec).map
                (fun i => mangledSize (methodSpec.getD i 0))).sum
         else 0)
    if decorate ∧ (decorationIndices methodSpec).any (fun i => className.length ≤ i) then
      .error .outOfBounds
    else
      let written := [74, 97, 118, 97, 95]      -- "Java_"
        ++ ((className.dropLast).map mangle).flatten ++ [95]
        ++ ((methodName.dropLast).map mangle).flatten
        ++ (if decorate then
              [95, 95] ++ ((decorationIndices methodSpec).map
                (fun i => mangle (className.getD i 0))).flatten
            else [])
        ++ [0]
      if size + 1 < written.length then .error .outOfBounds
      else if written.length ≠ size + 1 then .error .abort
      else .ok written

/-- Modelled from the spec: `methodEqual` is declared in `machine.h`; two
methods are equal when their names and their descriptors are ("look up its
name+descriptor signature"). -/
def methodEqual (a b : Method) : Bool :=
  a.name == b.name && a.spec == b.spec

/-- Modelled from the spec: `byteArrayEqual` is declared in `machine.h`; two
byte arrays are equal when they hold the same bytes ("an associative map keyed
by interface name"). -/
def byteArrayEqual (a b : Bytes) : Bool := a == b

/-- The string a byte array holds for `strcmp`: its bytes up to the first
zero. -/
def cString (b : Bytes) : List Nat := b.takeWhile (fun c => c ≠ 0)

/-! ## The interface table -/

/-- The entries visited by `for (i = 0; i < length; i += 2)`. -/
def strideTwo {α : Type} : List α → List α
  | [] => []
  | [a] => [a]
  | a :: _ :: rest => a :: strideTwo rest

/-- The loop of `addInterfaces` over the visited entries of an interface table:
each interface is inserted under its name unless the name is present.  A null
entry is dereferenced by `className`; an entry that is not a class is a
fault. -/
def addInterfacesLoop (byteArrayHash : Bytes → Nat) :
    HashMap Bytes (Option Class) → List (Option (TableEntry Class)) →
    Except Fault (HashMap Bytes (Option Class))
  | map, [] => .ok map
  | _, none :: _ => .error .nullPointer
  | _, some (.vtable _) :: _ => .error .abort
  | map, some (.interface i) :: rest =>
    addInterfacesLoop byteArrayHash
      (hashMapInsertMaybe byteArrayHash byteArrayEqual map i.name (some i)).1 rest

/-- The entries of the interface table of a class that `addInterfaces` visits:
none when the table is null, every entry in the table of an interface
(increment 1), every second entry in the table of a concrete class
(increment 2). -/
def visitedEntries (class_ : Class) : List (Option (TableEntry Class)) :=
  match class_.interfaceTable with
  | none => []
  | some table => if class_.flags &&& ACC_INTERFACE ≠ 0 then table else strideTwo table

/-- The function `addInterfaces`. -/
def addInterfaces (byteArrayHash : Bytes → Nat) (class_ : Class)
    (map : HashMap Bytes (Option Class)) : Except Fault (HashMap Bytes (Option Class)) :=
  addInterfacesLoop byteArrayHash map (visitedEntries class_)

/-- The loop of `parseInterfaceTable` over the interface names of the class
file: resolve the name, insert the result under the name unless present, add
the interfaces of the result.  `resolveClass` returning null is not tested
before `addInterfaces` dereferences it. -/
def declaredInterfacesLoop (byteArrayHash : Bytes → Nat)
    (resolveClass : Bytes → Option Class) :
    HashMap Bytes (Option Class) → List Bytes → Except Fault (HashMap Bytes (Option Class))
  | map, [] => .ok map
  | map, name :: rest =>
    let interface := resolveClass name
    let map1 := (hashMapInsertMaybe byteArrayHash byteArrayEqual map name interface).1
    match interface with
    | none => .error .nullPointer
    | some i =>
      match addInterfaces byteArrayHash i map1 with
      | .error e => .error e
      | .ok map2 => declaredInterfacesLoop byteArrayHash resolveClass map2 rest

/-- The statement `set(t, arrayBody(t, array, i), value)`; an index outside the
array is a fault. -/
def arrayStore {α : Type} (array : List (Option α)) (i : Nat) (value : Option α) :
    Except Fault (List (Option α)) :=
  if i < array.length then .ok (array.set i value) else .error .outOfBounds

/-- The loop of `parseInterfaceTable` that fills the table from the nodes the
iterator visits: the class resolved from the node's key (a pending exception
makes the function return at once), followed, in a concrete class, by a fresh
array as long as the interface's virtual table. -/
def fillInterfaceTable (resolveClass : Bytes → Option Class) (concrete : Bool) :
    List (Option (TableEntry Class)) → Nat → List (Bytes × Option Class) →
    Except Fault (List (Option (TableEntry Class)))
  | table, _, [] => .ok table
  | table, i, node :: rest =>
    match resolveClass node.1 with
    | none => .error .pendingException
    | some interface =>
      match arrayStore table i (some (.interface interface)) with
      | .error e => .error e
      | .ok table1 =>
        if concrete then
          match interface.virtualTable with
          | none => .error .nullPointer
          | some ivtable =>
            match arrayStore table1 (i + 1)
                (some (.vtable (List.replicate ivtable.length none))) with
            | .error e => .error e
            | .ok table2 => fillInterfaceTable resolveClass concrete table2 (i + 2) rest
        else fillInterfaceTable resolveClass concrete table1 (i + 1) rest

/-- The deduplication map `parseInterfaceTable` builds before it allocates the
table: the interfaces of the superclass, then each named interface followed by
its own interfaces. -/
def interfaceMap (byteArrayHash : Bytes → Nat) (resolveClass : Bytes → Option Class)
    (class_ : Class) (names : List Bytes) : Except Fault (HashMap Bytes (Option Class)) :=
  match (match class_.super with
         | some s => addInterfaces byteArrayHash s (makeHashMap Bytes (Option Class))
         | none => .ok (makeHashMap Bytes (Option Class))) with
  | .error e => .error e
  | .ok map1 => declaredInterfacesLoop byteArrayHash resolveClass map1 names

/-- The function `parseInterfaceTable`; `names` are the pool entries named by
the interface list of the class file. -/
def parseInterfaceTable (byteArrayHash : Bytes → Nat) (resolveClass : Bytes → Option Class)
    (class_ : Class) (names : List Bytes) : Except Fault Class :=
  match interfaceMap byteArrayHash resolveClass class_ names with
  | .error e => .error e
  | .ok map =>
    if map.size ≠ 0 then
      let concrete : Bool := class_.flags &&& ACC_INTERFACE = 0
      let length := if concrete then map.size * 2 else map.size
      match fillInterfaceTable resolveClass concrete (List.replicate length none) 0
          (hashMapNodes map) with
      | .error e => .error e
      | .ok table => .ok { class_ with interfaceTable := some table }
    else .ok { class_ with interfaceTable := none }

/-- The interface held by a table entry, if it holds one. -/
def entryInterface : Option (TableEntry Class) → Option Class
  | some (.interface i) => some i
  | _ => none

/-- The interfaces `addInterfaces` finds in the interface table of a class. -/
def tableInterfaces (class_ : Class) : List Class :=
  (visitedEntries class_).filterMap entryInterface

/-- The interfaces of the table of a class (none for null). -/
def inheritedInterfaces (class_ : Option Class) : List Class :=
  match class_ with
  | none => []
  | some s => tableInterfaces s

/-- The interfaces brought by the interface list of a class file: the class
each name resolves to, followed by the interfaces of its own table. -/
def declaredInterfaces (resolveClass : Bytes → Option Class) (names : List Bytes) :
    List Class :=
  names.flatMap (fun n =>
    match resolveClass n with
    | none => []
    | some i => i :: tableInterfaces i)

/-- The interfaces a class file brings to a class: those of the interface table
of the superclass, then each interface named in the class file followed by the
interfaces of its own table. -/
def collectedInterfaces (resolveClass : Bytes → Option Class) (super : Option Class)
    (names : List Bytes) : List Class :=
  inheritedInterfaces super ++ declaredInterfaces resolveClass names

/-- The names of the interfaces of the table of a class (none for null). -/
def inheritedNames (class_ : Option Class) : List Bytes :=
  match class_ with
  | none => []
  | some s => (tableInterfaces s).map (fun i => i.name)

/-- The names inserted for the interface list of a class file: each name
followed by the names of the interfaces of the table of the class it resolves
to. -/
def declaredNames (resolveClass : Bytes → Option Class) (names : List Bytes) : List Bytes :=
  names.flatMap (fun n => n :: inheritedNames (resolveClass n))

/-- The names under which `parseInterfaceTable` inserts interfaces in its
map: those of the superclass's table, then those of the interface list. -/
def collectedNames (resolveClass : Bytes → Option Class) (super : Option Class)
    (names : List Bytes) : List Bytes :=
  inheritedNames super ++ declaredNames resolveClass names

/-- The content of an interface table holding the interfaces `xs`: each
interface, followed in a concrete class by an array of nulls as long as its
virtual table. -/
def interfaceEntries (concrete : Bool) (xs : List Class) :
    List (Option (TableEntry Class)) :=
  xs.flatMap (fun x =>
    if concrete then
      [some (.interface x), some (.vtable (List.replicate (x.virtualTable.getD []).length none))]
    else [some (.interface x)])

/-- The state of the deduplication map of `parseInterfaceTable` as long as no
two of its keys share a bucket: well formed, keys pairwise distinct, size equal
to the number of nodes, sixteen buckets of at most one node each. -/
structure SparseMap (hash : Bytes → Nat) (map : HashMap Bytes (Option Class)) : Prop where
  wf : map.WF hash
  nodup : (map.nodes.map Prod.fst).Nodup
  size : map.size = map.nodes.length
  buckets : ∀ array, map.array = some array →
    array.length = 16 ∧ ∀ chain ∈ array, chain.length ≤ 1

/-! ## The method table -/

/-- A method declaration as the stream reader returns it: access flags, the
pool entries of its name and descriptor, and the result of `parseCode` for its
`Code` attribute (null when it has none). -/
structure MethodDecl where
  flags : Nat
  name : Bytes
  spec : Bytes
  code : Option MethodCode
deriving DecidableEq, Repr

/-- The variables of `parseMethodTable` that its loops update. -/
structure MethodLoop where
  virtualMap : HashMap Method (Option Method)
  nativeMap : HashMap Method (Option Method)
  virtualCount : Nat
  declaredVirtualCount : Nat
  newVirtuals : List Method
  methodTable : List Method
  initializer : Option Method

/-- The inner loop `for (j = 0; j < virtualCount; ++j)` of the interface branch
of `parseMethodTable`, on the virtual table of one super-interface: the bound
is the running count, which the body increments.  The first argument bounds the
number of iterations (the table is left after `length` of them). -/
def unionVirtuals (methodHash : Method → Nat) :
    Nat → Option (List (Option Method)) → Nat → HashMap Method (Option Method) × Nat →
    Except Fault (HashMap Method (Option Method) × Nat)
  | 0, _, _, _ => .error .outOfBounds
  | fuel + 1, vtable, j, (map, virtualCount) =>
    if j < virtualCount then
      match vtable with
      | none => .error .nullPointer
      | some entries =>
        match entries.get? j with
        | none => .error .outOfBounds
        | some none => .error .nullPointer
        | some (some method) =>
          let r := hashMapInsertMaybe methodHash methodEqual map method (some method)
          unionVirtuals methodHash fuel vtable (j + 1)
            (r.1, if r.2 then virtualCount + 1 else virtualCount)
    else .ok (map, virtualCount)

/-- The interface branch at the start of `parseMethodTable`: the loop over the
interface table of the class. -/
def unionInterfaces (methodHash : Method → Nat) :
    HashMap Method (Option Method) × Nat → List (Option (TableEntry Class)) →
    Except Fault (HashMap Method (Option Method) × Nat)
  | st, [] => .ok st
  | _, none :: _ => .error .nullPointer
  | _, some (.vtable _) :: _ => .error .abort
  | st, some (.interface i) :: rest =>
    match unionVirtuals methodHash ((i.virtualTable.getD []).length + 1) i.virtualTable 0 st with
    | .error e => .error e
    | .ok st1 => unionInterfaces methodHash st1 rest

/-- The concrete branch at the start of `parseMethodTable`: every method of the
superclass's virtual table is inserted under itself. -/
def insertInherited (methodHash : Method → Nat) :
    HashMap Method (Option Method) → List (Option Method) →
    Except Fault (HashMap Method (Option Method))
  | map, [] => .ok map
  | _, none :: _ => .error .nullPointer
  | map, some method :: rest =>
    insertInherited methodHash (hashMapInsert methodHash map method (some method)) rest

/-- The virtual table of the superclass as the concrete branch reads it (null
for an interface, for a class without superclass, and when the superclass has
none). -/
def superVirtualTable (class_ : Class) : Option (List (Option Method)) :=
  if class_.flags &&& ACC_INTERFACE ≠ 0 then none
  else
    match class_.super with
    | none => none
    | some s => s.virtualTable

/-- The state of `parseMethodTable` when its declaration loop starts. -/
def initialMethodLoop (methodHash : Method → Nat) (class_ : Class) :
    Except Fault MethodLoop :=
  let empty := makeHashMap Method (Option Method)
  if class_.flags &&& ACC_INTERFACE ≠ 0 then
    match unionInterfaces methodHash (empty, 0) (class_.interfaceTable.getD []) with
    | .error e => .error e
    | .ok (map, virtualCount) =>
      .ok ⟨map, empty, virtualCount, 0, [], [], class_.initializer⟩
  else
    match superVirtualTable class_ with
    | none => .ok ⟨empty, empty, 0, 0, [], [], class_.initializer⟩
    | some table =>
      match insertInherited methodHash empty table with
      | .error e => .error e
      | .ok map => .ok ⟨map, empty, table.length, 0, [], [], class_.initializer⟩

/-- The bytes of `"<clinit>"`. -/
def clinitName : List Nat := [60, 99, 108, 105, 110, 105, 116, 62]

/-- The call of `makeMethod` in the declaration loop: offset zero, the
parameter count and footprint of the descriptor, one more each for the receiver
of a non-static method. -/
def newMethod (owner : Bytes) (d : MethodDecl) (count footprint : Nat) : Method :=
  if d.flags &&& ACC_STATIC = 0 then
    ⟨d.flags, 0, count + 1, footprint + 1, d.name, d.spec, owner, d.code⟩
  else ⟨d.flags, 0, count, footprint, d.name, d.spec, owner, d.code⟩

/-- The first `if` of the body of the declaration loop.  A static method only
becomes the initializer when it is named `<clinit>`.  A non-static method is
looked up in the virtual map: when a node is found the method takes the offset
of the node's key and becomes the node's value, otherwise it takes the next
free offset, joins the new virtuals and is inserted under itself.  Returns the
state and the method with its offset. -/
def assignSlot (methodHash : Method → Nat) (st : MethodLoop) (method0 : Method) :
    MethodLoop × Method :=
  if method0.flags &&& ACC_STATIC ≠ 0 then
    (if cString method0.name = clinitName then { st with initializer := some method0 }
     else st, method0)
  else
    match hashMapFindNode methodHash methodEqual st.virtualMap method0 with
    | some p =>
      ({ st with
         declaredVirtualCount := st.declaredVirtualCount + 1
         virtualMap := hashMapSetSecond methodHash methodEqual st.virtualMap method0
           (some { method0 with offset := p.1.offset }) },
       { method0 with offset := p.1.offset })
    | none =>
      ({ st with
         declaredVirtualCount := st.declaredVirtualCount + 1
         virtualCount := st.virtualCount + 1
         newVirtuals := st.newVirtuals ++ [{ method0 with offset := st.virtualCount }]
         virtualMap := hashMapInsert methodHash st.virtualMap
           { method0 with offset := st.virtualCount }
           (some { method0 with offset := st.virtualCount }) },
       { method0 with offset := st.virtualCount })

/-- The second `if` of the body of the declaration loop, for a native method:
the method is looked up in the native map; a node found there gets the method
as value, otherwise the method is inserted, with a null value, in the virtual
map. -/
def registerNative (methodHash : Method → Nat) (st : MethodLoop) (method : Method) :
    MethodLoop :=
  if method.flags &&& ACC_NATIVE ≠ 0 then
    match hashMapFindNode methodHash methodEqual st.nativeMap method with
    | some _ =>
      { st with
        nativeMap := hashMapSetSecond methodHash methodEqual st.nativeMap method
          (some method) }
    | none => { st with virtualMap := hashMapInsert methodHash st.virtualMap method none }
  else st

/-- One iteration of the declaration loop of `parseMethodTable`. -/
def parseMethod (methodHash : Method → Nat) (owner : Bytes) (st : MethodLoop)
    (d : MethodDecl) : Except Fault MethodLoop :=
  match parameterCount d.spec, parameterFootprint d.spec with
  | .error e, _ => .error e
  | _, .error e => .error e
  | .ok count, .ok footprint =>
    let r := assignSlot methodHash st (newMethod owner d count footprint)
    let st2 := registerNative methodHash r.1 r.2
    .ok { st2 with methodTable := st2.methodTable ++ [r.2] }

/-- The declaration loop of `parseMethodTable`, from a given state. -/
def parseMethodsFrom (methodHash : Method → Nat) (owner : Bytes) :
    MethodLoop → List MethodDecl → Except Fault MethodLoop
  | st, [] => .ok st
  | st, d :: ds =>
    match parseMethod methodHash owner st d with
    | .error e => .error e
    | .ok st1 => parseMethodsFrom methodHash owner st1 ds

/-- The start of `parseMethodTable` followed by its declaration loop. -/
def parseMethods (methodHash : Method → Nat) (class_ : Class) (decls : List MethodDecl) :
    Except Fault MethodLoop :=
  match initialMethodLoop methodHash class_ with
  | .error e => .error e
  | .ok st => parseMethodsFrom methodHash class_.name st decls

/-- The body of the second loop of `parseMethodTable` for one method: a native
method gets the linkage name built by `makeJNIName`, decorated when the native
map holds a non-null value for it. -/
def linkNative (methodHash : Method → Nat) (nativeMap : HashMap Method (Option Method))
    (method : Method) : Except Fault Method :=
  if method.flags &&& ACC_NATIVE ≠ 0 then
    let overloaded := hashMapFind methodHash methodEqual nativeMap method
    match makeJNIName method.class_ method.name method.spec overloaded.isSome with
    | .error e => .error e
    | .ok jniName => .ok { method with code := some (.jniName jniName) }
  else .ok method

/-- The second loop of `parseMethodTable` over the method table. -/
def linkNatives (methodHash : Method → Nat) (nativeMap : HashMap Method (Option Method)) :
    List Method → Except Fault (List Method)
  | [] => .ok []
  | method :: rest =>
    match linkNative methodHash nativeMap method with
    | .error e => .error e
    | .ok linked =>
      match linkNatives methodHash nativeMap rest with
      | .error e => .error e
      | .ok others => .ok (linked :: others)

/-- A method object reached through the map, the list of new virtuals or the
initializer slot after the second loop: a method of the class being linked is
the very object stored in its method table, hence carries the linkage name the
second loop stored; a method of another class is unchanged. -/
def linked (methodHash : Method → Nat) (nativeMap : HashMap Method (Option Method))
    (owner : Bytes) (method : Method) : Method :=
  if method.class_ = owner then
    match linkNative methodHash nativeMap method with
    | .error _ => method
    | .ok m => m
  else method

/-- Consecutive stores `set(t, arrayBody(t, array, i++), value)` from index
`i`. -/
def storeAll {α : Type} : List (Option α) → Nat → List (Option α) →
    Except Fault (List (Option α))
  | array, _, [] => .ok array
  | array, i, value :: rest =>
    match arrayStore array i value with
    | .error e => .error e
    | .ok array1 => storeAll array1 (i + 1) rest

/-- The inner loop of the last part of `parseMethodTable`: entry `j` of the
sub-vtable becomes the method found for entry `j` of the interface's virtual
table; `assert(t, method)` aborts when none is found. -/
def fillSubVtable (find : Method → Option Method) :
    Option (TableEntry Class) → Nat → List (Option Method) →
    Except Fault (Option (TableEntry Class))
  | vtable, _, [] => .ok vtable
  | _, _, none :: _ => .error .nullPointer
  | vtable, j, some method :: rest =>
    match find method with
    | none => .error .abort
    | some found =>
      match vtable with
      | none => .error .nullPointer
      | some (.interface _) => .error .abort
      | some (.vtable entries) =>
        match arrayStore entries j (some found) with
        | .error e => .error e
        | .ok entries1 => fillSubVtable find (some (.vtable entries1)) (j + 1) rest

/-- The loop `for (i = 0; i < arrayLength(t, itable); i += 2)` of the last part
of `parseMethodTable`. -/
def fillInterfaceVtables (find : Method → Option Method) :
    List (Option (TableEntry Class)) → Except Fault (List (Option (TableEntry Class)))
  | [] => .ok []
  | none :: _ => .error .nullPointer
  | some (.vtable _) :: _ => .error .abort
  | [some (.interface _)] => .error .outOfBounds
  | some (.interface i) :: vtable :: rest =>
    match i.virtualTable with
    | none => .error .nullPointer
    | some ivtable =>
      match fillSubVtable find vtable 0 ivtable with
      | .error e => .error e
      | .ok vtable1 =>
        match fillInterfaceVtables find rest with
        | .error e => .error e
        | .ok rest1 => .ok (some (.interface i) :: vtable1 :: rest1)

/-- The loop `for (; i < arrayLength(t, superVirtualTable); ++i)` of the
concrete branch: for each entry of the superclass's table, the value found for
it in the map. -/
def inheritedEntries (find : Method → Option Method) :
    List (Option Method) → Except Fault (List (Option Method))
  | [] => .ok []
  | none :: _ => .error .nullPointer
  | some method :: rest =>
    match inheritedEntries find rest with
    | .error e => .error e
    | .ok others => .ok (find method :: others)

/-- The entries the concrete branch stores in the new virtual table: the
inherited entries, then the new virtuals in order. -/
def concreteEntries (find : Method → Option Method) (link : Method → Method)
    (superTable : Option (List (Option Method))) (newVirtuals : List Method) :
    Except Fault (List (Option Method)) :=
  match superTable with
  | none => .ok (newVirtuals.map (fun m => some (link m)))
  | some table =>
    match inheritedEntries find table with
    | .error e => .error e
    | .ok inherited => .ok (inherited ++ newVirtuals.map (fun m => some (link m)))

/-- The stores made inside `if (count) { ... }` of `parseMethodTable`: the
initializer found by the first loop and the method table. -/
def storeMethodTable (class_ : Class) (count : Nat) (methodTable : List Method)
    (initializer : Option Method) : Class :=
  if count ≠ 0 then
    { class_ with
      methodTable := some methodTable
      initializer := initializer }
  else class_

/-- The function `parseMethodTable`. -/
def parseMethodTable (methodHash : Method → Nat) (class_ : Class)
    (decls : List MethodDecl) : Except Fault Class :=
  match parseMethods methodHash class_ decls with
  | .error e => .error e
  | .ok st =>
    match linkNatives methodHash st.nativeMap st.methodTable with
    | .error e => .error e
    | .ok methodTable =>
      let link := linked methodHash st.nativeMap class_.name
      let find : Method → Option Method := fun m =>
        (hashMapFind methodHash methodEqual st.virtualMap m).map link
      let class1 := storeMethodTable class_ decls.length methodTable
        (st.initializer.map link)
      if st.declaredVirtualCount = 0 then
        match class_.super with
        | none => .error .nullPointer
        | some s =>
          .ok { class1 with
                interfaceTable := s.interfaceTable
                virtualTable := superVirtualTable class_ }
      else if st.virtualCount ≠ 0 then
        if class_.flags &&& ACC_INTERFACE ≠ 0 then
          match storeAll (List.replicate st.virtualCount none) 0
              ((hashMapNodes st.virtualMap).map (fun n => some (link n.1))) with
          | .error e => .error e
          | .ok vtable => .ok { class1 with virtualTable := some vtable }
        else
          match concreteEntries find link (superVirtualTable class_) st.newVirtuals with
          | .error e => .error e
          | .ok entries =>
            match storeAll (List.replicate st.virtualCount none) 0 entries with
            | .error e => .error e
            | .ok vtable =>
              let class2 : Class := { class1 with virtualTable := some vtable }
              match class2.interfaceTable with
              | none => .ok class2
              | some itable =>
                match fillInterfaceVtables find itable with
                | .error e => .error e
                | .ok itable1 => .ok { class2 with interfaceTable := some itable1 }
      else .ok class1

/-! ## Parsing a class -/

/-- A class as `parseClass` creates it before linking: flags, name and
superclass set, everything else zero. -/
def freshClass (flags : Nat) (name : Bytes) (super : Option Class) : Class :=
  ⟨flags, 0, 0, 0, 0, none, name, super, none, none, none, none, none, none⟩

/-- The part of a class file `parseClass` reads after the constant pool: access
flags, the pool entries of the class name, of the superclass name (none for
index 0) and of the interface names, and the field and method declarations. -/
structure ClassFile where
  flags : Nat
  name : Bytes
  super : Option Bytes
  interfaces : List Bytes
  fields : List FieldDecl
  methods : List MethodDecl

/-- The superclass step of `parseClass`: resolve the superclass when the class
file names one, store it and inherit its VM flags; a pending exception makes
`parseClass` return. -/
def resolveSuper (resolveClass : Bytes → Option Class) (class_ : Class)
    (super : Option Bytes) : Except Fault Class :=
  match super with
  | none => .ok class_
  | some superName =>
    match resolveClass superName with
    | none => .error .pendingException
    | some sc => .ok { class_ with super := some sc, vmFlags := class_.vmFlags ||| sc.vmFlags }

/-- The function `parseClass` from the access flags on.  `resolveClass` (the
class map, the class finder and the recursive parse behind it) is a function
from names to classes, null standing for a pending exception. -/
def parseClass (BytesPerWord BitsPerWord : Nat) (byteArrayHash : Bytes → Nat)
    (methodHash : Method → Nat) (resolveClass : Bytes → Option Class) (file : ClassFile) :
    Except Fault Class :=
  match resolveSuper resolveClass (freshClass file.flags file.name none) file.super with
  | .error e => .error e
  | .ok class1 =>
    match parseInterfaceTable byteArrayHash resolveClass class1 file.interfaces with
    | .error e => .error e
    | .ok class2 =>
      match parseFieldTable BytesPerWord BitsPerWord class2 file.fields with
      | .error e => .error e
      | .ok class3 => parseMethodTable methodHash class3 file.methods

/-! ## Invariant of the declaration loop of `parseMethodTable` -/

/-- What holds of the virtual map, the new virtuals and the running count
while the declaration loop runs in a class whose inherited virtual table holds
the methods `S`, after the methods `T` have been created:

* the map is well formed and still holds a node under every inherited method;
* a node is an inherited method with itself or with an overriding method of
  `T` that took its offset, or a new virtual with itself, or a native method
  of `T` with a null value (the node inserted for a native method);
* a new virtual is a non-static method of `T` equal to no inherited method, the
  `j`-th one has offset `S.length + j`, and the count is `S.length` plus their
  number;
* a non-static method of `T` has the offset of the inherited method it is equal
  to, and is a new virtual when it is equal to none. -/
structure MethodInv (methodHash : Method → Nat) (S T : List Method)
    (map : HashMap Method (Option Method)) (newVirtuals : List Method)
    (virtualCount : Nat) : Prop where
  wf : map.WF methodHash
  inherited : ∀ s ∈ S, ∃ v, (s, v) ∈ map.nodes
  shape : ∀ n ∈ map.nodes,
    (n.1 ∈ S ∧ (n.2 = some n.1 ∨
      ∃ m ∈ T, n.2 = some m ∧ methodEqual n.1 m = true ∧ m.offset = n.1.offset)) ∨
    (n.1 ∈ newVirtuals ∧ n.2 = some n.1) ∨
    (n.1 ∈ T ∧ n.1.flags &&& ACC_NATIVE ≠ 0 ∧ n.2 = none)
  fresh : ∀ m ∈ newVirtuals,
    m ∈ T ∧ m.flags &&& ACC_STATIC = 0 ∧ ∀ s ∈ S, methodEqual m s = false
  slots : ∀ j m, newVirtuals[j]? = some m → m.offset = S.length + j
  count : virtualCount = S.length + newVirtuals.length
  offsets : ∀ m ∈ T, m.flags &&& ACC_STATIC = 0 →
    (∀ s ∈ S, methodEqual m s = true → m.offset = s.offset) ∧
    ((∀ s ∈ S, methodEqual m s = false) → m ∈ newVirtuals)

/-- The loop of `hashMapRemove` over the chain of the key's bucket: a node whose
key is equal to the key is unlinked, its value becomes the result and the entry
count is decremented; the walk continues to the end of the chain.  The pair
carried along is the result so far and the entry count. -/
def removeNodes {κ ν : Type} (equal : κ → κ → Bool) (key : κ) :
    List (κ × ν) → Option ν × Nat → List (κ × ν) × (Option ν × Nat)
  | [], acc => ([], acc)
  | n :: rest, acc =>
    if equal key n.1 then removeNodes equal key rest (some n.2, acc.2 - 1)
    else
      let r := removeNodes equal key rest acc
      (n :: r.1, r.2)

/-- The function `hashMapRemove` (normal map): the map after the call and the
value returned (null when no node was removed).  When the entry count is at
most a third of the bucket count the map is resized to half the bucket
count. -/
def hashMapRemove {κ ν : Type} (hash : κ → Nat) (equal : κ → κ → Bool)
    (map : HashMap κ ν) (key : κ) : HashMap κ ν × Option ν :=
  match map.array with
  | none => (map, none)
  | some array =>
    let index := hash key &&& (array.length - 1)
    let r := removeNodes equal key (array.getD index []) (none, map.size)
    let map1 : HashMap κ ν := ⟨r.2.2, some (array.set index r.1)⟩
    let map2 : HashMap κ ν :=
      if map1.size ≤ array.length / 3 then hashMapResize hash map1 (array.length / 2)
      else map1
    (map2, r.2.1)

/-- A sequence of `hashMapInsert` calls, one per (key, value) pair, in order. -/
def hashMapInsertAll {κ ν : Type} (hash : κ → Nat) (map : HashMap κ ν) :
    List (κ × ν) → HashMap κ ν
  | [] => map
  | kv :: rest => hashMapInsertAll hash (hashMapInsert hash map kv.1 kv.2) rest

/-! ## Thread states

The state machine of `enter`.  Every statement of `enter` runs with the state
lock held (`ACQUIRE_RAW(t, t->vm->stateLock)`); the lock is given up only inside
`stateLock->wait`.  A call of `enter` is therefore a sequence of atomic
sections separated by waits: `enter` below is the section from the call to the
first wait or to the return, `resume` the section that follows a wait once the
condition of its loop is false.  A thread blocked in a wait changes nothing. -/

/-- The states of a thread (`Thread::State`). -/
inductive State where
  | NoState
  | ActiveState
  | IdleState
  | ZombieState
  | JoinedState
  | ExclusiveState
  | ExitState
deriving DecidableEq, Repr

/-- The place where a thread stands: outside `enter` (running), or blocked in
one of the wait loops of `enter`. -/
inductive Wait where
  /-- Not inside `enter`. -/
  | running
  /-- In `while (t->vm->exclusive) wait` of the case `ActiveState`. -/
  | activeWait
  /-- In the same loop, reached from the case `ExclusiveState` through
  `ENTER(t, Thread::IdleState)`: the thread has gone idle and is on its way back
  to the active state to claim the exclusive slot. -/
  | yieldWait
  /-- In `while (t->vm->activeCount > 1) wait` of the case `ExclusiveState`. -/
  | exclusiveWait
  /-- In `while (t->vm->liveCount > 1) wait` of the case `ExitState`. -/
  | exitWait
deriving DecidableEq, Repr

/-- The part of a thread the state machine reads and writes. -/
structure ThreadControl where
  state : State
  wait : Wait
deriving DecidableEq, Repr

/-- The part of the machine the state machine reads and writes: the threads
(a thread is named by its position), the exclusive slot and the two
counters. -/
structure Machine where
  threads : List ThreadControl
  exclusive : Option Nat
  activeCount : Nat
  liveCount : Nat
deriving DecidableEq, Repr

/-- The machine after `Machine::Machine` and the construction of `n` threads:
every thread in `NoState`, no exclusive thread, both counters zero. -/
def initialMachine (n : Nat) : Machine :=
  ⟨List.replicate n ⟨.NoState, .running⟩, none, 0, 0⟩

/-- The statements of the case `ActiveState` for a thread in `NoState` or
`IdleState`, after the wait loop: count the thread as active (and as live when
it comes from `NoState`) and make it active. -/
def activate (m : Machine) (t : Nat) (from_ : State) : Machine :=
  { m with
    threads := m.threads.set t ⟨.ActiveState, .running⟩
    activeCount := m.activeCount + 1
    liveCount := if from_ = .NoState then m.liveCount + 1 else m.liveCount }

/-- The statements of the case `ExclusiveState` after the first loop: take the
exclusive state and slot, then wait while more than one thread is active. -/
def claimExclusive (m : Machine) (t : Nat) : Machine :=
  { m with
    threads := m.threads.set t
      ⟨.ExclusiveState, if m.activeCount > 1 then .exclusiveWait else .running⟩
    exclusive := some t }

/-- The inner `switch (t->state)` of the cases `IdleState`, `ZombieState` and
`ExitState` of `enter`, for a thread in state `from_`: a thread in
`ExclusiveState` gives up the exclusive slot (which it is asserted to hold), a
thread in `ActiveState` does nothing, every other state aborts. -/
def releaseExclusive (m : Machine) (t : Nat) (from_ : State) : Except Fault Machine :=
  match from_ with
  | .ExclusiveState =>
    if m.exclusive = some t then .ok { m with exclusive := none } else .error .abort
  | .ActiveState => .ok m
  | _ => .error .abort

/-- The cases `IdleState` and `ZombieState` of `enter`, for a thread in state
`from_`: give up the exclusive slot when the thread holds it, count the thread
out of the active threads (and out of the live ones for a zombie), take the
new state.  The assertions abort. -/
def leaveActive (m : Machine) (t : Nat) (from_ s : State) : Except Fault Machine :=
  match releaseExclusive m t from_ with
  | .error e => .error e
  | .ok m1 =>
    if m1.activeCount = 0 then .error .abort
    else if s = .ZombieState then
      if m1.liveCount = 0 then .error .abort
      else .ok { m1 with
        activeCount := m1.activeCount - 1
        liveCount := m1.liveCount - 1
        threads := m1.threads.set t ⟨s, .running⟩ }
    else .ok { m1 with
      activeCount := m1.activeCount - 1
      threads := m1.threads.set t ⟨s, .running⟩ }

/-- Modelled from the spec: `ENTER(t, Thread::IdleState)` is a macro of
`machine.h`; it enters the state and enters the previous state again at the end
of the block ("waits out any other exclusive holder by cycling through
IdleState").  This is what follows the first half, run for a thread that has
just gone idle inside the loop `while (t->vm->exclusive)` of the case
`ExclusiveState`: the thread waits while the slot is taken, then becomes active
again, leaves the loop and claims the slot. -/
def reclaim (m : Machine) (t : Nat) : Machine :=
  if m.exclusive.isSome then
    { m with threads := m.threads.set t ⟨.IdleState, .yieldWait⟩ }
  else claimExclusive (activate m t .IdleState) t

/-- The function `enter`, from the call to the first wait or to the return. -/
def enter (m : Machine) (t : Nat) (s : State) : Except Fault Machine :=
  match m.threads[t]? with
  | none => .error .nullPointer
  | some th =>
    if s = th.state then .ok m
    else if th.state = .ExitState then .ok m
    else
      match s with
      | .ExclusiveState =>
        if th.state ≠ .ActiveState then .error .abort
        else if m.exclusive.isSome then
          match leaveActive m t th.state .IdleState with
          | .error e => .error e
          | .ok m1 => .ok (reclaim m1 t)
        else .ok (claimExclusive m t)
      | .IdleState => leaveActive m t th.state s
      | .ZombieState => leaveActive m t th.state s
      | .ActiveState =>
        match th.state with
        | .ExclusiveState =>
          if m.exclusive = some t then
            .ok { m with
              threads := m.threads.set t ⟨s, .running⟩
              exclusive := none }
          else .error .abort
        | .NoState =>
          if m.exclusive.isSome then
            .ok { m with threads := m.threads.set t ⟨th.state, .activeWait⟩ }
          else .ok (activate m t th.state)
        | .IdleState =>
          if m.exclusive.isSome then
            .ok { m with threads := m.threads.set t ⟨th.state, .activeWait⟩ }
          else .ok (activate m t th.state)
        | _ => .error .abort
      | .ExitState =>
        match releaseExclusive m t th.state with
        | .error e => .error e
        | .ok m1 =>
          if m1.activeCount = 0 then .error .abort
          else
            .ok { m1 with
              activeCount := m1.activeCount - 1
              threads := m1.threads.set t
                ⟨s, if m1.liveCount > 1 then .exitWait else .running⟩ }
      | _ => .error .abort

/-- What a thread blocked in a wait of `enter` does once the condition of the
loop is false; while the condition holds, and for a thread that is not
blocked, nothing changes. -/
def resume (m : Machine) (t : Nat) : Machine :=
  match m.threads[t]? with
  | none => m
  | some th =>
    match th.wait with
    | .running => m
    | .activeWait => if m.exclusive.isSome then m else activate m t th.state
    | .yieldWait => reclaim m t
    | .exclusiveWait =>
      if m.activeCount > 1 then m
      else { m with threads := m.threads.set t ⟨th.state, .running⟩ }
    | .exitWait =>
      if m.liveCount > 1 then m
      else { m with threads := m.threads.set t ⟨th.state, .running⟩ }

/-- One transition of the machine: a running thread calls `enter`, or a blocked
thread is woken. -/
inductive Step where
  | call (t : Nat) (s : State)
  | wake (t : Nat)
deriving DecidableEq, Repr

/-- The machine after one transition (a call by a thread that is blocked, or
that does not exist, is no transition). -/
def step (m : Machine) : Step → Except Fault Machine
  | .call t s =>
    match m.threads[t]? with
    | none => .ok m
    | some th => if th.wait = .running then enter m t s else .ok m
  | .wake t => .ok (resume m t)

/-- The machine after a sequence of transitions. -/
def run (m : Machine) : List Step → Except Fault Machine
  | [] => .ok m
  | a :: rest =>
    match step m a with
    | .error e => .error e
    | .ok m1 => run m1 rest

/-- The threads counted by `activeCount`. -/
def State.active : State → Bool
  | .ActiveState => true
  | .ExclusiveState => true
  | _ => false

/-- The threads counted by `liveCount`. -/
def State.live : State → Bool
  | .ActiveState => true
  | .IdleState => true
  | .ExclusiveState => true
  | .ExitState => true
  | _ => false

/-- The invariant of the state machine: the counters count what they are meant
to count, the exclusive slot names the thread in `ExclusiveState`, a blocked
thread is in the state of its wait loop, and a thread that has got through
`enter(t, ExclusiveState)` is the only active one. -/
structure MachineInv (m : Machine) : Prop where
  active : m.activeCount = m.threads.countP (fun c => c.state.active)
  live : m.liveCount = m.threads.countP (fun c => c.state.live)
  holder : ∀ (t : Nat) (c : ThreadControl), m.threads[t]? = some c → (c.state = .ExclusiveState ↔ m.exclusive = some t)
  slot : ∀ t, m.exclusive = some t → ∃ c, m.threads[t]? = some c
  waits : ∀ (t : Nat) (c : ThreadControl), m.threads[t]? = some c →
    (c.wait = .exclusiveWait → c.state = .ExclusiveState) ∧
    (c.wait = .yieldWait → c.state = .IdleState) ∧
    (c.wait = .activeWait → c.state = .NoState ∨ c.state = .IdleState) ∧
    (c.wait = .exitWait → c.state = .ExitState)
  alone : ∀ (t : Nat) (c : ThreadControl), m.threads[t]? = some c → c.state = .ExclusiveState → c.wait = .running →
    m.activeCount ≤ 1

/-- The ten changes of state the specification lists for `enter`, as pairs
(current state, requested state). -/
def listedTransitions : List (State × State) :=
  [(.ActiveState, .ExclusiveState), (.ActiveState, .IdleState), (.ActiveState, .ZombieState),
   (.ActiveState, .ExitState), (.ExclusiveState, .ActiveState), (.ExclusiveState, .IdleState),
   (.ExclusiveState, .ZombieState), (.ExclusiveState, .ExitState),
   (.NoState, .ActiveState), (.IdleState, .ActiveState)]

/-! ## Root enumeration

The thread tree as `visitRoots` walks it.  A value of type `Thread` is a
`Thread*`: null, or a thread with the fields read, its first child and its next
peer. -/

/-- Modelled from the spec: the tag of an evaluation-stack slot that holds an
object reference ("a type tag per slot"); the constant is declared in
`machine.h`. -/
def ObjectTag : Nat := 1

/-- The fields of a thread that `visitRoots` reads.  The stack is the array
`t->stack`: slot `i` has its tag at index `2 i` and its value at index
`2 i + 1`.  The protector list is given by the pointers `p->p` of its entries,
first entry first.  The field `id` stands for the address of the thread. -/
structure ThreadData where
  id : Nat
  state : State
  sp : Nat
  stack : List Nat
  protector : List Nat
deriving DecidableEq, Repr

/-- A `Thread*`. -/
inductive Thread where
  | null : Thread
  | mk (data : ThreadData) (child peer : Thread) : Thread
deriving Repr

/-- What is passed to `v->visit`: the address of a field of a thread, of the
value of a stack slot, or the pointer held by an entry of the protector list
(given with the position of the entry). -/
inductive Root where
  | javaThread (thread : Nat)
  | code (thread : Nat)
  | exception (thread : Nat)
  | stack (thread slot : Nat)
  | protector (thread entry pointer : Nat)
deriving DecidableEq, Repr

/-- The loop `for (unsigned i = 0; i < t->sp; ++i)` of `visitRoots`. -/
def stackRoots (t : ThreadData) : List Root :=
  (List.range t.sp).filterMap
    (fun i => if t.stack.getD (i * 2) 0 = ObjectTag then some (Root.stack t.id i) else none)

/-- The loop `for (Thread::Protector* p = t->protector; p; p = p->next)` of
`visitRoots`, from the entry at position `k` on. -/
def protectorRoots (id : Nat) : Nat → List Nat → List Root
  | _, [] => []
  | k, p :: rest => Root.protector id k p :: protectorRoots id (k + 1) rest

/-- The visits `visitRoots` makes for the thread itself (the block guarded by
`t->state != Thread::ZombieState`; the assignment to `t->heapIndex` visits
nothing). -/
def ownRoots (t : ThreadData) : List Root :=
  if t.state ≠ .ZombieState then
    [Root.javaThread t.id, Root.code t.id, Root.exception t.id]
      ++ stackRoots t ++ protectorRoots t.id 0 t.protector
  else []

/-- A loop `for (Thread* c = start; c; c = c->peer) visitRoots(c, v)`: the
visits made, in order.  The body for one thread is `visitRoots`: the visits for
the thread itself, then the same loop from its first child. -/
def visitPeers : Thread → List Root
  | .null => []
  | .mk t child peer => (ownRoots t ++ visitPeers child) ++ visitPeers peer

/-- The function `visitRoots`, for the thread with the given fields and first
child. -/
def visitRoots (t : ThreadData) (child : Thread) : List Root :=
  ownRoots t ++ visitPeers child

/-- The threads reachable from a thread through child and peer links. -/
def Thread.reachable : Thread → List ThreadData
  | .null => []
  | .mk t child peer => t :: (child.reachable ++ peer.reachable)

/-- The thread a root belongs to. -/
def Root.owner : Root → Nat
  | .javaThread t => t
  | .code t => t
  | .exception t => t
  | .stack t _ => t
  | .protector t _ _ => t

/-! ## Finalizers and weak references

The lists of the machine that `postVisit`, `collect` and `exit` read and write.
A list linked through `finalizerNext` or `jreferenceNext` is the list of its
records, head first.  The heap and its visitor are external: the model is
given a type `H` of heap states, the effect `visit` of `v->visit` on the heap
and the answer `status` of `m->heap->status` in a heap state.  An object is
named by a number, 0 for null. -/

/-- Modelled from the spec: the answers of `Heap::status` (declared in
`heap.h`); `postVisit` only compares them with `Unreachable` and `Tenured`. -/
inductive Status where
  | Null
  | Reachable
  | Unreachable
  | Tenured
deriving DecidableEq, Repr

/-- The kinds of collection (`Heap::CollectionType`). -/
inductive CollectionType where
  | MinorCollection
  | MajorCollection
deriving DecidableEq, Repr

/-- A finalizer record: the record itself, its target and its finalize
routine. -/
structure Finalizer where
  id : Nat
  target : Nat
  finalize : Nat
deriving DecidableEq, Repr

/-- A weak reference object: the reference itself and its target field. -/
structure Reference where
  id : Nat
  target : Nat
deriving DecidableEq, Repr

/-- The five lists of the machine. -/
structure MachineLists where
  finalizers : List Finalizer
  tenuredFinalizers : List Finalizer
  finalizeQueue : List Finalizer
  weakReferences : List Reference
  tenuredWeakReferences : List Reference
deriving DecidableEq, Repr

/-- The state of a loop of `postVisit` over a list of finalizers: the heap, the
list walked as the loop leaves it, the finalize-ready queue, and the list that
starts at `firstNewTenuredFinalizer`. -/
structure FinalizerPass (H : Type) where
  heap : H
  list : List Finalizer
  finalizeQueue : List Finalizer
  firstNewTenured : List Finalizer

/-- The first loop of `postVisit`, over `m->finalizers`, from the record `*p`
on. -/
def youngFinalizers {H : Type} (visit : H → Nat → H) (status : H → Nat → Status) :
    List Finalizer → H → List Finalizer → List Finalizer → FinalizerPass H
  | [], h, queue, newTenured => ⟨h, [], queue, newTenured⟩
  | f :: rest, h, queue, newTenured =>
    let h1 := visit h f.id
    let h2 := visit h1 f.target
    if status h1 f.target = .Unreachable then
      youngFinalizers visit status rest h2 (f :: queue) newTenured
    else if status h2 f.id = .Tenured then
      youngFinalizers visit status rest h2 queue (f :: newTenured)
    else
      let r := youngFinalizers visit status rest h2 queue newTenured
      { r with list := f :: r.list }

/-- The loop of `postVisit` over `m->tenuredFinalizers` (major collections
only), from the record `*p` on. -/
def tenuredFinalizers {H : Type} (visit : H → Nat → H) (status : H → Nat → Status) :
    List Finalizer → H → List Finalizer → FinalizerPass H
  | [], h, queue => ⟨h, [], queue, []⟩
  | f :: rest, h, queue =>
    let h1 := visit h f.id
    let h2 := visit h1 f.target
    if status h1 f.target = .Unreachable then
      tenuredFinalizers visit status rest h2 (f :: queue)
    else
      let r := tenuredFinalizers visit status rest h2 queue
      { r with list := f :: r.list }

/-- The state of a loop of `postVisit` over a list of weak references: the
heap, the list walked as the loop leaves it, the list that starts at
`firstNewTenuredWeakReference`, and the references the loop has unlinked, each
with the target field the loop leaves it with (last unlinked first). -/
structure ReferencePass (H : Type) where
  heap : H
  list : List Reference
  firstNewTenured : List Reference
  unlinked : List Reference

/-- The second loop of `postVisit`, over `m->weakReferences`, from the
reference `*p` on. -/
def youngReferences {H : Type} (visit : H → Nat → H) (status : H → Nat → Status) :
    List Reference → H → List Reference → List Reference → ReferencePass H
  | [], h, newTenured, unlinked => ⟨h, [], newTenured, unlinked⟩
  | r :: rest, h, newTenured, unlinked =>
    if status h r.id = .Unreachable then
      youngReferences visit status rest h newTenured (r :: unlinked)
    else if status h r.target = .Unreachable then
      youngReferences visit status rest h newTenured ({ r with target := 0 } :: unlinked)
    else
      let h1 := visit h r.id
      let h2 := visit h1 r.target
      if status h2 r.id = .Tenured then
        youngReferences visit status rest h2 (r :: newTenured) unlinked
      else
        let p := youngReferences visit status rest h2 newTenured unlinked
        { p with list := r :: p.list }

/-- The loop of `postVisit` over `m->tenuredWeakReferences` (major collections
only), from the reference `*p` on. -/
def tenuredReferences {H : Type} (visit : H → Nat → H) (status : H → Nat → Status) :
    List Reference → H → List Reference → ReferencePass H
  | [], h, unlinked => ⟨h, [], [], unlinked⟩
  | r :: rest, h, unlinked =>
    if status h r.id = .Unreachable then
      tenuredReferences visit status rest h (r :: unlinked)
    else if status h r.target = .Unreachable then
      tenuredReferences visit status rest h ({ r with target := 0 } :: unlinked)
    else
      let h1 := visit h r.id
      let h2 := visit h1 r.target
      let p := tenuredReferences visit status rest h2 unlinked
      { p with list := r :: p.list }

/-- What `postVisit` leaves: the heap, the lists of the machine, and the weak
references it has unlinked. -/
structure PostVisit (H : Type) where
  heap : H
  lists : MachineLists
  unlinked : List Reference

/-- The function `postVisit`. -/
def postVisit {H : Type} (visit : H → Nat → H) (status : H → Nat → Status)
    (type : CollectionType) (h : H) (m : MachineLists) : PostVisit H :=
  let young := youngFinalizers visit status m.finalizers h m.finalizeQueue []
  let weak := youngReferences visit status m.weakReferences young.heap [] []
  if type = .MajorCollection then
    let tenured := tenuredFinalizers visit status m.tenuredFinalizers weak.heap
      young.finalizeQueue
    let tenuredWeak := tenuredReferences visit status m.tenuredWeakReferences tenured.heap
      weak.unlinked
    ⟨tenuredWeak.heap,
      ⟨young.list, young.firstNewTenured ++ tenured.list, tenured.finalizeQueue,
        weak.list, weak.firstNewTenured ++ tenuredWeak.list⟩,
      tenuredWeak.unlinked⟩
  else
    ⟨weak.heap,
      ⟨young.list, young.firstNewTenured ++ m.tenuredFinalizers, young.finalizeQueue,
        weak.list, weak.firstNewTenured ++ m.tenuredWeakReferences⟩,
      weak.unlinked⟩

/-- What `postVisit` does with a finalizer record. -/
inductive FinalizerFate where
  /-- Moved to the finalize-ready queue. -/
  | queued
  /-- Moved to the front of the tenured list. -/
  | promoted
  /-- Left in the list. -/
  | kept
deriving DecidableEq, Repr

/-- The fate of a record of the young finalizer list examined in heap state
`h`: queued when its target is unreachable after the record has been visited;
otherwise promoted when the record itself is tenured after its target has been
visited; otherwise kept. -/
def youngFate {H : Type} (visit : H → Nat → H) (status : H → Nat → Status) (h : H)
    (f : Finalizer) : FinalizerFate :=
  if status (visit h f.id) f.target = .Unreachable then .queued
  else if status (visit (visit h f.id) f.target) f.id = .Tenured then .promoted
  else .kept

/-- The fate of a record of the tenured finalizer list examined in heap state
`h` during a major collection. -/
def tenuredFate {H : Type} (visit : H → Nat → H) (status : H → Nat → Status) (h : H)
    (f : Finalizer) : FinalizerFate :=
  if status (visit h f.id) f.target = .Unreachable then .queued else .kept

/-- The records of a finalizer list, each with the fate given by `fate` in the
heap state in which the loop examines it (the loop visits the record, then its
target, whatever the fate). -/
def finalizerFates {H : Type} (visit : H → Nat → H) (fate : H → Finalizer → FinalizerFate) :
    List Finalizer → H → List (Finalizer × FinalizerFate)
  | [], _ => []
  | f :: rest, h =>
    (f, fate h f) :: finalizerFates visit fate rest (visit (visit h f.id) f.target)

/-- The records with a given fate, in list order. -/
def withFate (fate : FinalizerFate) (l : List (Finalizer × FinalizerFate)) : List Finalizer :=
  (l.filter (fun x => x.2 = fate)).map (fun x => x.1)

/-- What `postVisit` does with a weak reference. -/
inductive ReferenceFate where
  /-- Unlinked, the target field untouched. -/
  | dropped
  /-- Unlinked, the target field set to null. -/
  | cleared
  /-- Moved to the front of the tenured list. -/
  | promoted
  /-- Left in the list. -/
  | kept
deriving DecidableEq, Repr

/-- The fate of a reference of the young weak-reference list examined in heap
state `h`. -/
def youngReferenceFate {H : Type} (visit : H → Nat → H) (status : H → Nat → Status) (h : H)
    (r : Reference) : ReferenceFate :=
  if status h r.id = .Unreachable then .dropped
  else if status h r.target = .Unreachable then .cleared
  else if status (visit (visit h r.id) r.target) r.id = .Tenured then .promoted
  else .kept

/-- The fate of a reference of the tenured weak-reference list examined in heap
state `h` during a major collection. -/
def tenuredReferenceFate {H : Type} (status : H → Nat → Status) (h : H)
    (r : Reference) : ReferenceFate :=
  if status h r.id = .Unreachable then .dropped
  else if status h r.target = .Unreachable then .cleared
  else .kept

/-- The references of a weak-reference list, each with the fate given by `fate`
in the heap state in which the loop examines it (the loop visits the reference
and its target unless it unlinks the reference). -/
def referenceFates {H : Type} (visit : H → Nat → H) (fate : H → Reference → ReferenceFate) :
    List Reference → H → List (Reference × ReferenceFate)
  | [], _ => []
  | r :: rest, h =>
    (r, fate h r) :: referenceFates visit fate rest
      (if fate h r = .dropped ∨ fate h r = .cleared then h
       else visit (visit h r.id) r.target)

/-- The references with a given fate, in list order. -/
def referencesWithFate (fate : ReferenceFate) (l : List (Reference × ReferenceFate)) :
    List Reference :=
  (l.filter (fun x => x.2 = fate)).map (fun x => x.1)

/-- The references a loop unlinks, in list order, each with the target field
the loop leaves it with. -/
def unlinkedReferences (l : List (Reference × ReferenceFate)) : List Reference :=
  l.filterMap (fun x =>
    if x.2 = .dropped then some x.1
    else if x.2 = .cleared then some { x.1 with target := 0 }
    else none)


/-- The heap state in which `postVisit` starts its loop over `m->weakReferences`:
the heap after the loop over `m->finalizers`. -/
def heapAfterFinalizers {H : Type} (visit : H → Nat → H) (status : H → Nat → Status)
    (h : H) (m : MachineLists) : H :=
  (youngFinalizers visit status m.finalizers h m.finalizeQueue []).heap

/-- The heap state in which `postVisit` starts its loop over
`m->tenuredFinalizers`: the heap after the loop over `m->weakReferences`. -/
def heapAfterReferences {H : Type} (visit : H → Nat → H) (status : H → Nat → Status)
    (h : H) (m : MachineLists) : H :=
  (youngReferences visit status m.weakReferences (heapAfterFinalizers visit status h m)
    [] []).heap

/-- The heap state in which `postVisit` starts its loop over
`m->tenuredWeakReferences`: the heap after the loop over
`m->tenuredFinalizers`. -/
def heapAfterTenuredFinalizers {H : Type} (visit : H → Nat → H) (status : H → Nat → Status)
    (h : H) (m : MachineLists) : H :=
  (tenuredFinalizers visit status m.tenuredFinalizers (heapAfterReferences visit status h m)
    (youngFinalizers visit status m.finalizers h m.finalizeQueue []).finalizeQueue).heap

/-- The records of the young finalizer list with their fates in a call of
`postVisit` that starts in heap state `h`. -/
def youngFinalizerFates {H : Type} (visit : H → Nat → H) (status : H → Nat → Status)
    (h : H) (m : MachineLists) : List (Finalizer × FinalizerFate) :=
  finalizerFates visit (youngFate visit status) m.finalizers h

/-- The references of the young weak-reference list with their fates in a call
of `postVisit` that starts in heap state `h`. -/
def youngReferenceFates {H : Type} (visit : H → Nat → H) (status : H → Nat → Status)
    (h : H) (m : MachineLists) : List (Reference × ReferenceFate) :=
  referenceFates visit (youngReferenceFate visit status) m.weakReferences
    (heapAfterFinalizers visit status h m)

/-- The records of the tenured finalizer list with their fates in a call of
`postVisit` for a major collection that starts in heap state `h`. -/
def tenuredFinalizerFates {H : Type} (visit : H → Nat → H) (status : H → Nat → Status)
    (h : H) (m : MachineLists) : List (Finalizer × FinalizerFate) :=
  finalizerFates visit (tenuredFate visit status) m.tenuredFinalizers
    (heapAfterReferences visit status h m)

/-- The references of the tenured weak-reference list with their fates in a
call of `postVisit` for a major collection that starts in heap state `h`. -/
def tenuredReferenceFates {H : Type} (visit : H → Nat → H) (status : H → Nat → Status)
    (h : H) (m : MachineLists) : List (Reference × ReferenceFate) :=
  referenceFates visit (tenuredReferenceFate status) m.tenuredWeakReferences
    (heapAfterTenuredFinalizers visit status h m)

/-- The heap state in which a loop of `postVisit` over a list of finalizers,
started in heap state `h`, examines the record at position `i`: the records
before it and their targets have been visited. -/
def finalizerHeapAt {H : Type} (visit : H → Nat → H) (fs : List Finalizer) (h : H)
    (i : Nat) : H :=
  (fs.take i).foldl (fun h f => visit (visit h f.id) f.target) h

/-- The heap state in which a loop of `postVisit` over a list of weak
references, started in heap state `h`, examines the reference at position `i`:
the references before it that were not unlinked have been visited with their
targets. -/
def referenceHeapAt {H : Type} (visit : H → Nat → H) (fate : H → Reference → ReferenceFate) :
    List Reference → H → Nat → H
  | [], h, _ => h
  | _ :: _, h, 0 => h
  | r :: rest, h, i + 1 =>
    referenceHeapAt visit fate rest
      (if fate h r = .dropped ∨ fate h r = .cleared then h
       else visit (visit h r.id) r.target) i

/-- The part of the machine that `addFinalizer`, `collect` and `exit` read and
write, with a record of the calls of finalize routines: `invoked` lists, in
order, the records whose routine was called (the call is made with the target
of the record).  A finalizer record is a fresh object made by `makeFinalizer`;
it is named by the number of records made before it. -/
structure Finalization where
  lists : MachineLists
  invoked : List Finalizer
  allocated : Nat
deriving Repr

/-- The machine after `Machine::Machine`: all lists null, no routine called,
no record made. -/
def initialFinalization : Finalization := ⟨⟨[], [], [], [], []⟩, [], 0⟩

/-- The function `addFinalizer`: a new record at the head of `m->finalizers`. -/
def addFinalizer (target finalize : Nat) (s : Finalization) : Finalization :=
  { s with
    lists := { s.lists with
      finalizers := ⟨s.allocated, target, finalize⟩ :: s.lists.finalizers }
    allocated := s.allocated + 1 }

/-- The function `collect`, as far as finalizers go: the heap calls `postVisit`
(through `visitRoots` of the client) in heap state `h`; afterwards the routine
of every record of the finalize-ready queue is called, head first, and the
queue is set to null. -/
def collect {H : Type} (visit : H → Nat → H) (status : H → Nat → Status)
    (type : CollectionType) (h : H) (s : Finalization) : Finalization :=
  { s with
    lists := { (postVisit visit status type h s.lists).lists with finalizeQueue := [] }
    invoked := s.invoked ++ (postVisit visit status type h s.lists).lists.finalizeQueue }

/-- The function `exit`, as far as finalizers go: the routine of every record of
`m->finalizers`, then of `m->tenuredFinalizers`, is called, each record being
unlinked first. -/
def exit (s : Finalization) : Finalization :=
  { s with
    lists := { s.lists with finalizers := [], tenuredFinalizers := [] }
    invoked := s.invoked ++ s.lists.finalizers ++ s.lists.tenuredFinalizers }

/-- What happens between the start of the machine and its exit: a finalizer is
registered, or a collection runs (its `postVisit` in heap state `heap`). -/
inductive Event (H : Type) where
  | addFinalizer (target finalize : Nat)
  | collect (type : CollectionType) (heap : H)

/-- The machine after a sequence of events. -/
def runEvents {H : Type} (visit : H → Nat → H) (status : H → Nat → Status) :
    Finalization → List (Event H) → Finalization
  | s, [] => s
  | s, .addFinalizer target finalize :: rest =>
    runEvents visit status (addFinalizer target finalize s) rest
  | s, .collect type heap :: rest =>
    runEvents visit status (collect visit status type heap s) rest

/-! ## Walking an object

The function `walk` of the collector's client.  The walker is external: the
model is given a type `σ` of walker states and the effect and answer `visit` of
`w->visit`.  A walk carries the walker state and the indices reported so far,
in order. -/

/-- The call `w->visit(i)`: the walker moves on, the index is reported, and
the answer tells whether to go on. -/
def report {σ : Type} (visit : σ → Nat → σ × Bool) (s : σ × List Nat) (i : Nat) :
    (σ × List Nat) × Bool :=
  (((visit s.1 i).1, s.2 ++ [i]), (visit s.1 i).2)

/-- Reporting the indices of a list to the walker, in order, until the list is
exhausted or the walker answers false (the index it refuses is the last one
reported); the answer tells whether the walker accepted them all. -/
def reportWhile {σ : Type} (visit : σ → Nat → σ × Bool) :
    σ × List Nat → List Nat → (σ × List Nat) × Bool
  | s, [] => (s, true)
  | s, i :: rest =>
    if (report visit s i).2 then reportWhile visit (report visit s i).1 rest
    else ((report visit s i).1, false)

/-- The element of a parameter type: a primitive code, or a class name. -/
inductive ElementType where
  | primitive (code : Nat)
  | object (name : List Nat)
deriving DecidableEq, Repr

/-- A parameter type: the number of its array dimensions and its element. -/
structure ParameterType where
  dimensions : Nat
  element : ElementType
deriving DecidableEq, Repr

/-- The bytes of an element type in a descriptor. -/
def ElementType.bytes : ElementType → List Nat
  | .primitive code => [code]
  | .object name => 76 :: name ++ [59]

/-- The bytes of a parameter type in a descriptor. -/
def ParameterType.bytes (p : ParameterType) : List Nat :=
  List.replicate p.dimensions 91 ++ p.element.bytes

/-- An element type is well formed when its code is one of `B C D F I J S Z`,
or its class name holds neither `;` nor a zero byte. -/
def ElementType.wellFormed : ElementType → Bool
  | .primitive code => decide (code ∈ [66, 67, 68, 70, 73, 74, 83, 90])
  | .object name => decide (0 ∉ name ∧ 59 ∉ name)

/-- A parameter that is a `long` or a `double`, not an array of them. -/
def ParameterType.wide (p : ParameterType) : Bool :=
  decide (p.dimensions = 0 ∧ (p.element = .primitive 74 ∨ p.element = .primitive 68))

/-- The byte array of the descriptor with the given parameter types and result
type, terminator included. -/
def descriptor (params : List ParameterType) (result : List Nat) : Bytes :=
  40 :: (params.flatMap ParameterType.bytes ++ 41 :: (result ++ [0]))

/-! ## The constant pool

`parsePool` reads the pool from the byte stream of the class file.  The stream
is the list of the bytes not read yet. -/

/-- The number a sequence of bytes stands for, most significant byte first. -/
def bigEndian (bytes : List Nat) : Nat :=
  bytes.foldl (fun value b => value * 256 + b) 0

/-- Modelled from the spec: the stream reader is declared in `stream.h`
("sequential fixed-width reads + skip, signals end-of-stream as fatal"); the
call `s.read(dst, size)`: the next `size` bytes and the rest of the stream, the
end of the stream aborting. -/
def read (size : Nat) (s : List Nat) : Except Fault (List Nat × List Nat) :=
  if size ≤ s.length then .ok (s.take size, s.drop size) else .error .abort

/-- Modelled from the spec: see `read`; a read of `size` bytes as one number
("binary, big-endian"). -/
def readNumber (size : Nat) (s : List Nat) : Except Fault (Nat × List Nat) :=
  match read size s with
  | .error e => .error e
  | .ok (bytes, rest) => .ok (bigEndian bytes, rest)

/-- Modelled from the spec: see `readNumber`; the call `s.read1()`. -/
def read1 (s : List Nat) : Except Fault (Nat × List Nat) := readNumber 1 s

/-- Modelled from the spec: see `readNumber`; the call `s.read2()`. -/
def read2 (s : List Nat) : Except Fault (Nat × List Nat) := readNumber 2 s

/-- Modelled from the spec: see `readNumber`; the calls `s.read4()` and
`s.readFloat()`, the float being kept as its four bytes. -/
def read4 (s : List Nat) : Except Fault (Nat × List Nat) := readNumber 4 s

/-- Modelled from the spec: see `readNumber`; the calls `s.read8()` and
`s.readDouble()`, the double being kept as its eight bytes. -/
def read8 (s : List Nat) : Except Fault (Nat × List Nat) := readNumber 8 s

/-- Modelled from the spec: `constants.h` is not part of the sources; the tag
of an Utf8 entry in the class-file format. -/
def CONSTANT_Utf8 : Nat := 1

/-- Modelled from the spec: see `CONSTANT_Utf8`; the tag of an Integer entry. -/
def CONSTANT_Integer : Nat := 3

/-- Modelled from the spec: see `CONSTANT_Utf8`; the tag of a Float entry. -/
def CONSTANT_Float : Nat := 4

/-- Modelled from the spec: see `CONSTANT_Utf8`; the tag of a Long entry. -/
def CONSTANT_Long : Nat := 5

/-- Modelled from the spec: see `CONSTANT_Utf8`; the tag of a Double entry. -/
def CONSTANT_Double : Nat := 6

/-- Modelled from the spec: see `CONSTANT_Utf8`; the tag of a Class entry. -/
def CONSTANT_Class : Nat := 7

/-- Modelled from the spec: see `CONSTANT_Utf8`; the tag of a String entry. -/
def CONSTANT_String : Nat := 8

/-- Modelled from the spec: see `CONSTANT_Utf8`; the tag of a Fieldref entry. -/
def CONSTANT_Fieldref : Nat := 9

/-- Modelled from the spec: see `CONSTANT_Utf8`; the tag of a Methodref
entry. -/
def CONSTANT_Methodref : Nat := 10

/-- Modelled from the spec: see `CONSTANT_Utf8`; the tag of an
InterfaceMethodref entry. -/
def CONSTANT_InterfaceMethodref : Nat := 11

/-- Modelled from the spec: see `CONSTANT_Utf8`; the tag of a NameAndType
entry. -/
def CONSTANT_NameAndType : Nat := 12

/-- The objects `parsePool` stores in the pool: the boxes made by `makeInt`,
`makeFloat` and `makeLong` (holding the bits read), byte arrays, int arrays,
and the strings, pairs and references of the second and third loops. -/
inductive PoolObject where
  | int (value : Nat)
  | float (bits : Nat)
  | long (value : Nat)
  | byteArray (body : Bytes)
  | intArray (body : List Nat)
  | string (data : Bytes) (offset length hash : Nat)
  | pair (first second : Option PoolObject)
  | reference (class_ name spec : Option PoolObject)

/-- The pool: an array of object references, null included. -/
abbrev Pool := List (Option PoolObject)

/-- The `switch` of the first loop of `parsePool` for the tag `c`: the object
made from the bytes that follow, the number of extra indices the entry takes
(the `++ i` of the Long and Double cases), and the rest of the stream.  An
unknown tag aborts. -/
def parseConstant (c : Nat) (s : List Nat) : Except Fault (PoolObject × Nat × List Nat) :=
  if c = CONSTANT_Integer then
    match read4 s with
    | .error e => .error e
    | .ok (v, s1) => .ok (.int v, 0, s1)
  else if c = CONSTANT_Float then
    match read4 s with
    | .error e => .error e
    | .ok (v, s1) => .ok (.float v, 0, s1)
  else if c = CONSTANT_Long then
    match read8 s with
    | .error e => .error e
    | .ok (v, s1) => .ok (.long v, 1, s1)
  else if c = CONSTANT_Double then
    match read8 s with
    | .error e => .error e
    | .ok (v, s1) => .ok (.long v, 1, s1)
  else if c = CONSTANT_Utf8 then
    match read2 s with
    | .error e => .error e
    | .ok (length, s1) =>
      match read length s1 with
      | .error e => .error e
      | .ok (bytes, s2) => .ok (.byteArray (bytes ++ [0]), 0, s2)
  else if c = CONSTANT_Class ∨ c = CONSTANT_String then
    match read2 s with
    | .error e => .error e
    | .ok (a, s1) => .ok (.intArray [c, a], 0, s1)
  else if c = CONSTANT_NameAndType ∨ c = CONSTANT_Fieldref ∨ c = CONSTANT_Methodref
      ∨ c = CONSTANT_InterfaceMethodref then
    match read2 s with
    | .error e => .error e
    | .ok (a, s1) =>
      match read2 s1 with
      | .error e => .error e
      | .ok (b, s2) => .ok (.intArray [c, a, b], 0, s2)
  else .error .abort

/-- The first loop of `parsePool`, from index `i`: read a tag, make the object,
store it at `i`, skip the extra index of a Long or Double entry.  The first
argument bounds the number of iterations (each one increments `i`). -/
def parsePoolEntries (poolCount : Nat) :
    Nat → Nat → Pool → List Nat → Except Fault (Pool × List Nat)
  | 0, _, _, _ => .error .outOfBounds
  | fuel + 1, i, pool, s =>
    if i < poolCount then
      match read1 s with
      | .error e => .error e
      | .ok (c, s1) =>
        match parseConstant c s1 with
        | .error e => .error e
        | .ok (value, extra, s2) =>
          match arrayStore pool i (some value) with
          | .error e => .error e
          | .ok pool1 => parsePoolEntries poolCount fuel (i + extra + 1) pool1 s2
    else .ok (pool, s)

/-- The expression `arrayBody(t, pool, index - 1)` for an index read from an int
array; index zero is outside the array, like an index past its end. -/
def poolEntry (pool : Pool) (index : Nat) : Except Fault (Option PoolObject) :=
  if index = 0 then .error .outOfBounds
  else
    match pool[index - 1]? with
    | none => .error .outOfBounds
    | some o => .ok o

/-- The expression `intArrayBody(t, o, k)`. -/
def intArrayBody (body : List Nat) (k : Nat) : Except Fault Nat :=
  match body[k]? with
  | none => .error .outOfBounds
  | some v => .ok v

/-- The body of the second loop of `parsePool` for the object `o` found at an
index: the value it stores at that index, if it stores one.  A Class entry
becomes the entry it names, a String entry a string over the byte array it
names (a null reference or another object there is a fault), a NameAndType
entry the pair of the two entries it names. -/
def resolveShape (pool : Pool) (o : Option PoolObject) :
    Except Fault (Option (Option PoolObject)) :=
  match o with
  | some (.intArray body) =>
    match intArrayBody body 0 with
    | .error e => .error e
    | .ok tag =>
      if tag = CONSTANT_Class then
        match intArrayBody body 1 with
        | .error e => .error e
        | .ok a =>
          match poolEntry pool a with
          | .error e => .error e
          | .ok value => .ok (some value)
      else if tag = CONSTANT_String then
        match intArrayBody body 1 with
        | .error e => .error e
        | .ok a =>
          match poolEntry pool a with
          | .error e => .error e
          | .ok none => .error .nullPointer
          | .ok (some (.byteArray bytes)) =>
            .ok (some (some (.string bytes 0 (bytes.length - 1) 0)))
          | .ok (some _) => .error .abort
      else if tag = CONSTANT_NameAndType then
        match intArrayBody body 1 with
        | .error e => .error e
        | .ok a =>
          match poolEntry pool a with
          | .error e => .error e
          | .ok name =>
            match intArrayBody body 2 with
            | .error e => .error e
            | .ok b =>
              match poolEntry pool b with
              | .error e => .error e
              | .ok type => .ok (some (some (.pair name type)))
      else .ok none
  | _ => .ok none

/-- The body of the third loop of `parsePool` for the object `o` found at an
index: a Fieldref, Methodref or InterfaceMethodref entry becomes a reference
made of the entry named as its class and of the two halves of the pair named as
its name and type (a null reference or another object there is a fault). -/
def resolveReference (pool : Pool) (o : Option PoolObject) :
    Except Fault (Option (Option PoolObject)) :=
  match o with
  | some (.intArray body) =>
    match intArrayBody body 0 with
    | .error e => .error e
    | .ok tag =>
      if tag = CONSTANT_Fieldref ∨ tag = CONSTANT_Methodref
          ∨ tag = CONSTANT_InterfaceMethodref then
        match intArrayBody body 1 with
        | .error e => .error e
        | .ok a =>
          match poolEntry pool a with
          | .error e => .error e
          | .ok c =>
            match intArrayBody body 2 with
            | .error e => .error e
            | .ok b =>
              match poolEntry pool b with
              | .error e => .error e
              | .ok none => .error .nullPointer
              | .ok (some (.pair first second)) =>
                .ok (some (some (.reference c first second)))
              | .ok (some _) => .error .abort
      else .ok none
  | _ => .ok none

/-- A loop `for (i = 0; i < poolCount; ++i)` over the pool whose body stores at
index `i` the value `body` computes from the object found there, run on the
given indices. -/
def poolLoop (body : Pool → Option PoolObject → Except Fault (Option (Option PoolObject))) :
    Pool → List Nat → Except Fault Pool
  | pool, [] => .ok pool
  | pool, i :: rest =>
    match pool[i]? with
    | none => .error .outOfBounds
    | some o =>
      match body pool o with
      | .error e => .error e
      | .ok none => poolLoop body pool rest
      | .ok (some value) =>
        match arrayStore pool i value with
        | .error e => .error e
        | .ok pool1 => poolLoop body pool1 rest

/-- The value of `x - 1` for an `unsigned` `x`: zero wraps around. -/
def unsignedPred (x : Nat) : Nat := if x = 0 then 4294967295 else x - 1

/-- The function `parsePool`: the pool and the rest of the stream.  The count
is `read2() - 1` in unsigned arithmetic. -/
def parsePool (s : List Nat) : Except Fault (Pool × List Nat) :=
  match read2 s with
  | .error e => .error e
  | .ok (count, s1) =>
    let poolCount := unsignedPred count
    match parsePoolEntries poolCount (poolCount + 1) 0 (List.replicate poolCount none) s1 with
    | .error e => .error e
    | .ok (pool1, s2) =>
      match poolLoop resolveShape pool1 (List.range poolCount) with
      | .error e => .error e
      | .ok pool2 =>
        match poolLoop resolveReference pool2 (List.range poolCount) with
        | .error e => .error e
        | .ok pool3 => .ok (pool3, s2)

/-- An entry of the constant pool of a class file, as the format lays it out:
the bytes of a numeric constant, the bytes of an Utf8 string, or the pool
indices held by an entry that refers to others. -/
inductive Constant where
  | integer (bytes : List Nat)
  | float (bytes : List Nat)
  | long (bytes : List Nat)
  | double (bytes : List Nat)
  | utf8 (bytes : List Nat)
  | class_ (name : Nat)
  | string (value : Nat)
  | nameAndType (name descriptor : Nat)
  | fieldref (class_ nameAndType : Nat)
  | methodref (class_ nameAndType : Nat)
  | interfaceMethodref (class_ nameAndType : Nat)
deriving DecidableEq, Repr

/-- A two-byte number of the class-file format, most significant byte first. -/
def twoBytes (n : Nat) : List Nat := [n / 256 % 256, n % 256]

/-- The bytes of a pool entry in the class file: its tag, then its content. -/
def Constant.bytes : Constant → List Nat
  | .integer bytes => CONSTANT_Integer :: bytes
  | .float bytes => CONSTANT_Float :: bytes
  | .long bytes => CONSTANT_Long :: bytes
  | .double bytes => CONSTANT_Double :: bytes
  | .utf8 bytes => CONSTANT_Utf8 :: (twoBytes bytes.length ++ bytes)
  | .class_ name => CONSTANT_Class :: twoBytes name
  | .string value => CONSTANT_String :: twoBytes value
  | .nameAndType name descriptor =>
    CONSTANT_NameAndType :: (twoBytes name ++ twoBytes descriptor)
  | .fieldref c nt => CONSTANT_Fieldref :: (twoBytes c ++ twoBytes nt)
  | .methodref c nt => CONSTANT_Methodref :: (twoBytes c ++ twoBytes nt)
  | .interfaceMethodref c nt =>
    CONSTANT_InterfaceMethodref :: (twoBytes c ++ twoBytes nt)

/-- The number of pool indices an entry takes: two for a Long or a Double. -/
def Constant.slots : Constant → Nat
  | .long _ => 2
  | .double _ => 2
  | _ => 1

/-- The entries of a pool laid out index by index: each entry at its index, the
second index of a Long or Double entry left empty. -/
def slotTable (cs : List Constant) : List (Option Constant) :=
  cs.flatMap (fun c => some c :: List.replicate (c.slots - 1) none)

/-- The pool index (from zero) of the entry at position `k`: the number of
indices the entries before it take. -/
def slotIndex (cs : List Constant) (k : Nat) : Nat :=
  ((cs.take k).map Constant.slots).sum

/-- The bytes of a pool in the class file: the count (one more than the number
of indices), then the entries. -/
def poolBytes (cs : List Constant) : List Nat :=
  twoBytes ((slotTable cs).length + 1) ++ cs.flatMap Constant.bytes

/-- The index `n` names an entry of the table. -/
def inPool (table : List (Option Constant)) (n : Nat) : Bool :=
  decide (1 ≤ n ∧ n ≤ table.length)

/-- An entry is well formed in a pool when a numeric constant has the bytes of
its width, an Utf8 string a length that fits two bytes, and an entry that
refers to others names indices of the pool: any index for a Class entry and
for the two halves of a NameAndType entry, an Utf8 entry for a String entry,
any index and a NameAndType entry for a Fieldref, Methodref or
InterfaceMethodref entry. -/
def Constant.wellFormed (table : List (Option Constant)) : Constant → Bool
  | .integer bytes => decide (bytes.length = 4)
  | .float bytes => decide (bytes.length = 4)
  | .long bytes => decide (bytes.length = 8)
  | .double bytes => decide (bytes.length = 8)
  | .utf8 bytes => decide (bytes.length < 65536)
  | .class_ name => inPool table name
  | .string value =>
    inPool table value &&
    (match table[value - 1]? with
     | some (some (.utf8 _)) => true
     | _ => false)
  | .nameAndType name descriptor => inPool table name && inPool table descriptor
  | .fieldref c nt =>
    inPool table c && inPool table nt &&
    (match table[nt - 1]? with
     | some (some (.nameAndType _ _)) => true
     | _ => false)
  | .methodref c nt =>
    inPool table c && inPool table nt &&
    (match table[nt - 1]? with
     | some (some (.nameAndType _ _)) => true
     | _ => false)
  | .interfaceMethodref c nt =>
    inPool table c && inPool table nt &&
    (match table[nt - 1]? with
     | some (some (.nameAndType _ _)) => true
     | _ => false)

/-- The object the first loop of `parsePool` makes for an entry. -/
def firstObject : Constant → PoolObject
  | .integer bytes => .int (bigEndian bytes)
  | .float bytes => .float (bigEndian bytes)
  | .long bytes => .long (bigEndian bytes)
  | .double bytes => .long (bigEndian bytes)
  | .utf8 bytes => .byteArray (bytes ++ [0])
  | .class_ name => .intArray [CONSTANT_Class, name]
  | .string value => .intArray [CONSTANT_String, value]
  | .nameAndType name descriptor => .intArray [CONSTANT_NameAndType, name, descriptor]
  | .fieldref c nameAndType => .intArray [CONSTANT_Fieldref, c, nameAndType]
  | .methodref c nameAndType => .intArray [CONSTANT_Methodref, c, nameAndType]
  | .interfaceMethodref c nameAndType =>
    .intArray [CONSTANT_InterfaceMethodref, c, nameAndType]

/-- An entry that refers to no other: a numeric constant or an Utf8 string. -/
def Constant.plain : Constant → Bool
  | .integer _ => true
  | .float _ => true
  | .long _ => true
  | .double _ => true
  | .utf8 _ => true
  | _ => false

/-- The pool while the second loop of `parsePool` runs, before index `i`, for
the entries `table`: from `i` on the pool is what the first loop left; entries
that refer to no other and empty indices are what the first loop left; a
NameAndType entry before `i` has become a pair; and every int array found in
the pool is the one the first loop made for some entry. -/
structure ShapeInv (table : List (Option Constant)) (i : Nat) (pool : Pool) : Prop where
  length : pool.length = table.length
  rest : ∀ (j : Nat), i ≤ j → pool[j]? = (table.map (Option.map firstObject))[j]?
  plain : ∀ (j : Nat) (c : Constant), table[j]? = some (some c) → c.plain = true →
    pool[j]? = some (some (firstObject c))
  empty : ∀ (j : Nat), table[j]? = some none → pool[j]? = some none
  pairs : ∀ (j a b : Nat), j < i → table[j]? = some (some (.nameAndType a b)) →
    ∃ x y, pool[j]? = some (some (.pair x y))
  originals : ∀ (j : Nat) (body : List Nat), pool[j]? = some (some (.intArray body)) →
    ∃ c, some c ∈ table ∧ firstObject c = .intArray body

/-- The pool while the third loop of `parsePool` runs, before index `i`, for the
pool `pool2` the second loop left: from `i` on nothing has changed, and an
object that is not an int array is still where it was. -/
structure ReferenceInv (pool2 : Pool) (i : Nat) (pool : Pool) : Prop where
  length : pool.length = pool2.length
  rest : ∀ (j : Nat), i ≤ j → pool[j]? = pool2[j]?
  kept : ∀ (j : Nat) (o : Option PoolObject), pool2[j]? = some o →
    (∀ body, o ≠ some (.intArray body)) → pool[j]? = some o

/-! ## Class resolution

`resolveClass` and the functions it calls, with the state they read and write
made explicit.  `parseClass` calls `resolveClass` back for the superclass and
the interfaces of the class it links: the functions of `parseClass` take the
resolver as an argument, and `resolveClass` hands itself over with a smaller
bound on the depth of the recursion.  Everything runs with the class lock
held. -/

/-- A pending exception of a thread: the class-not-found exception made by
`makeClassNotFoundException` from a message, or any other one. -/
inductive Throwable where
  | classNotFound (message : Bytes)
  | other (id : Nat)
deriving DecidableEq, Repr

/-- The state `resolveClass` reads and writes: the class map and the bootstrap
class map of the machine, the pending exception of the thread, and the names
the class finder has been asked for, in order (the trace of the calls of
`classFinder->find`). -/
structure Loader where
  classMap : HashMap Bytes (Option Class)
  bootstrapClassMap : HashMap Bytes (Option Class)
  exception : Option Throwable
  asked : List (List Nat)

/-- What `resolveClass` uses and `machine.cpp` does not define: the word size,
the hash functions, the class finder (the bytes it returns are given as the
record the stream reader makes of them), the comparison of two references
(objects are held by value here), and the two entries of the type table
`makeArrayClass` reads, the object mask of `ArrayType` and the class
`JobjectType`. -/
structure Context where
  BytesPerWord : Nat
  BitsPerWord : Nat
  byteArrayHash : Bytes → Nat
  methodHash : Method → Nat
  find : List Nat → Option ClassFile
  same : Option Class → Option Class → Bool
  arrayMask : Option (List Nat)
  jobject : Class

/-- A resolver: from a state and a name to a new state and a class, or null. -/
abbrev Resolver := Loader → Bytes → Except Fault (Loader × Option Class)

/-- The superclass step of `parseClass`: resolve the superclass when the class
file names one and return null when an exception is pending after that;
otherwise store the superclass and inherit its VM flags. -/
def Loader.resolveSuper (resolve : Resolver) (st : Loader) (class_ : Class)
    (super : Option Bytes) : Except Fault (Loader × Option Class) :=
  match super with
  | none => .ok (st, some class_)
  | some superName =>
    match resolve st superName with
    | .error e => .error e
    | .ok (st1, sc) =>
      if st1.exception.isSome then .ok (st1, none)
      else
        match sc with
        | none => .error .nullPointer
        | some sc =>
          .ok (st1, some { class_ with super := some sc, vmFlags := class_.vmFlags ||| sc.vmFlags })

/-- The loop of `parseInterfaceTable` over the interface names of the class
file: resolve the name, insert the result under the name unless present, add
the interfaces of the result.  Neither the result nor the pending exception is
tested before `addInterfaces` dereferences the result. -/
def Loader.declaredInterfacesLoop (byteArrayHash : Bytes → Nat) (resolve : Resolver) :
    Loader → HashMap Bytes (Option Class) → List Bytes →
    Except Fault (Loader × HashMap Bytes (Option Class))
  | st, map, [] => .ok (st, map)
  | st, map, name :: rest =>
    match resolve st name with
    | .error e => .error e
    | .ok (st1, interface) =>
      let map1 := (hashMapInsertMaybe byteArrayHash byteArrayEqual map name interface).1
      match interface with
      | none => .error .nullPointer
      | some i =>
        match addInterfaces byteArrayHash i map1 with
        | .error e => .error e
        | .ok map2 => Loader.declaredInterfacesLoop byteArrayHash resolve st1 map2 rest

/-- The loop of `parseInterfaceTable` that fills the table from the nodes the
iterator visits: the class resolved from the node's key (the function returns
at once, without a table, when an exception is pending after that), followed,
in a concrete class, by a fresh array as long as the interface's virtual
table. -/
def Loader.fillInterfaceTable (resolve : Resolver) (concrete : Bool) :
    Loader → List (Option (TableEntry Class)) → Nat → List (Bytes × Option Class) →
    Except Fault (Loader × Option (List (Option (TableEntry Class))))
  | st, table, _, [] => .ok (st, some table)
  | st, table, i, node :: rest =>
    match resolve st node.1 with
    | .error e => .error e
    | .ok (st1, interface) =>
      if st1.exception.isSome then .ok (st1, none)
      else
        match arrayStore table i (interface.map TableEntry.interface) with
        | .error e => .error e
        | .ok table1 =>
          if concrete then
            match interface with
            | none => .error .nullPointer
            | some c =>
              match c.virtualTable with
              | none => .error .nullPointer
              | some ivtable =>
                match arrayStore table1 (i + 1)
                    (some (.vtable (List.replicate ivtable.length none))) with
                | .error e => .error e
                | .ok table2 => Loader.fillInterfaceTable resolve concrete st1 table2 (i + 2) rest
          else Loader.fillInterfaceTable resolve concrete st1 table1 (i + 1) rest

/-- The function `parseInterfaceTable`, the resolver being a function of the
state.  When the filling loop returns on a pending exception the interface
table of the class is not stored. -/
def Loader.parseInterfaceTable (byteArrayHash : Bytes → Nat) (resolve : Resolver)
    (st : Loader) (class_ : Class) (names : List Bytes) : Except Fault (Loader × Class) :=
  match (match class_.super with
         | some s => addInterfaces byteArrayHash s (makeHashMap Bytes (Option Class))
         | none => .ok (makeHashMap Bytes (Option Class))) with
  | .error e => .error e
  | .ok map0 =>
    match Loader.declaredInterfacesLoop byteArrayHash resolve st map0 names with
    | .error e => .error e
    | .ok (st1, map) =>
      if map.size ≠ 0 then
        let concrete : Bool := class_.flags &&& ACC_INTERFACE = 0
        let length := if concrete then map.size * 2 else map.size
        match Loader.fillInterfaceTable resolve concrete st1 (List.replicate length none) 0
            (hashMapNodes map) with
        | .error e => .error e
        | .ok (st2, none) => .ok (st2, class_)
        | .ok (st2, some table) => .ok (st2, { class_ with interfaceTable := some table })
      else .ok (st1, { class_ with interfaceTable := none })

/-- The function `parseClass` from the access flags on, the resolver being a
function of the state: null is returned when an exception is pending after the
superclass step or after `parseInterfaceTable` (the two later tests of the
pending exception follow steps that do not touch it). -/
def Loader.parseClass (ctx : Context) (resolve : Resolver) (st : Loader) (file : ClassFile) :
    Except Fault (Loader × Option Class) :=
  match Loader.resolveSuper resolve st (freshClass file.flags file.name none) file.super with
  | .error e => .error e
  | .ok (st1, none) => .ok (st1, none)
  | .ok (st1, some class1) =>
    match Loader.parseInterfaceTable ctx.byteArrayHash resolve st1 class1 file.interfaces with
    | .error e => .error e
    | .ok (st2, class2) =>
      if st2.exception.isSome then .ok (st2, none)
      else
        match parseFieldTable ctx.BytesPerWord ctx.BitsPerWord class2 file.fields with
        | .error e => .error e
        | .ok class3 =>
          match parseMethodTable ctx.methodHash class3 file.methods with
          | .error e => .error e
          | .ok class4 => .ok (st2, some class4)

/-- A method object of the class `class_` as seen after `updateBootstrapClass`
has stored the bootstrap class in the methods of its method table: the methods
of the class are the objects of that table, wherever they are reached from. -/
def rebindMethod (class_ bootstrapClass : Bytes) (m : Method) : Method :=
  if m.class_ = class_ then { m with class_ := bootstrapClass } else m

/-- Modelled from the spec: `intArrayEqual` is declared in `machine.h`; two
int arrays are equal when they are the same array or have the same length and
the same body, and reading the length of a null array is a fault. -/
def intArrayEqual (a b : Option (List Nat)) : Except Fault Bool :=
  match a, b with
  | some x, some y => .ok (decide (x = y))
  | _, _ => .error .nullPointer

/-- The function `updateBootstrapClass`: the bootstrap class after the call.
The parsed class is a fresh object, never the bootstrap class; the two classes
must have the same superclass (compared as references), the same fixed size
and equal object masks, or the call aborts.  The bootstrap class takes the
flags, the superclass, the tables and the initializer of the parsed class, and
the fields and methods of the parsed class take the bootstrap class as their
class. -/
def updateBootstrapClass (same : Option Class → Option Class → Bool)
    (bootstrapClass class_ : Class) : Except Fault Class :=
  if same (some bootstrapClass) (some class_) then .error .abort
  else if ¬ same bootstrapClass.super class_.super then .error .abort
  else if bootstrapClass.fixedSize ≠ class_.fixedSize then .error .abort
  else
    match (if bootstrapClass.objectMask = none ∧ class_.objectMask = none then .ok true
           else intArrayEqual bootstrapClass.objectMask class_.objectMask) with
    | .error e => .error e
    | .ok false => .error .abort
    | .ok true =>
    let rebind := rebindMethod class_.name bootstrapClass.name
    .ok { bootstrapClass with
          flags := class_.flags
          super := class_.super
          interfaceTable := class_.interfaceTable.map (fun table => table.map (fun e =>
            match e with
            | some (.vtable methods) => some (.vtable (methods.map (Option.map rebind)))
            | other => other))
          virtualTable := class_.virtualTable.map (fun table => table.map (Option.map rebind))
          fieldTable := class_.fieldTable.map (fun table =>
            table.map (fun f => { f with class_ := bootstrapClass.name }))
          methodTable := class_.methodTable.map (fun table =>
            table.map (fun m => { m with class_ := bootstrapClass.name }))
          staticTable := class_.staticTable
          initializer := class_.initializer.map rebind }

/-- The function `makeArrayClass(t, dimensions, spec, elementClass)`: a class
of two words with the object mask of `ArrayType`, the superclass and the
virtual table of `JobjectType`, and the element class in the place of the
interface table (held here as a table of that one class). -/
def makeArrayClass (ctx : Context) (dimensions : Nat) (spec : Bytes)
    (elementClass : Option Class) : Class :=
  ⟨0, 0, dimensions, 2 * ctx.BytesPerWord, ctx.BytesPerWord, ctx.arrayMask, spec,
    some ctx.jobject, elementClass.map (fun c => [some (.interface c)]),
    ctx.jobject.virtualTable, none, none, none, none⟩

/-- The first part of `makeArrayClass(t, spec)`: the name of the element class
and the dimensions.  After the leading `[`, an `L` is followed by the name, up
to `;` or the terminator; any other byte gives, for more than one dimension,
the name made of `[` and that byte, with one dimension less, and aborts for a
single dimension.  Reading past the end of the byte array is a fault. -/
def arrayElementSpec (spec : Bytes) : Except Fault (Bytes × Nat) :=
  let s := skipBrackets spec
  let dimensions := spec.length - s.length
  match s with
  | [] => .error .outOfBounds
  | c :: rest =>
    if c = 76 then
      if (skipToSemicolon rest).length = 0 then .error .outOfBounds
      else .ok (rest.take (rest.length - (skipToSemicolon rest).length) ++ [0], dimensions)
    else if dimensions > 1 then .ok ([91, c, 0], dimensions - 1)
    else .error .abort

/-- The function `makeArrayClass(t, spec)`: the element class is looked up in
the bootstrap class map, then resolved; null is returned when an exception is
pending after the resolution. -/
def Loader.makeArrayClass (ctx : Context) (resolve : Resolver) (st : Loader) (spec : Bytes) :
    Except Fault (Loader × Option Class) :=
  match arrayElementSpec spec with
  | .error e => .error e
  | .ok (elementSpec, dimensions) =>
    match hashMapFind ctx.byteArrayHash byteArrayEqual st.bootstrapClassMap elementSpec with
    | some elementClass =>
      .ok (st, some (vm.makeArrayClass ctx dimensions spec (some elementClass)))
    | none =>
      match resolve st elementSpec with
      | .error e => .error e
      | .ok (st1, elementClass) =>
        if st1.exception.isSome then .ok (st1, none)
        else .ok (st1, some (vm.makeArrayClass ctx dimensions spec elementClass))

/-- The part of `resolveClass` that makes the class for a name the class map
does not hold, `c` being the first byte of the name.  An array name is looked
up in the bootstrap class map, then made by `makeArrayClass`.  For any other
name the class finder is asked; when it returns bytes they are parsed, and when
the bootstrap class map holds a class under the name that class is updated from
the parsed one (null included, which is dereferenced) and taken instead. -/
def Loader.loadClass (ctx : Context) (resolve : Resolver) (st : Loader) (spec : Bytes)
    (c : Nat) : Except Fault (Loader × Option Class) :=
  if c = 91 then
    match hashMapFind ctx.byteArrayHash byteArrayEqual st.bootstrapClassMap spec with
    | some class_ => .ok (st, some class_)
    | none => Loader.makeArrayClass ctx resolve st spec
  else
    let st0 : Loader := { st with asked := st.asked ++ [cString spec] }
    match ctx.find (cString spec) with
    | none => .ok (st0, none)
    | some file =>
      match Loader.parseClass ctx resolve st0 file with
      | .error e => .error e
      | .ok (st1, class_) =>
        match hashMapFind ctx.byteArrayHash byteArrayEqual st1.bootstrapClassMap spec with
        | none => .ok (st1, class_)
        | some bootstrapClass =>
          match class_ with
          | none => .error .nullPointer
          | some parsed =>
            match updateBootstrapClass ctx.same bootstrapClass parsed with
            | .error e => .error e
            | .ok updated =>
              .ok ({ st1 with
                     bootstrapClassMap := hashMapSetSecond ctx.byteArrayHash byteArrayEqual
                       st1.bootstrapClassMap spec (some updated) },
                   some updated)

/-- The message of the exception `resolveClass` makes: the name formatted with
`%s` into a buffer of 256 bytes by `vsnprintf(buffer, Size - 1, ...)`, that is
the bytes of the name before its terminator, 254 at most. -/
def notFoundMessage (spec : Bytes) : Bytes := (cString spec).take 254

/-- The end of `resolveClass` for a name the class map did not hold: a class is
inserted in the class map under the name; without a class, a class-not-found
exception becomes pending unless an exception is pending already. -/
def Loader.record (ctx : Context) (st : Loader) (spec : Bytes) (class_ : Option Class) :
    Loader × Option Class :=
  match class_ with
  | some c =>
    ({ st with classMap := hashMapInsert ctx.byteArrayHash st.classMap spec (some c) }, some c)
  | none =>
    if st.exception.isSome then (st, none)
    else ({ st with exception := some (.classNotFound (notFoundMessage spec)) }, none)

/-- The function `resolveClass`.  The first argument bounds the depth of the
recursion through `parseClass` and `makeArrayClass` (the stack); running out
of it is a fault. -/
def resolveClass (ctx : Context) : Nat → Loader → Bytes → Except Fault (Loader × Option Class)
  | 0, _, _ => .error .outOfBounds
  | depth + 1, st, spec =>
    match hashMapFind ctx.byteArrayHash byteArrayEqual st.classMap spec with
    | some class_ => .ok (st, some class_)
    | none =>
      match spec with
      | [] => .error .outOfBounds
      | c :: _ =>
        match Loader.loadClass ctx (resolveClass ctx depth) st spec c with
        | .error e => .error e
        | .ok (st1, class_) => .ok (Loader.record ctx st1 spec class_)

/-- A sequence of calls of `resolveClass`, each with its bound on the depth and
its name, whatever they return. -/
def resolveAll (ctx : Context) : Loader → List (Nat × Bytes) → Except Fault Loader
  | st, [] => .ok st
  | st, call :: rest =>
    match resolveClass ctx call.1 st call.2 with
    | .error e => .error e
    | .ok (st1, _) => resolveAll ctx st1 rest

/-- A resolver keeps a property of the state when every call that returns
leaves the property true. -/
def Keeps (P : Loader → Prop) (resolve : Resolver) : Prop :=
  ∀ st key st1 r, P st → resolve st key = .ok (st1, r) → P st1

/-- The class map holds the class `c` under the name: the map is well formed,
it has a node with the name and the class, and no node with the name holds
anything else. -/
def Loader.caches (ctx : Context) (name : Bytes) (c : Class) (st : Loader) : Prop :=
  st.classMap.WF ctx.byteArrayHash ∧ (name, some c) ∈ st.classMap.nodes ∧
    ∀ x ∈ st.classMap.nodes, x.1 = name → x.2 = some c

/-! ## Names of object array classes -/

/-- Modelled from the spec: `makeByteArray(t, length, false)` is declared in
`machine.h`; it returns an array of `length` bytes that it does not clear.  A
byte that has not been written since the array was made is null here. -/
def makeByteArray (length : Nat) : List (Option Nat) := List.replicate length none

/-- The call `memcpy(&byteArrayBody(t, dst, start), &byteArrayBody(t, src, 0), n)`;
reading or writing outside an array is a fault. -/
def copyBytes (dst : List (Option Nat)) (start : Nat) (src : Bytes) (n : Nat) :
    Except Fault (List (Option Nat)) :=
  if n ≤ src.length ∧ start + n ≤ dst.length then
    .ok (dst.take start ++ (src.take n).map some ++ dst.drop (start + n))
  else .error .outOfBounds

/-- The part of `resolveObjectArrayClass` before the call of `resolveClass`: the
byte array `spec` it builds, and the element name as the function leaves it.
When the element name starts with `[` the statement
`byteArrayBody(t, elementSpec, 0) = '['` stores into the element name. -/
def objectArraySpec (elementSpec : Bytes) : Except Fault (List (Option Nat) × Bytes) :=
  match elementSpec with
  | [] => .error .outOfBounds
  | first :: _ =>
    if first = 91 then
      let spec := makeByteArray (elementSpec.length + 1)
      let elementSpec1 := elementSpec.set 0 91
      match copyBytes spec 1 elementSpec1 elementSpec1.length with
      | .error e => .error e
      | .ok spec1 => .ok (spec1, elementSpec1)
    else
      let spec := makeByteArray (elementSpec.length + 3)
      match arrayStore spec 0 (some 91) with
      | .error e => .error e
      | .ok spec1 =>
        match arrayStore spec1 1 (some 76) with
        | .error e => .error e
        | .ok spec2 =>
          match copyBytes spec2 2 elementSpec (elementSpec.length - 1) with
          | .error e => .error e
          | .ok spec3 =>
            match arrayStore spec3 (elementSpec.length + 1) (some 59) with
            | .error e => .error e
            | .ok spec4 =>
              match arrayStore spec4 (elementSpec.length + 2) (some 0) with
              | .error e => .error e
              | .ok spec5 => .ok (spec5, elementSpec)

/-- The function `resolveObjectArrayClass`.  A byte of the name that was never
written is read by `resolveClass` as whatever the memory held, given here by
`stale`. -/
def resolveObjectArrayClass (ctx : Context) (depth : Nat) (stale : Nat) (st : Loader)
    (elementSpec : Bytes) : Except Fault (Loader × Option Class) :=
  match objectArraySpec elementSpec with
  | .error e => .error e
  | .ok (spec, _) => resolveClass ctx depth st (spec.map (fun b => b.getD stale))

/-! ## The thread tree

The threads of a machine linked by `parent`, `child` and `peer`, as `dispose`
rewrites them.  A thread is named by its address, an index in the list of the
threads. -/

/-- The links of a thread: `parent`, `child` (the first child) and `peer` (the
next sibling); null is `none`. -/
structure ThreadLinks where
  parent : Option Nat
  child : Option Nat
  peer : Option Nat
deriving DecidableEq, Repr

/-- The threads of a machine and `m->rootThread`. -/
structure ThreadTree where
  rootThread : Option Nat
  threads : List ThreadLinks
deriving DecidableEq, Repr

/-- The loop `for (Thread* p = t->peer; p; p = p->peer) if (p == o) return true`
of `find`, from `p`.  The first argument bounds the number of iterations. -/
def findPeer (threads : List ThreadLinks) : Nat → Option Nat → Nat → Except Fault Bool
  | 0, _, _ => .error .outOfBounds
  | _, none, _ => .ok false
  | fuel + 1, some p, o =>
    if p = o then .ok true
    else
      match threads[p]? with
      | none => .error .nullPointer
      | some links => findPeer threads fuel links.peer o

/-- The function `find`: `t` itself, the peers of `t`, then the same from the
first child of `t`.  The first argument bounds the depth of the recursion. -/
def find (threads : List ThreadLinks) : Nat → Nat → Nat → Except Fault Bool
  | 0, _, _ => .error .outOfBounds
  | fuel + 1, t, o =>
    if t = o then .ok true
    else
      match threads[t]? with
      | none => .error .nullPointer
      | some links =>
        match findPeer threads (threads.length + 1) links.peer o with
        | .error e => .error e
        | .ok true => .ok true
        | .ok false =>
          match links.child with
          | some child => find threads fuel child o
          | none => .ok false

/-- A store `p->child = value`. -/
def setChild (threads : List ThreadLinks) (p : Nat) (value : Option Nat) :
    Except Fault (List ThreadLinks) :=
  match threads[p]? with
  | none => .error .nullPointer
  | some links => .ok (threads.set p { links with child := value })

/-- A store `p->peer = value`. -/
def setPeer (threads : List ThreadLinks) (p : Nat) (value : Option Nat) :
    Except Fault (List ThreadLinks) :=
  match threads[p]? with
  | none => .error .nullPointer
  | some links => .ok (threads.set p { links with peer := value })

/-- The two statements `o->peer->peer = o->child->peer; o->child->peer = o->peer;`
of `dispose`, for a thread with the given child and peer. -/
def spliceChild (threads : List ThreadLinks) (child peer : Nat) :
    Except Fault (List ThreadLinks) :=
  match threads[child]? with
  | none => .error .nullPointer
  | some childLinks =>
    match setPeer threads peer childLinks.peer with
    | .error e => .error e
    | .ok threads1 => setPeer threads1 child (some peer)

/-- The part of `dispose(t, o, true)` that rewrites the links, before the
assertion. -/
def unlink (m : ThreadTree) (o : Nat) : Except Fault ThreadTree :=
  match m.threads[o]? with
  | none => .error .nullPointer
  | some links =>
    match links.parent, links.child, links.peer with
    | some parent, some child, some peer =>
      match setChild m.threads parent (some child) with
      | .error e => .error e
      | .ok threads1 =>
        match spliceChild threads1 child peer with
        | .error e => .error e
        | .ok threads2 => .ok { m with threads := threads2 }
    | some parent, some child, none =>
      match setChild m.threads parent (some child) with
      | .error e => .error e
      | .ok threads1 => .ok { m with threads := threads1 }
    | some parent, none, some peer =>
      match setChild m.threads parent (some peer) with
      | .error e => .error e
      | .ok threads1 => .ok { m with threads := threads1 }
    | some parent, none, none =>
      match setChild m.threads parent none with
      | .error e => .error e
      | .ok threads1 => .ok { m with threads := threads1 }
    | none, some child, some peer =>
      match spliceChild m.threads child peer with
      | .error e => .error e
      | .ok threads1 => .ok ⟨some child, threads1⟩
    | none, some child, none => .ok { m with rootThread := some child }
    | none, none, some peer => .ok { m with rootThread := some peer }
    | none, none, none => .error .abort

/-- The function `dispose` with `remove` set, up to the call `o->dispose()` that
releases the memory of the thread: the links are rewritten, then
`assert(t, not find(t->vm->rootThread, o))`. -/
def dispose (m : ThreadTree) (o : Nat) : Except Fault ThreadTree :=
  match unlink m o with
  | .error e => .error e
  | .ok m1 =>
    match m1.rootThread with
    | none => .error .nullPointer
    | some root =>
      match find m1.threads (m1.threads.length + 1) root o with
      | .error e => .error e
      | .ok true => .error .abort
      | .ok false => .ok m1

/-- The threads reachable from a thread through child and peer links, the
thread first, then those reached through its child, then those reached through
its peer.  The first argument bounds the length of the paths followed. -/
def reachableThreads (threads : List ThreadLinks) : Nat → Option Nat → List Nat
  | 0, _ => []
  | _, none => []
  | fuel + 1, some t =>
    match threads[t]? with
    | none => []
    | some links =>
      t :: (reachableThreads threads fuel links.child
        ++ reachableThreads threads fuel links.peer)

/-- The byte range of the first field ends where the byte range of the second
one begins, or before, when both are instance fields. -/
def Field.before (W : Nat) (f g : Field) : Prop :=
  f.flags &&& ACC_STATIC = 0 → g.flags &&& ACC_STATIC = 0 →
    ∃ size, fieldSize W f.code = .ok size ∧ f.offset + size ≤ g.offset

/-- The byte range of an instance field lies between two offsets. -/
def Field.within (W : Nat) (lo hi : Nat) (f : Field) : Prop :=
  f.flags &&& ACC_STATIC = 0 →
    ∃ size, fieldSize W f.code = .ok size ∧ lo ≤ f.offset ∧ f.offset + size ≤ hi

/-- The bytes of the Utf8 entry a pool index names (indices count from one), if
it names one. -/
def utf8At (table : List (Option Constant)) (n : Nat) : Option (List Nat) :=
  if n = 0 then none
  else
    match table[n - 1]? with
    | some (some (.utf8 bytes)) => some bytes
    | _ => none

/-- The entry a pool index names (indices count from one), if it names one. -/
def entryAt (table : List (Option Constant)) (n : Nat) : Option Constant :=
  if n = 0 then none
  else
    match table[n - 1]? with
    | some (some c) => some c
    | _ => none

/-- An entry names entries of the expected kind: a numeric constant has the
bytes of its width and an Utf8 string a length that fits two bytes; a Class or
String entry names an Utf8 entry, a NameAndType entry two Utf8 entries, and a
Fieldref, Methodref or InterfaceMethodref entry a Class entry and a NameAndType
entry. -/
def Constant.typed (table : List (Option Constant)) : Constant → Bool
  | .class_ name => (utf8At table name).isSome
  | .string value => (utf8At table value).isSome
  | .nameAndType name descriptor =>
    (utf8At table name).isSome && (utf8At table descriptor).isSome
  | .fieldref c nt =>
    (match entryAt table c, entryAt table nt with
     | some (.class_ _), some (.nameAndType _ _) => true
     | _, _ => false)
  | .methodref c nt =>
    (match entryAt table c, entryAt table nt with
     | some (.class_ _), some (.nameAndType _ _) => true
     | _, _ => false)
  | .interfaceMethodref c nt =>
    (match entryAt table c, entryAt table nt with
     | some (.class_ _), some (.nameAndType _ _) => true
     | _, _ => false)
  | c => c.wellFormed table

/-- A Fieldref, Methodref or InterfaceMethodref entry. -/
def Constant.isReference : Constant → Bool
  | .fieldref _ _ => true
  | .methodref _ _ => true
  | .interfaceMethodref _ _ => true
  | _ => false

/-- The byte array the first loop of `parsePool` made for the Utf8 entry an
index names. -/
def byteArrayAt (table : List (Option Constant)) (n : Nat) : Option PoolObject :=
  (utf8At table n).map (fun bytes => .byteArray (bytes ++ [0]))

/-- What the pool holds for an entry when the second loop of `parsePool` has
passed its index. -/
def afterSecondLoop (table : List (Option Constant)) : Constant → Option PoolObject
  | .class_ name => byteArrayAt table name
  | .string value =>
    (utf8At table value).map (fun bytes => .string (bytes ++ [0]) 0 bytes.length 0)
  | .nameAndType name descriptor =>
    some (.pair (byteArrayAt table name) (byteArrayAt table descriptor))
  | c => some (firstObject c)

/-- The reference the third loop makes from a class index and a name-and-type
index. -/
def referenceAt (table : List (Option Constant)) (c nt : Nat) : Option PoolObject :=
  match entryAt table c, entryAt table nt with
  | some (.class_ a), some (.nameAndType name descriptor) =>
    some (.reference (byteArrayAt table a) (byteArrayAt table name)
      (byteArrayAt table descriptor))
  | _, _ => none

/-- What the pool holds for an entry when the third loop of `parsePool` has
passed its index. -/
def afterThirdLoop (table : List (Option Constant)) : Constant → Option PoolObject
  | .fieldref c nt => referenceAt table c nt
  | .methodref c nt => referenceAt table c nt
  | .interfaceMethodref c nt => referenceAt table c nt
  | c => afterSecondLoop table c

/-- The pool while the second loop of `parsePool` runs, before index `i`: from
`i` on the pool is what the first loop left, before `i` every entry has the
value the loop gives it, and entries that refer to no other never change. -/
structure SecondLoopInv (table : List (Option Constant)) (i : Nat) (pool : Pool) : Prop where
  length : pool.length = table.length
  rest : ∀ (j : Nat), i ≤ j → pool[j]? = (table.map (Option.map firstObject))[j]?
  done : ∀ (j : Nat) (c : Constant), j < i → table[j]? = some (some c) →
    pool[j]? = some (afterSecondLoop table c)
  plain : ∀ (j : Nat) (c : Constant), table[j]? = some (some c) → c.plain = true →
    pool[j]? = some (some (firstObject c))
  empty : ∀ (j : Nat), table[j]? = some none → pool[j]? = some none

/-- The pool while the third loop of `parsePool` runs, before index `i`: from
`i` on the pool is what the second loop left, before `i` every entry has its
final value, and entries other than Fieldref, Methodref and InterfaceMethodref
never change. -/
structure ThirdLoopInv (table : List (Option Constant)) (i : Nat) (pool : Pool) : Prop where
  length : pool.length = table.length
  rest : ∀ (j : Nat) (c : Constant), i ≤ j → table[j]? = some (some c) →
    pool[j]? = some (afterSecondLoop table c)
  done : ∀ (j : Nat) (c : Constant), j < i → table[j]? = some (some c) →
    pool[j]? = some (afterThirdLoop table c)
  kept : ∀ (j : Nat) (c : Constant), table[j]? = some (some c) → c.isReference = false →
    pool[j]? = some (afterSecondLoop table c)
  empty : ∀ (j : Nat), table[j]? = some none → pool[j]? = some none

/-! ## Invariants of class resolution

What is needed to show that a resolution that returns never inserts a name
twice in the class map: a resolution in progress for a name cannot be entered
again for that name, since the second one would enter a third one, and so on
without end. -/

/-- A computation stopped with a fault. -/
def Fails {α : Type} (x : Except Fault α) : Prop := ∃ e, x = .error e

/-- What `hashMapFind` returns for a name in the class map. -/
def Loader.finds (ctx : Context) (st : Loader) (name : Bytes) : Option Class :=
  hashMapFind ctx.byteArrayHash byteArrayEqual st.classMap name

/-- Whether the bootstrap class map holds a class under a name. -/
def Loader.boots (ctx : Context) (st : Loader) (name : Bytes) : Bool :=
  (hashMapFind ctx.byteArrayHash byteArrayEqual st.bootstrapClassMap name).isSome

/-- The class map as `resolveClass` builds it: well formed, no name in two
nodes, no null value. -/
def Loader.sound (ctx : Context) (st : Loader) : Prop :=
  st.classMap.WF ctx.byteArrayHash ∧ (st.classMap.nodes.map Prod.fst).Nodup ∧
    ∀ n ∈ st.classMap.nodes, n.2 ≠ none

/-- The second state extends the first: every class found in the first is
found in the second, the bootstrap class map has entries under the same
names. -/
def Ext (ctx : Context) (st w : Loader) : Prop :=
  (∀ k v, st.finds ctx k = some v → w.finds ctx k = some v) ∧
  ∀ k, w.boots ctx k = st.boots ctx k

/-- An exception is pending in both states or in neither. -/
def Same (st w : Loader) : Prop := w.exception.isSome = st.exception.isSome

/-- Two states that `resolveClass` and the functions it calls cannot tell
apart as long as they only find classes: the same classes found, entries of the
bootstrap class map under the same names, an exception pending in both or in
neither. -/
def Eqv (ctx : Context) (w w1 : Loader) : Prop :=
  (∀ k, w1.finds ctx k = w.finds ctx k) ∧ (∀ k, w1.boots ctx k = w.boots ctx k) ∧
    w1.exception.isSome = w.exception.isSome

/-- A resolver that, for a name the class map holds, returns the class found
and leaves the state as it is, unless it stops with a fault. -/
def HitLike (ctx : Context) (resolve : Resolver) : Prop :=
  ∀ w k v, w.finds ctx k = some v → resolve w k = .ok (w, some v) ∨ Fails (resolve w k)

/-- In every state that extends `st`, a computation `G` that stops with a fault
for a resolver (in that state and all the states it cannot tell apart from it)
makes `Bad` true of the resolver. -/
def Leads {α : Type} (ctx : Context) (Bad : Resolver → Loader → Prop) (st : Loader)
    (G : Resolver → Loader → Except Fault α) : Prop :=
  ∀ w, Ext ctx st w → Same st w → ∀ R2, HitLike ctx R2 →
    (∀ w1, Eqv ctx w w1 → Fails (G R2 w1)) → Bad R2 w

/-- Loading the class `N` in a state that extends `st` resolves `B`: when the
resolver stops with a fault for `B`, so does the loading of `N`. -/
def Reaches (ctx : Context) (st : Loader) (N B : Bytes) : Prop :=
  ∃ a rest, N = a :: rest ∧
    Leads ctx (fun R2 w => Fails (Loader.loadClass ctx R2 w N a)) st (fun R2 w => R2 w B)

/-- The names `S` are being loaded when `X` is resolved: none is in the class
map, and loading each resolves another one of them, or `X`. -/
def Pending (ctx : Context) (st : Loader) (S : List Bytes) (X : Bytes) : Prop :=
  ∀ N ∈ S, st.finds ctx N = none ∧ ∃ B, (B ∈ S ∨ B = X) ∧ Reaches ctx st N B

/-- What a call of the resolver that returns guarantees, for a call that the
computation in progress needs, made in a state that extends the state `st0` in
which the computation began, with no exception become pending since: the
invariant is kept, the state extended; a class returned is then found under
the name and no exception has become pending; when null is returned an
exception is pending. -/
def ChildOK (ctx : Context) (Bad : Resolver → Loader → Prop) (Inv : Loader → Prop)
    (st0 : Loader) (R : Resolver) : Prop :=
  ∀ u key u1 r, Inv u → Ext ctx st0 u → Same st0 u →
    Leads ctx Bad u (fun R2 w => R2 w key) → R u key = .ok (u1, r) →
    Inv u1 ∧ Ext ctx u u1 ∧
    (∀ c, r = some c → u1.finds ctx key = some c ∧ Same u u1) ∧
    (r = none → u1.exception.isSome = true)

/-! ## Sample inputs -/

/-- A linked root class on a 32-bit build: one header word, no field, no
bitmap; named `O`. -/
def sampleRoot : Class :=
  ⟨0, 0, 0, 4, 0, none, [79, 0], none, none, none, none, none, none, none⟩

/-- Field declaration `byte b`. -/
def declByteB : FieldDecl := ⟨0, [98, 0], [66, 0]⟩

/-- Field declaration `int i`. -/
def declIntI : FieldDecl := ⟨0, [105, 0], [73, 0]⟩

/-- Field declaration `static int s`. -/
def declStaticInt : FieldDecl := ⟨ACC_STATIC, [115, 0], [73, 0]⟩

/-- Field declaration `static O r` (descriptor `LO;`). -/
def declStaticRef : FieldDecl := ⟨ACC_STATIC, [114, 0], [76, 79, 59, 0]⟩

/-- Field declaration `O f` (descriptor `LO;`). -/
def declRefF : FieldDecl := ⟨0, [102, 0], [76, 79, 59, 0]⟩

/-- A method hash that agrees on methods with the same name and descriptor:
the first byte of the name plus the length of the descriptor. -/
def sampleHash (m : Method) : Nat := m.name.headD 0 + m.spec.length

/-- A byte array hash: the first byte. -/
def sampleNameHash (b : Bytes) : Nat := b.headD 0

/-- The method `t()V` of class `O`, slot 0. -/
def sampleT : Method := ⟨1, 0, 1, 1, [116, 0], [40, 41, 86, 0], [79, 0], none⟩

/-- The method `h()I` of class `O`, slot 1. -/
def sampleH : Method := ⟨1, 1, 1, 1, [104, 0], [40, 41, 73, 0], [79, 0], none⟩

/-- A linked root class `O` on a 32-bit build with the virtual table
`[t()V, h()I]`, no interface table and no field. -/
def sampleObject : Class :=
  ⟨0, 0, 0, 4, 0, none, [79, 0], none, none, some [some sampleT, some sampleH], none,
    some [sampleT, sampleH], none, none⟩

/-- Method declaration `public int h()` without code. -/
def declH : MethodDecl := ⟨1, [104, 0], [40, 41, 73, 0], none⟩

/-- Method declaration `public void x()` without code. -/
def declX : MethodDecl := ⟨1, [120, 0], [40, 41, 86, 0], none⟩

/-- Method declaration `public native int h()`. -/
def declNativeH : MethodDecl := ⟨1 ||| ACC_NATIVE, [104, 0], [40, 41, 73, 0], none⟩

/-- Method declaration `public static void s()` without code. -/
def declStaticS : MethodDecl := ⟨1 ||| ACC_STATIC, [115, 0], [40, 41, 86, 0], none⟩

/-- Method declaration `public abstract void m()` of an interface. -/
def declM : MethodDecl := ⟨0x401, [109, 0], [40, 41, 86, 0], none⟩

/-- Method declaration `public void m()` without code. -/
def declPublicM : MethodDecl := ⟨1, [109, 0], [40, 41, 86, 0], none⟩

/-- The fault with which a computation stopped, if it did. -/
def faultOf {α : Type} : Except Fault α → Option Fault
  | .error e => some e
  | .ok _ => none

/-- The class file of the interface `M extends O` declaring nothing. -/
def markerFile : ClassFile := ⟨ACC_INTERFACE, [77, 0], some [79, 0], [], [], []⟩

/-- The class `parseClass` returns for `markerFile`: having no method it takes
the interface table and the (null) virtual table of the interface branch. -/
def sampleMarker : Class :=
  ⟨ACC_INTERFACE, 0, 0, 4, 0, none, [77, 0], some sampleObject, none, none, none, none, none,
    none⟩

/-- The class file of the interface `I extends O` declaring `void m()`. -/
def interfaceFile : ClassFile := ⟨ACC_INTERFACE, [73, 0], some [79, 0], [], [], [declM]⟩

/-- The method `m()V` of the interface `I`, slot 0. -/
def sampleM : Method := ⟨0x401, 0, 1, 1, [109, 0], [40, 41, 86, 0], [73, 0], none⟩

/-- The class `parseClass` returns for `interfaceFile`. -/
def sampleInterface : Class :=
  ⟨ACC_INTERFACE, 0, 0, 4, 0, none, [73, 0], some sampleObject, none, some [some sampleM],
    none, some [sampleM], none, none⟩

/-- A class environment holding `O`, `M` and `I`. -/
def sampleResolve (name : Bytes) : Option Class :=
  if name = [79, 0] then some sampleObject
  else if name = [77, 0] then some sampleMarker
  else if name = [73, 0] then some sampleInterface
  else none

/-- The class file of `C extends O implements I` declaring `void m()`. -/
def implementorFile : ClassFile :=
  ⟨0, [67, 0], some [79, 0], [[73, 0]], [], [declPublicM]⟩

/-- The method `m()V` of class `C`, slot 2. -/
def sampleCM : Method := ⟨1, 2, 1, 1, [109, 0], [40, 41, 86, 0], [67, 0], none⟩

/-- The class `parseClass` returns for `implementorFile`. -/
def sampleImplementor : Class :=
  ⟨0, 0, 0, 4, 0, none, [67, 0], some sampleObject,
    some [some (.interface sampleInterface), some (.vtable [some sampleCM])],
    some [some sampleT, some sampleH, some sampleCM], none, some [sampleCM], none, none⟩

/-- The field declarations `static int s;` 128 times, then `static Object r;`
(static slot 128). -/
def staticSlots : List FieldDecl := List.replicate 128 declStaticInt ++ [declStaticRef]

/-- A hash on numbers that spreads badly: keys are told apart by their low
three bits only. -/
def sampleKeyHash (k : Nat) : Nat := k % 8

/-- Forty pairs (i, 100 + i): enough to make the bucket array grow from 16 to 32
buckets. -/
def samplePairs : List (Nat × Nat) := (List.range 40).map (fun i => (i, 100 + i))


/-- The map made by inserting the pairs (0, 100) … (5, 105) into an empty map:
six entries in sixteen buckets. -/
def sampleMap : HashMap Nat Nat :=
  hashMapInsertAll sampleKeyHash (makeHashMap Nat Nat) (samplePairs.take 6)


/-- The map made by the calls `hashMapInsert(1, 10)`, `hashMapInsert(1, 20)`,
`hashMapInsert(2, 30)` on an empty map: the key 1 is stored twice. -/
def duplicateMap : HashMap Nat Nat :=
  hashMapInsertAll sampleKeyHash (makeHashMap Nat Nat) [(1, 10), (1, 20), (2, 30)]

/-- Two threads become active, thread 0 asks for the exclusive state and waits,
thread 1 goes idle, thread 0 is woken. -/
def sampleSteps : List Step :=
  [.call 0 .ActiveState, .call 1 .ActiveState, .call 0 .ExclusiveState,
   .call 1 .IdleState, .wake 0]

/-- The machine after `sampleSteps`: thread 0 exclusive, thread 1 idle. -/
def sampleMachine : Machine :=
  ⟨[⟨.ExclusiveState, .running⟩, ⟨.IdleState, .running⟩], some 0, 1, 2⟩

/-- A root thread 1 with two children: the zombie 3, which has the child 4,
and its peer 2. -/
def sampleThreads : Thread :=
  .mk ⟨1, .ExclusiveState, 2, [1, 70, 0, 5], [90]⟩
    (.mk ⟨3, .ZombieState, 1, [1, 71], [91]⟩
      (.mk ⟨4, .IdleState, 1, [1, 72], []⟩ .null .null)
      (.mk ⟨2, .IdleState, 0, [], [92, 93]⟩ .null .null))
    .null

/-- A heap that never changes and answers `Unreachable` for the objects of the
first list, `Tenured` for those of the second and `Reachable` for all
others. -/
def sampleStatus (unreachable tenured : List Nat) (_ : Unit) (o : Nat) : Status :=
  if o ∈ unreachable then .Unreachable else if o ∈ tenured then .Tenured else .Reachable

/-- The visitor of the heap that never changes. -/
def sampleVisit (h : Unit) (_ : Nat) : Unit := h

/-- The bytes of the class name `a/B$C`, with their terminator. -/
def sampleNestedName : Bytes := [97, 47, 66, 36, 67, 0]

/-- The bytes of `Java_a_B_00024C_d`, with their terminator. -/
def sampleSymbol : Bytes :=
  [74, 97, 118, 97, 95, 97, 95, 66, 95, 48, 48, 48, 50, 52, 67, 95, 100, 0]

/-- A declaration `native void d()`. -/
def declNativeD : MethodDecl := ⟨1 ||| ACC_NATIVE, [100, 0], [40, 41, 86, 0], none⟩

/-- A declaration `native void d(int)`. -/
def declNativeDI : MethodDecl := ⟨1 ||| ACC_NATIVE, [100, 0], [40, 73, 41, 86, 0], none⟩

/-- A declaration `native void d(long)`. -/
def declNativeDJ : MethodDecl := ⟨1 ||| ACC_NATIVE, [100, 0], [40, 74, 41, 86, 0], none⟩

/-- The linkage names stored in the method table of a class, in order (null for
a method without code, the raw bytecode left out). -/
def linkageNames (c : Class) : List (Option Bytes) :=
  (c.methodTable.getD []).map (fun m =>
    match m.code with
    | some (.jniName n) => some n
    | _ => none)

/-- The descriptor `(I[[JLa/B;D[La;)V`: an int, a two-dimensional array of long,
an object, a double and an array of objects. -/
def sampleParameters : List ParameterType :=
  [⟨0, .primitive 73⟩, ⟨2, .primitive 74⟩, ⟨0, .object [97, 47, 66]⟩, ⟨0, .primitive 68⟩,
   ⟨1, .object [97]⟩]

/-- A declaration `void p(int, long[][], a.B, double, a[])`, not static. -/
def declP : MethodDecl := ⟨1, [112, 0], descriptor sampleParameters [86], none⟩

/-- A pool with one entry of each tag: Integer 42, Utf8 `Hi`, a Long, a Double,
a Float, a Class and a String naming the Utf8 entry, a NameAndType, and a
Fieldref, a Methodref and an InterfaceMethodref naming the Class and the
NameAndType entries. -/
def samplePool : List Constant :=
  [.integer [0, 0, 0, 42], .utf8 [72, 105], .long [0, 0, 0, 0, 0, 0, 1, 0],
   .double [64, 9, 33, 251, 84, 68, 45, 24], .float [63, 128, 0, 0], .class_ 2, .string 2,
   .nameAndType 2 2, .fieldref 8 10, .methodref 8 10, .interfaceMethodref 8 10]

/-- A bootstrap class as the machine makes it before any class file is read: a
name and a fixed size of one word. -/
def sampleBootstrap (name : Bytes) : Class :=
  ⟨0, 0, 0, 4, 0, none, name, none, none, none, none, none, none, none⟩

/-- A class finder holding the class files of `O` (a root class declaring
`m()`), of `A extends O` declaring `x()`, of `C extends O implements I` and of
`D extends Z`; it holds neither `I` nor `Z`. -/
def sampleFinder (name : List Nat) : Option ClassFile :=
  if name = [79] then some ⟨0, [79, 0], none, [], [], [declPublicM]⟩
  else if name = [65] then some ⟨0, [65, 0], some [79, 0], [], [], [declX]⟩
  else if name = [67] then some implementorFile
  else if name = [68] then some ⟨0, [68, 0], some [90, 0], [], [], [declX]⟩
  else none

/-- A 32-bit build with the sample finder.  Two references are taken for the
same object when both are null or both name the same class in the same state
of linking. -/
def sampleContext : Context :=
  ⟨4, 32, sampleNameHash, sampleHash, sampleFinder,
    fun a b => decide (a.map (fun c => (c.name, c.methodTable.isSome))
      = b.map (fun c => (c.name, c.methodTable.isSome))),
    none, sampleObject⟩

/-- The state of a machine that has resolved no class, with `D` and `O` in its
bootstrap class map. -/
def sampleLoader : Loader :=
  ⟨makeHashMap Bytes (Option Class),
    hashMapInsert sampleNameHash
      (hashMapInsert sampleNameHash (makeHashMap Bytes (Option Class)) [68, 0]
        (some (sampleBootstrap [68, 0])))
      [79, 0] (some (sampleBootstrap [79, 0])),
    none, []⟩

/-- The state after the sample machine has resolved `O`, two levels of
recursion allowed. -/
def sampleResolved : Loader :=
  match resolveClass sampleContext 2 sampleLoader [79, 0] with
  | .ok r => r.1
  | .error _ => sampleLoader

/-- The class that resolution returns. -/
def sampleResolvedClass : Class :=
  match resolveClass sampleContext 2 sampleLoader [79, 0] with
  | .ok (_, some c) => c
  | _ => sampleObject

/-- The map made by the calls `hashMapInsert(0, 10)`, `hashMapInsert(16, 20)`,
`hashMapInsert(1, 30)` on an empty map: the keys 0 and 16 share bucket 0, the
key 1 sits in bucket 1. -/
def crowdedMap : HashMap Nat Nat :=
  hashMapInsertAll sampleKeyHash (makeHashMap Nat Nat) [(0, 10), (16, 20), (1, 30)]

/-- The interface `J extends O` with the interface `I` in its interface table,
as `parseMethodTable` receives it. -/
def sampleSubInterface : Class :=
  ⟨ACC_INTERFACE, 0, 0, 4, 0, none, [74, 0], some sampleObject,
    some [some (.interface sampleInterface)], none, none, none, none, none⟩

/-- Method declaration `public abstract void x()` of an interface. -/
def declAbstractX : MethodDecl := ⟨0x401, [120, 0], [40, 41, 86, 0], none⟩

/-- Method declaration `public abstract void a()` of an interface. -/
def declAbstractA : MethodDecl := ⟨0x401, [97, 0], [40, 41, 86, 0], none⟩

/-- The root thread 0 with the children 1 and 2, made in that order: the child
of 0 is 2 and the peer of 2 is 1. -/
def sampleTree : ThreadTree :=
  ⟨some 0, [⟨none, some 2, none⟩, ⟨some 0, none, none⟩, ⟨some 0, none, some 1⟩]⟩

/-- The root thread 0 with the children 1, 2 and 3, made in that order, the
thread 3 having the child 4. -/
def sampleDeepTree : ThreadTree :=
  ⟨some 0, [⟨none, some 3, none⟩, ⟨some 0, none, none⟩, ⟨some 0, none, some 1⟩,
    ⟨some 0, some 4, some 2⟩, ⟨some 3, none, none⟩]⟩

/-- A pool whose entries refer forward: index 1 is the Methodref of class index
2 and name-and-type index 3, index 2 the Class entry of name index 4, index 3
the NameAndType entry of indices 5 and 6, indices 4 to 6 the Utf8 strings `A`,
`m` and `()V`, and index 7 the String entry of index 4. -/
def forwardPool : List Constant :=
  [.methodref 2 3, .class_ 4, .nameAndType 5 6, .utf8 [65], .utf8 [109], .utf8 [40, 41, 86],
   .string 4]

/-! ## Properties of the associative map -/

theorem getD_set_self {α : Type} (l : List (List α)) (i : Nat) (x : List α)
    (h : i < l.length) : (l.set i x).getD i [] = x := by
  simp [List.getD_eq_getElem?_getD, List.getElem?_set, h]

theorem getD_set_other {α : Type} (l : List (List α)) (i j : Nat) (x : List α)
    (h : i ≠ j) : (l.set i x).getD j [] = l.getD j [] := by
  simp [List.getD_eq_getElem?_getD, List.getElem?_set, h]

theorem mem_flatten_iff_getD {α : Type} (l : List (List α)) (a : α) :
    a ∈ l.flatten ↔ ∃ i, a ∈ l.getD i [] := by
  rw [List.mem_flatten]
  constructor
  · rintro ⟨c, hc, ha⟩
    obtain ⟨i, hi⟩ := List.mem_iff_getElem?.mp hc
    exact ⟨i, by simp [List.getD_eq_getElem?_getD, hi, ha]⟩
  · rintro ⟨i, hi⟩
    rw [List.getD_eq_getElem?_getD] at hi
    cases hget : l[i]? with
    | none => rw [hget] at hi; simp at hi
    | some c =>
      rw [hget] at hi
      exact ⟨c, List.mem_iff_getElem?.mpr ⟨i, hget⟩, by simpa using hi⟩

/-- Pushing a node on the front of bucket `i` adds exactly that node. -/
theorem flatten_set_cons_perm {α : Type} (l : List (List α)) (i : Nat) (p : α)
    (h : i < l.length) :
    (l.set i (p :: l.getD i [])).flatten.Perm (p :: l.flatten) := by
  induction l generalizing i with
  | nil => simp at h
  | cons c t ih =>
    cases i with
    | zero => simp
    | succ j =>
      simp only [List.set_cons_succ, List.flatten_cons, List.getD_cons_succ]
      have := ih j (by simpa using h)
      exact (List.Perm.append_left c this).trans List.perm_middle

theorem index_lt {κ : Type} (hash : κ → Nat) (k : κ) (len : Nat) (h : 0 < len) :
    hash k &&& (len - 1) < len := by
  have := @Nat.and_le_right (hash k) (len - 1)
  omega

/-- Pushing a node on the front of the bucket of its key keeps the array well
formed. -/
theorem bucketsWF_push {κ ν : Type} (hash : κ → Nat) (array : List (List (κ × ν)))
    (p : κ × ν) (h : bucketsWF hash array) :
    bucketsWF hash (array.set (hash p.1 &&& (array.length - 1))
      (p :: array.getD (hash p.1 &&& (array.length - 1)) [])) := by
  obtain ⟨hlen, hb⟩ := h
  refine ⟨by simpa using hlen, ?_⟩
  intro i n hn
  rw [List.length_set]
  by_cases hi : hash p.1 &&& (array.length - 1) = i
  · subst hi
    rw [getD_set_self _ _ _ (index_lt hash p.1 _ hlen)] at hn
    rcases List.mem_cons.mp hn with h1 | h1
    · rw [h1]
    · exact hb _ n h1
  · rw [getD_set_other _ _ _ _ hi] at hn
    exact hb i n hn

theorem rehashNode_spec {κ ν : Type} (hash : κ → Nat) (L : Nat)
    (acc : List (List (κ × ν))) (p : κ × ν) (hlen : acc.length = L)
    (h : bucketsWF hash acc) :
    (rehashNode hash L acc p).length = L ∧ bucketsWF hash (rehashNode hash L acc p) ∧
    (rehashNode hash L acc p).flatten.Perm (p :: acc.flatten) := by
  subst hlen
  unfold rehashNode
  refine ⟨by simp, bucketsWF_push hash acc p h, ?_⟩
  exact flatten_set_cons_perm acc _ p (index_lt hash p.1 _ h.1)

theorem rehashChain_spec {κ ν : Type} (hash : κ → Nat) (L : Nat) (chain : List (κ × ν))
    (acc : List (List (κ × ν))) (hlen : acc.length = L) (h : bucketsWF hash acc) :
    (chain.foldl (rehashNode hash L) acc).length = L ∧
    bucketsWF hash (chain.foldl (rehashNode hash L) acc) ∧
    (chain.foldl (rehashNode hash L) acc).flatten.Perm (chain ++ acc.flatten) := by
  induction chain generalizing acc with
  | nil => exact ⟨hlen, h, by simp⟩
  | cons p rest ih =>
    obtain ⟨h1, h2, h3⟩ := rehashNode_spec hash L acc p hlen h
    obtain ⟨g1, g2, g3⟩ := ih (rehashNode hash L acc p) h1 h2
    refine ⟨g1, g2, g3.trans ?_⟩
    simp only [List.cons_append]
    exact (List.Perm.append_left rest h3).trans List.perm_middle

theorem rehashAll_spec {κ ν : Type} (hash : κ → Nat) (L : Nat)
    (old : List (List (κ × ν))) (acc : List (List (κ × ν))) (hlen : acc.length = L)
    (h : bucketsWF hash acc) :
    (old.foldl (fun a chain => chain.foldl (rehashNode hash L) a) acc).length = L ∧
    bucketsWF hash (old.foldl (fun a chain => chain.foldl (rehashNode hash L) a) acc) ∧
    (old.foldl (fun a chain => chain.foldl (rehashNode hash L) a) acc).flatten.Perm
      (old.flatten ++ acc.flatten) := by
  induction old generalizing acc with
  | nil => exact ⟨hlen, h, by simp⟩
  | cons chain rest ih =>
    obtain ⟨h1, h2, h3⟩ := rehashChain_spec hash L chain acc hlen h
    obtain ⟨g1, g2, g3⟩ := ih (chain.foldl (rehashNode hash L) acc) h1 h2
    refine ⟨g1, g2, g3.trans ?_⟩
    simp only [List.flatten_cons, List.append_assoc]
    exact ((List.Perm.append_left rest.flatten h3).trans List.perm_append_comm).trans
      (by
        rw [List.append_assoc]
        exact List.Perm.append_left chain List.perm_append_comm)

theorem nextPowerOfTwoLoop_ge (fuel r n : Nat) : r ≤ nextPowerOfTwoLoop fuel r n := by
  induction fuel generalizing r with
  | zero => simp [nextPowerOfTwoLoop]
  | succ k ih =>
    simp only [nextPowerOfTwoLoop]
    split
    · exact le_trans (by omega) (ih (2 * r))
    · exact le_refl _

theorem nextPowerOfTwo_pos (n : Nat) : 0 < nextPowerOfTwo n :=
  nextPowerOfTwoLoop_ge n 1 n

theorem bucketsWF_replicate {κ ν : Type} (hash : κ → Nat) (L : Nat) (h : 0 < L) :
    bucketsWF hash (List.replicate L ([] : List (κ × ν))) := by
  refine ⟨by simpa using h, ?_⟩
  intro i n hn
  simp [List.getD_eq_getElem?_getD, List.getElem?_replicate] at hn
  split at hn <;> simp at hn

/-- Resizing to a non-zero size gives a well-formed map with the same size
field and the same nodes. -/
theorem hashMapResize_spec {κ ν : Type} (hash : κ → Nat) (map : HashMap κ ν) (size : Nat)
    (hsize : size ≠ 0) :
    (hashMapResize hash map size).WF hash ∧
    (hashMapResize hash map size).size = map.size ∧
    (hashMapResize hash map size).array ≠ none ∧
    (hashMapResize hash map size).nodes.Perm map.nodes := by
  unfold hashMapResize
  rw [if_pos hsize]
  have hpos := nextPowerOfTwo_pos size
  have hrep := bucketsWF_replicate (ν := ν) hash (nextPowerOfTwo size) hpos
  cases harr : map.array with
  | none =>
    refine ⟨?_, rfl, by simp, ?_⟩
    · intro a ha
      have ha := Option.some.inj ha
      rw [← ha]; exact hrep
    · simp [HashMap.nodes, harr]
  | some old =>
    obtain ⟨_, h2, h3⟩ := rehashAll_spec hash (nextPowerOfTwo size) old
      (List.replicate (nextPowerOfTwo size) []) (by simp) hrep
    refine ⟨?_, rfl, by simp, ?_⟩
    · intro a ha
      have ha := Option.some.inj ha
      rw [← ha]; exact h2
    · simpa [HashMap.nodes, harr] using h3

/-- The growth step of `hashMapInsert`. -/
theorem hashMapInsert_grow {κ ν : Type} (hash : κ → Nat) (map : HashMap κ ν)
    (h : map.WF hash) (m2 : HashMap κ ν)
    (hm2 : m2 = (match map.array with
      | none => hashMapResize hash { map with size := map.size + 1 } 16
      | some array =>
        if map.size + 1 ≥ array.length * 2 then
          hashMapResize hash { map with size := map.size + 1 } (array.length * 2)
        else { map with size := map.size + 1 })) :
    m2.WF hash ∧ m2.size = map.size + 1 ∧ m2.array ≠ none ∧ m2.nodes.Perm map.nodes := by
  obtain ⟨sz, arr⟩ := map
  cases arr with
  | none =>
    subst hm2
    exact hashMapResize_spec hash (⟨sz + 1, none⟩ : HashMap κ ν) 16 (by decide)
  | some array =>
    have hb := h array rfl
    dsimp only at hm2
    by_cases hgrow : sz + 1 ≥ array.length * 2
    · rw [if_pos hgrow] at hm2
      subst hm2
      exact hashMapResize_spec hash (⟨sz + 1, some array⟩ : HashMap κ ν) (array.length * 2)
        (by have := hb.1; omega)
    · rw [if_neg hgrow] at hm2
      subst hm2
      exact ⟨fun a ha => h a ha, rfl, Option.some_ne_none _, List.Perm.refl _⟩

/-- The push step of `hashMapInsert`. -/
theorem hashMapInsert_push {κ ν : Type} (hash : κ → Nat) (key : κ) (value : ν)
    (m2 : HashMap κ ν) (hwf : m2.WF hash) (hne : m2.array ≠ none) (r : HashMap κ ν)
    (hr : r = (match m2.array with
        | none => m2
        | some array =>
          { m2 with array := some (array.set (hash key &&& (array.length - 1))
              ((key, value) :: array.getD (hash key &&& (array.length - 1)) [])) })) :
    r.WF hash ∧ r.size = m2.size ∧ r.array ≠ none ∧
    r.nodes.Perm ((key, value) :: m2.nodes) := by
  cases harr : m2.array with
  | none => exact absurd harr hne
  | some array =>
    rw [harr] at hr
    subst hr
    have hb := hwf array harr
    refine ⟨?_, rfl, Option.some_ne_none _, ?_⟩
    · intro a ha
      have ha := Option.some.inj ha
      rw [← ha]
      exact bucketsWF_push hash array (key, value) hb
    · simp only [HashMap.nodes, harr, Option.getD_some]
      exact flatten_set_cons_perm array _ (key, value) (index_lt hash key _ hb.1)

/-- Inserting keeps the map well formed, counts the entry and adds exactly the
new node. -/
theorem hashMapInsert_spec {κ ν : Type} (hash : κ → Nat) (map : HashMap κ ν) (key : κ)
    (value : ν) (h : map.WF hash) :
    (hashMapInsert hash map key value).WF hash ∧
    (hashMapInsert hash map key value).size = map.size + 1 ∧
    (hashMapInsert hash map key value).array ≠ none ∧
    (hashMapInsert hash map key value).nodes.Perm ((key, value) :: map.nodes) := by
  obtain ⟨g1, g2, g3, g4⟩ := hashMapInsert_grow hash map h _ rfl
  obtain ⟨k1, k2, k3, k4⟩ := hashMapInsert_push hash key value _ g1 g3 _ rfl
  exact ⟨k1, by rw [← g2]; exact k2, k3, k4.trans (List.Perm.cons _ g4)⟩

theorem chainFindNode_some {κ ν : Type} (equal : κ → κ → Bool) (key : κ)
    (chain : List (κ × ν)) (n : κ × ν) (h : chainFindNode equal key chain = some n) :
    ∃ l1 l2, chain = l1 ++ n :: l2 ∧ equal key n.1 = true ∧
      (∀ x ∈ l1, equal key x.1 = false) ∧
      ∀ value, chainSetSecond equal key value chain = l1 ++ (n.1, value) :: l2 := by
  induction chain with
  | nil => simp [chainFindNode] at h
  | cons c rest ih =>
    simp only [chainFindNode] at h
    by_cases hc : equal key c.1 = true
    · rw [if_pos hc] at h
      have h := Option.some.inj h
      subst h
      exact ⟨[], rest, rfl, hc, by simp, fun value => by simp [chainSetSecond, hc]⟩
    · rw [if_neg hc] at h
      obtain ⟨l1, l2, h1, h2, h3, h4⟩ := ih h
      refine ⟨c :: l1, l2, by rw [h1]; rfl, h2, ?_, fun value => ?_⟩
      · intro x hx
        rcases List.mem_cons.mp hx with hx | hx
        · rw [hx]; simpa using hc
        · exact h3 x hx
      · simp only [chainSetSecond, if_neg hc, h4 value, List.cons_append]

theorem chainFindNode_none {κ ν : Type} (equal : κ → κ → Bool) (key : κ)
    (chain : List (κ × ν)) (h : chainFindNode equal key chain = none) :
    (∀ n ∈ chain, equal key n.1 = false) ∧
    ∀ value, chainSetSecond equal key value chain = chain := by
  induction chain with
  | nil => exact ⟨by simp, fun _ => rfl⟩
  | cons c rest ih =>
    simp only [chainFindNode] at h
    by_cases hc : equal key c.1 = true
    · rw [if_pos hc] at h; exact absurd h (by simp)
    · rw [if_neg hc] at h
      obtain ⟨h1, h2⟩ := ih h
      refine ⟨?_, fun value => by simp only [chainSetSecond, if_neg hc, h2 value]⟩
      intro n hn
      rcases List.mem_cons.mp hn with hn | hn
      · rw [hn]; simpa using hc
      · exact h1 n hn

/-- A node found by `hashMapFindNode` is a node of the map and its key is equal
to the key looked for. -/
theorem hashMapFindNode_some {κ ν : Type} (hash : κ → Nat) (equal : κ → κ → Bool)
    (map : HashMap κ ν) (key : κ) (n : κ × ν)
    (h : hashMapFindNode hash equal map key = some n) :
    n ∈ map.nodes ∧ equal key n.1 = true := by
  unfold hashMapFindNode at h
  cases harr : map.array with
  | none => rw [harr] at h; exact absurd h (by simp)
  | some array =>
    rw [harr] at h
    dsimp only at h
    obtain ⟨l1, l2, h1, h2, _, _⟩ := chainFindNode_some equal key _ n h
    refine ⟨?_, h2⟩
    simp only [HashMap.nodes, harr, Option.getD_some]
    rw [mem_flatten_iff_getD]
    exact ⟨_, by rw [h1]; simp⟩

/-- When `hashMapFindNode` finds nothing in a well-formed map, with a hash
that agrees on equal keys, no node of the map has a key equal to the key
looked for. -/
theorem hashMapFindNode_none {κ ν : Type} (hash : κ → Nat) (equal : κ → κ → Bool)
    (map : HashMap κ ν) (key : κ) (hwf : map.WF hash)
    (hhash : ∀ k, equal key k = true → hash key = hash k)
    (h : hashMapFindNode hash equal map key = none) :
    ∀ n ∈ map.nodes, equal key n.1 = false := by
  intro n hn
  unfold hashMapFindNode at h
  cases harr : map.array with
  | none => simp [HashMap.nodes, harr] at hn
  | some array =>
    rw [harr] at h
    dsimp only at h
    simp only [HashMap.nodes, harr, Option.getD_some] at hn
    rw [mem_flatten_iff_getD] at hn
    obtain ⟨i, hi⟩ := hn
    have hidx := (hwf array harr).2 i n hi
    by_cases heq : equal key n.1 = true
    · have hh := hhash n.1 heq
      rw [← hh] at hidx
      rw [hidx] at h
      exact (chainFindNode_none equal key _ h).1 n hi
    · simpa using heq

theorem flatten_getD_split {α : Type} (l : List (List α)) (i : Nat) (h : i < l.length) :
    l.flatten = (l.take i).flatten ++ l.getD i [] ++ (l.drop (i + 1)).flatten ∧
    ∀ x, (l.set i x).flatten = (l.take i).flatten ++ x ++ (l.drop (i + 1)).flatten := by
  induction l generalizing i with
  | nil => simp at h
  | cons c t ih =>
    cases i with
    | zero => simp
    | succ j =>
      obtain ⟨h1, h2⟩ := ih j (by simpa using h)
      refine ⟨?_, fun x => ?_⟩
      · simp only [List.flatten_cons, List.take_succ_cons, List.getD_cons_succ,
          List.drop_succ_cons, List.append_assoc]
        rw [h1]; simp
      · simp only [List.set_cons_succ, List.flatten_cons, List.take_succ_cons,
          List.drop_succ_cons, List.append_assoc]
        rw [h2 x]; simp

/-- Storing a value in the node found for a key replaces that node by one with
the same key and the new value, and touches no other node. -/
theorem hashMapSetSecond_found {κ ν : Type} (hash : κ → Nat) (equal : κ → κ → Bool)
    (map : HashMap κ ν) (key : κ) (value : ν) (p : κ × ν) (hwf : map.WF hash)
    (h : hashMapFindNode hash equal map key = some p) :
    (hashMapSetSecond hash equal map key value).WF hash ∧
    (hashMapSetSecond hash equal map key value).size = map.size ∧
    ∃ l1 l2, map.nodes = l1 ++ p :: l2 ∧
      (hashMapSetSecond hash equal map key value).nodes = l1 ++ (p.1, value) :: l2 := by
  unfold hashMapFindNode at h
  unfold hashMapSetSecond
  cases harr : map.array with
  | none => rw [harr] at h; exact absurd h (by simp)
  | some array =>
    rw [harr] at h
    dsimp only at h ⊢
    have hb := hwf array harr
    have hlt := index_lt hash key array.length hb.1
    obtain ⟨c1, c2, h1, h2, _, h4⟩ := chainFindNode_some equal key _ p h
    obtain ⟨f1, f2⟩ := flatten_getD_split array _ hlt
    refine ⟨?_, rfl, ?_⟩
    · intro a ha
      have ha := Option.some.inj ha
      subst ha
      refine ⟨by simpa using hb.1, ?_⟩
      intro i n hn
      rw [List.length_set]
      by_cases hi : hash key &&& (array.length - 1) = i
      · rw [← hi] at hn ⊢
        rw [getD_set_self _ _ _ hlt, h4 value] at hn
        rcases List.mem_append.mp hn with hn | hn
        · exact hb.2 _ n (by rw [h1]; exact List.mem_append_left _ hn)
        · rcases List.mem_cons.mp hn with hn | hn
          · rw [hn]
            exact hb.2 _ p (by rw [h1]; simp)
          · exact hb.2 _ n (by rw [h1]; simp [hn])
      · rw [getD_set_other _ _ _ _ hi] at hn
        exact hb.2 i n hn
    · refine ⟨(array.take (hash key &&& (array.length - 1))).flatten ++ c1,
        c2 ++ (array.drop ((hash key &&& (array.length - 1)) + 1)).flatten, ?_, ?_⟩
      · simp only [HashMap.nodes, harr, Option.getD_some]
        rw [f1, h1]; simp
      · simp only [HashMap.nodes, Option.getD_some]
        rw [f2, h4 value]; simp

theorem scanBuckets_inv {κ ν : Type} (map : HashMap κ ν) (buckets : List (List (κ × ν)))
    (i : Nat) (it : HashMapIterator κ ν) (hsub : ∀ x ∈ buckets.flatten, x ∈ map.nodes)
    (h : scanBuckets map buckets i = some it) : iteratorInv map it := by
  induction buckets generalizing i with
  | nil => simp [scanBuckets] at h
  | cons c rest ih =>
    cases c with
    | nil =>
      simp only [scanBuckets] at h
      exact ih (i + 1) (fun x hx => hsub x (by simpa using hx)) h
    | cons n chain =>
      simp only [scanBuckets] at h
      have h := Option.some.inj h
      subst h
      exact ⟨rfl, hsub _ (by simp), fun x hx => hsub x (by simp [hx])⟩

theorem hashMapIteratorNext_inv {κ ν : Type} (map : HashMap κ ν)
    (it it1 : HashMapIterator κ ν) (hinv : iteratorInv map it)
    (h : hashMapIteratorNext it = some it1) : iteratorInv map it1 := by
  obtain ⟨hmap, _, hnext⟩ := hinv
  unfold hashMapIteratorNext at h
  cases hn : it.next with
  | cons n chain =>
    rw [hn] at h
    have h := Option.some.inj h
    subst h
    rw [hn] at hnext
    exact ⟨hmap, hnext n (by simp), fun x hx => hnext x (by simp [hx])⟩
  | nil =>
    rw [hn] at h
    dsimp only at h
    rw [hmap] at h
    cases harr : map.array with
    | none => rw [harr] at h; exact absurd h (by simp)
    | some array =>
      rw [harr] at h
      dsimp only at h
      refine scanBuckets_inv map _ _ it1 ?_ h
      intro x hx
      simp only [HashMap.nodes, harr, Option.getD_some]
      obtain ⟨c, hc, hxc⟩ := List.mem_flatten.mp hx
      exact List.mem_flatten.mpr ⟨c, List.mem_of_mem_drop hc, hxc⟩

theorem hashMapIterate_subset {κ ν : Type} (map : HashMap κ ν) (fuel : Nat)
    (it : Option (HashMapIterator κ ν)) (hinv : ∀ i, it = some i → iteratorInv map i) :
    ∀ n ∈ hashMapIterate fuel it, n ∈ map.nodes := by
  induction fuel generalizing it with
  | zero => intro n hn; simp [hashMapIterate] at hn
  | succ k ih =>
    cases it with
    | none => intro n hn; simp [hashMapIterate] at hn
    | some i =>
      intro n hn
      simp only [hashMapIterate] at hn
      rcases List.mem_cons.mp hn with hn | hn
      · rw [hn]; exact (hinv i rfl).2.1
      · exact ih _ (fun j hj => hashMapIteratorNext_inv map i j (hinv i rfl) hj) n hn

/-- Every node visited by iterating over a map is a node of the map. -/
theorem hashMapNodes_subset {κ ν : Type} (map : HashMap κ ν) :
    ∀ n ∈ hashMapNodes map, n ∈ map.nodes := by
  unfold hashMapNodes
  apply hashMapIterate_subset
  intro i hi
  unfold hashMapIterator at hi
  cases harr : map.array with
  | none => rw [harr] at hi; exact absurd hi (by simp)
  | some array =>
    rw [harr] at hi
    dsimp only at hi
    exact scanBuckets_inv map array 0 i (by simp [HashMap.nodes, harr]) hi

/-! ## Properties of the field layout -/

theorem fieldSize_ok (BytesPerWord : Nat) (code : FieldCode) :
    ∃ n, fieldSize BytesPerWord code = .ok n := by
  cases code <;> simp [fieldSize, primitiveSize]

theorem pad_of_aligned (BytesPerWord n : Nat) (h : n % BytesPerWord = 0) :
    pad BytesPerWord n = n := by
  simp [pad, h]

theorem pad_aligned (BytesPerWord n : Nat) (hW : 0 < BytesPerWord) :
    pad BytesPerWord n % BytesPerWord = 0 := by
  unfold pad
  by_cases h : n % BytesPerWord = 0
  · simp [h]
  · simp only [ne_eq, h, not_false_eq_true, if_true]
    have hlt : n % BytesPerWord < BytesPerWord := Nat.mod_lt _ hW
    have hdecomp := Nat.div_add_mod n BytesPerWord
    have : n + BytesPerWord - n % BytesPerWord = BytesPerWord * (n / BytesPerWord + 1) := by
      rw [Nat.mul_add, Nat.mul_one]; omega
    rw [this]; exact Nat.mul_mod_right _ _

theorem align_up_mod (W m : Nat) (hW : 0 < W) : (m + (W - m % W)) % W = 0 := by
  have hlt : m % W < W := Nat.mod_lt _ hW
  have hdecomp := Nat.div_add_mod m W
  have : m + (W - m % W) = W * (m / W + 1) := by
    rw [Nat.mul_add, Nat.mul_one]; omega
  rw [this]; exact Nat.mul_mod_right _ _

/-- What one iteration of the declaration loop does to the state: it appends
exactly one field; an instance field sits at or after the previous member
offset, on a word boundary when it is a reference; the member offset never
decreases and stays put for a static field. -/
theorem parseField_spec (W : Nat) (owner : Bytes) (st st1 : FieldLoop) (d : FieldDecl)
    (hW : 0 < W) (h : parseField W owner st d = .ok st1) :
    ∃ f, st1.fields = st.fields ++ [f] ∧ f.flags = d.flags ∧
      fieldCode (f.spec.headD 0) = .ok f.code ∧
      st.memberOffset ≤ st1.memberOffset ∧
      (d.flags &&& ACC_STATIC ≠ 0 → st1.memberOffset = st.memberOffset) ∧
      (d.flags &&& ACC_STATIC = 0 →
        st.memberOffset ≤ f.offset ∧ (f.code = ObjectField → f.offset % W = 0) ∧
        fieldSize W f.code = .ok (st1.memberOffset - f.offset) ∧
        f.offset ≤ st1.memberOffset ∧
        (f.code = ObjectField → st.memberOffset % W = 0 → f.offset = st.memberOffset)) := by
  unfold parseField at h
  cases hc : fieldCode (d.spec.headD 0) with
  | error e => rw [hc] at h; exact absurd h (by simp)
  | ok code =>
    rw [hc] at h
    dsimp only at h
    by_cases hs : d.flags &&& ACC_STATIC ≠ 0
    · rw [if_pos hs] at h
      injection h with h
      subst h
      exact ⟨_, rfl, rfl, hc, le_refl _, fun _ => rfl, fun h0 => absurd h0 hs⟩
    · rw [if_neg hs] at h
      obtain ⟨n, hn⟩ := fieldSize_ok W code
      rw [hn] at h
      dsimp only at h
      injection h with h
      subst h
      refine ⟨_, rfl, rfl, hc, ?_, fun h0 => absurd h0 hs, fun _ => ⟨?_, ?_, ?_, ?_, ?_⟩⟩
      · dsimp only; split <;> omega
      · dsimp only; split <;> omega
      · dsimp only
        intro hobj
        by_cases hex : st.memberOffset % W = 0
        · simp [hex]
        · simp only [ne_eq, hex, not_false_eq_true, hobj, and_self, if_true]
          exact align_up_mod W _ hW
      · dsimp only; rw [hn]; congr 1; omega
      · dsimp only; omega
      · dsimp only
        intro _ hal
        simp [hal]

/-- The bitmap branch changes nothing of the class but its bitmap. -/
theorem computeObjectMask_frame (W B : Nat) (c c1 : Class)
    (h : computeObjectMask W B c = .ok c1) :
    c1 = c ∨ ∃ m, c1 = { c with objectMask := some m } := by
  unfold computeObjectMask at h
  dsimp only at h
  by_cases hlen : 0 < (List.replicate (divide c.fixedSize (B * W)) 0).length
  · rw [if_pos hlen] at h
    cases hm : markClasses W ((List.replicate (divide c.fixedSize (B * W)) 0).set 0 1, false)
        c.ancestors with
    | error e => rw [hm] at h; exact absurd h (by simp)
    | ok r =>
      rw [hm] at h
      obtain ⟨m, saw⟩ := r
      dsimp only at h
      cases saw with
      | true =>
        simp only [if_true] at h
        injection h with h
        exact Or.inr ⟨m, h.symm⟩
      | false =>
        simp only [Bool.false_eq_true, if_false] at h
        injection h with h
        exact Or.inl h.symm
  · rw [if_neg hlen] at h
    exact absurd h (by simp)

theorem toBool_ok {α : Type} {x : Except Fault α} (h : x.toBool = true) :
    ∃ k, x = .ok k := by
  cases x with
  | error e => simp [Except.toBool] at h
  | ok k => exact ⟨k, rfl⟩

theorem parseField_total (W : Nat) (owner : Bytes) (st : FieldLoop) (d : FieldDecl)
    (hd : (fieldCode (d.spec.headD 0)).toBool = true) :
    ∃ st1, parseField W owner st d = .ok st1 := by
  obtain ⟨k, hk⟩ := toBool_ok hd
  obtain ⟨n, hn⟩ := fieldSize_ok W k
  unfold parseField
  rw [hk]
  dsimp only
  rw [hn]
  split <;> exact ⟨_, rfl⟩

theorem parseFieldsFrom_total (W : Nat) (owner : Bytes) (decls : List FieldDecl)
    (hd : ∀ d ∈ decls, (fieldCode (d.spec.headD 0)).toBool = true) (st : FieldLoop) :
    ∃ st1, parseFieldsFrom W owner st decls = .ok st1 := by
  induction decls generalizing st with
  | nil => exact ⟨st, rfl⟩
  | cons d ds ih =>
    obtain ⟨st1, h1⟩ := parseField_total W owner st d (hd d (List.mem_cons_self _ _))
    simp only [parseFieldsFrom, h1]
    exact ih (fun x hx => hd x (List.mem_cons_of_mem _ hx)) st1

/-- The declaration loop keeps every instance field at or after the member
offset it started from, and every reference instance field on a word
boundary; the kind recorded in a field is the one of its descriptor. -/
theorem parseFieldsFrom_offsets (W : Nat) (owner : Bytes) (hW : 0 < W) (lo : Nat)
    (decls : List FieldDecl) (st st1 : FieldLoop)
    (h : parseFieldsFrom W owner st decls = .ok st1)
    (hlo : lo ≤ st.memberOffset)
    (hinv : ∀ f ∈ st.fields, fieldCode (f.spec.headD 0) = .ok f.code ∧
      (f.flags &&& ACC_STATIC = 0 →
        lo ≤ f.offset ∧ (f.code = ObjectField → f.offset % W = 0))) :
    lo ≤ st1.memberOffset ∧ st1.fields.length = st.fields.length + decls.length ∧
    ∀ f ∈ st1.fields, fieldCode (f.spec.headD 0) = .ok f.code ∧
      (f.flags &&& ACC_STATIC = 0 →
        lo ≤ f.offset ∧ (f.code = ObjectField → f.offset % W = 0)) := by
  induction decls generalizing st with
  | nil =>
    simp only [parseFieldsFrom] at h
    injection h with h
    subst h
    exact ⟨hlo, by simp, hinv⟩
  | cons d ds ih =>
    simp only [parseFieldsFrom] at h
    cases h1 : parseField W owner st d with
    | error e => simp [h1] at h
    | ok st2 =>
      simp only [h1] at h
      obtain ⟨f, hf, hfl, hcode, hmono, _, hinst⟩ := parseField_spec W owner st st2 d hW h1
      have := ih st2 h (le_trans hlo hmono) (by
        intro g hg
        rw [hf] at hg
        rcases List.mem_append.mp hg with hg | hg
        · exact hinv g hg
        · have : g = f := by simpa using hg
          subst this
          refine ⟨hcode, fun hgi => ?_⟩
          have hdi : d.flags &&& ACC_STATIC = 0 := by rw [← hfl]; exact hgi
          obtain ⟨h1, h2, _⟩ := hinst hdi
          exact ⟨le_trans hlo h1, h2⟩)
      refine ⟨this.1, ?_, this.2.2⟩
      rw [this.2.1, hf]
      simp
      omega

/-- When the class file declares fields, the field table `parseFieldTable`
stores in the class is the one built by its declaration loop. -/
theorem parseFieldTable_fieldTable (W B : Nat) (class_ : Class) (decls : List FieldDecl)
    (st : FieldLoop) (hst : parseFields W class_ decls = .ok st) (c : Class)
    (hc : parseFieldTable W B class_ decls = .ok c) (hne : decls ≠ []) :
    c.fieldTable = some st.fields := by
  have hlen : decls.length ≠ 0 := by
    intro h0; exact hne (List.length_eq_zero.mp h0)
  unfold parseFieldTable at hc
  rw [hst] at hc
  dsimp only at hc
  rw [if_pos hlen] at hc
  have hframe : ∀ (c0 : Class), c0.fieldTable = some st.fields →
      computeObjectMask W B c0 = .ok c → c.fieldTable = some st.fields := by
    intro c0 h0 hc0
    rcases computeObjectMask_frame W B c0 c hc0 with h | ⟨m, h⟩
    · rw [h]; exact h0
    · rw [h]; exact h0
  cases hsup : class_.super with
  | none =>
    rw [hsup] at hc
    exact hframe _ rfl hc
  | some s =>
    rw [hsup] at hc
    dsimp only at hc
    by_cases hmo : st.memberOffset = s.fixedSize
    · rw [if_pos hmo] at hc
      injection hc with hc
      rw [← hc]
    · rw [if_neg hmo] at hc
      exact hframe _ rfl hc

/-- The layout facts of the declaration loop of `parseFieldTable`: kinds, offsets, alignment. -/
theorem parseFields_layout (W : Nat) (class_ : Class)
    (decls : List FieldDecl) (hW : 0 < W)
    (hspec : ∀ d ∈ decls, (fieldCode (d.spec.headD 0)).toBool = true) :
    ∃ st, parseFields W class_ decls = .ok st ∧
      st.fields.length = decls.length ∧
      ∀ f ∈ st.fields, fieldCode (f.spec.headD 0) = .ok f.code ∧
        (f.flags &&& ACC_STATIC = 0 →
          initialMemberOffset W class_ ≤ f.offset ∧
          (f.code = ObjectField → f.offset % W = 0)) := by
  obtain ⟨st, hst⟩ := parseFieldsFrom_total W class_.name decls hspec
    ⟨initialMemberOffset W class_, 0, []⟩
  have h := parseFieldsFrom_offsets W class_.name hW (initialMemberOffset W class_) decls _ st
    hst (le_refl _) (by intro f hf; simp at hf)
  exact ⟨st, hst, by simpa using h.2.1, h.2.2⟩

/-- C6: a class with a superclass (whose fixed size is word-aligned, as every
fixed size stored by `parseFieldTable` is) and a field table declaring only
static fields is given by `parseFieldTable` the fixed size of its superclass
and its superclass's reference bitmap. -/
theorem parseFieldTable_no_instance_field (W B : Nat) (class_ s : Class)
    (decls : List FieldDecl)
    (hsuper : class_.super = some s)
    (haligned : s.fixedSize % W = 0)
    (hstatic : ∀ d ∈ decls, d.flags &&& ACC_STATIC ≠ 0)
    (hspec : ∀ d ∈ decls, (fieldCode (d.spec.headD 0)).toBool = true) :
    ∃ c, parseFieldTable W B class_ decls = .ok c ∧
      c.fixedSize = s.fixedSize ∧ c.objectMask = s.objectMask := by
  have hkeep : ∀ (ds : List FieldDecl) (st st1 : FieldLoop),
      (∀ d ∈ ds, d.flags &&& ACC_STATIC ≠ 0) →
      (∀ d ∈ ds, (fieldCode (d.spec.headD 0)).toBool = true) →
      parseFieldsFrom W class_.name st ds = .ok st1 → st1.memberOffset = st.memberOffset := by
    intro ds
    induction ds with
    | nil =>
      intro st st1 _ _ h
      simp only [parseFieldsFrom] at h
      injection h with h
      rw [h]
    | cons d ds ih =>
      intro st st1 hst hsp h
      simp only [parseFieldsFrom] at h
      cases h1 : parseField W class_.name st d with
      | error e => rw [h1] at h; exact absurd h (by simp)
      | ok st2 =>
        rw [h1] at h
        dsimp only at h
        have h2 := ih st2 st1 (fun x hx => hst x (List.mem_cons_of_mem _ hx))
          (fun x hx => hsp x (List.mem_cons_of_mem _ hx)) h
        unfold parseField at h1
        obtain ⟨k, hk⟩ := toBool_ok (hsp d (List.mem_cons_self _ _))
        rw [hk] at h1
        dsimp only at h1
        rw [if_pos (hst d (List.mem_cons_self _ _))] at h1
        injection h1 with h1
        rw [h2, ← h1]
  obtain ⟨st, hst⟩ := parseFieldsFrom_total W class_.name decls hspec
    ⟨initialMemberOffset W class_, 0, []⟩
  have hmo : st.memberOffset = s.fixedSize := by
    have := hkeep decls _ st hstatic hspec hst
    rw [this]
    simp [initialMemberOffset, hsuper]
  unfold parseFieldTable parseFields
  rw [hst]
  dsimp only
  rw [hsuper]
  dsimp only
  rw [if_pos hmo]
  refine ⟨_, rfl, ?_, rfl⟩
  dsimp only
  rw [hmo]
  exact pad_of_aligned W _ haligned

theorem parseFieldTable_no_instance_field_witness :
    ∃ c, parseFieldTable 4 32 (freshClass 0 [65, 0] (some sampleRoot))
        [declStaticInt, declStaticRef] = .ok c ∧
      c.fixedSize = sampleRoot.fixedSize ∧ c.objectMask = sampleRoot.objectMask :=
  parseFieldTable_no_instance_field 4 32 (freshClass 0 [65, 0] (some sampleRoot)) sampleRoot
    [declStaticInt, declStaticRef] rfl (by decide) (by decide) (by decide)

/-- C7 (evaluation at the failing input): a subclass of the root class declaring
eight static ints, one static reference and exactly one instance field, a
reference, gets fixed size 8 and bitmap word 7: bits 0, 1 and 2 are set, two
more than the superclass's (absent) bitmap rather than one, bit 2 coming from
the static reference in static slot 8. -/
theorem parseFieldTable_static_reference_adds_bit :
    (parseFieldTable 4 32 (freshClass 0 [65, 0] (some sampleRoot))
        [declStaticInt, declStaticInt, declStaticInt, declStaticInt,
         declStaticInt, declStaticInt, declStaticInt, declStaticInt,
         declStaticRef, declRefF]).toOption.map
      (fun c => (c.fixedSize, c.objectMask,
        (c.fieldTable.getD []).filterMap
          (fun f => if f.flags &&& ACC_STATIC = 0 then some f.offset else none)))
      = some (8, some [7], [4]) := by
  decide

set_option maxRecDepth 20000 in
theorem parseFieldTable_static_slot_outside_mask :
    faultOf (parseFieldTable 4 32 (freshClass 0 [65, 0] none) staticSlots)
      = some .outOfBounds := by
  decide

/-- C8 (evaluation at the failing inputs): a root class declaring four static
ints and one static reference, and no instance field at all, gets a freshly
computed bitmap with bit 1 set; and with 128 static ints before the static
reference the bit addressed lies outside the allocated bitmap array. -/
theorem parseFieldTable_static_reference_sets_bit :
    (∃ c mask, parseFieldTable 4 32 (freshClass 0 [65, 0] none)
        [declStaticInt, declStaticInt, declStaticInt, declStaticInt, declStaticRef] = .ok c ∧
      c.objectMask = some mask ∧ maskBit mask 1 = true ∧
      ∀ f ∈ c.fieldTable.getD [], f.flags &&& ACC_STATIC ≠ 0) ∧
    (∀ d ∈ staticSlots, d.flags &&& ACC_STATIC ≠ 0) ∧
    faultOf (parseFieldTable 4 32 (freshClass 0 [65, 0] none) staticSlots)
      = some .outOfBounds := by
  refine ⟨⟨_, _, rfl, rfl, by decide, by decide⟩, ?_, parseFieldTable_static_slot_outside_mask⟩
  intro d hd
  simp only [staticSlots, List.mem_append, List.mem_replicate, List.mem_singleton] at hd
  rcases hd with ⟨_, h⟩ | h <;> rw [h] <;> decide

/-- C9 (counterexample): in a root class declaring `byte b; int i;` on a 32-bit
build the instance field `i` is given offset 5, which is not a multiple of the
word size. -/
theorem parseFieldTable_int_after_byte_unaligned :
    ∃ c f, parseFieldTable 4 32 (freshClass 0 [65, 0] none) [declByteB, declIntI] = .ok c ∧
      f ∈ c.fieldTable.getD [] ∧ f.flags &&& ACC_STATIC = 0 ∧ f.offset = 5 ∧
      ¬ (f.offset % 4 = 0) := by
  refine ⟨_, ⟨0, 5, IntField, [105, 0], [73, 0], [65, 0]⟩, rfl, by decide, by decide, rfl,
    by decide⟩

/-- C9 (amended): for every class and every field table with legal descriptors
the declaration loop of `parseFieldTable` returns, gives every instance field
an offset not below the superclass's fixed size (one word when there is no
superclass), and gives every instance field of reference type an offset that
is a multiple of the word size; the field table stored in the class is the one
built by the loop. -/
theorem parseFieldTable_instance_offsets (W B : Nat) (class_ : Class)
    (decls : List FieldDecl) (hW : 0 < W)
    (hspec : ∀ d ∈ decls, (fieldCode (d.spec.headD 0)).toBool = true) :
    ∃ st, parseFields W class_ decls = .ok st ∧
      st.fields.length = decls.length ∧
      (∀ f ∈ st.fields, f.flags &&& ACC_STATIC = 0 →
        initialMemberOffset W class_ ≤ f.offset ∧
        (f.code = ObjectField → f.offset % W = 0)) ∧
      (∀ c, parseFieldTable W B class_ decls = .ok c → decls ≠ [] →
        c.fieldTable = some st.fields) := by
  obtain ⟨st, hst, hlen, hall⟩ := parseFields_layout W class_ decls hW hspec
  exact ⟨st, hst, hlen, fun f hf => (hall f hf).2,
    fun c hc hne => parseFieldTable_fieldTable W B class_ decls st hst c hc hne⟩

theorem parseFieldTable_instance_offsets_witness :
    ∃ st, parseFields 4 (freshClass 0 [65, 0] (some sampleRoot)) [declByteB, declRefF]
        = .ok st ∧
      st.fields.length = [declByteB, declRefF].length ∧
      (∀ f ∈ st.fields, f.flags &&& ACC_STATIC = 0 →
        initialMemberOffset 4 (freshClass 0 [65, 0] (some sampleRoot)) ≤ f.offset ∧
        (f.code = ObjectField → f.offset % 4 = 0)) ∧
      (∀ c, parseFieldTable 4 32 (freshClass 0 [65, 0] (some sampleRoot))
          [declByteB, declRefF] = .ok c → [declByteB, declRefF] ≠ [] →
        c.fieldTable = some st.fields) :=
  parseFieldTable_instance_offsets 4 32 (freshClass 0 [65, 0] (some sampleRoot))
    [declByteB, declRefF] (by decide) (by decide)

/-- C10: for every class and every field table with legal descriptors the
declaration loop of `parseFieldTable` returns, and every instance field whose
descriptor starts with `L` or `[` is given an offset that is a multiple of the
pointer width, whatever fields were declared before it; the field table stored
in the class is the one built by the loop. -/
theorem parseFieldTable_reference_fields_aligned (W B : Nat) (class_ : Class)
    (decls : List FieldDecl) (hW : 0 < W)
    (hspec : ∀ d ∈ decls, (fieldCode (d.spec.headD 0)).toBool = true) :
    ∃ st, parseFields W class_ decls = .ok st ∧
      st.fields.length = decls.length ∧
      (∀ f ∈ st.fields, f.flags &&& ACC_STATIC = 0 →
        (f.spec.headD 0 = 76 ∨ f.spec.headD 0 = 91) → f.offset % W = 0) ∧
      (∀ c, parseFieldTable W B class_ decls = .ok c → decls ≠ [] →
        c.fieldTable = some st.fields) := by
  obtain ⟨st, hst, hlen, hall⟩ := parseFields_layout W class_ decls hW hspec
  refine ⟨st, hst, hlen, ?_,
    fun c hc hne => parseFieldTable_fieldTable W B class_ decls st hst c hc hne⟩
  intro f hf hinst hdesc
  obtain ⟨hcode, hoff⟩ := hall f hf
  have hobj : f.code = ObjectField := by
    rcases hdesc with h | h <;> rw [h] at hcode <;> simp [fieldCode] at hcode <;>
      exact hcode.symm
  exact (hoff hinst).2 hobj

theorem parseFieldTable_reference_fields_aligned_witness :
    ∃ st, parseFields 4 (freshClass 0 [65, 0] (some sampleRoot))
        [declByteB, declRefF, declIntI] = .ok st ∧
      st.fields.length = [declByteB, declRefF, declIntI].length ∧
      (∀ f ∈ st.fields, f.flags &&& ACC_STATIC = 0 →
        (f.spec.headD 0 = 76 ∨ f.spec.headD 0 = 91) → f.offset % 4 = 0) ∧
      (∀ c, parseFieldTable 4 32 (freshClass 0 [65, 0] (some sampleRoot))
          [declByteB, declRefF, declIntI] = .ok c → [declByteB, declRefF, declIntI] ≠ [] →
        c.fieldTable = some st.fields) :=
  parseFieldTable_reference_fields_aligned 4 32 (freshClass 0 [65, 0] (some sampleRoot))
    [declByteB, declRefF, declIntI] (by decide) (by decide)

/-! ## Properties of the declaration loop of `parseMethodTable` -/

theorem methodEqual_iff (a b : Method) :
    methodEqual a b = true ↔ a.name = b.name ∧ a.spec = b.spec := by
  simp [methodEqual]

theorem methodEqual_symm (a b : Method) (h : methodEqual a b = true) :
    methodEqual b a = true := by
  rw [methodEqual_iff] at h ⊢
  exact ⟨h.1.symm, h.2.symm⟩

theorem methodEqual_trans (a b c : Method) (h1 : methodEqual a b = true)
    (h2 : methodEqual b c = true) : methodEqual a c = true := by
  rw [methodEqual_iff] at h1 h2 ⊢
  exact ⟨h1.1.trans h2.1, h1.2.trans h2.2⟩

theorem methodEqual_false_symm (a b : Method) (h : methodEqual a b = false) :
    methodEqual b a = false := by
  cases hba : methodEqual b a with
  | false => rfl
  | true => rw [methodEqual_symm b a hba] at h; exact absurd h (by simp)

/-- Two inherited methods with pairwise distinct signatures are the same method
when they are equal as methods. -/
theorem inherited_unique (S : List Method)
    (hS : S.Pairwise (fun a b => methodEqual a b = false)) (a b : Method)
    (ha : a ∈ S) (hb : b ∈ S) (h : methodEqual a b = true) : a = b := by
  by_contra hne
  have := List.Pairwise.forall (R := fun a b => methodEqual a b = false)
    (fun x y hxy => methodEqual_false_symm x y hxy) hS ha hb hne
  have this : methodEqual a b = false := this
  rw [h] at this
  exact absurd this (by simp)

/-- The invariant survives the insertion of a null-valued node for a method of
`T` (what the loop does for a native method). -/
theorem MethodInv.insert_native (methodHash : Method → Nat) (S T : List Method)
    (map : HashMap Method (Option Method)) (newVirtuals : List Method) (virtualCount : Nat)
    (hinv : MethodInv methodHash S T map newVirtuals virtualCount) (m : Method)
    (hm : m ∈ T) (hnative : m.flags &&& ACC_NATIVE ≠ 0) :
    MethodInv methodHash S T (hashMapInsert methodHash map m none) newVirtuals
      virtualCount := by
  obtain ⟨i1, _, _, i4⟩ := hashMapInsert_spec methodHash map m none hinv.wf
  refine ⟨i1, ?_, ?_, hinv.fresh, hinv.slots, hinv.count, hinv.offsets⟩
  · intro s hs
    obtain ⟨v, hv⟩ := hinv.inherited s hs
    exact ⟨v, i4.mem_iff.mpr (List.mem_cons_of_mem _ hv)⟩
  · intro n hn
    rcases List.mem_cons.mp (i4.mem_iff.mp hn) with hn | hn
    · rw [hn]; exact Or.inr (Or.inr ⟨hm, hnative, rfl⟩)
    · exact hinv.shape n hn

/-- The invariant survives a growth of `T` by a static method. -/
theorem MethodInv.add_static (methodHash : Method → Nat) (S T : List Method)
    (map : HashMap Method (Option Method)) (newVirtuals : List Method) (virtualCount : Nat)
    (hinv : MethodInv methodHash S T map newVirtuals virtualCount) (m : Method)
    (hm : m.flags &&& ACC_STATIC ≠ 0) :
    MethodInv methodHash S (T ++ [m]) map newVirtuals virtualCount := by
  refine ⟨hinv.wf, hinv.inherited, ?_, ?_, hinv.slots, hinv.count, ?_⟩
  · intro n hn
    rcases hinv.shape n hn with h | h | h
    · refine Or.inl ⟨h.1, ?_⟩
      rcases h.2 with h2 | ⟨x, hx, h2⟩
      · exact Or.inl h2
      · exact Or.inr ⟨x, List.mem_append_left _ hx, h2⟩
    · exact Or.inr (Or.inl h)
    · exact Or.inr (Or.inr ⟨List.mem_append_left _ h.1, h.2⟩)
  · intro x hx
    obtain ⟨h1, h2⟩ := hinv.fresh x hx
    exact ⟨List.mem_append_left _ h1, h2⟩
  · intro x hx hxs
    rcases List.mem_append.mp hx with hx | hx
    · exact hinv.offsets x hx hxs
    · have : x = m := by simpa using hx
      subst this
      exact absurd hxs hm

/-- The invariant survives the override step: the method takes the offset of
the key of the node found for it and becomes the node's value. -/
theorem MethodInv.override (methodHash : Method → Nat) (S T : List Method)
    (map : HashMap Method (Option Method)) (newVirtuals : List Method) (virtualCount : Nat)
    (hinv : MethodInv methodHash S T map newVirtuals virtualCount)
    (hS : S.Pairwise (fun a b => methodEqual a b = false))
    (m0 : Method) (p : Method × Option Method)
    (hdist : ∀ m ∈ T, methodEqual m0 m = false)
    (hfind : hashMapFindNode methodHash methodEqual map m0 = some p) :
    p.1 ∈ S ∧
    MethodInv methodHash S (T ++ [{ m0 with offset := p.1.offset }])
      (hashMapSetSecond methodHash methodEqual map m0 (some { m0 with offset := p.1.offset }))
      newVirtuals virtualCount := by
  obtain ⟨hp, hpe⟩ := hashMapFindNode_some methodHash methodEqual map m0 p hfind
  have hpS : p.1 ∈ S := by
    rcases hinv.shape p hp with h | h | h
    · exact h.1
    · have := hdist p.1 (hinv.fresh p.1 h.1).1
      rw [hpe] at this; exact absurd this (by simp)
    · have := hdist p.1 h.1
      rw [hpe] at this; exact absurd this (by simp)
  refine ⟨hpS, ?_⟩
  obtain ⟨s1, _, l1, l2, hold, hnew⟩ := hashMapSetSecond_found methodHash methodEqual map m0
    (some { m0 with offset := p.1.offset }) p hinv.wf hfind
  have hmeq : methodEqual p.1 { m0 with offset := p.1.offset } = true := by
    have := methodEqual_symm m0 p.1 hpe
    rw [methodEqual_iff] at this ⊢
    exact this
  refine ⟨s1, ?_, ?_, ?_, hinv.slots, hinv.count, ?_⟩
  · intro s hs
    obtain ⟨v, hv⟩ := hinv.inherited s hs
    rw [hold] at hv
    rw [hnew]
    rcases List.mem_append.mp hv with hv | hv
    · exact ⟨v, List.mem_append_left _ hv⟩
    · rcases List.mem_cons.mp hv with hv | hv
      · refine ⟨some { m0 with offset := p.1.offset }, ?_⟩
        have : s = p.1 := by rw [← hv]
        rw [this]; simp
      · exact ⟨v, by simp [hv]⟩
  · intro n hn
    rw [hnew] at hn
    have hshape : n ∈ map.nodes →
        (n.1 ∈ S ∧ (n.2 = some n.1 ∨
          ∃ m ∈ T ++ [{ m0 with offset := p.1.offset }],
            n.2 = some m ∧ methodEqual n.1 m = true ∧ m.offset = n.1.offset)) ∨
        (n.1 ∈ newVirtuals ∧ n.2 = some n.1) ∨
        (n.1 ∈ T ++ [{ m0 with offset := p.1.offset }] ∧ n.1.flags &&& ACC_NATIVE ≠ 0 ∧
          n.2 = none) := by
      intro h
      rcases hinv.shape n h with h | h | h
      · refine Or.inl ⟨h.1, ?_⟩
        rcases h.2 with h2 | ⟨x, hx, h2⟩
        · exact Or.inl h2
        · exact Or.inr ⟨x, List.mem_append_left _ hx, h2⟩
      · exact Or.inr (Or.inl h)
      · exact Or.inr (Or.inr ⟨List.mem_append_left _ h.1, h.2⟩)
    rcases List.mem_append.mp hn with hn | hn
    · exact hshape (by rw [hold]; exact List.mem_append_left _ hn)
    · rcases List.mem_cons.mp hn with hn | hn
      · rw [hn]
        exact Or.inl ⟨hpS, Or.inr ⟨_, by simp, rfl, hmeq, rfl⟩⟩
      · exact hshape (by rw [hold]; simp [hn])
  · intro x hx
    obtain ⟨h1, h2⟩ := hinv.fresh x hx
    exact ⟨List.mem_append_left _ h1, h2⟩
  · intro x hx hxs
    rcases List.mem_append.mp hx with hx | hx
    · exact hinv.offsets x hx hxs
    · have : x = { m0 with offset := p.1.offset } := by simpa using hx
      subst this
      constructor
      · intro s hs hse
        have : p.1 = s := inherited_unique S hS p.1 s hpS hs
          (methodEqual_trans _ _ _ hmeq hse)
        rw [← this]
      · intro hall
        have := hall p.1 hpS
        rw [methodEqual_symm _ _ hmeq] at this
        exact absurd this (by simp)
/-- The invariant survives the allocation of a new slot: the method takes the
running count as offset, joins the new virtuals and is inserted under
itself. -/
theorem MethodInv.allocate (methodHash : Method → Nat) (S T : List Method)
    (map : HashMap Method (Option Method)) (newVirtuals : List Method) (virtualCount : Nat)
    (hinv : MethodInv methodHash S T map newVirtuals virtualCount)
    (hhash : ∀ a b, methodEqual a b = true → methodHash a = methodHash b)
    (m0 : Method) (hm0 : m0.flags &&& ACC_STATIC = 0)
    (hfind : hashMapFindNode methodHash methodEqual map m0 = none) :
    (∀ s ∈ S, methodEqual m0 s = false) ∧
    MethodInv methodHash S (T ++ [{ m0 with offset := virtualCount }])
      (hashMapInsert methodHash map { m0 with offset := virtualCount }
        (some { m0 with offset := virtualCount }))
      (newVirtuals ++ [{ m0 with offset := virtualCount }]) (virtualCount + 1) := by
  have hnone := hashMapFindNode_none methodHash methodEqual map m0 hinv.wf
    (fun k hk => hhash m0 k hk) hfind
  have hS0 : ∀ s ∈ S, methodEqual m0 s = false := by
    intro s hs
    obtain ⟨v, hv⟩ := hinv.inherited s hs
    exact hnone (s, v) hv
  have hS1 : ∀ s ∈ S, methodEqual { m0 with offset := virtualCount } s = false := hS0
  refine ⟨hS0, ?_⟩
  obtain ⟨i1, _, _, i4⟩ := hashMapInsert_spec methodHash map { m0 with offset := virtualCount }
    (some { m0 with offset := virtualCount }) hinv.wf
  refine ⟨i1, ?_, ?_, ?_, ?_, ?_, ?_⟩
  · intro s hs
    obtain ⟨v, hv⟩ := hinv.inherited s hs
    exact ⟨v, i4.mem_iff.mpr (List.mem_cons_of_mem _ hv)⟩
  · intro n hn
    rcases List.mem_cons.mp (i4.mem_iff.mp hn) with hn | hn
    · rw [hn]; exact Or.inr (Or.inl ⟨by simp, rfl⟩)
    · rcases hinv.shape n hn with h | h | h
      · refine Or.inl ⟨h.1, ?_⟩
        rcases h.2 with h2 | ⟨x, hx, h2⟩
        · exact Or.inl h2
        · exact Or.inr ⟨x, List.mem_append_left _ hx, h2⟩
      · exact Or.inr (Or.inl ⟨List.mem_append_left _ h.1, h.2⟩)
      · exact Or.inr (Or.inr ⟨List.mem_append_left _ h.1, h.2⟩)
  · intro x hx
    rcases List.mem_append.mp hx with hx | hx
    · obtain ⟨h1, h2⟩ := hinv.fresh x hx
      exact ⟨List.mem_append_left _ h1, h2⟩
    · have : x = { m0 with offset := virtualCount } := by simpa using hx
      subst this
      exact ⟨by simp, hm0, hS1⟩
  · intro j x hx
    by_cases hj : j < newVirtuals.length
    · rw [List.getElem?_append_left hj] at hx
      exact hinv.slots j x hx
    · have hj : newVirtuals.length ≤ j := Nat.le_of_not_lt hj
      rw [List.getElem?_append_right hj] at hx
      have hidx : j - newVirtuals.length = 0 := by
        by_contra hne
        have : ([{ m0 with offset := virtualCount }] : List Method)[j - newVirtuals.length]?
            = none := by
          apply List.getElem?_eq_none
          simp; omega
        rw [this] at hx
        exact absurd hx (by simp)
      rw [hidx] at hx
      have hx : { m0 with offset := virtualCount } = x := by simpa using hx
      rw [← hx]
      show virtualCount = S.length + j
      rw [hinv.count]; omega
  · rw [hinv.count]; simp; omega
  · intro x hx hxs
    rcases List.mem_append.mp hx with hx | hx
    · obtain ⟨h1, h2⟩ := hinv.offsets x hx hxs
      exact ⟨h1, fun hall => List.mem_append_left _ (h2 hall)⟩
    · have : x = { m0 with offset := virtualCount } := by simpa using hx
      subst this
      refine ⟨?_, fun _ => by simp⟩
      intro s hs hse
      rw [hS1 s hs] at hse
      exact absurd hse (by simp)

/-- What one iteration of the declaration loop does: it appends one method
with the flags, name and descriptor of the declaration, and keeps the
invariant, provided no method created before has the same name and
descriptor. -/
theorem parseMethod_inv (methodHash : Method → Nat) (owner : Bytes) (S : List Method)
    (st st1 : MethodLoop) (d : MethodDecl)
    (hhash : ∀ a b, methodEqual a b = true → methodHash a = methodHash b)
    (hS : S.Pairwise (fun a b => methodEqual a b = false))
    (hinv : MethodInv methodHash S st.methodTable st.virtualMap st.newVirtuals
      st.virtualCount)
    (hnat : st.nativeMap.array = none)
    (hdist : ∀ m ∈ st.methodTable, ¬ (m.name = d.name ∧ m.spec = d.spec))
    (h : parseMethod methodHash owner st d = .ok st1) :
    MethodInv methodHash S st1.methodTable st1.virtualMap st1.newVirtuals
      st1.virtualCount ∧
    st1.nativeMap.array = none ∧
    ∃ m, st1.methodTable = st.methodTable ++ [m] ∧ m.flags = d.flags ∧
      m.name = d.name ∧ m.spec = d.spec ∧ m.class_ = owner := by
  unfold parseMethod at h
  cases hc : parameterCount d.spec with
  | error e => rw [hc] at h; exact absurd h (by simp)
  | ok count =>
    cases hf : parameterFootprint d.spec with
    | error e => rw [hc, hf] at h; exact absurd h (by simp)
    | ok footprint =>
      rw [hc, hf] at h
      dsimp only at h
      have h := (Except.ok.inj h).symm
      -- the method as created
      have hm0 : (newMethod owner d count footprint).flags = d.flags ∧
          (newMethod owner d count footprint).name = d.name ∧
          (newMethod owner d count footprint).spec = d.spec ∧
          (newMethod owner d count footprint).class_ = owner := by
        unfold newMethod; split <;> exact ⟨rfl, rfl, rfl, rfl⟩
      generalize newMethod owner d count footprint = m0 at h hm0
      have hdist0 : ∀ m ∈ st.methodTable, methodEqual m0 m = false := by
        intro m hm
        cases hmm : methodEqual m0 m with
        | false => rfl
        | true =>
          rw [methodEqual_iff, hm0.2.1, hm0.2.2.1] at hmm
          exact absurd ⟨hmm.1.symm, hmm.2.symm⟩ (hdist m hm)
      -- the first `if`
      have hslot : MethodInv methodHash S (st.methodTable ++ [(assignSlot methodHash st m0).2])
            (assignSlot methodHash st m0).1.virtualMap
            (assignSlot methodHash st m0).1.newVirtuals
            (assignSlot methodHash st m0).1.virtualCount ∧
          (assignSlot methodHash st m0).1.nativeMap = st.nativeMap ∧
          (assignSlot methodHash st m0).1.methodTable = st.methodTable ∧
          (assignSlot methodHash st m0).2.flags = m0.flags ∧
          (assignSlot methodHash st m0).2.name = m0.name ∧
          (assignSlot methodHash st m0).2.spec = m0.spec ∧
          (assignSlot methodHash st m0).2.class_ = m0.class_ := by
        unfold assignSlot
        by_cases hst : m0.flags &&& ACC_STATIC ≠ 0
        · rw [if_pos hst]
          refine ⟨?_, ?_, ?_, rfl, rfl, rfl, rfl⟩
          · have := MethodInv.add_static methodHash S _ _ _ _ hinv m0 hst
            split <;> exact this
          · split <;> rfl
          · split <;> rfl
        · rw [if_neg hst]
          have hst : m0.flags &&& ACC_STATIC = 0 := by simpa using hst
          cases hfind : hashMapFindNode methodHash methodEqual st.virtualMap m0 with
          | some p =>
            exact ⟨(MethodInv.override methodHash S _ _ _ _ hinv hS m0 p hdist0 hfind).2,
              rfl, rfl, rfl, rfl, rfl, rfl⟩
          | none =>
            exact ⟨(MethodInv.allocate methodHash S _ _ _ _ hinv hhash m0 hst hfind).2,
              rfl, rfl, rfl, rfl, rfl, rfl⟩
      generalize assignSlot methodHash st m0 = r at h hslot
      obtain ⟨r1, r2⟩ := r
      obtain ⟨k1, k2, k3, k4, k5, k6, k7⟩ := hslot
      dsimp only at k1 k2 k3 k4 k5 k6 k7 h
      -- the second `if`
      have hnative : MethodInv methodHash S (st.methodTable ++ [r2])
            (registerNative methodHash r1 r2).virtualMap
            (registerNative methodHash r1 r2).newVirtuals
            (registerNative methodHash r1 r2).virtualCount ∧
          (registerNative methodHash r1 r2).nativeMap.array = none ∧
          (registerNative methodHash r1 r2).methodTable = st.methodTable := by
        unfold registerNative
        by_cases hn : r2.flags &&& ACC_NATIVE ≠ 0
        · rw [if_pos hn]
          have hfn : hashMapFindNode methodHash methodEqual r1.nativeMap r2 = none := by
            unfold hashMapFindNode
            rw [k2, hnat]
          rw [hfn]
          exact ⟨MethodInv.insert_native methodHash S _ _ _ _ k1 r2 (by simp) hn,
            by rw [k2]; exact hnat, k3⟩
        · rw [if_neg hn]
          exact ⟨k1, by rw [k2]; exact hnat, k3⟩
      generalize registerNative methodHash r1 r2 = st2 at h hnative
      obtain ⟨n1, n2, n3⟩ := hnative
      subst h
      dsimp only
      rw [n3]
      exact ⟨n1, n2, r2, rfl, by rw [k4, hm0.1], by rw [k5, hm0.2.1],
        by rw [k6, hm0.2.2.1], by rw [k7, hm0.2.2.2]⟩
theorem insertInherited_spec (methodHash : Method → Nat) (S : List Method)
    (map : HashMap Method (Option Method)) (hwf : map.WF methodHash) :
    ∃ map1, insertInherited methodHash map (S.map some) = .ok map1 ∧
      map1.WF methodHash ∧
      ∀ n, n ∈ map1.nodes ↔ (n ∈ map.nodes ∨ ∃ s ∈ S, n = (s, some s)) := by
  induction S generalizing map with
  | nil => exact ⟨map, rfl, hwf, fun n => by simp⟩
  | cons s rest ih =>
    obtain ⟨i1, _, _, i4⟩ := hashMapInsert_spec methodHash map s (some s) hwf
    obtain ⟨map1, h1, h2, h3⟩ := ih (hashMapInsert methodHash map s (some s)) i1
    refine ⟨map1, by simpa [insertInherited] using h1, h2, ?_⟩
    intro n
    rw [h3 n, i4.mem_iff]
    simp only [List.mem_cons]
    constructor
    · rintro ((h | h) | ⟨x, hx, h⟩)
      · exact Or.inr ⟨s, Or.inl rfl, h⟩
      · exact Or.inl h
      · exact Or.inr ⟨x, Or.inr hx, h⟩
    · rintro (h | ⟨x, hx | hx, h⟩)
      · exact Or.inl (Or.inr h)
      · subst hx; exact Or.inl (Or.inl h)
      · exact Or.inr ⟨x, hx, h⟩

theorem makeHashMap_WF (methodHash : Method → Nat) :
    (makeHashMap Method (Option Method)).WF methodHash := by
  intro a ha
  simp [makeHashMap] at ha

theorem unionInterfaces_zero (methodHash : Method → Nat)
    (map : HashMap Method (Option Method)) (table : List (Option (TableEntry Class)))
    (htable : ∀ e ∈ table, ∃ i, e = some (.interface i)) :
    unionInterfaces methodHash (map, 0) table = .ok (map, 0) := by
  induction table with
  | nil => rfl
  | cons e rest ih =>
    obtain ⟨i, hi⟩ := htable e (List.mem_cons_self _ _)
    subst hi
    simp only [unionInterfaces, unionVirtuals, Nat.not_lt_zero, if_false]
    exact ih (fun x hx => htable x (List.mem_cons_of_mem _ hx))

/-- The state in which the declaration loop starts satisfies the invariant, for
the methods `S` of the inherited virtual table (none for an interface, whose
union loop never runs its body since the running count starts at zero). -/
theorem initialMethodLoop_inv (methodHash : Method → Nat) (class_ : Class)
    (S : List Method)
    (hS : (superVirtualTable class_).getD [] = S.map some)
    (hitable : class_.flags &&& ACC_INTERFACE ≠ 0 →
      ∀ e ∈ class_.interfaceTable.getD [], ∃ i, e = some (.interface i)) :
    ∃ st, initialMethodLoop methodHash class_ = .ok st ∧
      MethodInv methodHash S st.methodTable st.virtualMap st.newVirtuals st.virtualCount ∧
      st.nativeMap.array = none ∧ st.methodTable = [] ∧ st.newVirtuals = [] ∧
      st.declaredVirtualCount = 0 ∧ st.virtualCount = S.length ∧
      st.initializer = class_.initializer := by
  have hempty : MethodInv methodHash [] [] (makeHashMap Method (Option Method)) [] 0 :=
    ⟨makeHashMap_WF methodHash, by simp, by simp [HashMap.nodes, makeHashMap], by simp,
      by simp, by simp, by simp⟩
  unfold initialMethodLoop
  dsimp only
  by_cases hi : class_.flags &&& ACC_INTERFACE ≠ 0
  · rw [if_pos hi]
    have hS0 : S = [] := by
      unfold superVirtualTable at hS
      rw [if_pos hi] at hS
      cases S with
      | nil => rfl
      | cons a b => simp at hS
    subst hS0
    rw [unionInterfaces_zero methodHash _ _ (hitable hi)]
    exact ⟨_, rfl, hempty, rfl, rfl, rfl, rfl, rfl, rfl⟩
  · rw [if_neg hi]
    cases hsvt : superVirtualTable class_ with
    | none =>
      rw [hsvt] at hS
      have hS0 : S = [] := by
        cases S with
        | nil => rfl
        | cons a b => simp at hS
      subst hS0
      exact ⟨_, rfl, hempty, rfl, rfl, rfl, rfl, rfl, rfl⟩
    | some table =>
      rw [hsvt] at hS
      have hS : table = S.map some := hS
      subst hS
      obtain ⟨map1, h1, h2, h3⟩ := insertInherited_spec methodHash S
        (makeHashMap Method (Option Method)) (makeHashMap_WF methodHash)
      dsimp only
      rw [h1]
      refine ⟨_, rfl, ?_, rfl, rfl, rfl, rfl, by simp, rfl⟩
      refine ⟨h2, ?_, ?_, by simp, by simp, by simp, by simp⟩
      · intro s hs
        exact ⟨some s, (h3 _).mpr (Or.inr ⟨s, hs, rfl⟩)⟩
      · intro n hn
        rcases (h3 n).mp hn with h | ⟨s, hs, h⟩
        · simp [HashMap.nodes, makeHashMap] at h
        · subst h
          exact Or.inl ⟨hs, Or.inl rfl⟩

/-- The declaration loop keeps the invariant and appends, for each declaration
in order, one method with its flags, name and descriptor, provided the
declarations (and the methods created before) have pairwise distinct names and
descriptors. -/
theorem parseMethodsFrom_inv (methodHash : Method → Nat) (owner : Bytes) (S : List Method)
    (hhash : ∀ a b, methodEqual a b = true → methodHash a = methodHash b)
    (hS : S.Pairwise (fun a b => methodEqual a b = false))
    (decls : List MethodDecl) (st st1 : MethodLoop)
    (hinv : MethodInv methodHash S st.methodTable st.virtualMap st.newVirtuals
      st.virtualCount)
    (hnat : st.nativeMap.array = none)
    (hdecls : decls.Pairwise (fun a b => ¬ (a.name = b.name ∧ a.spec = b.spec)))
    (hdist : ∀ m ∈ st.methodTable, ∀ d ∈ decls, ¬ (m.name = d.name ∧ m.spec = d.spec))
    (h : parseMethodsFrom methodHash owner st decls = .ok st1) :
    MethodInv methodHash S st1.methodTable st1.virtualMap st1.newVirtuals
      st1.virtualCount ∧
    st1.nativeMap.array = none ∧
    ∃ ms, st1.methodTable = st.methodTable ++ ms ∧
      List.Forall₂ (fun m d => m.flags = d.flags ∧ m.name = d.name ∧ m.spec = d.spec ∧
        m.class_ = owner) ms decls := by
  induction decls generalizing st with
  | nil =>
    simp only [parseMethodsFrom] at h
    have h := (Except.ok.inj h).symm
    subst h
    exact ⟨hinv, hnat, [], by simp, List.Forall₂.nil⟩
  | cons d ds ih =>
    simp only [parseMethodsFrom] at h
    cases h1 : parseMethod methodHash owner st d with
    | error e => rw [h1] at h; exact absurd h (by simp)
    | ok st2 =>
      rw [h1] at h
      dsimp only at h
      obtain ⟨p1, p2, m, p3, p4, p5, p6, p7⟩ := parseMethod_inv methodHash owner S st st2 d
        hhash hS hinv hnat (fun x hx => hdist x hx d (List.mem_cons_self _ _)) h1
      have hd := List.pairwise_cons.mp hdecls
      obtain ⟨q1, q2, ms, q3, q4⟩ := ih st2 p1 p2 hd.2 (by
        intro x hx y hy
        rw [p3] at hx
        rcases List.mem_append.mp hx with hx | hx
        · exact hdist x hx y (List.mem_cons_of_mem _ hy)
        · have : x = m := by simpa using hx
          subst this
          rw [p5, p6]
          exact hd.1 y hy) h
      refine ⟨q1, q2, m :: ms, ?_, List.Forall₂.cons ⟨p4, p5, p6, p7⟩ q4⟩
      rw [q3, p3]; simp

theorem parseMethod_total (methodHash : Method → Nat) (owner : Bytes) (st : MethodLoop)
    (d : MethodDecl)
    (hd : (parameterCount d.spec).toBool = true ∧ (parameterFootprint d.spec).toBool = true) :
    ∃ st1, parseMethod methodHash owner st d = .ok st1 := by
  obtain ⟨c, hc⟩ := toBool_ok hd.1
  obtain ⟨f, hf⟩ := toBool_ok hd.2
  unfold parseMethod
  rw [hc, hf]
  exact ⟨_, rfl⟩

theorem parseMethodsFrom_total (methodHash : Method → Nat) (owner : Bytes)
    (decls : List MethodDecl)
    (hd : ∀ d ∈ decls,
      (parameterCount d.spec).toBool = true ∧ (parameterFootprint d.spec).toBool = true)
    (st : MethodLoop) :
    ∃ st1, parseMethodsFrom methodHash owner st decls = .ok st1 := by
  induction decls generalizing st with
  | nil => exact ⟨st, rfl⟩
  | cons d ds ih =>
    obtain ⟨st1, h1⟩ := parseMethod_total methodHash owner st d (hd d (List.mem_cons_self _ _))
    simp only [parseMethodsFrom, h1]
    exact ih (fun x hx => hd x (List.mem_cons_of_mem _ hx)) st1
/-- The second loop changes nothing of a method but its code. -/
theorem linkNative_frame (methodHash : Method → Nat)
    (nativeMap : HashMap Method (Option Method)) (m m1 : Method)
    (h : linkNative methodHash nativeMap m = .ok m1) :
    m1.flags = m.flags ∧ m1.offset = m.offset ∧ m1.name = m.name ∧ m1.spec = m.spec ∧
    m1.class_ = m.class_ := by
  unfold linkNative at h
  split at h
  · dsimp only at h
    split at h
    · exact absurd h (by simp)
    · have h := (Except.ok.inj h).symm
      subst h
      exact ⟨rfl, rfl, rfl, rfl, rfl⟩
  · have h := (Except.ok.inj h).symm
    subst h
    exact ⟨rfl, rfl, rfl, rfl, rfl⟩

theorem linked_frame (methodHash : Method → Nat)
    (nativeMap : HashMap Method (Option Method)) (owner : Bytes) (m : Method) :
    (linked methodHash nativeMap owner m).flags = m.flags ∧
    (linked methodHash nativeMap owner m).offset = m.offset ∧
    (linked methodHash nativeMap owner m).name = m.name ∧
    (linked methodHash nativeMap owner m).spec = m.spec ∧
    (linked methodHash nativeMap owner m).class_ = m.class_ := by
  unfold linked
  split
  · cases h : linkNative methodHash nativeMap m with
    | error e => exact ⟨rfl, rfl, rfl, rfl, rfl⟩
    | ok m1 => exact linkNative_frame methodHash nativeMap m m1 h
  · exact ⟨rfl, rfl, rfl, rfl, rfl⟩

theorem linkNatives_frame (methodHash : Method → Nat)
    (nativeMap : HashMap Method (Option Method)) (table table1 : List Method)
    (h : linkNatives methodHash nativeMap table = .ok table1) :
    List.Forall₂ (fun m1 m => m1.flags = m.flags ∧ m1.offset = m.offset ∧
      m1.name = m.name ∧ m1.spec = m.spec ∧ m1.class_ = m.class_) table1 table := by
  induction table generalizing table1 with
  | nil =>
    simp only [linkNatives] at h
    have h := (Except.ok.inj h).symm
    subst h
    exact List.Forall₂.nil
  | cons m rest ih =>
    simp only [linkNatives] at h
    cases h1 : linkNative methodHash nativeMap m with
    | error e => rw [h1] at h; exact absurd h (by simp)
    | ok m1 =>
      rw [h1] at h
      dsimp only at h
      cases h2 : linkNatives methodHash nativeMap rest with
      | error e => rw [h2] at h; exact absurd h (by simp)
      | ok rest1 =>
        rw [h2] at h
        dsimp only at h
        have h := (Except.ok.inj h).symm
        subst h
        exact List.Forall₂.cons (linkNative_frame methodHash nativeMap m m1 h1) (ih rest1 h2)

/-- The ways in which `parseMethodTable` returns a class: the loops returned,
the method table is the one the second loop produced, and the virtual table and
the interface table are set by one of the four paths of its last part. -/
theorem parseMethodTable_ok (methodHash : Method → Nat) (class_ c : Class)
    (decls : List MethodDecl) (h : parseMethodTable methodHash class_ decls = .ok c) :
    ∃ st table, parseMethods methodHash class_ decls = .ok st ∧
      linkNatives methodHash st.nativeMap st.methodTable = .ok table ∧
      c.methodTable = (if decls.length ≠ 0 then some table else class_.methodTable) ∧
      ((st.declaredVirtualCount = 0 ∧ ∃ s, class_.super = some s ∧
          c.interfaceTable = s.interfaceTable ∧ c.virtualTable = superVirtualTable class_) ∨
       (st.declaredVirtualCount ≠ 0 ∧ st.virtualCount ≠ 0 ∧
          class_.flags &&& ACC_INTERFACE ≠ 0 ∧ c.interfaceTable = class_.interfaceTable ∧
          ∃ vtable, storeAll (List.replicate st.virtualCount none) 0
              ((hashMapNodes st.virtualMap).map
                (fun n => some (linked methodHash st.nativeMap class_.name n.1))) = .ok vtable ∧
            c.virtualTable = some vtable) ∨
       (st.declaredVirtualCount ≠ 0 ∧ st.virtualCount ≠ 0 ∧
          class_.flags &&& ACC_INTERFACE = 0 ∧
          ∃ entries vtable,
            concreteEntries
              (fun m => (hashMapFind methodHash methodEqual st.virtualMap m).map
                (linked methodHash st.nativeMap class_.name))
              (linked methodHash st.nativeMap class_.name)
              (superVirtualTable class_) st.newVirtuals = .ok entries ∧
            storeAll (List.replicate st.virtualCount none) 0 entries = .ok vtable ∧
            c.virtualTable = some vtable ∧
            ((class_.interfaceTable = none ∧ c.interfaceTable = none) ∨
             ∃ itable itable1, class_.interfaceTable = some itable ∧
               fillInterfaceVtables
                 (fun m => (hashMapFind methodHash methodEqual st.virtualMap m).map
                   (linked methodHash st.nativeMap class_.name)) itable = .ok itable1 ∧
               c.interfaceTable = some itable1)) ∨
       (st.declaredVirtualCount ≠ 0 ∧ st.virtualCount = 0 ∧
          c.virtualTable = class_.virtualTable ∧
          c.interfaceTable = class_.interfaceTable)) := by
  unfold parseMethodTable at h
  cases hst : parseMethods methodHash class_ decls with
  | error e => rw [hst] at h; exact absurd h (by simp)
  | ok st =>
    rw [hst] at h
    dsimp only at h
    cases hl : linkNatives methodHash st.nativeMap st.methodTable with
    | error e => rw [hl] at h; exact absurd h (by simp)
    | ok table =>
      rw [hl] at h
      dsimp only at h
      have hc1 : ∀ ini, (storeMethodTable class_ decls.length table ini).interfaceTable
            = class_.interfaceTable ∧
          (storeMethodTable class_ decls.length table ini).virtualTable
            = class_.virtualTable ∧
          (storeMethodTable class_ decls.length table ini).methodTable
            = (if decls.length ≠ 0 then some table else class_.methodTable) := by
        intro ini
        unfold storeMethodTable
        split <;> exact ⟨rfl, rfl, rfl⟩
      have hc1 := hc1 (st.initializer.map (linked methodHash st.nativeMap class_.name))
      generalize storeMethodTable class_ decls.length table
        (st.initializer.map (linked methodHash st.nativeMap class_.name)) = class1 at h hc1
      refine ⟨st, table, rfl, hl, ?_⟩
      by_cases hd : st.declaredVirtualCount = 0
      · rw [if_pos hd] at h
        cases hs : class_.super with
        | none => rw [hs] at h; exact absurd h (by simp)
        | some s =>
          rw [hs] at h
          dsimp only at h
          have h := (Except.ok.inj h).symm
          subst h
          exact ⟨hc1.2.2, Or.inl ⟨hd, s, rfl, rfl, rfl⟩⟩
      · rw [if_neg hd] at h
        by_cases hv : st.virtualCount ≠ 0
        · rw [if_pos hv] at h
          by_cases hi : class_.flags &&& ACC_INTERFACE ≠ 0
          · rw [if_pos hi] at h
            cases hsa : storeAll (List.replicate st.virtualCount none) 0
              ((hashMapNodes st.virtualMap).map
                (fun n => some (linked methodHash st.nativeMap class_.name n.1))) with
            | error e => rw [hsa] at h; exact absurd h (by simp)
            | ok vtable =>
              rw [hsa] at h
              dsimp only at h
              have h := (Except.ok.inj h).symm
              subst h
              exact ⟨hc1.2.2, Or.inr (Or.inl ⟨hd, hv, hi, hc1.1, vtable, rfl, rfl⟩)⟩
          · rw [if_neg hi] at h
            have hi : class_.flags &&& ACC_INTERFACE = 0 := by simpa using hi
            cases hce : concreteEntries
              (fun m => (hashMapFind methodHash methodEqual st.virtualMap m).map
                (linked methodHash st.nativeMap class_.name))
              (linked methodHash st.nativeMap class_.name)
              (superVirtualTable class_) st.newVirtuals with
            | error e => rw [hce] at h; exact absurd h (by simp)
            | ok entries =>
              rw [hce] at h
              dsimp only at h
              cases hsa : storeAll (List.replicate st.virtualCount none) 0 entries with
              | error e => rw [hsa] at h; exact absurd h (by simp)
              | ok vtable =>
                rw [hsa] at h
                dsimp only at h
                rw [hc1.1] at h
                cases hci : class_.interfaceTable with
                | none =>
                  rw [hci] at h
                  dsimp only at h
                  have h := (Except.ok.inj h).symm
                  subst h
                  exact ⟨hc1.2.2, Or.inr (Or.inr (Or.inl ⟨hd, hv, hi, entries, vtable, rfl, hsa,
                    rfl, Or.inl ⟨rfl, rfl⟩⟩))⟩
                | some itable =>
                  rw [hci] at h
                  dsimp only at h
                  cases hfi : fillInterfaceVtables
                    (fun m => (hashMapFind methodHash methodEqual st.virtualMap m).map
                      (linked methodHash st.nativeMap class_.name)) itable with
                  | error e => rw [hfi] at h; exact absurd h (by simp)
                  | ok itable1 =>
                    rw [hfi] at h
                    dsimp only at h
                    have h := (Except.ok.inj h).symm
                    subst h
                    exact ⟨hc1.2.2, Or.inr (Or.inr (Or.inl ⟨hd, hv, hi, entries, vtable, rfl,
                      hsa, rfl, Or.inr ⟨itable, itable1, rfl, hfi, rfl⟩⟩))⟩
        · rw [if_neg hv] at h
          have hv : st.virtualCount = 0 := by simpa using hv
          have h := (Except.ok.inj h).symm
          subst h
          exact ⟨hc1.2.2, Or.inr (Or.inr (Or.inr ⟨hd, hv, hc1.2.1, hc1.1⟩))⟩

theorem forall2_getElem? {α β : Type} (R : α → β → Prop) (l1 : List α) (l2 : List β)
    (h : List.Forall₂ R l1 l2) (k : Nat) (b : β) (hb : l2[k]? = some b) :
    ∃ a, l1[k]? = some a ∧ R a b := by
  induction h generalizing k with
  | nil => simp at hb
  | cons hab _ ih =>
    cases k with
    | zero =>
      simp only [List.getElem?_cons_zero, Option.some.injEq] at hb
      subst hb
      exact ⟨_, by simp, hab⟩
    | succ j =>
      simp only [List.getElem?_cons_succ] at hb ⊢
      exact ih j hb

theorem forall2_mem_left {α β : Type} (R : α → β → Prop) (l1 : List α) (l2 : List β)
    (h : List.Forall₂ R l1 l2) (a : α) (ha : a ∈ l1) : ∃ b ∈ l2, R a b := by
  induction h with
  | nil => simp at ha
  | cons hab _ ih =>
    rcases List.mem_cons.mp ha with ha | ha
    · subst ha; exact ⟨_, List.mem_cons_self _ _, hab⟩
    · obtain ⟨b, hb, hr⟩ := ih ha
      exact ⟨b, List.mem_cons_of_mem _ hb, hr⟩

/-- The start of `parseMethodTable` and its declaration loop return, with the
invariant, one method per declaration in order. -/
theorem parseMethods_spec (methodHash : Method → Nat) (class_ : Class) (S : List Method)
    (decls : List MethodDecl)
    (hS : (superVirtualTable class_).getD [] = S.map some)
    (hitable : class_.flags &&& ACC_INTERFACE ≠ 0 →
      ∀ e ∈ class_.interfaceTable.getD [], ∃ i, e = some (.interface i))
    (hSsig : S.Pairwise (fun a b => methodEqual a b = false))
    (hhash : ∀ a b, methodEqual a b = true → methodHash a = methodHash b)
    (hdecls : decls.Pairwise (fun a b => ¬ (a.name = b.name ∧ a.spec = b.spec)))
    (hspec : ∀ d ∈ decls,
      (parameterCount d.spec).toBool = true ∧ (parameterFootprint d.spec).toBool = true) :
    ∃ st, parseMethods methodHash class_ decls = .ok st ∧
      MethodInv methodHash S st.methodTable st.virtualMap st.newVirtuals st.virtualCount ∧
      st.nativeMap.array = none ∧
      List.Forall₂ (fun m d => m.flags = d.flags ∧ m.name = d.name ∧ m.spec = d.spec ∧
        m.class_ = class_.name) st.methodTable decls := by
  obtain ⟨st0, h0, hinv0, hnat0, hT0, _⟩ := initialMethodLoop_inv methodHash class_ S hS hitable
  obtain ⟨st, hst⟩ := parseMethodsFrom_total methodHash class_.name decls hspec st0
  obtain ⟨i1, i2, ms, i3, i4⟩ := parseMethodsFrom_inv methodHash class_.name S hhash hSsig decls
    st0 st hinv0 hnat0 hdecls (by rw [hT0]; simp) hst
  refine ⟨st, ?_, i1, i2, ?_⟩
  · unfold parseMethods
    rw [h0]
    exact hst
  · rw [i3, hT0]
    simpa using i4

theorem superVirtualTable_concrete (class_ sup : Class) (table : List (Option Method))
    (hconcrete : class_.flags &&& ACC_INTERFACE = 0) (hsuper : class_.super = some sup)
    (hvtable : sup.virtualTable = some table) :
    superVirtualTable class_ = some table := by
  unfold superVirtualTable
  rw [if_neg (by simp [hconcrete]), hsuper]
  exact hvtable

theorem parseMethodTable_offsets (methodHash : Method → Nat) (class_ c : Class)
    (decls : List MethodDecl) (st : MethodLoop)
    (hst : parseMethods methodHash class_ decls = .ok st)
    (hc : parseMethodTable methodHash class_ decls = .ok c) (hne : decls ≠ []) :
    ∃ table, c.methodTable = some table ∧
      List.Forall₂ (fun m1 m => m1.flags = m.flags ∧ m1.offset = m.offset ∧
        m1.name = m.name ∧ m1.spec = m.spec ∧ m1.class_ = m.class_) table st.methodTable := by
  obtain ⟨st1, table, h1, h2, h3, _⟩ := parseMethodTable_ok methodHash class_ c decls hc
  rw [hst] at h1
  have h1 := Except.ok.inj h1
  subst h1
  have hlen : decls.length ≠ 0 := fun h0 => hne (List.length_eq_zero.mp h0)
  rw [if_pos hlen] at h3
  exact ⟨table, h3, linkNatives_frame methodHash _ _ table h2⟩

theorem linked_table_signature (table table0 : List Method)
    (h : List.Forall₂ (fun m1 m => m1.flags = m.flags ∧ m1.offset = m.offset ∧
      m1.name = m.name ∧ m1.spec = m.spec ∧ m1.class_ = m.class_) table table0) :
    table.map (fun m => (m.name, m.spec, m.offset))
      = table0.map (fun m => (m.name, m.spec, m.offset)) := by
  induction h with
  | nil => rfl
  | cons hab _ ih =>
    simp only [List.map_cons, ih]
    rw [hab.2.1, hab.2.2.1, hab.2.2.2.1]

/-- C1: in a concrete class whose superclass has a virtual table (without null
entry and with pairwise distinct signatures), for a class file whose methods
have pairwise distinct signatures and well-formed descriptors, the declaration
loop of `parseMethodTable` returns and gives every declared non-static method
whose name and descriptor equal those of a method of the superclass's virtual
table exactly that method's offset; the method table stored in the class
carries the same offsets. -/
theorem parseMethodTable_override_offset (methodHash : Method → Nat) (class_ sup : Class)
    (S : List Method) (decls : List MethodDecl)
    (hconcrete : class_.flags &&& ACC_INTERFACE = 0)
    (hsuper : class_.super = some sup)
    (hvtable : sup.virtualTable = some (S.map some))
    (hSsig : S.Pairwise (fun a b => methodEqual a b = false))
    (hhash : ∀ a b, methodEqual a b = true → methodHash a = methodHash b)
    (hdecls : decls.Pairwise (fun a b => ¬ (a.name = b.name ∧ a.spec = b.spec)))
    (hspec : ∀ d ∈ decls,
      (parameterCount d.spec).toBool = true ∧ (parameterFootprint d.spec).toBool = true) :
    ∃ st, parseMethods methodHash class_ decls = .ok st ∧
      st.methodTable.length = decls.length ∧
      (∀ (k : Nat) (d : MethodDecl) (s : Method), decls[k]? = some d →
        d.flags &&& ACC_STATIC = 0 → s ∈ S →
        d.name = s.name → d.spec = s.spec →
        ∃ m, st.methodTable[k]? = some m ∧ m.name = d.name ∧ m.spec = d.spec ∧
          m.offset = s.offset) ∧
      (∀ c, parseMethodTable methodHash class_ decls = .ok c → decls ≠ [] →
        ∃ table, c.methodTable = some table ∧
          table.map (fun m => (m.name, m.spec, m.offset))
            = st.methodTable.map (fun m => (m.name, m.spec, m.offset))) := by
  have hS := superVirtualTable_concrete class_ sup _ hconcrete hsuper hvtable
  obtain ⟨st, hst, hinv, _, hrel⟩ := parseMethods_spec methodHash class_ S decls
    (by rw [hS]; rfl) (fun hi => absurd hconcrete hi) hSsig hhash hdecls hspec
  refine ⟨st, hst, hrel.length_eq, ?_, ?_⟩
  · intro k d s hd hstatic hs hname hspec'
    obtain ⟨m, hm, hf, hn, hsp, _⟩ := forall2_getElem? _ _ _ hrel k d hd
    refine ⟨m, hm, hn, hsp, ?_⟩
    have hmem : m ∈ st.methodTable := List.mem_iff_getElem?.mpr ⟨k, hm⟩
    refine (hinv.offsets m hmem (by rw [hf]; exact hstatic)).1 s hs ?_
    rw [methodEqual_iff]
    exact ⟨hn.trans hname, hsp.trans hspec'⟩
  · intro c hc hne
    obtain ⟨table, h1, h2⟩ := parseMethodTable_offsets methodHash class_ c decls st hst hc hne
    exact ⟨table, h1, linked_table_signature table st.methodTable h2⟩
theorem methodEqual_refl (a : Method) : methodEqual a a = true := by
  rw [methodEqual_iff]; exact ⟨rfl, rfl⟩

/-- Two methods that stand for slots (an inherited method's, or a new
virtual's) have different offsets when their signatures differ. -/
theorem slots_distinct (methodHash : Method → Nat) (S T : List Method)
    (map : HashMap Method (Option Method)) (newVirtuals : List Method) (virtualCount : Nat)
    (hinv : MethodInv methodHash S T map newVirtuals virtualCount)
    (hSoff : ∀ (i : Nat) (s : Method), S[i]? = some s → s.offset = i)
    (m1 m2 : Method)
    (h1 : (∃ s ∈ S, methodEqual s m1 = true ∧ m1.offset = s.offset) ∨
      (∃ k ∈ newVirtuals, methodEqual k m1 = true ∧ m1.offset = k.offset))
    (h2 : (∃ s ∈ S, methodEqual s m2 = true ∧ m2.offset = s.offset) ∨
      (∃ k ∈ newVirtuals, methodEqual k m2 = true ∧ m2.offset = k.offset))
    (hne : methodEqual m1 m2 = false) : m1.offset ≠ m2.offset := by
  intro heq
  have hcontra : ∀ a : Method, methodEqual a m1 = true → methodEqual a m2 = true → False := by
    intro a ha1 ha2
    have := methodEqual_trans m1 a m2 (methodEqual_symm a m1 ha1) ha2
    rw [this] at hne
    exact absurd hne (by simp)
  rcases h1 with ⟨s1, hs1, e1, o1⟩ | ⟨k1, hk1, e1, o1⟩
  · obtain ⟨i1, hi1⟩ := List.mem_iff_getElem?.mp hs1
    have hlt1 : i1 < S.length := by
      by_contra hge
      rw [List.getElem?_eq_none (Nat.le_of_not_lt hge)] at hi1
      exact absurd hi1 (by simp)
    rcases h2 with ⟨s2, hs2, e2, o2⟩ | ⟨k2, hk2, e2, o2⟩
    · obtain ⟨i2, hi2⟩ := List.mem_iff_getElem?.mp hs2
      have : i1 = i2 := by
        rw [← hSoff i1 s1 hi1, ← hSoff i2 s2 hi2, ← o1, ← o2]; exact heq
      subst this
      rw [hi1] at hi2
      have := Option.some.inj hi2
      subst this
      exact hcontra s1 e1 e2
    · obtain ⟨j2, hj2⟩ := List.mem_iff_getElem?.mp hk2
      have := hinv.slots j2 k2 hj2
      have := hSoff i1 s1 hi1
      omega
  · obtain ⟨j1, hj1⟩ := List.mem_iff_getElem?.mp hk1
    have hs1 := hinv.slots j1 k1 hj1
    rcases h2 with ⟨s2, hs2, e2, o2⟩ | ⟨k2, hk2, e2, o2⟩
    · obtain ⟨i2, hi2⟩ := List.mem_iff_getElem?.mp hs2
      have hlt2 : i2 < S.length := by
        by_contra hge
        rw [List.getElem?_eq_none (Nat.le_of_not_lt hge)] at hi2
        exact absurd hi2 (by simp)
      have := hSoff i2 s2 hi2
      omega
    · obtain ⟨j2, hj2⟩ := List.mem_iff_getElem?.mp hk2
      have hs2 := hinv.slots j2 k2 hj2
      have : j1 = j2 := by omega
      subst this
      rw [hj1] at hj2
      have := Option.some.inj hj2
      subst this
      exact hcontra k1 e1 e2

theorem arrayStore_mem {α : Type} (array array1 : List (Option α)) (i : Nat)
    (value : Option α) (h : arrayStore array i value = .ok array1) :
    array1.length = array.length ∧ ∀ x ∈ array1, x ∈ array ∨ x = value := by
  unfold arrayStore at h
  split at h
  · have h := (Except.ok.inj h).symm
    subst h
    refine ⟨by simp, ?_⟩
    intro x hx
    rcases List.mem_or_eq_of_mem_set hx with h | h
    · exact Or.inl h
    · exact Or.inr h
  · exact absurd h (by simp)

theorem storeAll_mem {α : Type} (values : List (Option α)) (array array1 : List (Option α))
    (i : Nat) (h : storeAll array i values = .ok array1) :
    array1.length = array.length ∧ ∀ x ∈ array1, x ∈ array ∨ x ∈ values := by
  induction values generalizing array i with
  | nil =>
    simp only [storeAll] at h
    have h := (Except.ok.inj h).symm
    subst h
    exact ⟨rfl, fun x hx => Or.inl hx⟩
  | cons v rest ih =>
    simp only [storeAll] at h
    cases h1 : arrayStore array i v with
    | error e => rw [h1] at h; exact absurd h (by simp)
    | ok array2 =>
      rw [h1] at h
      dsimp only at h
      obtain ⟨l1, m1⟩ := arrayStore_mem array array2 i v h1
      obtain ⟨l2, m2⟩ := ih array2 (i + 1) h
      refine ⟨l2.trans l1, ?_⟩
      intro x hx
      rcases m2 x hx with hx | hx
      · rcases m1 x hx with hx | hx
        · exact Or.inl hx
        · exact Or.inr (by rw [hx]; exact List.mem_cons_self _ _)
      · exact Or.inr (List.mem_cons_of_mem _ hx)

theorem inheritedEntries_mem (find : Method → Option Method) (table : List (Option Method))
    (entries : List (Option Method)) (h : inheritedEntries find table = .ok entries) :
    ∀ x ∈ entries, ∃ s, some s ∈ table ∧ x = find s := by
  induction table generalizing entries with
  | nil =>
    simp only [inheritedEntries] at h
    have h := (Except.ok.inj h).symm
    subst h
    simp
  | cons e rest ih =>
    cases e with
    | none => simp [inheritedEntries] at h
    | some s =>
      simp only [inheritedEntries] at h
      cases h1 : inheritedEntries find rest with
      | error e => rw [h1] at h; exact absurd h (by simp)
      | ok others =>
        rw [h1] at h
        dsimp only at h
        have h := (Except.ok.inj h).symm
        subst h
        intro x hx
        rcases List.mem_cons.mp hx with hx | hx
        · exact ⟨s, List.mem_cons_self _ _, hx⟩
        · obtain ⟨s1, hs1, hx1⟩ := ih others h1 x hx
          exact ⟨s1, List.mem_cons_of_mem _ hs1, hx1⟩

theorem concreteEntries_mem (find : Method → Option Method) (link : Method → Method)
    (superTable : Option (List (Option Method))) (newVirtuals : List Method)
    (entries : List (Option Method))
    (h : concreteEntries find link superTable newVirtuals = .ok entries) :
    ∀ x ∈ entries, (∃ s, some s ∈ superTable.getD [] ∧ x = find s) ∨
      ∃ k ∈ newVirtuals, x = some (link k) := by
  unfold concreteEntries at h
  cases superTable with
  | none =>
    dsimp only at h
    have h := (Except.ok.inj h).symm
    subst h
    intro x hx
    obtain ⟨k, hk, hx⟩ := List.mem_map.mp hx
    exact Or.inr ⟨k, hk, hx.symm⟩
  | some table =>
    dsimp only at h
    cases h1 : inheritedEntries find table with
    | error e => rw [h1] at h; exact absurd h (by simp)
    | ok inherited =>
      rw [h1] at h
      dsimp only at h
      have h := (Except.ok.inj h).symm
      subst h
      intro x hx
      rcases List.mem_append.mp hx with hx | hx
      · exact Or.inl (inheritedEntries_mem find table inherited h1 x hx)
      · obtain ⟨k, hk, hx⟩ := List.mem_map.mp hx
        exact Or.inr ⟨k, hk, hx.symm⟩
/-- Every method found in the virtual map stands for a slot: it has the
signature and the offset of an inherited method or of a new virtual. -/
theorem found_method_slot (methodHash : Method → Nat) (S T : List Method)
    (map : HashMap Method (Option Method)) (newVirtuals : List Method) (virtualCount : Nat)
    (hinv : MethodInv methodHash S T map newVirtuals virtualCount)
    (n : Method × Option Method) (hn : n ∈ map.nodes) (v : Method) (hv : n.2 = some v) :
    (∃ s ∈ S, methodEqual s v = true ∧ v.offset = s.offset) ∨
    (∃ k ∈ newVirtuals, methodEqual k v = true ∧ v.offset = k.offset) := by
  rcases hinv.shape n hn with ⟨hS, h | ⟨m, _, hm, he, ho⟩⟩ | ⟨hk, h⟩ | ⟨_, _, h⟩
  · rw [h] at hv
    have := Option.some.inj hv
    subst this
    exact Or.inl ⟨n.1, hS, methodEqual_refl _, rfl⟩
  · rw [hm] at hv
    have := Option.some.inj hv
    subst this
    exact Or.inl ⟨n.1, hS, he, ho⟩
  · rw [h] at hv
    have := Option.some.inj hv
    subst this
    exact Or.inr ⟨n.1, hk, methodEqual_refl _, rfl⟩
  · rw [h] at hv
    exact absurd hv (by simp)

theorem slot_of_linked (methodHash : Method → Nat)
    (nativeMap : HashMap Method (Option Method)) (owner : Bytes) (L : List Method)
    (v : Method) (h : ∃ s ∈ L, methodEqual s v = true ∧ v.offset = s.offset) :
    ∃ s ∈ L, methodEqual s (linked methodHash nativeMap owner v) = true ∧
      (linked methodHash nativeMap owner v).offset = s.offset := by
  obtain ⟨s, hs, he, ho⟩ := h
  obtain ⟨_, f2, f3, f4, _⟩ := linked_frame methodHash nativeMap owner v
  refine ⟨s, hs, ?_, by rw [f2]; exact ho⟩
  rw [methodEqual_iff] at he ⊢
  rw [f3, f4]
  exact he

/-- Every method of the virtual table `parseMethodTable` stores in a freshly
created class stands for a slot. -/
theorem parseMethodTable_vtable_slots (methodHash : Method → Nat) (class_ c : Class)
    (S : List Method) (decls : List MethodDecl) (st : MethodLoop)
    (hfresh : class_.virtualTable = none)
    (hS : (superVirtualTable class_).getD [] = S.map some)
    (hiface : class_.flags &&& ACC_INTERFACE ≠ 0 →
      ∀ d ∈ decls, ¬ (d.flags &&& ACC_STATIC ≠ 0 ∧ d.flags &&& ACC_NATIVE ≠ 0))
    (hst : parseMethods methodHash class_ decls = .ok st)
    (hinv : MethodInv methodHash S st.methodTable st.virtualMap st.newVirtuals
      st.virtualCount)
    (hrel : List.Forall₂ (fun m d => m.flags = d.flags ∧ m.name = d.name ∧ m.spec = d.spec ∧
        m.class_ = class_.name) st.methodTable decls)
    (hc : parseMethodTable methodHash class_ decls = .ok c)
    (vt : List (Option Method)) (hvt : c.virtualTable = some vt)
    (m : Method) (hm : some m ∈ vt) :
    (∃ s ∈ S, methodEqual s m = true ∧ m.offset = s.offset) ∨
    (∃ k ∈ st.newVirtuals, methodEqual k m = true ∧ m.offset = k.offset) := by
  obtain ⟨st1, table, h1, _, _, hcases⟩ := parseMethodTable_ok methodHash class_ c decls hc
  rw [hst] at h1
  have h1 := Except.ok.inj h1
  subst h1
  have hlink : ∀ v : Method,
      ((∃ s ∈ S, methodEqual s v = true ∧ v.offset = s.offset) ∨
       (∃ k ∈ st.newVirtuals, methodEqual k v = true ∧ v.offset = k.offset)) →
      ((∃ s ∈ S, methodEqual s (linked methodHash st.nativeMap class_.name v) = true ∧
          (linked methodHash st.nativeMap class_.name v).offset = s.offset) ∨
       (∃ k ∈ st.newVirtuals,
          methodEqual k (linked methodHash st.nativeMap class_.name v) = true ∧
          (linked methodHash st.nativeMap class_.name v).offset = k.offset)) := by
    intro v hv
    rcases hv with hv | hv
    · exact Or.inl (slot_of_linked methodHash _ _ S v hv)
    · exact Or.inr (slot_of_linked methodHash _ _ st.newVirtuals v hv)
  rcases hcases with ⟨_, s, _, _, hv⟩ | ⟨_, _, hi, _, vtable, hstore, hv⟩ |
      ⟨_, _, _, entries, vtable, hentries, hstore, hv, _⟩ | ⟨_, _, hv, _⟩
  · -- the virtual table of the superclass
    rw [hvt] at hv
    rw [← hv] at hS
    have hS : vt = S.map some := hS
    subst hS
    obtain ⟨s, hs, hse⟩ := List.mem_map.mp hm
    have := Option.some.inj hse
    subst this
    exact Or.inl ⟨s, hs, methodEqual_refl _, rfl⟩
  · -- an interface: the keys visited by the iterator
    rw [hvt] at hv
    have hv := (Option.some.inj hv).symm
    subst hv
    obtain ⟨_, hmem⟩ := storeAll_mem _ _ _ _ hstore
    rcases hmem _ hm with h | h
    · simp at h
    · obtain ⟨n, hn, hne⟩ := List.mem_map.mp h
      have hne := (Option.some.inj hne).symm
      subst hne
      have hn := hashMapNodes_subset st.virtualMap n hn
      apply hlink
      rcases hinv.shape n hn with ⟨hS1, _⟩ | ⟨hk, _⟩ | ⟨hT, hnat, _⟩
      · exact Or.inl ⟨n.1, hS1, methodEqual_refl _, rfl⟩
      · exact Or.inr ⟨n.1, hk, methodEqual_refl _, rfl⟩
      · obtain ⟨d, hd, hfl, _⟩ := forall2_mem_left _ _ _ hrel n.1 hT
        have hns : n.1.flags &&& ACC_STATIC = 0 := by
          by_contra hstatic
          exact hiface hi d hd ⟨by rw [← hfl]; exact hstatic, by rw [← hfl]; exact hnat⟩
        have hS0 : S = [] := by
          unfold superVirtualTable at hS
          rw [if_pos hi] at hS
          cases S with
          | nil => rfl
          | cons a b => simp at hS
        have := (hinv.offsets n.1 hT hns).2 (by rw [hS0]; simp)
        exact Or.inr ⟨n.1, this, methodEqual_refl _, rfl⟩
  · -- a concrete class: inherited entries and new virtuals
    rw [hvt] at hv
    have hv := (Option.some.inj hv).symm
    subst hv
    obtain ⟨_, hmem⟩ := storeAll_mem _ _ _ _ hstore
    rcases hmem _ hm with h | h
    · simp at h
    · rcases concreteEntries_mem _ _ _ _ _ hentries _ h with ⟨s, _, hfind⟩ | ⟨k, hk, hke⟩
      · cases hf : hashMapFind methodHash methodEqual st.virtualMap s with
        | none => rw [hf] at hfind; exact absurd hfind (by simp)
        | some v =>
          rw [hf] at hfind
          have hfind := (Option.some.inj hfind)
          rw [hfind]
          apply hlink
          unfold hashMapFind at hf
          cases hnode : hashMapFindNode methodHash methodEqual st.virtualMap s with
          | none => rw [hnode] at hf; exact absurd hf (by simp)
          | some n =>
            rw [hnode] at hf
            obtain ⟨hn, _⟩ := hashMapFindNode_some methodHash methodEqual _ s n hnode
            exact found_method_slot methodHash S _ _ _ _ hinv n hn v hf
      · have hke := Option.some.inj hke
        rw [hke]
        apply hlink
        exact Or.inr ⟨k, hk, methodEqual_refl _, rfl⟩
  · rw [hfresh] at hv
    rw [hvt] at hv
    exact absurd hv (by simp)
theorem sampleHash_agrees (a b : Method) (h : methodEqual a b = true) :
    sampleHash a = sampleHash b := by
  rw [methodEqual_iff] at h
  simp [sampleHash, h.1, h.2]

theorem parseMethodTable_override_offset_witness :
    ∃ st, parseMethods sampleHash (freshClass 0 [65, 0] (some sampleObject)) [declH, declX]
        = .ok st ∧
      st.methodTable.length = [declH, declX].length ∧
      (∀ (k : Nat) (d : MethodDecl) (s : Method), [declH, declX][k]? = some d →
        d.flags &&& ACC_STATIC = 0 → s ∈ [sampleT, sampleH] →
        d.name = s.name → d.spec = s.spec →
        ∃ m, st.methodTable[k]? = some m ∧ m.name = d.name ∧ m.spec = d.spec ∧
          m.offset = s.offset) ∧
      (∀ c, parseMethodTable sampleHash (freshClass 0 [65, 0] (some sampleObject))
          [declH, declX] = .ok c → [declH, declX] ≠ [] →
        ∃ table, c.methodTable = some table ∧
          table.map (fun m => (m.name, m.spec, m.offset))
            = st.methodTable.map (fun m => (m.name, m.spec, m.offset))) :=
  parseMethodTable_override_offset sampleHash (freshClass 0 [65, 0] (some sampleObject))
    sampleObject [sampleT, sampleH] [declH, declX] rfl rfl rfl (by decide) sampleHash_agrees
    (by decide) (by decide)

/-- C2 (counterexample): an interface `I` whose superclass `O` has a virtual
table of length 2 declares the method `m()V`, which matches no method of that
table; `parseMethodTable` gives it offset 0, below the length of the
superclass's virtual table. -/
theorem parseMethodTable_interface_slot_below_super :
    ∃ c m, parseMethodTable sampleHash (freshClass ACC_INTERFACE [73, 0] (some sampleObject))
        [declM] = .ok c ∧
      c.methodTable = some [m] ∧ m.flags &&& ACC_STATIC = 0 ∧
      (∀ s ∈ [sampleT, sampleH], methodEqual m s = false) ∧
      sampleObject.virtualTable = some [some sampleT, some sampleH] ∧
      m.offset = 0 ∧
      ¬ ((sampleObject.virtualTable.getD []).length ≤ m.offset) := by
  refine ⟨_, ⟨0x401, 0, 1, 1, [109, 0], [40, 41, 86, 0], [73, 0], none⟩, rfl, rfl,
    by decide, by decide, rfl, rfl, by decide⟩

theorem offsets_of_range (S : List Method)
    (h : S.map (fun s => s.offset) = List.range S.length) :
    ∀ (i : Nat) (s : Method), S[i]? = some s → s.offset = i := by
  intro i s hs
  have h1 : (S.map (fun s => s.offset))[i]? = some s.offset := by
    rw [List.getElem?_map, hs]; rfl
  rw [h] at h1
  rw [List.getElem?_range] at h1
  · exact (Option.some.inj h1).symm
  · by_contra hge
    rw [List.getElem?_eq_none (Nat.le_of_not_lt hge)] at hs
    exact absurd hs (by simp)

/-- C2 (amended): for a freshly created class with a superclass, whose inherited
virtual table has no null entry, pairwise distinct signatures and each method
at the index equal to its offset, and a class file whose methods have pairwise
distinct signatures and well-formed descriptors (for an interface: an interface
table of interfaces and no method both static and native), the declaration loop
of `parseMethodTable` returns; in a concrete class every declared non-static
method that matches no inherited signature is given an offset not below the
length of the superclass's virtual table; and in every class no two methods
with different signatures in the virtual table `parseMethodTable` stores share
an offset. -/
theorem parseMethodTable_new_slots (methodHash : Method → Nat) (class_ sup : Class)
    (S : List Method) (decls : List MethodDecl)
    (hsuper : class_.super = some sup)
    (hfresh : class_.virtualTable = none)
    (hS : (superVirtualTable class_).getD [] = S.map some)
    (hSoff : S.map (fun s => s.offset) = List.range S.length)
    (hSsig : S.Pairwise (fun a b => methodEqual a b = false))
    (hhash : ∀ a b, methodEqual a b = true → methodHash a = methodHash b)
    (hdecls : decls.Pairwise (fun a b => ¬ (a.name = b.name ∧ a.spec = b.spec)))
    (hspec : ∀ d ∈ decls,
      (parameterCount d.spec).toBool = true ∧ (parameterFootprint d.spec).toBool = true)
    (hiface : class_.flags &&& ACC_INTERFACE ≠ 0 →
      (∀ e ∈ class_.interfaceTable.getD [], ∃ i, e = some (.interface i)) ∧
      ∀ d ∈ decls, ¬ (d.flags &&& ACC_STATIC ≠ 0 ∧ d.flags &&& ACC_NATIVE ≠ 0)) :
    ∃ st, parseMethods methodHash class_ decls = .ok st ∧
      st.methodTable.length = decls.length ∧
      (class_.flags &&& ACC_INTERFACE = 0 →
        ∀ (k : Nat) (d : MethodDecl), decls[k]? = some d → d.flags &&& ACC_STATIC = 0 →
          (∀ s ∈ S, ¬ (d.name = s.name ∧ d.spec = s.spec)) →
          ∃ m, st.methodTable[k]? = some m ∧ m.name = d.name ∧ m.spec = d.spec ∧
            (sup.virtualTable.getD []).length ≤ m.offset) ∧
      (∀ c, parseMethodTable methodHash class_ decls = .ok c →
        (decls ≠ [] → ∃ table, c.methodTable = some table ∧
          table.map (fun m => (m.name, m.spec, m.offset))
            = st.methodTable.map (fun m => (m.name, m.spec, m.offset))) ∧
        ∀ vt, c.virtualTable = some vt →
          ∀ (i j : Nat) (m1 m2 : Method), vt[i]? = some (some m1) → vt[j]? = some (some m2) →
            methodEqual m1 m2 = false → m1.offset ≠ m2.offset) := by
  obtain ⟨st, hst, hinv, _, hrel⟩ := parseMethods_spec methodHash class_ S decls hS
    (fun hi => (hiface hi).1) hSsig hhash hdecls hspec
  refine ⟨st, hst, hrel.length_eq, ?_, ?_⟩
  · intro hconcrete k d hd hstatic hnomatch
    obtain ⟨m, hm, hf, hn, hsp, _⟩ := forall2_getElem? _ _ _ hrel k d hd
    refine ⟨m, hm, hn, hsp, ?_⟩
    have hmem : m ∈ st.methodTable := List.mem_iff_getElem?.mpr ⟨k, hm⟩
    have hnew := (hinv.offsets m hmem (by rw [hf]; exact hstatic)).2 (by
      intro s hs
      cases hms : methodEqual m s with
      | false => rfl
      | true =>
        rw [methodEqual_iff, hn, hsp] at hms
        exact absurd hms (hnomatch s hs))
    obtain ⟨j, hj⟩ := List.mem_iff_getElem?.mp hnew
    have hoff := hinv.slots j m hj
    have hlen : (sup.virtualTable.getD []).length = S.length := by
      have : superVirtualTable class_ = sup.virtualTable := by
        unfold superVirtualTable
        rw [if_neg (by simp [hconcrete]), hsuper]
      rw [← this, hS]; simp
    omega
  · intro c hc
    refine ⟨fun hne => ?_, ?_⟩
    · obtain ⟨table, h1, h2⟩ := parseMethodTable_offsets methodHash class_ c decls st hst hc hne
      exact ⟨table, h1, linked_table_signature table st.methodTable h2⟩
    · intro vt hvt i j m1 m2 h1 h2 hne
      have hslot := parseMethodTable_vtable_slots methodHash class_ c S decls st hfresh hS
        (fun hi => (hiface hi).2) hst hinv hrel hc vt hvt
      exact slots_distinct methodHash S _ _ _ _ hinv (offsets_of_range S hSoff) m1 m2
        (hslot m1 (List.mem_iff_getElem?.mpr ⟨i, h1⟩))
        (hslot m2 (List.mem_iff_getElem?.mpr ⟨j, h2⟩)) hne

theorem parseMethodTable_new_slots_witness :
    ∃ st, parseMethods sampleHash (freshClass 0 [65, 0] (some sampleObject)) [declH, declX]
        = .ok st ∧
      st.methodTable.length = [declH, declX].length ∧
      ((freshClass 0 [65, 0] (some sampleObject)).flags &&& ACC_INTERFACE = 0 →
        ∀ (k : Nat) (d : MethodDecl), [declH, declX][k]? = some d →
          d.flags &&& ACC_STATIC = 0 →
          (∀ s ∈ [sampleT, sampleH], ¬ (d.name = s.name ∧ d.spec = s.spec)) →
          ∃ m, st.methodTable[k]? = some m ∧ m.name = d.name ∧ m.spec = d.spec ∧
            (sampleObject.virtualTable.getD []).length ≤ m.offset) ∧
      (∀ c, parseMethodTable sampleHash (freshClass 0 [65, 0] (some sampleObject))
          [declH, declX] = .ok c →
        ([declH, declX] ≠ [] → ∃ table, c.methodTable = some table ∧
          table.map (fun m => (m.name, m.spec, m.offset))
            = st.methodTable.map (fun m => (m.name, m.spec, m.offset))) ∧
        ∀ vt, c.virtualTable = some vt →
          ∀ (i j : Nat) (m1 m2 : Method), vt[i]? = some (some m1) → vt[j]? = some (some m2) →
            methodEqual m1 m2 = false → m1.offset ≠ m2.offset) :=
  parseMethodTable_new_slots sampleHash (freshClass 0 [65, 0] (some sampleObject))
    sampleObject [sampleT, sampleH] [declH, declX] rfl rfl rfl (by decide) (by decide)
    sampleHash_agrees (by decide) (by decide) (fun h => absurd h (by decide))

/-- C3 (evaluation at the failing input): a concrete subclass of `O` (virtual
table `[t()V, h()I]`) declaring the single method `native int h()` gets the
virtual table `[t()V, null]`: the entry of the overridden slot is null. -/
theorem parseMethodTable_native_override_null_entry :
    (parseMethodTable sampleHash (freshClass 0 [65, 0] (some sampleObject))
        [declNativeH]).toOption.map (fun c => c.virtualTable)
      = some (some [some sampleT, none]) := by
  decide

/-- C4 (evaluation at the failing input): the interface `M`, declaring no
method, is linked with a null virtual table, and linking a concrete class
`C extends O implements M` that declares `void m()` stops in
`parseInterfaceTable` on a null reference (the length of `M`'s virtual
table). -/
theorem parseClass_marker_interface_fault :
    parseClass 4 32 sampleNameHash sampleHash sampleResolve markerFile = .ok sampleMarker ∧
    sampleResolve [77, 0] = some sampleMarker ∧
    sampleMarker.virtualTable = none ∧
    faultOf (parseInterfaceTable sampleNameHash sampleResolve
      (freshClass 0 [67, 0] (some sampleObject)) [[77, 0]]) = some .nullPointer ∧
    faultOf (parseClass 4 32 sampleNameHash sampleHash sampleResolve
      ⟨0, [67, 0], some [79, 0], [[77, 0]], [], [declPublicM]⟩) = some .nullPointer := by
  refine ⟨rfl, rfl, rfl, by decide, by decide⟩

/-- C5 (counterexample): the class `C extends O implements I` declaring only the
static method `s()V` is linked successfully, and its interface table is null
although its class file names the interface `I`. -/
theorem parseClass_static_only_loses_interfaces :
    ∃ c, parseClass 4 32 sampleNameHash sampleHash sampleResolve
        ⟨0, [67, 0], some [79, 0], [[73, 0]], [], [declStaticS]⟩ = .ok c ∧
      parseClass 4 32 sampleNameHash sampleHash sampleResolve interfaceFile
        = .ok sampleInterface ∧
      sampleResolve [73, 0] = some sampleInterface ∧
      c.interfaceTable = none := by
  refine ⟨_, rfl, rfl, rfl, rfl⟩

/-! ## Properties of the interface table -/

theorem hashMapInsert_of_none {κ ν : Type} (hash : κ → Nat) (map : HashMap κ ν) (key : κ)
    (value : ν) (h : map.array = none) :
    hashMapInsert hash map key value
      = ⟨map.size + 1, some ((List.replicate 16 []).set (hash key &&& 15) [(key, value)])⟩ := by
  obtain ⟨sz, arr⟩ := map
  have h : arr = none := h
  subst h
  have h16 : nextPowerOfTwo 16 = 16 := by decide
  have hstep : hashMapInsert hash (⟨sz, none⟩ : HashMap κ ν) key value
      = ⟨sz + 1, some ((List.replicate (nextPowerOfTwo 16) []).set
          (hash key &&& ((List.replicate (nextPowerOfTwo 16) ([] : List (κ × ν))).length - 1))
          ((key, value) :: (List.replicate (nextPowerOfTwo 16) []).getD
            (hash key &&& ((List.replicate (nextPowerOfTwo 16) ([] : List (κ × ν))).length - 1))
            []))⟩ := rfl
  rw [hstep, h16]
  have hget : ∀ i, (List.replicate 16 ([] : List (κ × ν))).getD i [] = [] := by
    intro i
    rw [List.getD_eq_getElem?_getD, List.getElem?_replicate]
    split <;> rfl
  rw [hget, List.length_replicate]

theorem hashMapInsert_of_some {κ ν : Type} (hash : κ → Nat) (map : HashMap κ ν) (key : κ)
    (value : ν) (array : List (List (κ × ν))) (h : map.array = some array)
    (hsmall : map.size + 1 < array.length * 2) :
    hashMapInsert hash map key value
      = ⟨map.size + 1, some (array.set (hash key &&& (array.length - 1))
          ((key, value) :: array.getD (hash key &&& (array.length - 1)) []))⟩ := by
  obtain ⟨sz, arr⟩ := map
  have h : arr = some array := h
  subst h
  unfold hashMapInsert
  dsimp only
  rw [if_neg (by simpa using hsmall)]

theorem flatten_length_le {α : Type} (l : List (List α)) (h : ∀ c ∈ l, c.length ≤ 1) :
    l.flatten.length ≤ l.length := by
  induction l with
  | nil => simp
  | cons c t ih =>
    have h1 := h c (List.mem_cons_self _ _)
    have h2 := ih (fun x hx => h x (List.mem_cons_of_mem _ hx))
    simp only [List.flatten_cons, List.length_append, List.length_cons]
    omega

theorem makeHashMap_sparse (hash : Bytes → Nat) :
    SparseMap hash (makeHashMap Bytes (Option Class)) :=
  ⟨fun a ha => by simp [makeHashMap] at ha, by simp [HashMap.nodes, makeHashMap],
    by simp [HashMap.nodes, makeHashMap], fun a ha => by simp [makeHashMap] at ha⟩

theorem mem_set_iff_bucket {α : Type} (l : List (List α)) (i : Nat) (x : List α)
    (c : List α) (hc : c ∈ l.set i x) : c = x ∨ c ∈ l := by
  rcases List.mem_or_eq_of_mem_set hc with h | h
  · exact Or.inr h
  · exact Or.inl h

/-- Inserting a name unless present keeps the map sparse, as long as the names
handled are told apart by the low four bits of their hash; afterwards the keys
are the former keys and the name. -/
theorem hashMapInsertMaybe_sparse (hash : Bytes → Nat) (D : Bytes → Prop)
    (hinj : ∀ a b, D a → D b → hash a &&& 15 = hash b &&& 15 → a = b)
    (map : HashMap Bytes (Option Class)) (key : Bytes) (value : Option Class)
    (hmap : SparseMap hash map) (hD : ∀ n ∈ map.nodes, D n.1) (hkey : D key) :
    SparseMap hash (hashMapInsertMaybe hash byteArrayEqual map key value).1 ∧
    (∀ n ∈ (hashMapInsertMaybe hash byteArrayEqual map key value).1.nodes, D n.1) ∧
    ∀ x, x ∈ (hashMapInsertMaybe hash byteArrayEqual map key value).1.nodes.map Prod.fst ↔
      (x = key ∨ x ∈ map.nodes.map Prod.fst) := by
  unfold hashMapInsertMaybe
  cases hfind : hashMapFindNode hash byteArrayEqual map key with
  | some n =>
    dsimp only
    refine ⟨hmap, hD, fun x => ⟨fun h => Or.inr h, fun h => ?_⟩⟩
    rcases h with h | h
    · obtain ⟨hn, he⟩ := hashMapFindNode_some hash byteArrayEqual map key n hfind
      have : key = n.1 := by simpa [byteArrayEqual] using he
      rw [h, this]
      exact List.mem_map.mpr ⟨n, hn, rfl⟩
    · exact h
  | none =>
    dsimp only
    have hnone := hashMapFindNode_none hash byteArrayEqual map key hmap.wf
      (fun k hk => by
        have : key = k := by simpa [byteArrayEqual] using hk
        rw [this]) hfind
    have hnotin : key ∉ map.nodes.map Prod.fst := by
      intro hin
      obtain ⟨n, hn, hne⟩ := List.mem_map.mp hin
      have := hnone n hn
      rw [hne] at this
      simp [byteArrayEqual] at this
    obtain ⟨i1, i2, _, i4⟩ := hashMapInsert_spec hash map key value hmap.wf
    have hkeys : ((hashMapInsert hash map key value).nodes.map Prod.fst).Perm
        (key :: map.nodes.map Prod.fst) := by
      have := i4.map Prod.fst
      simpa using this
    refine ⟨⟨i1, ?_, ?_, ?_⟩, ?_, ?_⟩
    · exact (List.Perm.nodup_iff hkeys).mpr (List.nodup_cons.mpr ⟨hnotin, hmap.nodup⟩)
    · rw [i2, i4.length_eq, hmap.size]; simp
    · intro array harr
      cases hold : map.array with
      | none =>
        rw [hashMapInsert_of_none hash map key value hold] at harr
        have harr := (Option.some.inj harr).symm
        subst harr
        refine ⟨by simp, ?_⟩
        intro chain hchain
        rcases mem_set_iff_bucket _ _ _ _ hchain with h | h
        · rw [h]; simp
        · rw [List.eq_of_mem_replicate h]; simp
      | some old =>
        obtain ⟨hlen, hb⟩ := hmap.buckets old hold
        have hsz : map.size + 1 < old.length * 2 := by
          have := flatten_length_le old hb
          have hn : map.nodes = old.flatten := by simp [HashMap.nodes, hold]
          rw [hmap.size, hn, hlen]
          omega
        rw [hashMapInsert_of_some hash map key value old hold hsz] at harr
        have harr := (Option.some.inj harr).symm
        subst harr
        refine ⟨by simpa using hlen, ?_⟩
        intro chain hchain
        rcases mem_set_iff_bucket _ _ _ _ hchain with h | h
        · -- the bucket of the key was empty
          have hempty : old.getD (hash key &&& (old.length - 1)) [] = [] := by
            cases hb0 : old.getD (hash key &&& (old.length - 1)) [] with
            | nil => rfl
            | cons n rest =>
              exfalso
              have hn : n ∈ old.getD (hash key &&& (old.length - 1)) [] := by
                rw [hb0]; exact List.mem_cons_self _ _
              have hidx := (hmap.wf old hold).2 _ n hn
              have hnodes : n ∈ map.nodes := by
                simp only [HashMap.nodes, hold, Option.getD_some]
                exact (mem_flatten_iff_getD old n).mpr ⟨_, hn⟩
              rw [hlen] at hidx
              have := hinj n.1 key (hD n hnodes) hkey hidx
              exact hnotin (by rw [← this]; exact List.mem_map.mpr ⟨n, hnodes, rfl⟩)
          rw [h, hempty]; simp
        · exact hb chain h
    · intro n hn
      rcases List.mem_cons.mp (i4.mem_iff.mp hn) with h | h
      · rw [h]; exact hkey
      · exact hD n h
    · intro x
      rw [hkeys.mem_iff]
      simp
theorem addInterfacesLoop_sparse (hash : Bytes → Nat) (D : Bytes → Prop)
    (hinj : ∀ a b, D a → D b → hash a &&& 15 = hash b &&& 15 → a = b)
    (entries : List (Option (TableEntry Class)))
    (map map1 : HashMap Bytes (Option Class))
    (hmap : SparseMap hash map) (hD : ∀ n ∈ map.nodes, D n.1)
    (hentries : ∀ i ∈ entries.filterMap entryInterface, D i.name)
    (h : addInterfacesLoop hash map entries = .ok map1) :
    SparseMap hash map1 ∧ (∀ n ∈ map1.nodes, D n.1) ∧
    ∀ x, x ∈ map1.nodes.map Prod.fst ↔
      (x ∈ map.nodes.map Prod.fst ∨
        x ∈ (entries.filterMap entryInterface).map (fun i => i.name)) := by
  induction entries generalizing map with
  | nil =>
    simp only [addInterfacesLoop] at h
    have h := Except.ok.inj h
    subst h
    exact ⟨hmap, hD, fun x => by simp⟩
  | cons e rest ih =>
    cases e with
    | none => simp [addInterfacesLoop] at h
    | some entry =>
      cases entry with
      | vtable v => simp [addInterfacesLoop] at h
      | interface i =>
        simp only [addInterfacesLoop] at h
        have hi : D i.name := hentries i (by simp [entryInterface])
        obtain ⟨s1, s2, s3⟩ := hashMapInsertMaybe_sparse hash D hinj map i.name (some i)
          hmap hD hi
        obtain ⟨r1, r2, r3⟩ := ih _ s1 s2
          (fun j hj => hentries j (by
            simp only [List.filterMap_cons, entryInterface]
            exact List.mem_cons_of_mem _ hj)) h
        refine ⟨r1, r2, fun x => ?_⟩
        rw [r3 x, s3 x]
        simp only [List.filterMap_cons, entryInterface, List.map_cons, List.mem_cons]
        constructor
        · rintro ((h | h) | h)
          · exact Or.inr (Or.inl h)
          · exact Or.inl h
          · exact Or.inr (Or.inr h)
        · rintro (h | h | h)
          · exact Or.inl (Or.inr h)
          · exact Or.inl (Or.inl h)
          · exact Or.inr h

theorem declaredInterfacesLoop_sparse (hash : Bytes → Nat)
    (resolveClass : Bytes → Option Class) (D : Bytes → Prop)
    (hinj : ∀ a b, D a → D b → hash a &&& 15 = hash b &&& 15 → a = b)
    (names : List Bytes) (map map1 : HashMap Bytes (Option Class))
    (hmap : SparseMap hash map) (hD : ∀ n ∈ map.nodes, D n.1)
    (hnames : ∀ x ∈ declaredNames resolveClass names, D x)
    (h : declaredInterfacesLoop hash resolveClass map names = .ok map1) :
    SparseMap hash map1 ∧ (∀ n ∈ map1.nodes, D n.1) ∧
    (∀ n ∈ names, ∃ i, resolveClass n = some i) ∧
    ∀ x, x ∈ map1.nodes.map Prod.fst ↔
      (x ∈ map.nodes.map Prod.fst ∨ x ∈ declaredNames resolveClass names) := by
  induction names generalizing map with
  | nil =>
    simp only [declaredInterfacesLoop] at h
    have h := Except.ok.inj h
    subst h
    exact ⟨hmap, hD, by simp, fun x => by simp [declaredNames]⟩
  | cons name rest ih =>
    simp only [declaredInterfacesLoop] at h
    cases hres : resolveClass name with
    | none => rw [hres] at h; exact absurd h (by simp)
    | some i =>
      rw [hres] at h
      dsimp only at h
      cases hadd : addInterfaces hash i
          (hashMapInsertMaybe hash byteArrayEqual map name (some i)).1 with
      | error e => rw [hadd] at h; exact absurd h (by simp)
      | ok map2 =>
        rw [hadd] at h
        dsimp only at h
        have hsplit : ∀ x, x ∈ declaredNames resolveClass (name :: rest) ↔
            (x = name ∨ x ∈ (tableInterfaces i).map (fun j => j.name) ∨
              x ∈ declaredNames resolveClass rest) := by
          intro x
          simp only [declaredNames, List.flatMap_cons, hres, inheritedNames,
            List.mem_append, List.mem_cons]
          tauto
        have hname : D name := hnames name ((hsplit name).mpr (Or.inl rfl))
        obtain ⟨s1, s2, s3⟩ := hashMapInsertMaybe_sparse hash D hinj map name (some i)
          hmap hD hname
        obtain ⟨a1, a2, a3⟩ := addInterfacesLoop_sparse hash D hinj (visitedEntries i) _ map2
          s1 s2 (fun j hj => hnames j.name ((hsplit j.name).mpr
            (Or.inr (Or.inl (List.mem_map.mpr ⟨j, hj, rfl⟩))))) hadd
        obtain ⟨r1, r2, r3, r4⟩ := ih map2 a1 a2
          (fun x hx => hnames x ((hsplit x).mpr (Or.inr (Or.inr hx)))) h
        refine ⟨r1, r2, ?_, fun x => ?_⟩
        · intro n hn
          rcases List.mem_cons.mp hn with hn | hn
          · rw [hn]; exact ⟨i, hres⟩
          · exact r3 n hn
        · rw [r4 x, a3 x, s3 x, hsplit x]
          unfold tableInterfaces
          tauto

/-- When the names handled are told apart by the low four bits of their hash,
the deduplication map built by `parseInterfaceTable` is sparse, every name of
the class file resolves, and the keys are exactly the collected names. -/
theorem interfaceMap_sparse (hash : Bytes → Nat) (resolveClass : Bytes → Option Class)
    (class_ : Class) (names : List Bytes) (map : HashMap Bytes (Option Class))
    (hinj : ∀ a ∈ collectedNames resolveClass class_.super names,
      ∀ b ∈ collectedNames resolveClass class_.super names,
      hash a &&& 15 = hash b &&& 15 → a = b)
    (h : interfaceMap hash resolveClass class_ names = .ok map) :
    SparseMap hash map ∧ (∀ n ∈ names, ∃ i, resolveClass n = some i) ∧
    ∀ x, x ∈ map.nodes.map Prod.fst ↔ x ∈ collectedNames resolveClass class_.super names := by
  have hsplit : ∀ x, x ∈ collectedNames resolveClass class_.super names ↔
      (x ∈ inheritedNames class_.super ∨ x ∈ declaredNames resolveClass names) := by
    intro x
    simp [collectedNames]
  unfold interfaceMap at h
  have hinj' : ∀ a b, a ∈ collectedNames resolveClass class_.super names →
      b ∈ collectedNames resolveClass class_.super names →
      hash a &&& 15 = hash b &&& 15 → a = b := fun a b ha hb => hinj a ha b hb
  cases hsup : class_.super with
  | none =>
    rw [hsup] at h hsplit
    dsimp only at h
    obtain ⟨r1, _, r3, r4⟩ := declaredInterfacesLoop_sparse hash resolveClass
      (fun x => x ∈ collectedNames resolveClass class_.super names) hinj' names _ map
      (makeHashMap_sparse hash) (by simp [HashMap.nodes, makeHashMap])
      (fun x hx => by rw [hsup]; exact (hsplit x).mpr (Or.inr hx)) h
    refine ⟨r1, r3, fun x => ?_⟩
    rw [r4 x, hsplit x]
    simp [HashMap.nodes, makeHashMap, inheritedNames]
  | some s =>
    rw [hsup] at h hsplit
    dsimp only at h
    cases hadd : addInterfaces hash s (makeHashMap Bytes (Option Class)) with
    | error e => rw [hadd] at h; exact absurd h (by simp)
    | ok map1 =>
      rw [hadd] at h
      dsimp only at h
      obtain ⟨a1, a2, a3⟩ := addInterfacesLoop_sparse hash
        (fun x => x ∈ collectedNames resolveClass class_.super names) hinj'
        (visitedEntries s) _ map1 (makeHashMap_sparse hash)
        (by simp [HashMap.nodes, makeHashMap])
        (fun j hj => by
          rw [hsup]
          exact (hsplit j.name).mpr (Or.inl (List.mem_map.mpr ⟨j, hj, rfl⟩))) hadd
      obtain ⟨r1, _, r3, r4⟩ := declaredInterfacesLoop_sparse hash resolveClass
        (fun x => x ∈ collectedNames resolveClass class_.super names) hinj' names map1 map
        a1 a2 (fun x hx => by rw [hsup]; exact (hsplit x).mpr (Or.inr hx)) h
      refine ⟨r1, r3, fun x => ?_⟩
      rw [r4 x, a3 x, hsplit x]
      simp [HashMap.nodes, makeHashMap, tableInterfaces, inheritedNames]
theorem hashMapIterate_sparse {κ ν : Type} (map : HashMap κ ν)
    (array : List (List (κ × ν))) (harr : map.array = some array)
    (hb : ∀ chain ∈ array, chain.length ≤ 1) (rest : List (List (κ × ν))) (i : Nat)
    (hrest : array.drop i = rest) (fuel : Nat) (hfuel : rest.flatten.length + 1 ≤ fuel) :
    hashMapIterate fuel (scanBuckets map rest i) = rest.flatten := by
  induction rest generalizing i fuel with
  | nil =>
    cases fuel with
    | zero => rfl
    | succ f => rfl
  | cons c rest1 ih =>
    have hdrop : array.drop (i + 1) = rest1 := by
      rw [← List.drop_drop, hrest]
      rfl
    have hc : c ∈ array := List.mem_of_mem_drop (by rw [hrest]; exact List.mem_cons_self _ _)
    have hlen := hb c hc
    cases c with
    | nil =>
      simp only [scanBuckets, List.flatten_cons, List.nil_append]
      exact ih (i + 1) hdrop fuel (by simpa using hfuel)
    | cons n chain =>
      have hchain : chain = [] := by
        cases chain with
        | nil => rfl
        | cons a b => simp at hlen
      subst hchain
      cases fuel with
      | zero => simp at hfuel
      | succ f =>
        simp only [scanBuckets, hashMapIterate, List.flatten_cons, List.singleton_append]
        congr 1
        have hnext : hashMapIteratorNext (⟨map, n, [], i + 1⟩ : HashMapIterator κ ν)
            = scanBuckets map (array.drop (i + 1)) (i + 1) := by
          simp only [hashMapIteratorNext, harr]
        rw [hnext, hdrop]
        exact ih (i + 1) hdrop f (by
          simp only [List.flatten_cons, List.length_append, List.length_singleton] at hfuel
          omega)

/-- Iterating over a map whose buckets hold at most one node visits all its
nodes, in bucket order. -/
theorem hashMapNodes_sparse {κ ν : Type} (map : HashMap κ ν)
    (hb : ∀ array, map.array = some array → ∀ chain ∈ array, chain.length ≤ 1) :
    hashMapNodes map = map.nodes := by
  unfold hashMapNodes hashMapIterator hashMapNodeCount HashMap.nodes
  cases harr : map.array with
  | none => rfl
  | some array =>
    dsimp only
    simp only [Option.getD_some]
    exact hashMapIterate_sparse map array harr (hb array harr) array 0 (by simp) _
      (by rw [List.length_flatten])

theorem arrayStore_append {α : Type} (pre post : List (Option α)) (old value : Option α) :
    arrayStore (pre ++ old :: post) pre.length value = .ok (pre ++ value :: post) := by
  unfold arrayStore
  rw [if_pos (by simp)]
  congr 1
  simp

theorem fillInterfaceTable_concrete (resolveClass : Bytes → Option Class)
    (nodes : List (Bytes × Option Class)) (pre table1 : List (Option (TableEntry Class)))
    (h : fillInterfaceTable resolveClass true
      (pre ++ List.replicate (2 * nodes.length) none) pre.length nodes = .ok table1) :
    ∃ xs, List.Forall₂ (fun n x => resolveClass n.1 = some x) nodes xs ∧
      table1 = pre ++ interfaceEntries true xs := by
  induction nodes generalizing pre with
  | nil =>
    simp only [fillInterfaceTable] at h
    have h := Except.ok.inj h
    subst h
    exact ⟨[], List.Forall₂.nil, by simp [interfaceEntries]⟩
  | cons n rest ih =>
    simp only [fillInterfaceTable] at h
    cases hres : resolveClass n.1 with
    | none => rw [hres] at h; exact absurd h (by simp)
    | some x =>
      rw [hres] at h
      dsimp only at h
      have hrep : List.replicate (2 * (n :: rest).length)
          (none : Option (TableEntry Class))
          = none :: none :: List.replicate (2 * rest.length) none := by
        simp only [List.length_cons, Nat.mul_add, Nat.mul_one]
        rfl
      rw [hrep, arrayStore_append] at h
      dsimp only at h
      rw [if_pos trivial] at h
      cases hvt : x.virtualTable with
      | none => rw [hvt] at h; exact absurd h (by simp)
      | some ivtable =>
        rw [hvt] at h
        dsimp only at h
        have hstore := arrayStore_append (pre ++ [some (TableEntry.interface x)])
          (List.replicate (2 * rest.length) none) none
          (some (TableEntry.vtable (List.replicate ivtable.length none)))
        simp only [List.append_assoc, List.singleton_append, List.length_append,
          List.length_singleton] at hstore
        rw [hstore] at h
        dsimp only at h
        have h2 := ih (pre ++ [some (TableEntry.interface x),
          some (TableEntry.vtable (List.replicate ivtable.length none))])
          (by simpa [Nat.add_assoc] using h)
        obtain ⟨xs, hx1, hx2⟩ := h2
        refine ⟨x :: xs, List.Forall₂.cons hres hx1, ?_⟩
        rw [hx2]
        simp [interfaceEntries, hvt]

theorem fillInterfaceTable_interface (resolveClass : Bytes → Option Class)
    (nodes : List (Bytes × Option Class)) (pre table1 : List (Option (TableEntry Class)))
    (h : fillInterfaceTable resolveClass false
      (pre ++ List.replicate nodes.length none) pre.length nodes = .ok table1) :
    ∃ xs, List.Forall₂ (fun n x => resolveClass n.1 = some x) nodes xs ∧
      table1 = pre ++ interfaceEntries false xs := by
  induction nodes generalizing pre with
  | nil =>
    simp only [fillInterfaceTable] at h
    have h := Except.ok.inj h
    subst h
    exact ⟨[], List.Forall₂.nil, by simp [interfaceEntries]⟩
  | cons n rest ih =>
    simp only [fillInterfaceTable] at h
    cases hres : resolveClass n.1 with
    | none => rw [hres] at h; exact absurd h (by simp)
    | some x =>
      rw [hres] at h
      dsimp only at h
      have hrep : List.replicate (n :: rest).length (none : Option (TableEntry Class))
          = none :: List.replicate rest.length none := rfl
      rw [hrep, arrayStore_append] at h
      dsimp only at h
      have h : fillInterfaceTable resolveClass false
          (pre ++ some (TableEntry.interface x) :: List.replicate rest.length none)
          (pre.length + 1) rest = .ok table1 := by
        simpa using h
      have h2 := ih (pre ++ [some (TableEntry.interface x)]) (by simpa using h)
      obtain ⟨xs, hx1, hx2⟩ := h2
      refine ⟨x :: xs, List.Forall₂.cons hres hx1, ?_⟩
      rw [hx2]
      simp [interfaceEntries]
theorem interfaceEntries_spec (concrete : Bool) (xs : List Class) :
    (∀ e ∈ interfaceEntries concrete xs, e ≠ none) ∧
    (interfaceEntries concrete xs).filterMap entryInterface = xs := by
  induction xs with
  | nil => simp [interfaceEntries]
  | cons x rest ih =>
    have hcons : interfaceEntries concrete (x :: rest)
        = (if concrete then
            [some (TableEntry.interface x),
             some (TableEntry.vtable (List.replicate (x.virtualTable.getD []).length none))]
           else [some (TableEntry.interface x)]) ++ interfaceEntries concrete rest := by
      simp [interfaceEntries]
    rw [hcons]
    cases concrete with
    | true =>
      refine ⟨?_, ?_⟩
      · intro e he
        simp only [if_true, List.cons_append, List.nil_append, List.mem_cons] at he
        rcases he with he | he | he
        · rw [he]; simp
        · rw [he]; simp
        · exact ih.1 e he
      · simp [entryInterface, ih.2]
    | false =>
      refine ⟨?_, ?_⟩
      · intro e he
        simp only [Bool.false_eq_true, if_false, List.cons_append, List.nil_append,
          List.mem_cons] at he
        rcases he with he | he
        · rw [he]; simp
        · exact ih.1 e he
      · simp [entryInterface, ih.2]

/-- With names told apart by the low four bits of their hash, a successful
`parseInterfaceTable` stores a table without empty slot holding, for pairwise
distinct keys that are exactly the collected names, the class each key
resolves to. -/
theorem parseInterfaceTable_sparse (hash : Bytes → Nat)
    (resolveClass : Bytes → Option Class) (class_ c : Class) (names : List Bytes)
    (hinj : ∀ a ∈ collectedNames resolveClass class_.super names,
      ∀ b ∈ collectedNames resolveClass class_.super names,
      hash a &&& 15 = hash b &&& 15 → a = b)
    (h : parseInterfaceTable hash resolveClass class_ names = .ok c) :
    c.flags = class_.flags ∧ c.super = class_.super ∧
    (∀ n ∈ names, ∃ i, resolveClass n = some i) ∧
    ∃ keys xs, keys.Nodup ∧
      (∀ k, k ∈ keys ↔ k ∈ collectedNames resolveClass class_.super names) ∧
      List.Forall₂ (fun k x => resolveClass k = some x) keys xs ∧
      c.interfaceTable.getD []
        = interfaceEntries (decide (class_.flags &&& ACC_INTERFACE = 0)) xs := by
  unfold parseInterfaceTable at h
  cases hmap : interfaceMap hash resolveClass class_ names with
  | error e => rw [hmap] at h; exact absurd h (by simp)
  | ok map =>
    rw [hmap] at h
    dsimp only at h
    obtain ⟨hs, hresolve, hkeys⟩ := interfaceMap_sparse hash resolveClass class_ names map
      hinj hmap
    have hnodes : hashMapNodes map = map.nodes :=
      hashMapNodes_sparse map (fun a ha => (hs.buckets a ha).2)
    by_cases hsize : map.size ≠ 0
    · rw [if_pos hsize, hnodes, hs.size] at h
      have hfill : ∃ xs, List.Forall₂ (fun (n : Bytes × Option Class) x =>
            resolveClass n.1 = some x) map.nodes xs ∧
          c.flags = class_.flags ∧ c.super = class_.super ∧
          c.interfaceTable
            = some (interfaceEntries (decide (class_.flags &&& ACC_INTERFACE = 0)) xs) := by
        by_cases hcon : class_.flags &&& ACC_INTERFACE = 0
        · simp only [hcon, decide_True, if_true] at h ⊢
          cases hf : fillInterfaceTable resolveClass true
              (List.replicate (map.nodes.length * 2) none) 0 map.nodes with
          | error e => rw [hf] at h; exact absurd h (by simp)
          | ok table =>
            rw [hf] at h
            dsimp only at h
            have h := Except.ok.inj h
            subst h
            obtain ⟨xs, hx1, hx2⟩ := fillInterfaceTable_concrete resolveClass map.nodes []
              table (by rw [Nat.mul_comm] at hf; simpa using hf)
            exact ⟨xs, hx1, rfl, rfl, by rw [hx2]; rfl⟩
        · simp only [hcon, decide_False, Bool.false_eq_true, if_false] at h ⊢
          cases hf : fillInterfaceTable resolveClass false
              (List.replicate map.nodes.length none) 0 map.nodes with
          | error e => rw [hf] at h; exact absurd h (by simp)
          | ok table =>
            rw [hf] at h
            dsimp only at h
            have h := Except.ok.inj h
            subst h
            obtain ⟨xs, hx1, hx2⟩ := fillInterfaceTable_interface resolveClass map.nodes []
              table (by simpa using hf)
            exact ⟨xs, hx1, rfl, rfl, by rw [hx2]; rfl⟩
      obtain ⟨xs, hx1, hf1, hf2, hf3⟩ := hfill
      refine ⟨hf1, hf2, hresolve, map.nodes.map Prod.fst, xs, hs.nodup, hkeys, ?_, ?_⟩
      · clear hf3 hkeys hnodes h
        generalize map.nodes = nodes at hx1
        induction hx1 with
        | nil => exact List.Forall₂.nil
        | cons hab _ ih => exact List.Forall₂.cons hab ih
      · rw [hf3]; rfl
    · rw [if_neg hsize] at h
      have h := Except.ok.inj h
      subst h
      have hzero : map.nodes = [] := by
        have : map.nodes.length = 0 := by rw [← hs.size]; simpa using hsize
        exact List.length_eq_zero.mp this
      refine ⟨rfl, rfl, hresolve, [], [], List.nodup_nil, ?_, List.Forall₂.nil, ?_⟩
      · intro k
        rw [← hkeys k, hzero]
        simp
      · simp [interfaceEntries]

/-- A successful `parseFieldTable` leaves flags, superclass and interface table
of the class untouched. -/
theorem parseFieldTable_frame (W B : Nat) (class_ c : Class) (decls : List FieldDecl)
    (h : parseFieldTable W B class_ decls = .ok c) :
    c.flags = class_.flags ∧ c.super = class_.super ∧
    c.interfaceTable = class_.interfaceTable ∧ c.name = class_.name ∧
    c.virtualTable = class_.virtualTable := by
  unfold parseFieldTable at h
  cases hst : parseFields W class_ decls with
  | error e => rw [hst] at h; exact absurd h (by simp)
  | ok st =>
    rw [hst] at h
    dsimp only at h
    have hc1 : ∀ c1 : Class, c1 = (if decls.length ≠ 0 then
          { class_ with
            fieldTable := some st.fields
            staticTable := if st.staticOffset ≠ 0 then some st.staticOffset
                           else class_.staticTable }
        else class_) →
        c1.flags = class_.flags ∧ c1.super = class_.super ∧
        c1.interfaceTable = class_.interfaceTable ∧ c1.name = class_.name ∧
        c1.virtualTable = class_.virtualTable := by
      intro c1 hc1
      subst hc1
      split <;> exact ⟨rfl, rfl, rfl, rfl, rfl⟩
    generalize hgen : (if decls.length ≠ 0 then
          ({ class_ with
            fieldTable := some st.fields
            staticTable := if st.staticOffset ≠ 0 then some st.staticOffset
                           else class_.staticTable } : Class)
        else class_) = c1 at h
    have hc1 := hc1 c1 hgen.symm
    have hmask : ∀ c2 : Class, computeObjectMask W B
        { c1 with fixedSize := pad W st.memberOffset } = .ok c2 →
        c2.flags = class_.flags ∧ c2.super = class_.super ∧
        c2.interfaceTable = class_.interfaceTable ∧ c2.name = class_.name ∧
        c2.virtualTable = class_.virtualTable := by
      intro c2 hc2
      rcases computeObjectMask_frame W B _ c2 hc2 with h2 | ⟨m, h2⟩
      · rw [h2]; exact hc1
      · rw [h2]; exact hc1
    cases hsup : class_.super with
    | none =>
      rw [hsup] at h
      rw [← hsup]
      exact hmask c h
    | some s =>
      rw [hsup] at h
      dsimp only at h
      rw [← hsup]
      by_cases hmo : st.memberOffset = s.fixedSize
      · rw [if_pos hmo] at h
        have h := Except.ok.inj h
        subst h
        exact hc1
      · rw [if_neg hmo] at h
        exact hmask c h
theorem fillSubVtable_frame (find : Method → Option Method)
    (ivtable : List (Option Method)) (vtable vtable1 : Option (TableEntry Class)) (j : Nat)
    (h : fillSubVtable find vtable j ivtable = .ok vtable1) :
    entryInterface vtable1 = entryInterface vtable ∧ (vtable ≠ none → vtable1 ≠ none) := by
  induction ivtable generalizing vtable j with
  | nil =>
    simp only [fillSubVtable] at h
    have h := Except.ok.inj h
    subst h
    exact ⟨rfl, fun hne => hne⟩
  | cons e rest ih =>
    cases e with
    | none => simp [fillSubVtable] at h
    | some method =>
      simp only [fillSubVtable] at h
      cases hf : find method with
      | none => rw [hf] at h; exact absurd h (by simp)
      | some found =>
        rw [hf] at h
        dsimp only at h
        cases vtable with
        | none => exact absurd h (by simp)
        | some entry =>
          cases entry with
          | interface i => exact absurd h (by simp)
          | vtable entries =>
            dsimp only at h
            cases hs : arrayStore entries j (some found) with
            | error e => rw [hs] at h; exact absurd h (by simp)
            | ok entries1 =>
              rw [hs] at h
              dsimp only at h
              obtain ⟨h1, h2⟩ := ih _ _ h
              exact ⟨by rw [h1]; rfl, fun _ => h2 (by simp)⟩

/-- The last loop of `parseMethodTable` changes the sub-vtables only: the
interfaces of the table stay, and no slot becomes empty. -/
theorem fillInterfaceVtables_frame (find : Method → Option Method) (n : Nat)
    (itable itable1 : List (Option (TableEntry Class))) (hn : itable.length ≤ n)
    (h : fillInterfaceVtables find itable = .ok itable1) :
    itable1.filterMap entryInterface = itable.filterMap entryInterface ∧
    ((∀ e ∈ itable, e ≠ none) → ∀ e ∈ itable1, e ≠ none) := by
  induction n generalizing itable itable1 with
  | zero =>
    have : itable = [] := List.length_eq_zero.mp (Nat.le_zero.mp hn)
    subst this
    simp only [fillInterfaceVtables] at h
    have h := Except.ok.inj h
    subst h
    exact ⟨rfl, fun hne => hne⟩
  | succ k ih =>
    match itable, h, hn with
    | [], h, _ =>
      simp only [fillInterfaceVtables] at h
      have h := Except.ok.inj h
      subst h
      exact ⟨rfl, fun hne => hne⟩
    | none :: _, h, _ => simp [fillInterfaceVtables] at h
    | some (.vtable _) :: _, h, _ => simp [fillInterfaceVtables] at h
    | [some (.interface _)], h, _ => simp [fillInterfaceVtables] at h
    | some (.interface i) :: vtable :: rest, h, hn =>
      simp only [fillInterfaceVtables] at h
      cases hv : i.virtualTable with
      | none => rw [hv] at h; exact absurd h (by simp)
      | some ivtable =>
        rw [hv] at h
        dsimp only at h
        cases hs : fillSubVtable find vtable 0 ivtable with
        | error e => rw [hs] at h; exact absurd h (by simp)
        | ok vtable1 =>
          rw [hs] at h
          dsimp only at h
          cases hr : fillInterfaceVtables find rest with
          | error e => rw [hr] at h; exact absurd h (by simp)
          | ok rest1 =>
            rw [hr] at h
            dsimp only at h
            have h := Except.ok.inj h
            subst h
            obtain ⟨s1, s2⟩ := fillSubVtable_frame find ivtable vtable vtable1 0 hs
            obtain ⟨r1, r2⟩ := ih rest rest1 (by simp at hn; omega) hr
            refine ⟨?_, ?_⟩
            · have e1 : List.filterMap entryInterface [vtable1]
                  = List.filterMap entryInterface [vtable] := by
                simp only [List.filterMap_cons, s1]
              show List.filterMap entryInterface
                  ([some (TableEntry.interface i)] ++ ([vtable1] ++ rest1))
                = List.filterMap entryInterface
                  ([some (TableEntry.interface i)] ++ ([vtable] ++ rest))
              rw [List.filterMap_append, List.filterMap_append, List.filterMap_append,
                List.filterMap_append, e1, r1]
            · intro hne e he
              rcases List.mem_cons.mp he with he | he
              · rw [he]; simp
              · rcases List.mem_cons.mp he with he | he
                · rw [he]
                  exact s2 (hne vtable (by simp))
                · exact r2 (fun x hx => hne x (by simp [hx])) e he

theorem parseMethod_count (methodHash : Method → Nat) (owner : Bytes) (st st1 : MethodLoop)
    (d : MethodDecl) (h : parseMethod methodHash owner st d = .ok st1) :
    st1.declaredVirtualCount
      = st.declaredVirtualCount + (if d.flags &&& ACC_STATIC = 0 then 1 else 0) := by
  unfold parseMethod at h
  cases hc : parameterCount d.spec with
  | error e => rw [hc] at h; exact absurd h (by simp)
  | ok count =>
    cases hf : parameterFootprint d.spec with
    | error e => rw [hc, hf] at h; exact absurd h (by simp)
    | ok footprint =>
      rw [hc, hf] at h
      dsimp only at h
      have h := Except.ok.inj h
      subst h
      have hflags : (newMethod owner d count footprint).flags = d.flags := by
        unfold newMethod; split <;> rfl
      have hreg : ∀ (s : MethodLoop) (m : Method),
          (registerNative methodHash s m).declaredVirtualCount = s.declaredVirtualCount := by
        intro s m
        unfold registerNative
        split
        · split <;> rfl
        · rfl
      dsimp only
      rw [hreg]
      unfold assignSlot
      rw [hflags]
      by_cases hs : d.flags &&& ACC_STATIC = 0
      · rw [if_neg (by simp [hs]), if_pos hs]
        split <;> rfl
      · rw [if_pos hs, if_neg hs]
        dsimp only
        split <;> rfl

theorem parseMethodsFrom_count (methodHash : Method → Nat) (owner : Bytes)
    (decls : List MethodDecl) (st st1 : MethodLoop)
    (h : parseMethodsFrom methodHash owner st decls = .ok st1) :
    st.declaredVirtualCount ≤ st1.declaredVirtualCount ∧
    ((∃ d ∈ decls, d.flags &&& ACC_STATIC = 0) →
      st1.declaredVirtualCount ≠ 0) ∧
    ((∀ d ∈ decls, d.flags &&& ACC_STATIC ≠ 0) →
      st1.declaredVirtualCount = st.declaredVirtualCount) := by
  induction decls generalizing st with
  | nil =>
    simp only [parseMethodsFrom] at h
    have h := Except.ok.inj h
    subst h
    exact ⟨le_refl _, by simp, fun _ => rfl⟩
  | cons d ds ih =>
    simp only [parseMethodsFrom] at h
    cases h1 : parseMethod methodHash owner st d with
    | error e => rw [h1] at h; exact absurd h (by simp)
    | ok st2 =>
      rw [h1] at h
      dsimp only at h
      have hc := parseMethod_count methodHash owner st st2 d h1
      obtain ⟨i1, i2, i3⟩ := ih st2 h
      refine ⟨by omega, ?_, ?_⟩
      · rintro ⟨x, hx, hxs⟩
        rcases List.mem_cons.mp hx with hx | hx
        · subst hx
          rw [if_pos hxs] at hc
          omega
        · exact i2 ⟨x, hx, hxs⟩
      · intro hall
        rw [i3 (fun x hx => hall x (List.mem_cons_of_mem _ hx)), hc,
          if_neg (hall d (List.mem_cons_self _ _))]
        rfl

theorem initialMethodLoop_count (methodHash : Method → Nat) (class_ : Class)
    (st : MethodLoop) (h : initialMethodLoop methodHash class_ = .ok st) :
    st.declaredVirtualCount = 0 := by
  unfold initialMethodLoop at h
  dsimp only at h
  split at h
  · split at h
    · exact absurd h (by simp)
    · have h := Except.ok.inj h
      subst h
      rfl
  · split at h
    · have h := Except.ok.inj h
      subst h
      rfl
    · split at h
      · exact absurd h (by simp)
      · have h := Except.ok.inj h
        subst h
        rfl

/-- The number of declared non-static methods counted by the declaration loop
is zero exactly when the class file declares none. -/
theorem parseMethods_count (methodHash : Method → Nat) (class_ : Class)
    (decls : List MethodDecl) (st : MethodLoop)
    (h : parseMethods methodHash class_ decls = .ok st) :
    ((∃ d ∈ decls, d.flags &&& ACC_STATIC = 0) → st.declaredVirtualCount ≠ 0) ∧
    ((∀ d ∈ decls, d.flags &&& ACC_STATIC ≠ 0) → st.declaredVirtualCount = 0) := by
  unfold parseMethods at h
  cases h0 : initialMethodLoop methodHash class_ with
  | error e => rw [h0] at h; exact absurd h (by simp)
  | ok st0 =>
    rw [h0] at h
    dsimp only at h
    obtain ⟨_, i2, i3⟩ := parseMethodsFrom_count methodHash class_.name decls st0 st h
    exact ⟨i2, fun hall => by rw [i3 hall]; exact initialMethodLoop_count methodHash class_ st0 h0⟩

/-- What `parseMethodTable` does to the interface table: a class declaring a
non-static method keeps the interfaces of its table, slot by slot non-empty as
before; a class declaring none takes the table of its superclass. -/
theorem parseMethodTable_interfaceTable (methodHash : Method → Nat) (class_ c : Class)
    (decls : List MethodDecl) (h : parseMethodTable methodHash class_ decls = .ok c) :
    ((∃ d ∈ decls, d.flags &&& ACC_STATIC = 0) →
      (c.interfaceTable.getD []).filterMap entryInterface
        = (class_.interfaceTable.getD []).filterMap entryInterface ∧
      ((∀ e ∈ class_.interfaceTable.getD [], e ≠ none) →
        ∀ e ∈ c.interfaceTable.getD [], e ≠ none)) ∧
    ((∀ d ∈ decls, d.flags &&& ACC_STATIC ≠ 0) →
      ∃ s, class_.super = some s ∧ c.interfaceTable = s.interfaceTable) := by
  obtain ⟨st, table, hst, _, _, hcases⟩ := parseMethodTable_ok methodHash class_ c decls h
  obtain ⟨hc1, hc2⟩ := parseMethods_count methodHash class_ decls st hst
  refine ⟨fun hex => ?_, fun hall => ?_⟩
  · have hne := hc1 hex
    rcases hcases with ⟨h0, _⟩ | ⟨_, _, _, hi, _⟩ | ⟨_, _, _, _, _, _, _, _, hi⟩ | ⟨_, _, _, hi⟩
    · exact absurd h0 hne
    · rw [hi]; exact ⟨rfl, fun hx => hx⟩
    · rcases hi with ⟨h1, h2⟩ | ⟨itable, itable1, h1, h2, h3⟩
      · rw [h1, h2]; exact ⟨rfl, fun hx => hx⟩
      · rw [h1, h3]
        exact fillInterfaceVtables_frame _ itable.length itable itable1 (le_refl _) h2
    · rw [hi]; exact ⟨rfl, fun hx => hx⟩
  · have hz := hc2 hall
    rcases hcases with ⟨_, s, hs, hi, _⟩ | ⟨h0, _⟩ | ⟨h0, _⟩ | ⟨h0, _⟩
    · exact ⟨s, hs, hi⟩
    · exact absurd hz h0
    · exact absurd hz h0
    · exact absurd hz h0
theorem mem_inheritedNames (sup : Option Class) (k : Bytes) :
    k ∈ inheritedNames sup ↔ ∃ j ∈ inheritedInterfaces sup, k = j.name := by
  cases sup with
  | none => simp [inheritedNames, inheritedInterfaces]
  | some s =>
    simp only [inheritedNames, inheritedInterfaces, List.mem_map]
    constructor
    · rintro ⟨j, hj, h⟩; exact ⟨j, hj, h.symm⟩
    · rintro ⟨j, hj, h⟩; exact ⟨j, hj, h.symm⟩

theorem mem_declaredNames (resolveClass : Bytes → Option Class) (names : List Bytes)
    (k : Bytes) :
    k ∈ declaredNames resolveClass names ↔
      (k ∈ names ∨ ∃ n ∈ names, ∃ j ∈ inheritedInterfaces (resolveClass n), k = j.name) := by
  simp only [declaredNames, List.mem_flatMap, List.mem_cons, mem_inheritedNames]
  constructor
  · rintro ⟨n, hn, h | h⟩
    · exact Or.inl (by rw [h]; exact hn)
    · exact Or.inr ⟨n, hn, h⟩
  · rintro (h | ⟨n, hn, h⟩)
    · exact ⟨k, h, Or.inl rfl⟩
    · exact ⟨n, hn, Or.inr h⟩

theorem mem_declaredInterfaces (resolveClass : Bytes → Option Class) (names : List Bytes)
    (x : Class) :
    x ∈ declaredInterfaces resolveClass names ↔
      ((∃ n ∈ names, resolveClass n = some x) ∨
        ∃ n ∈ names, x ∈ inheritedInterfaces (resolveClass n)) := by
  simp only [declaredInterfaces, List.mem_flatMap]
  constructor
  · rintro ⟨n, hn, h⟩
    cases hr : resolveClass n with
    | none => rw [hr] at h; simp at h
    | some i =>
      rw [hr] at h
      rcases List.mem_cons.mp h with h | h
      · exact Or.inl ⟨n, hn, by rw [hr, h]⟩
      · exact Or.inr ⟨n, hn, by rw [hr]; exact h⟩
  · rintro (⟨n, hn, h⟩ | ⟨n, hn, h⟩)
    · exact ⟨n, hn, by rw [h]; exact List.mem_cons_self _ _⟩
    · cases hr : resolveClass n with
      | none => rw [hr] at h; simp [inheritedInterfaces] at h
      | some i =>
        rw [hr] at h
        exact ⟨n, hn, by rw [hr]; exact List.mem_cons_of_mem _ h⟩

theorem resolveSuper_spec (resolveClass : Bytes → Option Class) (class_ c : Class)
    (super : Option Bytes) (hfresh : class_.super = none)
    (h : resolveSuper resolveClass class_ super = .ok c) :
    c.flags = class_.flags ∧ c.super = super.bind resolveClass := by
  unfold resolveSuper at h
  cases super with
  | none =>
    have h := Except.ok.inj h
    subst h
    exact ⟨rfl, hfresh⟩
  | some name =>
    dsimp only at h
    cases hr : resolveClass name with
    | none => rw [hr] at h; exact absurd h (by simp)
    | some sc =>
      rw [hr] at h
      have h := Except.ok.inj h
      subst h
      exact ⟨rfl, by simp [hr]⟩

theorem forall2_map_eq {α β : Type} (f : β → α) (l1 : List α) (l2 : List β)
    (h : List.Forall₂ (fun a b => f b = a) l1 l2) : l2.map f = l1 := by
  induction h with
  | nil => rfl
  | cons hab _ ih => simp [hab, ih]

theorem forall2_mem_right {α β : Type} (R : α → β → Prop) (l1 : List α) (l2 : List β)
    (h : List.Forall₂ R l1 l2) (b : β) (hb : b ∈ l2) : ∃ a ∈ l1, R a b := by
  induction h with
  | nil => simp at hb
  | cons hab _ ih =>
    rcases List.mem_cons.mp hb with hb | hb
    · subst hb; exact ⟨_, List.mem_cons_self _ _, hab⟩
    · obtain ⟨a, ha, hr⟩ := ih hb
      exact ⟨a, List.mem_cons_of_mem _ ha, hr⟩

theorem forall2_names (resolveClass : Bytes → Option Class) (keys : List Bytes)
    (xs : List Class) (h : List.Forall₂ (fun k x => resolveClass k = some x) keys xs)
    (hname : ∀ k x, k ∈ keys → resolveClass k = some x → x.name = k) :
    List.Forall₂ (fun k (x : Class) => x.name = k) keys xs := by
  induction h with
  | nil => exact List.Forall₂.nil
  | cons hab _ ih =>
    exact List.Forall₂.cons (hname _ _ (List.mem_cons_self _ _) hab)
      (ih (fun k x hk hx => hname k x (List.mem_cons_of_mem _ hk) hx))

/-- C5 (amended): after `parseClass` succeeds, in an environment where every
class is found under its own name and the names of the interfaces collected are
told apart by the low four bits of their hash (so that no bucket of the
deduplication map holds two of them), the interface table of a class that
declares at least one non-static method contains, exactly once each and with no
slot left empty, every interface named in the class file's interface list,
every interface of the superclass's interface table and every interface of the
interface tables of the named interfaces; the interface table of a class that
declares no non-static method is its superclass's. -/
theorem parseClass_interface_table (W B : Nat) (byteArrayHash : Bytes → Nat)
    (methodHash : Method → Nat) (resolveClass : Bytes → Option Class) (file : ClassFile)
    (c : Class)
    (hok : parseClass W B byteArrayHash methodHash resolveClass file = .ok c)
    (hinj : ∀ a ∈ collectedNames resolveClass (file.super.bind resolveClass) file.interfaces,
      ∀ b ∈ collectedNames resolveClass (file.super.bind resolveClass) file.interfaces,
      byteArrayHash a &&& 15 = byteArrayHash b &&& 15 → a = b)
    (hnamed : ∀ n ∈ file.interfaces, ∀ i, resolveClass n = some i → i.name = n)
    (hknown : ∀ x ∈ collectedInterfaces resolveClass (file.super.bind resolveClass)
      file.interfaces, resolveClass x.name = some x) :
    ((∃ d ∈ file.methods, d.flags &&& ACC_STATIC = 0) →
      (∀ e ∈ c.interfaceTable.getD [], e ≠ none) ∧
      ((c.interfaceTable.getD []).filterMap entryInterface).Nodup ∧
      ∀ x, x ∈ (c.interfaceTable.getD []).filterMap entryInterface ↔
        x ∈ collectedInterfaces resolveClass (file.super.bind resolveClass)
          file.interfaces) ∧
    ((∀ d ∈ file.methods, d.flags &&& ACC_STATIC ≠ 0) →
      ∃ s, file.super.bind resolveClass = some s ∧ c.interfaceTable = s.interfaceTable) := by
  unfold parseClass at hok
  cases h1 : resolveSuper resolveClass (freshClass file.flags file.name none) file.super with
  | error e => rw [h1] at hok; exact absurd hok (by simp)
  | ok class1 =>
    rw [h1] at hok
    dsimp only at hok
    cases h2 : parseInterfaceTable byteArrayHash resolveClass class1 file.interfaces with
    | error e => rw [h2] at hok; exact absurd hok (by simp)
    | ok class2 =>
      rw [h2] at hok
      dsimp only at hok
      cases h3 : parseFieldTable W B class2 file.fields with
      | error e => rw [h3] at hok; exact absurd hok (by simp)
      | ok class3 =>
        rw [h3] at hok
        dsimp only at hok
        obtain ⟨_, hsup⟩ := resolveSuper_spec resolveClass _ class1 file.super rfl h1
        rw [← hsup] at hinj hknown ⊢
        obtain ⟨_, p2, _, keys, xs, pnodup, pkeys, prel, ptable⟩ :=
          parseInterfaceTable_sparse byteArrayHash resolveClass class1 class2 file.interfaces
            hinj h2
        obtain ⟨_, f2, f3, _, _⟩ := parseFieldTable_frame W B class2 class3 file.fields h3
        obtain ⟨m1, m2⟩ := parseMethodTable_interfaceTable methodHash class3 c file.methods hok
        refine ⟨fun hex => ?_, fun hall => ?_⟩
        · obtain ⟨e1, e2⟩ := m1 hex
          rw [f3, ptable] at e1 e2
          obtain ⟨q1, q2⟩ := interfaceEntries_spec
            (decide (class1.flags &&& ACC_INTERFACE = 0)) xs
          rw [q2] at e1
          -- every class stored is found under its own name
          have hname : ∀ k x, k ∈ keys → resolveClass k = some x → x.name = k := by
            intro k x hk hx
            have hk := (pkeys k).mp hk
            simp only [collectedNames, List.mem_append, mem_inheritedNames,
              mem_declaredNames] at hk
            have hj : ∀ j ∈ collectedInterfaces resolveClass class1.super file.interfaces,
                k = j.name → x.name = k := by
              intro j hj hkj
              have := hknown j hj
              rw [← hkj, hx] at this
              rw [Option.some.inj this]
              exact hkj.symm
            rcases hk with ⟨j, hj1, hj2⟩ | hk | ⟨n, hn, j, hj1, hj2⟩
            · exact hj j (by simp [collectedInterfaces, hj1]) hj2
            · exact hnamed k hk x hx
            · exact hj j (by
                simp only [collectedInterfaces, List.mem_append, mem_declaredInterfaces]
                exact Or.inr (Or.inr ⟨n, hn, hj1⟩)) hj2
          have hxs : xs.map (fun x => x.name) = keys :=
            forall2_map_eq _ _ _ (forall2_names resolveClass keys xs prel hname)
          refine ⟨e2 q1, ?_, fun x => ?_⟩
          · rw [e1]
            exact List.Nodup.of_map (fun x => x.name) (by rw [hxs]; exact pnodup)
          · rw [e1]
            constructor
            · intro hx
              obtain ⟨k, hk, hkx⟩ := forall2_mem_right _ _ _ prel x hx
              have hkn := hname k x hk hkx
              have hk := (pkeys k).mp hk
              simp only [collectedNames, List.mem_append, mem_inheritedNames,
                mem_declaredNames] at hk
              have hj : ∀ j ∈ collectedInterfaces resolveClass class1.super file.interfaces,
                  k = j.name → x ∈ collectedInterfaces resolveClass class1.super
                    file.interfaces := by
                intro j hj hkj
                have := hknown j hj
                rw [← hkj, hkx] at this
                rw [Option.some.inj this]
                exact hj
              rcases hk with ⟨j, hj1, hj2⟩ | hk | ⟨n, hn, j, hj1, hj2⟩
              · exact hj j (by simp [collectedInterfaces, hj1]) hj2
              · simp only [collectedInterfaces, List.mem_append, mem_declaredInterfaces]
                exact Or.inr (Or.inl ⟨k, hk, hkx⟩)
              · exact hj j (by
                  simp only [collectedInterfaces, List.mem_append, mem_declaredInterfaces]
                  exact Or.inr (Or.inr ⟨n, hn, hj1⟩)) hj2
            · intro hx
              have hres := hknown x hx
              have hkey : x.name ∈ keys := by
                rw [pkeys]
                simp only [collectedInterfaces, List.mem_append, mem_declaredInterfaces] at hx
                simp only [collectedNames, List.mem_append, mem_inheritedNames,
                  mem_declaredNames]
                rcases hx with hx | ⟨n, hn, hx⟩ | ⟨n, hn, hx⟩
                · exact Or.inl ⟨x, hx, rfl⟩
                · exact Or.inr (Or.inl (by rw [hnamed n hn x hx]; exact hn))
                · exact Or.inr (Or.inr ⟨n, hn, x, hx, rfl⟩)
              obtain ⟨y, hy, hky⟩ := forall2_mem_left _ _ _ prel x.name hkey
              rw [hres] at hky
              rw [Option.some.inj hky]
              exact hy
        · obtain ⟨s, hs1, hs2⟩ := m2 hall
          exact ⟨s, by rw [← hs1, f2, p2], hs2⟩

theorem parseClass_interface_table_witness :
    ((∃ d ∈ implementorFile.methods, d.flags &&& ACC_STATIC = 0) →
      (∀ e ∈ sampleImplementor.interfaceTable.getD [], e ≠ none) ∧
      ((sampleImplementor.interfaceTable.getD []).filterMap entryInterface).Nodup ∧
      ∀ x, x ∈ (sampleImplementor.interfaceTable.getD []).filterMap entryInterface ↔
        x ∈ collectedInterfaces sampleResolve (implementorFile.super.bind sampleResolve)
          implementorFile.interfaces) ∧
    ((∀ d ∈ implementorFile.methods, d.flags &&& ACC_STATIC ≠ 0) →
      ∃ s, implementorFile.super.bind sampleResolve = some s ∧
        sampleImplementor.interfaceTable = s.interfaceTable) :=
  parseClass_interface_table 4 32 sampleNameHash sampleHash sampleResolve implementorFile
    sampleImplementor rfl (by decide)
    (by
      intro n hn i hi
      have hn : n = [73, 0] := by simpa [implementorFile] using hn
      subst hn
      have hr : sampleResolve [73, 0] = some sampleInterface := rfl
      rw [hr] at hi
      rw [← Option.some.inj hi]
      rfl)
    (by
      intro x hx
      have hl : collectedInterfaces sampleResolve (implementorFile.super.bind sampleResolve)
          implementorFile.interfaces = [sampleInterface] := rfl
      rw [hl] at hx
      have hx : x = sampleInterface := by simpa using hx
      subst hx
      rfl)

/-! ## Properties of insertion and removal -/

theorem hashMapInsertAll_spec {κ ν : Type} (hash : κ → Nat) (kvs : List (κ × ν))
    (map : HashMap κ ν) (h : map.WF hash) :
    (hashMapInsertAll hash map kvs).WF hash ∧
    (hashMapInsertAll hash map kvs).size = map.size + kvs.length ∧
    (hashMapInsertAll hash map kvs).nodes.Perm (kvs.reverse ++ map.nodes) := by
  induction kvs generalizing map with
  | nil => exact ⟨h, rfl, by simp [hashMapInsertAll]⟩
  | cons kv rest ih =>
    obtain ⟨h1, h2, _, h4⟩ := hashMapInsert_spec hash map kv.1 kv.2 h
    obtain ⟨i1, i2, i3⟩ := ih _ h1
    refine ⟨i1, ?_, ?_⟩
    · simp only [hashMapInsertAll, i2, h2, List.length_cons]; omega
    · simp only [hashMapInsertAll]
      refine i3.trans ?_
      simp only [List.reverse_cons, List.append_assoc, List.singleton_append]
      exact List.Perm.append_left _ h4

/-- In a well-formed map a node whose key is equal to no other node's key is
the node `hashMapFindNode` returns for every key equal to its own with the
same hash. -/
theorem hashMapFindNode_unique {κ ν : Type} (hash : κ → Nat) (equal : κ → κ → Bool)
    (map : HashMap κ ν) (key : κ) (n : κ × ν) (hwf : map.WF hash)
    (hn : n ∈ map.nodes) (heq : equal key n.1 = true) (hh : hash key = hash n.1)
    (huniq : ∀ x ∈ map.nodes, equal key x.1 = true → x = n) :
    hashMapFindNode hash equal map key = some n := by
  cases hf : hashMapFindNode hash equal map key with
  | some x =>
    obtain ⟨h1, h2⟩ := hashMapFindNode_some hash equal map key x hf
    rw [huniq x h1 h2]
  | none =>
    exfalso
    unfold hashMapFindNode at hf
    cases harr : map.array with
    | none => simp [HashMap.nodes, harr] at hn
    | some array =>
      rw [harr] at hf
      dsimp only at hf
      simp only [HashMap.nodes, harr, Option.getD_some] at hn
      rw [mem_flatten_iff_getD] at hn
      obtain ⟨i, hi⟩ := hn
      have hidx := (hwf array harr).2 i n hi
      rw [← hh] at hidx
      rw [hidx] at hf
      have := (chainFindNode_none equal key _ hf).1 n hi
      rw [heq] at this
      exact absurd this (by simp)


theorem makeHashMap_nodes (κ ν : Type) : (makeHashMap κ ν).nodes = [] := rfl

theorem makeHashMap_wellFormed {κ ν : Type} (hash : κ → Nat) : (makeHashMap κ ν).WF hash := by
  intro array h
  exact absurd h (by simp [makeHashMap])

/-- C11: after any sequence of N `hashMapInsert` calls on an empty map, with keys
that are equal to themselves and pairwise not equal, the size of the map is N,
it holds N nodes, and `hashMapFindNode` returns for every inserted key the node
that carries the key and the value inserted with it. -/
theorem hashMapInsert_all_found {κ ν : Type} (hash : κ → Nat) (equal : κ → κ → Bool)
    (kvs : List (κ × ν))
    (hrefl : ∀ a ∈ kvs, equal a.1 a.1 = true)
    (hdistinct : kvs.Pairwise (fun a b => equal a.1 b.1 = false ∧ equal b.1 a.1 = false)) :
    (hashMapInsertAll hash (makeHashMap κ ν) kvs).size = kvs.length ∧
    (hashMapInsertAll hash (makeHashMap κ ν) kvs).nodes.length = kvs.length ∧
    ∀ kv ∈ kvs,
      hashMapFindNode hash equal (hashMapInsertAll hash (makeHashMap κ ν) kvs) kv.1
        = some kv := by
  obtain ⟨h1, h2, h3⟩ := hashMapInsertAll_spec hash kvs (makeHashMap κ ν) (makeHashMap_wellFormed hash)
  rw [makeHashMap_nodes, List.append_nil] at h3
  have hall : ∀ a ∈ kvs, ∀ b ∈ kvs, equal a.1 b.1 = true → a = b := by
    intro a ha b hb hab
    have hsym : Symmetric (fun (a b : κ × ν) =>
        a = b ∨ (equal a.1 b.1 = false ∧ equal b.1 a.1 = false)) := by
      intro x y hxy
      rcases hxy with h | h
      · exact Or.inl h.symm
      · exact Or.inr ⟨h.2, h.1⟩
    have := List.Pairwise.forall_of_forall hsym (fun x _ => Or.inl rfl)
      (hdistinct.imp (fun h => Or.inr h)) ha hb
    rcases this with h | h
    · exact h
    · rw [h.1] at hab; exact absurd hab (by simp)
  refine ⟨by simpa [makeHashMap] using h2, by simpa using h3.length_eq, ?_⟩
  intro kv hkv
  have hmem : ∀ x, x ∈ (hashMapInsertAll hash (makeHashMap κ ν) kvs).nodes ↔ x ∈ kvs := by
    intro x
    rw [h3.mem_iff, List.mem_reverse]
  exact hashMapFindNode_unique hash equal _ kv.1 kv h1 ((hmem kv).mpr hkv) (hrefl kv hkv) rfl
    (fun x hx hxe => (hall kv hkv x ((hmem x).mp hx) hxe).symm)

theorem hashMapInsert_all_found_witness :
    (hashMapInsertAll sampleKeyHash (makeHashMap Nat Nat) samplePairs).size
      = samplePairs.length ∧
    (hashMapInsertAll sampleKeyHash (makeHashMap Nat Nat) samplePairs).nodes.length
      = samplePairs.length ∧
    ∀ kv ∈ samplePairs,
      hashMapFindNode sampleKeyHash (fun a b => a == b)
        (hashMapInsertAll sampleKeyHash (makeHashMap Nat Nat) samplePairs) kv.1 = some kv :=
  hashMapInsert_all_found sampleKeyHash (fun a b => a == b) samplePairs
    (by intro a _; simp) (by decide)


theorem removeNodes_spec {κ ν : Type} (equal : κ → κ → Bool) (key : κ)
    (chain : List (κ × ν)) (o : Option ν) (size : Nat) :
    (removeNodes equal key chain (o, size)).1 = chain.filter (fun n => !equal key n.1) ∧
    (removeNodes equal key chain (o, size)).2.2
      = size - chain.countP (fun n => equal key n.1) ∧
    ((∀ n ∈ chain, equal key n.1 = false) → (removeNodes equal key chain (o, size)).2.1 = o) ∧
    ((∃ n ∈ chain, equal key n.1 = true) →
      ∃ n ∈ chain, equal key n.1 = true ∧
        (removeNodes equal key chain (o, size)).2.1 = some n.2) := by
  induction chain generalizing o size with
  | nil => simp [removeNodes]
  | cons n rest ih =>
    by_cases hn : equal key n.1 = true
    · obtain ⟨i1, i2, i3, i4⟩ := ih (some n.2) (size - 1)
      simp only [removeNodes, if_pos hn]
      refine ⟨?_, ?_, ?_, ?_⟩
      · rw [i1, List.filter_cons_of_neg (by simp [hn])]
      · rw [i2, List.countP_cons_of_pos _ _ (by simpa using hn)]; omega
      · intro hall
        have := hall n (List.mem_cons_self _ _)
        rw [hn] at this; exact absurd this (by simp)
      · intro _
        by_cases hex : ∃ x ∈ rest, equal key x.1 = true
        · obtain ⟨x, hx, hxe, hxv⟩ := i4 hex
          exact ⟨x, List.mem_cons_of_mem _ hx, hxe, hxv⟩
        · refine ⟨n, List.mem_cons_self _ _, hn, ?_⟩
          apply i3
          intro x hx
          by_contra hne
          exact hex ⟨x, hx, by simpa using hne⟩
    · have hn : equal key n.1 = false := by simpa using hn
      obtain ⟨i1, i2, i3, i4⟩ := ih o size
      simp only [removeNodes, hn]
      refine ⟨?_, ?_, ?_, ?_⟩
      · simp [i1, hn]
      · simp [i2, hn]
      · intro hall
        exact i3 (fun x hx => hall x (List.mem_cons_of_mem _ hx))
      · intro hex
        obtain ⟨x, hx, hxe⟩ := hex
        rcases List.mem_cons.mp hx with h | h
        · rw [h, hn] at hxe; exact absurd hxe (by simp)
        · obtain ⟨y, hy, hye, hyv⟩ := i4 ⟨x, h, hxe⟩
          exact ⟨y, List.mem_cons_of_mem _ hy, hye, hyv⟩

theorem mem_take_flatten {α : Type} (l : List (List α)) (i : Nat) (x : α)
    (h : x ∈ (l.take i).flatten) : ∃ j, j < i ∧ x ∈ l.getD j [] := by
  induction l generalizing i with
  | nil => simp at h
  | cons a rest ih =>
    cases i with
    | zero => simp at h
    | succ i =>
      simp only [List.take_succ_cons, List.flatten_cons, List.mem_append] at h
      rcases h with h | h
      · exact ⟨0, by omega, by simpa using h⟩
      · obtain ⟨j, hj, hx⟩ := ih i h
        exact ⟨j + 1, by omega, by simpa using hx⟩

theorem mem_drop_flatten {α : Type} (l : List (List α)) (i : Nat) (x : α)
    (h : x ∈ (l.drop i).flatten) : ∃ j, i ≤ j ∧ x ∈ l.getD j [] := by
  induction l generalizing i with
  | nil => simp at h
  | cons a rest ih =>
    cases i with
    | zero =>
      rw [List.drop_zero] at h
      obtain ⟨j, hj⟩ := (mem_flatten_iff_getD _ x).mp h
      exact ⟨j, by omega, hj⟩
    | succ i =>
      simp only [List.drop_succ_cons] at h
      obtain ⟨j, hj, hx⟩ := ih i h
      exact ⟨j + 1, by omega, by simpa using hx⟩

theorem nextPowerOfTwoLoop_pow (fuel i j : Nat) (hij : i ≤ j) (hf : j - i ≤ fuel) :
    nextPowerOfTwoLoop fuel (2 ^ i) (2 ^ j) = 2 ^ j := by
  induction fuel generalizing i with
  | zero =>
    have : i = j := by omega
    subst this
    rfl
  | succ fuel ih =>
    unfold nextPowerOfTwoLoop
    by_cases hlt : i < j
    · have : 2 ^ i < 2 ^ j := Nat.pow_lt_pow_right (by omega) hlt
      rw [if_pos this]
      have h2 : 2 * 2 ^ i = 2 ^ (i + 1) := by rw [Nat.pow_succ]; omega
      rw [h2]
      exact ih (i + 1) (by omega) (by omega)
    · have : i = j := by omega
      subst this
      rw [if_neg (by omega)]

theorem nextPowerOfTwo_pow (j : Nat) : nextPowerOfTwo (2 ^ j) = 2 ^ j := by
  unfold nextPowerOfTwo
  have h := nextPowerOfTwoLoop_pow (2 ^ j) 0 j (by omega)
    (by have := Nat.lt_two_pow j; omega)
  simpa using h

theorem hashMapResize_length {κ ν : Type} (hash : κ → Nat) (map : HashMap κ ν) (size : Nat)
    (hsize : size ≠ 0) :
    ∃ a, (hashMapResize hash map size).array = some a ∧ a.length = nextPowerOfTwo size := by
  unfold hashMapResize
  rw [if_pos hsize]
  have hpos := nextPowerOfTwo_pos size
  have hrep := bucketsWF_replicate (ν := ν) hash (nextPowerOfTwo size) hpos
  cases harr : map.array with
  | none => exact ⟨_, rfl, by simp⟩
  | some old =>
    obtain ⟨h1, _, _⟩ := rehashAll_spec hash (nextPowerOfTwo size) old
      (List.replicate (nextPowerOfTwo size) []) (by simp) hrep
    exact ⟨_, rfl, h1⟩


/-- The map between the chain walk of `hashMapRemove` and its resize: the nodes
with a key equal to the key are gone, all of them from the key's bucket, and
the entry count has followed. -/
theorem hashMapRemove_unlink {κ ν : Type} (hash : κ → Nat) (equal : κ → κ → Bool)
    (map : HashMap κ ν) (key : κ) (array : List (List (κ × ν)))
    (harr : map.array = some array)
    (hwf : map.WF hash) (hsize : map.size = map.nodes.length)
    (hhash : ∀ a b, equal a b = true → hash a = hash b)
    (map1 : HashMap κ ν)
    (hmap1 : map1 = ⟨(removeNodes equal key (array.getD (hash key &&& (array.length - 1)) [])
          (none, map.size)).2.2,
        some (array.set (hash key &&& (array.length - 1))
          (removeNodes equal key (array.getD (hash key &&& (array.length - 1)) [])
            (none, map.size)).1)⟩) :
    map1.WF hash ∧ map1.size = map1.nodes.length ∧
    map1.nodes = map.nodes.filter (fun n => !equal key n.1) ∧
    map1.size + map.nodes.countP (fun n => equal key n.1) = map.size := by
  have hb := hwf array harr
  have hidx := index_lt hash key array.length hb.1
  obtain ⟨hs1, hs2⟩ := flatten_getD_split array (hash key &&& (array.length - 1)) hidx
  obtain ⟨r1, r2, _, _⟩ := removeNodes_spec equal key
    (array.getD (hash key &&& (array.length - 1)) []) none map.size
  have hnodes : map.nodes = array.flatten := by simp [HashMap.nodes, harr]
  have hA : ∀ x ∈ (array.take (hash key &&& (array.length - 1))).flatten,
      equal key x.1 = false := by
    intro x hx
    obtain ⟨j, hj, hxj⟩ := mem_take_flatten _ _ _ hx
    by_contra hne
    have he : equal key x.1 = true := by simpa using hne
    have := hb.2 j x hxj
    rw [← hhash key x.1 he] at this
    omega
  have hB : ∀ x ∈ (array.drop ((hash key &&& (array.length - 1)) + 1)).flatten,
      equal key x.1 = false := by
    intro x hx
    obtain ⟨j, hj, hxj⟩ := mem_drop_flatten _ _ _ hx
    by_contra hne
    have he : equal key x.1 = true := by simpa using hne
    have := hb.2 j x hxj
    rw [← hhash key x.1 he] at this
    omega
  have hfA : (array.take (hash key &&& (array.length - 1))).flatten.filter
      (fun n => !equal key n.1) = (array.take (hash key &&& (array.length - 1))).flatten := by
    rw [List.filter_eq_self]
    intro x hx
    simp [hA x hx]
  have hfB : (array.drop ((hash key &&& (array.length - 1)) + 1)).flatten.filter
      (fun n => !equal key n.1)
      = (array.drop ((hash key &&& (array.length - 1)) + 1)).flatten := by
    rw [List.filter_eq_self]
    intro x hx
    simp [hB x hx]
  have hcA : (array.take (hash key &&& (array.length - 1))).flatten.countP
      (fun n => equal key n.1) = 0 := by
    rw [List.countP_eq_zero]
    intro x hx
    simp [hA x hx]
  have hcB : (array.drop ((hash key &&& (array.length - 1)) + 1)).flatten.countP
      (fun n => equal key n.1) = 0 := by
    rw [List.countP_eq_zero]
    intro x hx
    simp [hB x hx]
  have hnodes1 : map1.nodes = map.nodes.filter (fun n => !equal key n.1) := by
    rw [hmap1, hnodes, hs1]
    simp only [HashMap.nodes, Option.getD_some]
    rw [hs2, r1, List.filter_append, List.filter_append, hfA, hfB]
  have hcount : map.nodes.countP (fun n => equal key n.1)
      = (array.getD (hash key &&& (array.length - 1)) []).countP (fun n => equal key n.1) := by
    rw [hnodes, hs1, List.countP_append, List.countP_append, hcA, hcB]
    omega
  have hle : map.nodes.countP (fun n => equal key n.1) ≤ map.nodes.length :=
    List.countP_le_length _
  have hlen : (map.nodes.filter (fun n => !equal key n.1)).length
      + map.nodes.countP (fun n => equal key n.1) = map.nodes.length := by
    have h1 := List.length_eq_countP_add_countP (fun (n : κ × ν) => equal key n.1) map.nodes
    have h2 : (map.nodes.filter (fun n => !equal key n.1)).length
        = map.nodes.countP (fun n => ¬ equal key n.1 = true) := by
      rw [List.countP_eq_length_filter]
      congr 1
      apply List.filter_congr
      intro x _
      simp
    omega
  have hsz : map1.size = map.size - map.nodes.countP (fun n => equal key n.1) := by
    rw [hmap1]
    show (removeNodes equal key (array.getD (hash key &&& (array.length - 1)) [])
        (none, map.size)).2.2 = _
    rw [r2, hcount]
  refine ⟨?_, ?_, hnodes1, ?_⟩
  · intro a ha
    rw [hmap1] at ha
    have ha : array.set (hash key &&& (array.length - 1))
        (removeNodes equal key (array.getD (hash key &&& (array.length - 1)) [])
          (none, map.size)).1 = a := Option.some.inj ha
    rw [← ha]
    refine ⟨by simpa using hb.1, ?_⟩
    intro i n hn
    rw [List.length_set]
    by_cases hi : hash key &&& (array.length - 1) = i
    · rw [← hi, getD_set_self _ _ _ hidx, r1] at hn
      rw [← hi]
      exact hb.2 _ n (List.mem_filter.mp hn).1
    · rw [getD_set_other _ _ _ _ hi] at hn
      exact hb.2 i n hn
  · rw [hsz, hnodes1, hsize]; omega
  · rw [hsz, hsize]; omega

theorem hashMapRemove_shrink {κ ν : Type} (hash : κ → Nat) (map1 : HashMap κ ν) (len : Nat)
    (w1 : map1.WF hash) (w2 : map1.size = map1.nodes.length) :
    (if map1.size ≤ len / 3 then hashMapResize hash map1 (len / 2) else map1).WF hash ∧
    (if map1.size ≤ len / 3 then hashMapResize hash map1 (len / 2) else map1).size
      = map1.size ∧
    (if map1.size ≤ len / 3 then hashMapResize hash map1 (len / 2) else map1).nodes.Perm
      map1.nodes := by
  split
  · rename_i hle
    by_cases hhalf : len / 2 = 0
    · rw [hhalf]
      have hlen1 : len / 3 = 0 := by omega
      rw [hlen1] at hle
      have hz := Nat.le_zero.mp hle
      rw [hz] at w2
      have hnil := List.length_eq_zero.mp w2.symm
      refine ⟨?_, ?_, ?_⟩
      · intro a ha
        exact absurd ha (by simp [hashMapResize])
      · simp [hashMapResize]
      · rw [hnil]; simp [hashMapResize, HashMap.nodes]
    · obtain ⟨z1, z2, _, z4⟩ := hashMapResize_spec hash map1 (len / 2) hhalf
      exact ⟨z1, z2, z4⟩
  · exact ⟨w1, rfl, List.Perm.refl _⟩

theorem hashMapRemove_spec {κ ν : Type} (hash : κ → Nat) (equal : κ → κ → Bool)
    (map : HashMap κ ν) (key : κ)
    (hwf : map.WF hash) (hsize : map.size = map.nodes.length)
    (hhash : ∀ a b, equal a b = true → hash a = hash b) :
    (hashMapRemove hash equal map key).1.WF hash ∧
    (hashMapRemove hash equal map key).1.size
      = (hashMapRemove hash equal map key).1.nodes.length ∧
    (hashMapRemove hash equal map key).1.nodes.Perm
      (map.nodes.filter (fun n => !equal key n.1)) ∧
    (hashMapRemove hash equal map key).1.size
      + map.nodes.countP (fun n => equal key n.1) = map.size := by
  unfold hashMapRemove
  cases harr : map.array with
  | none =>
    dsimp only
    have hn : map.nodes = [] := by simp [HashMap.nodes, harr]
    refine ⟨hwf, hsize, ?_, ?_⟩
    · rw [hn]; simp
    · rw [hn]; simp
  | some array =>
    obtain ⟨w1, w2, w3, w4⟩ := hashMapRemove_unlink hash equal map key array harr hwf hsize
      hhash _ rfl
    obtain ⟨z1, z2, z3⟩ := hashMapRemove_shrink hash _ array.length w1 w2
    refine ⟨z1, ?_, ?_, ?_⟩
    · exact z2.trans (w2.trans z3.length_eq.symm)
    · exact z3.trans (by rw [w3])
    · exact (congrArg (· + _) z2).trans w4


/-- The value `hashMapRemove` returns: null when `hashMapFindNode` finds no
node for the key, the value of a node stored under the key otherwise. -/
theorem hashMapRemove_result {κ ν : Type} (hash : κ → Nat) (equal : κ → κ → Bool)
    (map : HashMap κ ν) (key : κ) :
    (hashMapFindNode hash equal map key = none →
      (hashMapRemove hash equal map key).2 = none) ∧
    (∀ n, hashMapFindNode hash equal map key = some n →
      ∃ x ∈ map.nodes, equal key x.1 = true ∧
        (hashMapRemove hash equal map key).2 = some x.2) := by
  unfold hashMapRemove hashMapFindNode
  cases harr : map.array with
  | none => exact ⟨fun _ => rfl, fun n h => absurd h (by simp)⟩
  | some array =>
    dsimp only
    obtain ⟨_, _, r3, r4⟩ := removeNodes_spec equal key
      (array.getD (hash key &&& (array.length - 1)) []) none map.size
    refine ⟨fun h => r3 (chainFindNode_none equal key _ h).1, fun n h => ?_⟩
    obtain ⟨l1, l2, h1, h2, _, _⟩ := chainFindNode_some equal key _ n h
    obtain ⟨x, hx, hxe, hxv⟩ := r4 ⟨n, by rw [h1]; simp, h2⟩
    refine ⟨x, ?_, hxe, hxv⟩
    simp only [HashMap.nodes, harr, Option.getD_some]
    rw [mem_flatten_iff_getD]
    exact ⟨_, hx⟩

/-- The bucket array after a `hashMapRemove` that leaves at most a third as many
entries as there were buckets: half as many buckets. -/
theorem hashMapRemove_array {κ ν : Type} (hash : κ → Nat) (equal : κ → κ → Bool)
    (map : HashMap κ ν) (key : κ) (array : List (List (κ × ν))) (j : Nat)
    (harr : map.array = some array) (hlen : array.length = 2 ^ (j + 1))
    (hle : (hashMapRemove hash equal map key).1.size ≤ array.length / 3) :
    ∃ a, (hashMapRemove hash equal map key).1.array = some a ∧ a.length = 2 ^ j := by
  have hhalf : array.length / 2 = 2 ^ j := by
    rw [hlen, Nat.pow_succ]; omega
  unfold hashMapRemove at hle ⊢
  rw [harr] at hle ⊢
  dsimp only at hle ⊢
  by_cases hc : (removeNodes equal key (array.getD (hash key &&& (array.length - 1)) [])
      (none, map.size)).2.2 ≤ array.length / 3
  · rw [if_pos hc]
    obtain ⟨a, ha, hal⟩ := hashMapResize_length hash
      (⟨(removeNodes equal key (array.getD (hash key &&& (array.length - 1)) [])
          (none, map.size)).2.2,
        some (array.set (hash key &&& (array.length - 1))
          (removeNodes equal key (array.getD (hash key &&& (array.length - 1)) [])
            (none, map.size)).1)⟩ : HashMap κ ν) (array.length / 2)
      (by rw [hhalf]; exact Nat.pos_iff_ne_zero.mp (Nat.two_pow_pos j))
    refine ⟨a, ha, ?_⟩
    rw [hal, hhalf, nextPowerOfTwo_pow]
  · rw [if_neg hc] at hle
    exact absurd hle hc

/-- C12 (amended): for every well-formed normal map (each node in the bucket its key
hashes to, the entry count equal to the number of nodes) and key `k`, with a
hash that agrees on equal keys, `hashMapRemove` returns null when `k` is absent
and the value of a node stored under `k` otherwise (the value `hashMapFindNode`
finds when `k` is stored once); afterwards `k` is not found, the entry count
has decreased by the number of nodes removed, the nodes left are exactly the
nodes with a key not equal to `k`, and every other key whose node is stored
once is found with the node it had; when the entry count left is at most a
third of the bucket count the bucket array has half the length. -/
theorem hashMapRemove_correct {κ ν : Type} (hash : κ → Nat) (equal : κ → κ → Bool)
    (map : HashMap κ ν) (key : κ)
    (hwf : map.WF hash) (hsize : map.size = map.nodes.length)
    (hhash : ∀ a b, equal a b = true → hash a = hash b) :
    (hashMapFindNode hash equal map key = none →
      (hashMapRemove hash equal map key).2 = none) ∧
    (∀ n, hashMapFindNode hash equal map key = some n →
      (∃ x ∈ map.nodes, equal key x.1 = true ∧
        (hashMapRemove hash equal map key).2 = some x.2) ∧
      ((∀ y ∈ map.nodes, equal key y.1 = true → y = n) →
        (hashMapRemove hash equal map key).2 = some n.2)) ∧
    hashMapFindNode hash equal (hashMapRemove hash equal map key).1 key = none ∧
    (hashMapRemove hash equal map key).1.size
      + map.nodes.countP (fun n => equal key n.1) = map.size ∧
    (hashMapRemove hash equal map key).1.nodes.Perm
      (map.nodes.filter (fun n => !equal key n.1)) ∧
    (∀ k2 n, hashMapFindNode hash equal map k2 = some n → equal key n.1 = false →
      (∀ y ∈ map.nodes, equal k2 y.1 = true → y = n) →
      hashMapFindNode hash equal (hashMapRemove hash equal map key).1 k2 = some n) ∧
    (∀ array j, map.array = some array → array.length = 2 ^ (j + 1) →
      (hashMapRemove hash equal map key).1.size ≤ array.length / 3 →
      ∃ a, (hashMapRemove hash equal map key).1.array = some a ∧ a.length = 2 ^ j) := by
  obtain ⟨s1, _, s3, s4⟩ := hashMapRemove_spec hash equal map key hwf hsize hhash
  obtain ⟨v1, v2⟩ := hashMapRemove_result hash equal map key
  refine ⟨v1, ?_, ?_, s4, s3, ?_, ?_⟩
  · intro n hn
    refine ⟨v2 n hn, fun huniq => ?_⟩
    obtain ⟨x, hx, hxe, hxv⟩ := v2 n hn
    rw [hxv, huniq x hx hxe]
  · cases hf : hashMapFindNode hash equal (hashMapRemove hash equal map key).1 key with
    | none => rfl
    | some x =>
      obtain ⟨h1, h2⟩ := hashMapFindNode_some hash equal _ key x hf
      have := (List.mem_filter.mp (s3.mem_iff.mp h1)).2
      rw [h2] at this
      exact absurd this (by simp)
  · intro k2 n hfind hne huniq
    obtain ⟨h1, h2⟩ := hashMapFindNode_some hash equal map k2 n hfind
    refine hashMapFindNode_unique hash equal _ k2 n s1 ?_ h2 (hhash _ _ h2) ?_
    · exact s3.mem_iff.mpr (List.mem_filter.mpr ⟨h1, by simp [hne]⟩)
    · intro x hx hxe
      exact huniq x (List.mem_filter.mp (s3.mem_iff.mp hx)).1 hxe
  · intro array j harr hlen hle
    exact hashMapRemove_array hash equal map key array j harr hlen hle

/-- C12 (counterexample): in the map made by inserting (1, 10), (1, 20) and
(2, 30), sixteen buckets, the key 1 is found with the value 20; removing the
key 2 leaves two entries, the bucket array is replaced by one of eight buckets,
and the key 1 is then found with the value 10. -/
theorem hashMapRemove_changes_found_duplicate :
    duplicateMap.array.map List.length = some 16 ∧
    hashMapFindNode sampleKeyHash (fun a b => a == b) duplicateMap 1 = some (1, 20) ∧
    (hashMapRemove sampleKeyHash (fun a b => a == b) duplicateMap 2).2 = some 30 ∧
    (hashMapRemove sampleKeyHash (fun a b => a == b) duplicateMap 2).1.size = 2 ∧
    (hashMapRemove sampleKeyHash (fun a b => a == b) duplicateMap 2).1.array.map List.length
      = some 8 ∧
    hashMapFindNode sampleKeyHash (fun a b => a == b)
      (hashMapRemove sampleKeyHash (fun a b => a == b) duplicateMap 2).1 1 = some (1, 10) := by
  decide

theorem hashMapRemove_correct_witness :
    (hashMapFindNode sampleKeyHash (fun a b => a == b) sampleMap 3 = none →
      (hashMapRemove sampleKeyHash (fun a b => a == b) sampleMap 3).2 = none) ∧
    (∀ n, hashMapFindNode sampleKeyHash (fun a b => a == b) sampleMap 3 = some n →
      (∃ x ∈ sampleMap.nodes, (3 == x.1) = true ∧
        (hashMapRemove sampleKeyHash (fun a b => a == b) sampleMap 3).2 = some x.2) ∧
      ((∀ y ∈ sampleMap.nodes, (3 == y.1) = true → y = n) →
        (hashMapRemove sampleKeyHash (fun a b => a == b) sampleMap 3).2 = some n.2)) ∧
    hashMapFindNode sampleKeyHash (fun a b => a == b)
      (hashMapRemove sampleKeyHash (fun a b => a == b) sampleMap 3).1 3 = none ∧
    (hashMapRemove sampleKeyHash (fun a b => a == b) sampleMap 3).1.size
      + sampleMap.nodes.countP (fun n => 3 == n.1) = sampleMap.size ∧
    (hashMapRemove sampleKeyHash (fun a b => a == b) sampleMap 3).1.nodes.Perm
      (sampleMap.nodes.filter (fun n => !(3 == n.1))) ∧
    (∀ k2 n, hashMapFindNode sampleKeyHash (fun a b => a == b) sampleMap k2 = some n →
      (3 == n.1) = false →
      (∀ y ∈ sampleMap.nodes, (k2 == y.1) = true → y = n) →
      hashMapFindNode sampleKeyHash (fun a b => a == b)
        (hashMapRemove sampleKeyHash (fun a b => a == b) sampleMap 3).1 k2 = some n) ∧
    (∀ array j, sampleMap.array = some array → array.length = 2 ^ (j + 1) →
      (hashMapRemove sampleKeyHash (fun a b => a == b) sampleMap 3).1.size
        ≤ array.length / 3 →
      ∃ a, (hashMapRemove sampleKeyHash (fun a b => a == b) sampleMap 3).1.array = some a ∧
        a.length = 2 ^ j) :=
  hashMapRemove_correct sampleKeyHash (fun a b => a == b) sampleMap 3
    (hashMapInsertAll_spec sampleKeyHash (samplePairs.take 6) (makeHashMap Nat Nat)
      (makeHashMap_wellFormed sampleKeyHash)).1
    (by decide)
    (by intro a b h; rw [beq_iff_eq.mp h])

/-! ## Properties of the thread states -/

theorem sampleSteps_run : run (initialMachine 2) sampleSteps = .ok sampleMachine := rfl


theorem countP_set {α : Type} (p : α → Bool) (l : List α) (i : Nat) (c c' : α)
    (h : l[i]? = some c) :
    (l.set i c').countP p + (if p c then 1 else 0)
      = l.countP p + (if p c' then 1 else 0) := by
  induction l generalizing i with
  | nil => simp at h
  | cons a rest ih =>
    cases i with
    | zero =>
      simp only [List.getElem?_cons_zero, Option.some.injEq] at h
      subst h
      simp only [List.set_cons_zero, List.countP_cons]
      omega
    | succ i =>
      simp only [List.getElem?_cons_succ] at h
      have := ih i h
      simp only [List.set_cons_succ, List.countP_cons]
      omega

/-- The invariant after a transition that rewrites one thread and the shared
fields consistently. -/
theorem MachineInv.update (m : Machine) (hinv : MachineInv m) (t : Nat)
    (c c' : ThreadControl) (e' : Option Nat) (a' l' : Nat)
    (ht : m.threads[t]? = some c)
    (hact : a' + (if c.state.active then 1 else 0)
      = m.activeCount + (if c'.state.active then 1 else 0))
    (hlive : l' + (if c.state.live then 1 else 0)
      = m.liveCount + (if c'.state.live then 1 else 0))
    (hexcl : e' = if c'.state = .ExclusiveState then some t
      else if c.state = .ExclusiveState then none else m.exclusive)
    (hfree : c'.state = .ExclusiveState → c.state ≠ .ExclusiveState → m.exclusive = none)
    (hwait : (c'.wait = .exclusiveWait → c'.state = .ExclusiveState) ∧
      (c'.wait = .yieldWait → c'.state = .IdleState) ∧
      (c'.wait = .activeWait → c'.state = .NoState ∨ c'.state = .IdleState) ∧
      (c'.wait = .exitWait → c'.state = .ExitState))
    (halone : c'.state = .ExclusiveState → c'.wait = .running → a' ≤ 1)
    (hgrow : m.activeCount < a' → m.exclusive = none) :
    MachineInv ⟨m.threads.set t c', e', a', l'⟩ := by
  have hlt : t < m.threads.length := by
    by_contra hge
    rw [List.getElem?_eq_none (Nat.le_of_not_lt hge)] at ht
    exact absurd ht (by simp)
  have hget : ∀ u cu, (m.threads.set t c')[u]? = some cu →
      (u = t ∧ cu = c') ∨ (u ≠ t ∧ m.threads[u]? = some cu) := by
    intro u cu hu
    by_cases hut : u = t
    · subst hut
      rw [List.getElem?_set_self hlt] at hu
      exact Or.inl ⟨rfl, (Option.some.inj hu).symm⟩
    · rw [List.getElem?_set_ne (fun h => hut h.symm)] at hu
      exact Or.inr ⟨hut, hu⟩
  have hct := hinv.holder t c ht
  refine ⟨?_, ?_, ?_, ?_, ?_, ?_⟩
  · have h1 := countP_set (fun c => c.state.active) m.threads t c c' ht
    have h2 := hinv.active
    show a' = _
    dsimp only at h1 ⊢
    omega
  · have h1 := countP_set (fun c => c.state.live) m.threads t c c' ht
    have h2 := hinv.live
    show l' = _
    dsimp only at h1 ⊢
    omega
  · intro u cu hu
    show cu.state = .ExclusiveState ↔ e' = some u
    rcases hget u cu hu with ⟨h1, h2⟩ | ⟨h1, h2⟩
    · subst h1; subst h2
      rw [hexcl]
      by_cases hc' : cu.state = .ExclusiveState
      · simp [hc']
      · by_cases hc : c.state = .ExclusiveState
        · simp [hc', hc]
        · simp only [hc', hc, if_false, false_iff]
          intro hm
          exact hc (hct.mpr hm)
    · have hcu := hinv.holder u cu h2
      rw [hexcl]
      by_cases hc' : c'.state = .ExclusiveState
      · simp only [hc', if_true]
        have : cu.state ≠ .ExclusiveState := by
          intro hcu'
          have hmu := hcu.mp hcu'
          by_cases hc : c.state = .ExclusiveState
          · have := hct.mp hc
            rw [hmu] at this
            exact h1 (Option.some.inj this)
          · rw [hfree hc' hc] at hmu
            exact absurd hmu (by simp)
        simp only [this, false_iff]
        intro h
        exact h1 (Option.some.inj h).symm
      · by_cases hc : c.state = .ExclusiveState
        · simp only [hc', hc, if_false, if_true]
          have hmt := hct.mp hc
          constructor
          · intro hcu'
            have := hcu.mp hcu'
            rw [hmt] at this
            exact absurd (Option.some.inj this).symm h1
          · intro h; exact absurd h (by simp)
        · simp only [hc', hc, if_false]
          exact hcu
  · intro u hu
    have hu : e' = some u := hu
    show ∃ cu, (m.threads.set t c')[u]? = some cu
    by_cases hut : u = t
    · subst hut
      exact ⟨c', List.getElem?_set_self hlt⟩
    · rw [List.getElem?_set_ne (fun h => hut h.symm)]
      apply hinv.slot
      rw [hexcl] at hu
      by_cases hc' : c'.state = .ExclusiveState
      · rw [if_pos hc'] at hu
        exact absurd (Option.some.inj hu).symm hut
      · rw [if_neg hc'] at hu
        by_cases hc : c.state = .ExclusiveState
        · rw [if_pos hc] at hu; exact absurd hu (by simp)
        · rw [if_neg hc] at hu; exact hu
  · intro u cu hu
    rcases hget u cu hu with ⟨_, h2⟩ | ⟨_, h2⟩
    · subst h2; exact hwait
    · exact hinv.waits u cu h2
  · intro u cu hu hs hw
    show a' ≤ 1
    rcases hget u cu hu with ⟨_, h2⟩ | ⟨h1, h2⟩
    · subst h2; exact halone hs hw
    · have h3 := hinv.alone u cu h2 hs hw
      by_contra hgt
      have hnone := hgrow (by omega)
      have := (hinv.holder u cu h2).mp hs
      rw [hnone] at this
      exact absurd this (by simp)


theorem releaseExclusive_ok (m m1 : Machine) (t : Nat) (from_ : State)
    (h : releaseExclusive m t from_ = .ok m1) :
    (from_ = .ActiveState ∨ (from_ = .ExclusiveState ∧ m.exclusive = some t)) ∧
    m1 = { m with exclusive := if from_ = .ExclusiveState then none else m.exclusive } := by
  unfold releaseExclusive at h
  cases from_ <;> simp at h
  · exact ⟨Or.inl rfl, by rw [← h]; simp⟩
  · by_cases he : m.exclusive = some t
    · rw [if_pos he] at h
      exact ⟨Or.inr ⟨rfl, he⟩, by rw [← Except.ok.inj h]; simp⟩
    · rw [if_neg he] at h; exact absurd h (by simp)

theorem leaveActive_ok (m m' : Machine) (t : Nat) (from_ s : State)
    (h : leaveActive m t from_ s = .ok m') :
    (from_ = .ActiveState ∨ (from_ = .ExclusiveState ∧ m.exclusive = some t)) ∧
    m.activeCount ≠ 0 ∧ (s = .ZombieState → m.liveCount ≠ 0) ∧
    m' = ⟨m.threads.set t ⟨s, .running⟩,
      if from_ = .ExclusiveState then none else m.exclusive,
      m.activeCount - 1,
      if s = .ZombieState then m.liveCount - 1 else m.liveCount⟩ := by
  unfold leaveActive at h
  cases hr : releaseExclusive m t from_ with
  | error e => rw [hr] at h; exact absurd h (by simp)
  | ok m1 =>
    rw [hr] at h
    dsimp only at h
    obtain ⟨h1, h2⟩ := releaseExclusive_ok m m1 t from_ hr
    subst h2
    dsimp only at h
    by_cases ha : m.activeCount = 0
    · rw [if_pos ha] at h; exact absurd h (by simp)
    rw [if_neg ha] at h
    by_cases hz : s = .ZombieState
    · rw [if_pos hz] at h
      by_cases hl : m.liveCount = 0
      · rw [if_pos hl] at h; exact absurd h (by simp)
      · rw [if_neg hl] at h
        refine ⟨h1, ha, fun _ => hl, ?_⟩
        rw [← Except.ok.inj h, if_pos hz]
    · rw [if_neg hz] at h
      refine ⟨h1, ha, fun h' => absurd h' hz, ?_⟩
      rw [← Except.ok.inj h, if_neg hz]


theorem leaveActive_inv (m m' : Machine) (hinv : MachineInv m) (t : Nat) (th : ThreadControl)
    (ht : m.threads[t]? = some th) (s : State) (hs : s = .IdleState ∨ s = .ZombieState)
    (h : leaveActive m t th.state s = .ok m') : MachineInv m' := by
  obtain ⟨h1, h2, h3, h4⟩ := leaveActive_ok m m' t th.state s h
  rw [h4]
  apply MachineInv.update m hinv t th ⟨s, .running⟩ _ _ _ ht
  · rcases h1 with h1 | ⟨h1, _⟩ <;> rcases hs with hs | hs <;>
      simp [h1, hs, State.active] <;> omega
  · rcases h1 with h1 | ⟨h1, _⟩ <;> rcases hs with hs | hs <;>
      simp [h1, hs, State.live] <;> have := h3 hs <;> omega
  · rcases hs with hs | hs <;> simp [hs]
  · rcases hs with hs | hs <;> simp [hs]
  · simp
  · rcases hs with hs | hs <;> simp [hs]
  · intro hlt; exact absurd hlt (by omega)

theorem activate_inv (m : Machine) (hinv : MachineInv m) (t : Nat) (th : ThreadControl)
    (ht : m.threads[t]? = some th) (hs : th.state = .NoState ∨ th.state = .IdleState)
    (hfree : m.exclusive = none) : MachineInv (activate m t th.state) := by
  unfold activate
  apply MachineInv.update m hinv t th ⟨.ActiveState, .running⟩ _ _ _ ht
  · rcases hs with hs | hs <;> simp [hs, State.active]
  · rcases hs with hs | hs <;> simp [hs, State.live]
  · rcases hs with hs | hs <;> simp [hs]
  · simp
  · simp
  · simp
  · intro _; exact hfree

theorem claimExclusive_inv (m : Machine) (hinv : MachineInv m) (t : Nat) (th : ThreadControl)
    (ht : m.threads[t]? = some th) (hs : th.state = .ActiveState)
    (hfree : m.exclusive = none) : MachineInv (claimExclusive m t) := by
  unfold claimExclusive
  apply MachineInv.update m hinv t th
    ⟨.ExclusiveState, if m.activeCount > 1 then .exclusiveWait else .running⟩ _ _ _ ht
  · simp [hs, State.active]
  · simp [hs, State.live]
  · simp
  · intro _ _; exact hfree
  · by_cases h : m.activeCount > 1 <;> simp [h]
  · by_cases h : m.activeCount > 1 <;> simp [h]
    omega
  · intro hlt; exact absurd hlt (by omega)

/-- Changing only where a thread waits keeps the invariant when the new place
fits the state of the thread. -/
theorem setWait_inv (m : Machine) (hinv : MachineInv m) (t : Nat) (th : ThreadControl)
    (ht : m.threads[t]? = some th) (w : Wait)
    (hw : (w = .exclusiveWait → th.state = .ExclusiveState) ∧
      (w = .yieldWait → th.state = .IdleState) ∧
      (w = .activeWait → th.state = .NoState ∨ th.state = .IdleState) ∧
      (w = .exitWait → th.state = .ExitState))
    (halone : th.state = .ExclusiveState → w = .running → m.activeCount ≤ 1) :
    MachineInv { m with threads := m.threads.set t ⟨th.state, w⟩ } := by
  apply MachineInv.update m hinv t th ⟨th.state, w⟩ _ _ _ ht
  · rfl
  · rfl
  · by_cases h : th.state = .ExclusiveState
    · simp [h, (hinv.holder t th ht).mp h]
    · simp [h]
  · intro h1 h2; exact absurd h1 h2
  · exact hw
  · exact halone
  · intro hlt; exact absurd hlt (by omega)

theorem reclaim_inv (m : Machine) (hinv : MachineInv m) (t : Nat) (th : ThreadControl)
    (ht : m.threads[t]? = some th) (hs : th.state = .IdleState) :
    MachineInv (reclaim m t) := by
  unfold reclaim
  by_cases he : m.exclusive.isSome = true
  · rw [if_pos he]
    have := setWait_inv m hinv t th ht .yieldWait (by simp [hs]) (by simp [hs])
    rw [hs] at this
    exact this
  · rw [if_neg he]
    have hnone : m.exclusive = none := by
      cases h : m.exclusive with
      | none => rfl
      | some x => rw [h] at he; exact absurd rfl he
    have h1 := activate_inv m hinv t th ht (Or.inr hs) hnone
    rw [hs] at h1
    have hlt : t < m.threads.length := by
      by_contra hge
      rw [List.getElem?_eq_none (Nat.le_of_not_lt hge)] at ht
      exact absurd ht (by simp)
    exact claimExclusive_inv _ h1 t ⟨.ActiveState, .running⟩
      (by simp [activate, List.getElem?_set_self hlt]) rfl (by simpa [activate] using hnone)


theorem isSome_false_eq_none {α : Type} (o : Option α) (h : ¬ o.isSome = true) : o = none := by
  cases o with
  | none => rfl
  | some x => exact absurd rfl h

theorem exit_inv (m m1 m' : Machine) (hinv : MachineInv m) (t : Nat) (th : ThreadControl)
    (ht : m.threads[t]? = some th)
    (hr : releaseExclusive m t th.state = .ok m1)
    (ha : m1.activeCount ≠ 0)
    (h : m' = { m1 with
      activeCount := m1.activeCount - 1
      threads := m1.threads.set t
        ⟨.ExitState, if m1.liveCount > 1 then .exitWait else .running⟩ }) :
    MachineInv m' := by
  obtain ⟨h1, h2⟩ := releaseExclusive_ok m m1 t th.state hr
  subst h2
  rw [h]
  apply MachineInv.update m hinv t th
    ⟨.ExitState, if m.liveCount > 1 then .exitWait else .running⟩ _ _ _ ht
  · rcases h1 with h1 | ⟨h1, _⟩ <;> simp [h1, State.active] <;>
      (have : m.activeCount ≠ 0 := ha) <;> omega
  · rcases h1 with h1 | ⟨h1, _⟩ <;> simp [h1, State.live]
  · simp
  · simp
  · by_cases hl : m.liveCount > 1 <;> simp [hl]
  · simp
  · intro hlt; exact absurd hlt (by dsimp only; omega)

theorem enter_inv (m m' : Machine) (hinv : MachineInv m) (t : Nat) (s : State)
    (h : enter m t s = .ok m') : MachineInv m' := by
  unfold enter at h
  cases ht : m.threads[t]? with
  | none => rw [ht] at h; exact absurd h (by simp)
  | some th =>
    rw [ht] at h
    dsimp only at h
    by_cases hs : s = th.state
    · rw [if_pos hs] at h
      rw [← Except.ok.inj h]; exact hinv
    rw [if_neg hs] at h
    by_cases hx : th.state = .ExitState
    · rw [if_pos hx] at h
      rw [← Except.ok.inj h]; exact hinv
    rw [if_neg hx] at h
    cases s with
    | NoState => exact absurd h (by simp)
    | JoinedState => exact absurd h (by simp)
    | IdleState => exact leaveActive_inv m m' hinv t th ht _ (Or.inl rfl) h
    | ZombieState => exact leaveActive_inv m m' hinv t th ht _ (Or.inr rfl) h
    | ExclusiveState =>
      dsimp only at h
      by_cases hact : th.state = .ActiveState
      · rw [if_neg (by simp [hact])] at h
        by_cases he : m.exclusive.isSome = true
        · rw [if_pos he] at h
          cases hl : leaveActive m t th.state .IdleState with
          | error e => rw [hl] at h; exact absurd h (by simp)
          | ok m1 =>
            rw [hl] at h
            dsimp only at h
            rw [← Except.ok.inj h]
            have hinv1 := leaveActive_inv m m1 hinv t th ht _ (Or.inl rfl) hl
            have hlt : t < m.threads.length := by
              by_contra hge
              rw [List.getElem?_eq_none (Nat.le_of_not_lt hge)] at ht
              exact absurd ht (by simp)
            obtain ⟨_, _, _, h4⟩ := leaveActive_ok m m1 t th.state .IdleState hl
            exact reclaim_inv m1 hinv1 t ⟨.IdleState, .running⟩
              (by rw [h4]; simp [List.getElem?_set_self hlt]) rfl
        · rw [if_neg he] at h
          rw [← Except.ok.inj h]
          exact claimExclusive_inv m hinv t th ht hact (isSome_false_eq_none _ he)
      · rw [if_pos hact] at h; exact absurd h (by simp)
    | ActiveState =>
      dsimp only at h
      cases hst : th.state with
      | ExclusiveState =>
        rw [hst] at h
        dsimp only at h
        by_cases he : m.exclusive = some t
        · rw [if_pos he] at h
          rw [← Except.ok.inj h]
          apply MachineInv.update m hinv t th ⟨.ActiveState, .running⟩ _ _ _ ht
          · simp [hst, State.active]
          · simp [hst, State.live]
          · simp [hst]
          · simp
          · simp
          · simp
          · intro hlt; exact absurd hlt (by omega)
        · rw [if_neg he] at h; exact absurd h (by simp)
      | NoState =>
        rw [hst] at h
        dsimp only at h
        by_cases he : m.exclusive.isSome = true
        · rw [if_pos he] at h
          rw [← Except.ok.inj h]
          have := setWait_inv m hinv t th ht .activeWait (by simp [hst]) (by simp [hst])
          rw [hst] at this
          exact this
        · rw [if_neg he] at h
          rw [← Except.ok.inj h]
          have := activate_inv m hinv t th ht (Or.inl hst) (isSome_false_eq_none _ he)
          rw [hst] at this
          exact this
      | IdleState =>
        rw [hst] at h
        dsimp only at h
        by_cases he : m.exclusive.isSome = true
        · rw [if_pos he] at h
          rw [← Except.ok.inj h]
          have := setWait_inv m hinv t th ht .activeWait (by simp [hst]) (by simp [hst])
          rw [hst] at this
          exact this
        · rw [if_neg he] at h
          rw [← Except.ok.inj h]
          have := activate_inv m hinv t th ht (Or.inr hst) (isSome_false_eq_none _ he)
          rw [hst] at this
          exact this
      | ActiveState => rw [hst] at hs; exact absurd rfl hs
      | ZombieState => rw [hst] at h; exact absurd h (by simp)
      | JoinedState => rw [hst] at h; exact absurd h (by simp)
      | ExitState => exact absurd hst hx
    | ExitState =>
      dsimp only at h
      cases hr : releaseExclusive m t th.state with
      | error e => rw [hr] at h; exact absurd h (by simp)
      | ok m1 =>
        rw [hr] at h
        dsimp only at h
        by_cases ha : m1.activeCount = 0
        · rw [if_pos ha] at h; exact absurd h (by simp)
        · rw [if_neg ha] at h
          exact exit_inv m m1 m' hinv t th ht hr ha (Except.ok.inj h).symm

theorem resume_inv (m : Machine) (hinv : MachineInv m) (t : Nat) :
    MachineInv (resume m t) := by
  unfold resume
  cases ht : m.threads[t]? with
  | none => exact hinv
  | some th =>
    dsimp only
    have hw := hinv.waits t th ht
    cases hwt : th.wait with
    | running => exact hinv
    | activeWait =>
      dsimp only
      by_cases he : m.exclusive.isSome = true
      · rw [if_pos he]; exact hinv
      · rw [if_neg he]
        exact activate_inv m hinv t th ht (hw.2.2.1 hwt) (isSome_false_eq_none _ he)
    | yieldWait => exact reclaim_inv m hinv t th ht (hw.2.1 hwt)
    | exclusiveWait =>
      dsimp only
      by_cases ha : m.activeCount > 1
      · rw [if_pos ha]; exact hinv
      · rw [if_neg ha]
        exact setWait_inv m hinv t th ht .running (by simp) (fun _ _ => by omega)
    | exitWait =>
      dsimp only
      by_cases hl : m.liveCount > 1
      · rw [if_pos hl]; exact hinv
      · rw [if_neg hl]
        have hst := hw.2.2.2 hwt
        exact setWait_inv m hinv t th ht .running (by simp)
          (fun h _ => by rw [hst] at h; exact absurd h (by simp))

theorem initialMachine_inv (n : Nat) : MachineInv (initialMachine n) := by
  have hget : ∀ (t : Nat) (c : ThreadControl),
      (initialMachine n).threads[t]? = some c → c = ⟨.NoState, .running⟩ := by
    intro t c h
    simp only [initialMachine] at h
    have := List.mem_iff_getElem?.mpr ⟨t, h⟩
    exact List.eq_of_mem_replicate this
  refine ⟨?_, ?_, ?_, ?_, ?_, ?_⟩
  · simp [initialMachine, List.countP_replicate, State.active]
  · simp [initialMachine, List.countP_replicate, State.live]
  · intro t c h
    rw [hget t c h]
    simp [initialMachine]
  · intro t h
    simp [initialMachine] at h
  · intro t c h
    rw [hget t c h]
    simp
  · intro t c h hs
    rw [hget t c h] at hs
    exact absurd hs (by simp)

theorem step_inv (m m' : Machine) (hinv : MachineInv m) (a : Step)
    (h : step m a = .ok m') : MachineInv m' := by
  cases a with
  | call t s =>
    simp only [step] at h
    cases ht : m.threads[t]? with
    | none => rw [ht] at h; rw [← Except.ok.inj h]; exact hinv
    | some th =>
      rw [ht] at h
      dsimp only at h
      by_cases hw : th.wait = .running
      · rw [if_pos hw] at h
        exact enter_inv m m' hinv t s h
      · rw [if_neg hw] at h
        rw [← Except.ok.inj h]; exact hinv
  | wake t =>
    simp only [step] at h
    rw [← Except.ok.inj h]
    exact resume_inv m hinv t

theorem run_inv (steps : List Step) (m m' : Machine) (hinv : MachineInv m)
    (h : run m steps = .ok m') : MachineInv m' := by
  induction steps generalizing m with
  | nil =>
    simp only [run] at h
    rw [← Except.ok.inj h]; exact hinv
  | cons a rest ih =>
    simp only [run] at h
    cases hs : step m a with
    | error e => rw [hs] at h; exact absurd h (by simp)
    | ok m1 =>
      rw [hs] at h
      exact ih m1 (step_inv m m1 hinv a hs) h


theorem two_le_countP {α : Type} (p : α → Bool) (l : List α) (i j : Nat) (a b d : α)
    (hij : i ≠ j) (hi : l[i]? = some a) (hj : l[j]? = some b)
    (ha : p a = true) (hb : p b = true) (hd : p d = false) : 2 ≤ l.countP p := by
  have h1 := countP_set p l i a d hi
  rw [ha, hd] at h1
  have h2 : (l.set i d)[j]? = some b := by
    rw [List.getElem?_set_ne hij]; exact hj
  have h3 : 0 < (l.set i d).countP p :=
    List.countP_pos_iff.mpr ⟨b, List.mem_iff_getElem?.mpr ⟨j, h2⟩, hb⟩
  simp only [if_true] at h1
  simp only [Bool.false_eq_true, if_false] at h1
  omega

/-- C13: in every machine state reached from the initial machine through
transitions of `enter` (calls and wake-ups, the waits being guards), a thread
in `ExclusiveState` that has got through `enter` holds the exclusive slot,
`activeCount` is 1, and no other thread is in `ActiveState` or
`ExclusiveState`; and no two threads are in `ExclusiveState`. -/
theorem enter_exclusive_alone (n : Nat) (steps : List Step) (m : Machine)
    (h : run (initialMachine n) steps = .ok m) :
    (∀ (t : Nat) (c : ThreadControl), m.threads[t]? = some c →
      c.state = .ExclusiveState → c.wait = .running →
      m.exclusive = some t ∧ m.activeCount = 1 ∧
      ∀ (u : Nat) (cu : ThreadControl), u ≠ t → m.threads[u]? = some cu →
        cu.state ≠ .ActiveState ∧ cu.state ≠ .ExclusiveState) ∧
    (∀ (t u : Nat) (ct cu : ThreadControl), m.threads[t]? = some ct →
      m.threads[u]? = some cu → ct.state = .ExclusiveState → cu.state = .ExclusiveState →
      t = u) := by
  have hinv := run_inv steps _ m (initialMachine_inv n) h
  refine ⟨?_, ?_⟩
  · intro t c ht hs hw
    have hle := hinv.alone t c ht hs hw
    have hact := hinv.active
    have hpos : 0 < m.threads.countP (fun c => c.state.active) :=
      List.countP_pos_iff.mpr ⟨c, List.mem_iff_getElem?.mpr ⟨t, ht⟩, by simp [hs, State.active]⟩
    refine ⟨(hinv.holder t c ht).mp hs, by omega, ?_⟩
    intro u cu hut hu
    have hnot : ¬ cu.state.active = true := by
      intro hcu
      have := two_le_countP (fun c => c.state.active) m.threads t u c cu
        ⟨.NoState, .running⟩ (fun h => hut h.symm) ht hu (by simp [hs, State.active]) hcu rfl
      omega
    constructor
    · intro hc; exact hnot (by simp [hc, State.active])
    · intro hc; exact hnot (by simp [hc, State.active])
  · intro t u ct cu ht hu hst hsu
    have h1 := (hinv.holder t ct ht).mp hst
    have h2 := (hinv.holder u cu hu).mp hsu
    rw [h1] at h2
    exact Option.some.inj h2

theorem enter_exclusive_alone_witness :
    (∀ (t : Nat) (c : ThreadControl), sampleMachine.threads[t]? = some c →
      c.state = .ExclusiveState → c.wait = .running →
      sampleMachine.exclusive = some t ∧ sampleMachine.activeCount = 1 ∧
      ∀ (u : Nat) (cu : ThreadControl), u ≠ t → sampleMachine.threads[u]? = some cu →
        cu.state ≠ .ActiveState ∧ cu.state ≠ .ExclusiveState) ∧
    (∀ (t u : Nat) (ct cu : ThreadControl), sampleMachine.threads[t]? = some ct →
      sampleMachine.threads[u]? = some cu → ct.state = .ExclusiveState →
      cu.state = .ExclusiveState → t = u) :=
  enter_exclusive_alone 2 sampleSteps sampleMachine rfl


/-- What the invariant says about the thread that calls `enter`. -/
theorem MachineInv.caller (m : Machine) (hinv : MachineInv m) (t : Nat) (c : ThreadControl)
    (ht : m.threads[t]? = some c) :
    (c.state = .ExclusiveState → m.exclusive = some t) ∧
    (c.state.active = true → m.activeCount ≠ 0) ∧
    (c.state.live = true → m.liveCount ≠ 0) := by
  refine ⟨(hinv.holder t c ht).mp, ?_, ?_⟩
  · intro hc
    have hpos : 0 < m.threads.countP (fun c => c.state.active) :=
      List.countP_pos_iff.mpr ⟨c, List.mem_iff_getElem?.mpr ⟨t, ht⟩, hc⟩
    have := hinv.active
    omega
  · intro hc
    have hpos : 0 < m.threads.countP (fun c => c.state.live) :=
      List.countP_pos_iff.mpr ⟨c, List.mem_iff_getElem?.mpr ⟨t, ht⟩, hc⟩
    have := hinv.live
    omega

theorem enter_cases (m : Machine) (hinv : MachineInv m) (t : Nat) (c : ThreadControl)
    (ht : m.threads[t]? = some c) (s : State) :
    (enter m t s = .error .abort ↔
      s ≠ c.state ∧ c.state ≠ .ExitState ∧ (c.state, s) ∉ listedTransitions) ∧
    (enter m t s = .error .abort ∨ ∃ m', enter m t s = .ok m') := by
  obtain ⟨h1, h2, h3⟩ := hinv.caller m t c ht
  obtain ⟨st, w⟩ := c
  cases st <;> cases s <;>
    simp [enter, ht, leaveActive, releaseExclusive, listedTransitions, State.active,
      State.live] at h1 h2 h3 ⊢ <;>
    (try simp [h1, h2, h3]) <;>
    (try (split <;> simp))


theorem getElem?_set_self_state (l : List ThreadControl) (t : Nat) (c c' x : ThreadControl)
    (ht : l[t]? = some c) (h : (l.set t x)[t]? = some c') : c' = x := by
  have hlt : t < l.length := by
    by_contra hge
    rw [List.getElem?_eq_none (Nat.le_of_not_lt hge)] at ht
    exact absurd ht (by simp)
  rw [List.getElem?_set_self hlt] at h
  exact (Option.some.inj h).symm

/-- The state in which `enter` leaves the calling thread at its return or at
its first wait: the state it had, the state asked for, or `IdleState` while it
waits for the exclusive slot. -/
theorem enter_state (m m' : Machine) (t : Nat) (c c' : ThreadControl) (s : State)
    (ht : m.threads[t]? = some c) (h : enter m t s = .ok m')
    (hget : m'.threads[t]? = some c') :
    c'.state = c.state ∨
    (c'.state = s ∧ (c.state, s) ∈ listedTransitions) ∨
    (c'.state = .IdleState ∧ c.state = .ActiveState ∧ s = .ExclusiveState) := by
  unfold enter at h
  rw [ht] at h
  dsimp only at h
  by_cases hs : s = c.state
  · rw [if_pos hs] at h
    rw [← Except.ok.inj h, ht] at hget
    exact Or.inl (by rw [Option.some.inj hget])
  rw [if_neg hs] at h
  by_cases hx : c.state = .ExitState
  · rw [if_pos hx] at h
    rw [← Except.ok.inj h, ht] at hget
    exact Or.inl (by rw [Option.some.inj hget])
  rw [if_neg hx] at h
  cases s with
  | NoState => exact absurd h (by simp)
  | JoinedState => exact absurd h (by simp)
  | IdleState =>
    obtain ⟨h1, _, _, h4⟩ := leaveActive_ok m m' t c.state _ h
    rw [h4] at hget
    have := getElem?_set_self_state _ t c c' _ ht hget
    right; left
    rcases h1 with h1 | ⟨h1, _⟩ <;> simp [this, h1, listedTransitions]
  | ZombieState =>
    obtain ⟨h1, _, _, h4⟩ := leaveActive_ok m m' t c.state _ h
    rw [h4] at hget
    have := getElem?_set_self_state _ t c c' _ ht hget
    right; left
    rcases h1 with h1 | ⟨h1, _⟩ <;> simp [this, h1, listedTransitions]
  | ExclusiveState =>
    dsimp only at h
    by_cases hact : c.state = .ActiveState
    · rw [if_neg (by simp [hact])] at h
      by_cases he : m.exclusive.isSome = true
      · rw [if_pos he] at h
        cases hl : leaveActive m t c.state .IdleState with
        | error e => rw [hl] at h; exact absurd h (by simp)
        | ok m1 =>
          rw [hl] at h
          dsimp only at h
          obtain ⟨_, _, _, h4⟩ := leaveActive_ok m m1 t c.state .IdleState hl
          have he1 : m1.exclusive.isSome = true := by
            rw [h4, hact]; simpa using he
          rw [← Except.ok.inj h] at hget
          unfold reclaim at hget
          rw [if_pos he1] at hget
          have hget1 : (m1.threads.set t ⟨.IdleState, .yieldWait⟩)[t]? = some c' := hget
          rw [h4] at hget1
          simp only [List.set_set] at hget1
          have := getElem?_set_self_state _ t c c' _ ht hget1
          right; right
          exact ⟨by rw [this], hact, rfl⟩
      · rw [if_neg he] at h
        rw [← Except.ok.inj h] at hget
        have := getElem?_set_self_state _ t c c' _ ht hget
        right; left
        simp [this, hact, listedTransitions]
    · rw [if_pos hact] at h; exact absurd h (by simp)
  | ActiveState =>
    dsimp only at h
    cases hst : c.state with
    | ExclusiveState =>
      rw [hst] at h
      dsimp only at h
      by_cases he : m.exclusive = some t
      · rw [if_pos he] at h
        rw [← Except.ok.inj h] at hget
        have := getElem?_set_self_state _ t c c' _ ht hget
        right; left
        simp [this, listedTransitions]
      · rw [if_neg he] at h; exact absurd h (by simp)
    | NoState =>
      rw [hst] at h
      dsimp only at h
      by_cases he : m.exclusive.isSome = true
      · rw [if_pos he] at h
        rw [← Except.ok.inj h] at hget
        have := getElem?_set_self_state _ t c c' _ ht hget
        left; rw [this]
      · rw [if_neg he] at h
        rw [← Except.ok.inj h] at hget
        have := getElem?_set_self_state _ t c c' _ ht hget
        right; left
        simp [this, listedTransitions]
    | IdleState =>
      rw [hst] at h
      dsimp only at h
      by_cases he : m.exclusive.isSome = true
      · rw [if_pos he] at h
        rw [← Except.ok.inj h] at hget
        have := getElem?_set_self_state _ t c c' _ ht hget
        left; rw [this]
      · rw [if_neg he] at h
        rw [← Except.ok.inj h] at hget
        have := getElem?_set_self_state _ t c c' _ ht hget
        right; left
        simp [this, listedTransitions]
    | ActiveState => rw [hst] at hs; exact absurd rfl hs
    | ZombieState => rw [hst] at h; exact absurd h (by simp)
    | JoinedState => rw [hst] at h; exact absurd h (by simp)
    | ExitState => exact absurd hst hx
  | ExitState =>
    dsimp only at h
    cases hr : releaseExclusive m t c.state with
    | error e => rw [hr] at h; exact absurd h (by simp)
    | ok m1 =>
      rw [hr] at h
      dsimp only at h
      obtain ⟨h1, h2⟩ := releaseExclusive_ok m m1 t c.state hr
      by_cases ha : m1.activeCount = 0
      · rw [if_pos ha] at h; exact absurd h (by simp)
      · rw [if_neg ha] at h
        rw [← Except.ok.inj h, h2] at hget
        have := getElem?_set_self_state _ t c c' _ ht hget
        right; left
        rcases h1 with h1 | ⟨h1, _⟩ <;> simp [this, h1, listedTransitions]


/-- C14: in every machine state reached from the initial machine through
transitions of `enter`, a call `enter(t, s)` aborts if and only if `s` differs
from the state of `t`, `t` is not in `ExitState`, and the pair (state of `t`,
`s`) is none of the ten listed; otherwise it returns or reaches a wait; a call
made from `ExitState` or for the current state leaves the machine as it was;
and a thread that was not a zombie is one after the call only if `s` is
`ZombieState` and it was in `ActiveState` or `ExclusiveState`. -/
theorem enter_aborts_iff (n : Nat) (steps : List Step) (m : Machine)
    (h : run (initialMachine n) steps = .ok m) (t : Nat) (c : ThreadControl)
    (ht : m.threads[t]? = some c) (s : State) :
    (enter m t s = .error .abort ↔
      s ≠ c.state ∧ c.state ≠ .ExitState ∧ (c.state, s) ∉ listedTransitions) ∧
    (enter m t s = .error .abort ∨ ∃ m', enter m t s = .ok m') ∧
    ((s = c.state ∨ c.state = .ExitState) → enter m t s = .ok m) ∧
    (∀ (m' : Machine) (c' : ThreadControl), enter m t s = .ok m' →
      m'.threads[t]? = some c' → c'.state = .ZombieState → c.state ≠ .ZombieState →
      s = .ZombieState ∧ (c.state = .ActiveState ∨ c.state = .ExclusiveState)) := by
  have hinv := run_inv steps _ m (initialMachine_inv n) h
  obtain ⟨e1, e2⟩ := enter_cases m hinv t c ht s
  refine ⟨e1, e2, ?_, ?_⟩
  · intro hs
    unfold enter
    rw [ht]
    dsimp only
    rcases hs with hs | hs
    · rw [if_pos hs]
    · by_cases h' : s = c.state
      · rw [if_pos h']
      · rw [if_neg h', if_pos hs]
  · intro m' c' he hget hz hnz
    rcases enter_state m m' t c c' s ht he hget with h1 | ⟨h1, h2⟩ | ⟨h1, _, _⟩
    · rw [h1] at hz; exact absurd hz hnz
    · rw [hz] at h1
      subst h1
      refine ⟨rfl, ?_⟩
      simp only [listedTransitions, List.mem_cons, Prod.mk.injEq, List.mem_singleton] at h2
      rcases h2 with h2 | h2 | h2 | h2 | h2 | h2 | h2 | h2 | h2 | h2 <;>
        first
        | exact Or.inl h2.1
        | exact Or.inr h2.1
        | exact absurd h2.2 (by simp)
        | exact absurd h2 (by simp)
    · rw [h1] at hz; exact absurd hz (by simp)

theorem enter_aborts_iff_witness :
    (enter sampleMachine 1 .ExclusiveState = .error .abort ↔
      State.ExclusiveState ≠ (⟨.IdleState, .running⟩ : ThreadControl).state ∧
      (⟨.IdleState, .running⟩ : ThreadControl).state ≠ .ExitState ∧
      ((⟨.IdleState, .running⟩ : ThreadControl).state, State.ExclusiveState)
        ∉ listedTransitions) ∧
    (enter sampleMachine 1 .ExclusiveState = .error .abort ∨
      ∃ m', enter sampleMachine 1 .ExclusiveState = .ok m') ∧
    ((State.ExclusiveState = (⟨.IdleState, .running⟩ : ThreadControl).state ∨
      (⟨.IdleState, .running⟩ : ThreadControl).state = .ExitState) →
      enter sampleMachine 1 .ExclusiveState = .ok sampleMachine) ∧
    (∀ (m' : Machine) (c' : ThreadControl), enter sampleMachine 1 .ExclusiveState = .ok m' →
      m'.threads[1]? = some c' → c'.state = .ZombieState →
      (⟨.IdleState, .running⟩ : ThreadControl).state ≠ .ZombieState →
      State.ExclusiveState = .ZombieState ∧
        ((⟨.IdleState, .running⟩ : ThreadControl).state = .ActiveState ∨
          (⟨.IdleState, .running⟩ : ThreadControl).state = .ExclusiveState)) :=
  enter_aborts_iff 2 sampleSteps sampleMachine rfl 1 ⟨.IdleState, .running⟩ rfl .ExclusiveState


/-! ## Properties of root enumeration -/

theorem visitPeers_mk (t : ThreadData) (child peer : Thread) :
    visitPeers (.mk t child peer) = visitRoots t child ++ visitPeers peer := rfl

theorem visitPeers_reachable (root : Thread) :
    visitPeers root = root.reachable.flatMap ownRoots := by
  induction root with
  | null => rfl
  | mk t child peer ih1 ih2 =>
    simp only [visitPeers, Thread.reachable, List.flatMap_cons, List.flatMap_append, ih1, ih2,
      List.append_assoc]

theorem mem_protectorRoots (id : Nat) (ps : List Nat) (k : Nat) (r : Root) :
    r ∈ protectorRoots id k ps ↔ ∃ j p, ps[j]? = some p ∧ r = Root.protector id (k + j) p := by
  induction ps generalizing k with
  | nil => simp [protectorRoots]
  | cons a rest ih =>
    simp only [protectorRoots, List.mem_cons, ih]
    constructor
    · rintro (h | ⟨j, p, hj, hr⟩)
      · exact ⟨0, a, by simp, by simpa using h⟩
      · exact ⟨j + 1, p, by simpa using hj, by rw [hr]; congr 1; omega⟩
    · rintro ⟨j, p, hj, hr⟩
      cases j with
      | zero =>
        simp only [List.getElem?_cons_zero, Option.some.injEq] at hj
        left; rw [hr, hj]; rfl
      | succ j =>
        right
        exact ⟨j, p, by simpa using hj, by rw [hr]; congr 1; omega⟩

theorem protectorRoots_nodup (id : Nat) (ps : List Nat) (k : Nat) :
    (protectorRoots id k ps).Nodup := by
  induction ps generalizing k with
  | nil => simp [protectorRoots]
  | cons a rest ih =>
    simp only [protectorRoots, List.nodup_cons]
    refine ⟨?_, ih (k + 1)⟩
    rw [mem_protectorRoots]
    rintro ⟨j, p, _, hr⟩
    injection hr with _ h2 _
    omega

theorem mem_stackRoots (t : ThreadData) (r : Root) :
    r ∈ stackRoots t ↔
      ∃ i, i < t.sp ∧ t.stack.getD (i * 2) 0 = ObjectTag ∧ r = Root.stack t.id i := by
  simp only [stackRoots, List.mem_filterMap, List.mem_range]
  constructor
  · rintro ⟨i, hi, h⟩
    by_cases hc : t.stack.getD (i * 2) 0 = ObjectTag
    · rw [if_pos hc] at h
      exact ⟨i, hi, hc, (Option.some.inj h).symm⟩
    · rw [if_neg hc] at h; exact absurd h (by simp)
  · rintro ⟨i, hi, hc, hr⟩
    exact ⟨i, hi, by rw [if_pos hc, hr]⟩

theorem stackRoots_nodup (t : ThreadData) : (stackRoots t).Nodup := by
  unfold stackRoots
  apply List.Nodup.filterMap _ (List.nodup_range _)
  intro a b r ha hb
  by_cases h1 : t.stack.getD (a * 2) 0 = ObjectTag
  · by_cases h2 : t.stack.getD (b * 2) 0 = ObjectTag
    · simp only [h1, h2, if_true, Option.mem_def, Option.some.injEq] at ha hb
      rw [← hb] at ha
      injection ha
    · rw [if_neg h2] at hb; exact absurd hb (by simp)
  · rw [if_neg h1] at ha; exact absurd ha (by simp)


theorem mem_ownRoots (t : ThreadData) (r : Root) :
    r ∈ ownRoots t ↔ t.state ≠ .ZombieState ∧
      (r = Root.javaThread t.id ∨ r = Root.code t.id ∨ r = Root.exception t.id ∨
        (∃ i, i < t.sp ∧ t.stack.getD (i * 2) 0 = ObjectTag ∧ r = Root.stack t.id i) ∨
        ∃ k p, t.protector[k]? = some p ∧ r = Root.protector t.id k p) := by
  unfold ownRoots
  by_cases hz : t.state ≠ .ZombieState
  · rw [if_pos hz]
    simp only [List.mem_append, List.mem_cons, List.mem_singleton, List.not_mem_nil,
      mem_stackRoots, mem_protectorRoots, Nat.zero_add, or_false, or_assoc]
    exact ⟨fun h => ⟨hz, h⟩, fun h => h.2⟩
  · rw [if_neg hz]
    simp only [List.not_mem_nil, false_iff, not_and]
    intro h; exact absurd h hz

theorem ownRoots_owner (t : ThreadData) (r : Root) (h : r ∈ ownRoots t) : r.owner = t.id := by
  rw [mem_ownRoots] at h
  obtain ⟨_, h | h | h | ⟨i, _, _, h⟩ | ⟨k, p, _, h⟩⟩ := h <;> rw [h] <;> rfl

theorem ownRoots_nodup (t : ThreadData) : (ownRoots t).Nodup := by
  unfold ownRoots
  by_cases hz : t.state ≠ .ZombieState
  · rw [if_pos hz]
    rw [List.nodup_append]
    refine ⟨?_, protectorRoots_nodup _ _ _, ?_⟩
    · rw [List.nodup_append]
      refine ⟨by simp, stackRoots_nodup t, ?_⟩
      intro r h1 h2
      rw [mem_stackRoots] at h2
      obtain ⟨i, _, _, hr⟩ := h2
      rw [hr] at h1
      simp at h1
    · intro r h1 h2
      rw [mem_protectorRoots] at h2
      obtain ⟨k, p, _, hr⟩ := h2
      rw [hr, List.mem_append, mem_stackRoots] at h1
      rcases h1 with h1 | ⟨i, _, _, h1⟩
      · simp at h1
      · exact absurd h1 (by simp)
  · rw [if_neg hz]; exact List.nodup_nil

/-- C15: in a thread tree whose threads are distinct, the root enumeration
`for (t = m->rootThread; t; t = t->peer) visitRoots(t, v)` visits no root twice,
and visits exactly these: for each thread reachable from the root thread
through child and peer links that is not in `ZombieState` (the children of a
zombie included), its thread object, its code, its pending exception, every
stack slot below `sp` whose tag is the object tag, and the pointer of every
entry of its protector list. -/
theorem visitRoots_each_once (root : Thread)
    (hid : (root.reachable.map (fun t => t.id)).Nodup) :
    (visitPeers root).Nodup ∧
    ∀ r, r ∈ visitPeers root ↔
      ∃ t ∈ root.reachable, t.state ≠ .ZombieState ∧
        (r = Root.javaThread t.id ∨ r = Root.code t.id ∨ r = Root.exception t.id ∨
          (∃ i, i < t.sp ∧ t.stack.getD (i * 2) 0 = ObjectTag ∧ r = Root.stack t.id i) ∨
          ∃ k p, t.protector[k]? = some p ∧ r = Root.protector t.id k p) := by
  rw [visitPeers_reachable]
  refine ⟨?_, ?_⟩
  · rw [List.nodup_flatMap]
    refine ⟨fun t _ => ownRoots_nodup t, ?_⟩
    have hp := List.pairwise_map.mp hid
    refine hp.imp ?_
    intro a b hab
    show List.Disjoint (ownRoots a) (ownRoots b)
    intro r h1 h2
    exact hab ((ownRoots_owner a r h1).symm.trans (ownRoots_owner b r h2))
  · intro r
    simp only [List.mem_flatMap, mem_ownRoots]

theorem visitRoots_each_once_witness :
    (visitPeers sampleThreads).Nodup ∧
    ∀ r, r ∈ visitPeers sampleThreads ↔
      ∃ t ∈ sampleThreads.reachable, t.state ≠ .ZombieState ∧
        (r = Root.javaThread t.id ∨ r = Root.code t.id ∨ r = Root.exception t.id ∨
          (∃ i, i < t.sp ∧ t.stack.getD (i * 2) 0 = ObjectTag ∧ r = Root.stack t.id i) ∨
          ∃ k p, t.protector[k]? = some p ∧ r = Root.protector t.id k p) :=
  visitRoots_each_once sampleThreads (by decide)

/-! ## Properties of the post-visit pass -/

theorem withFate_cons (fate : FinalizerFate) (f : Finalizer) (g : FinalizerFate)
    (l : List (Finalizer × FinalizerFate)) :
    withFate fate ((f, g) :: l) = if g = fate then f :: withFate fate l else withFate fate l := by
  unfold withFate
  by_cases h : g = fate
  · simp [h]
  · simp [h]

theorem youngFinalizers_spec {H : Type} (visit : H → Nat → H) (status : H → Nat → Status)
    (fs : List Finalizer) (h : H) (queue newTenured : List Finalizer) :
    (youngFinalizers visit status fs h queue newTenured).list
      = withFate .kept (finalizerFates visit (youngFate visit status) fs h) ∧
    (youngFinalizers visit status fs h queue newTenured).finalizeQueue
      = (withFate .queued (finalizerFates visit (youngFate visit status) fs h)).reverse
        ++ queue ∧
    (youngFinalizers visit status fs h queue newTenured).firstNewTenured
      = (withFate .promoted (finalizerFates visit (youngFate visit status) fs h)).reverse
        ++ newTenured ∧
    (youngFinalizers visit status fs h queue newTenured).heap
      = fs.foldl (fun h f => visit (visit h f.id) f.target) h := by
  induction fs generalizing h queue newTenured with
  | nil => simp [youngFinalizers, finalizerFates, withFate]
  | cons f rest ih =>
    simp only [youngFinalizers, finalizerFates, withFate_cons, List.foldl_cons]
    by_cases h1 : status (visit h f.id) f.target = .Unreachable
    · obtain ⟨i1, i2, i3, i4⟩ := ih (visit (visit h f.id) f.target) (f :: queue) newTenured
      have hf : youngFate visit status h f = .queued := by simp [youngFate, h1]
      rw [if_pos h1, hf]
      simp only [reduceCtorEq, if_false, if_true]
      exact ⟨i1, by rw [i2]; simp, i3, i4⟩
    · rw [if_neg h1]
      by_cases h2 : status (visit (visit h f.id) f.target) f.id = .Tenured
      · obtain ⟨i1, i2, i3, i4⟩ := ih (visit (visit h f.id) f.target) queue (f :: newTenured)
        have hf : youngFate visit status h f = .promoted := by simp [youngFate, h1, h2]
        rw [if_pos h2, hf]
        simp only [reduceCtorEq, if_false, if_true]
        exact ⟨i1, i2, by rw [i3]; simp, i4⟩
      · obtain ⟨i1, i2, i3, i4⟩ := ih (visit (visit h f.id) f.target) queue newTenured
        have hf : youngFate visit status h f = .kept := by simp [youngFate, h1, h2]
        rw [if_neg h2, hf]
        simp only [reduceCtorEq, if_false, if_true]
        exact ⟨by rw [i1], i2, i3, i4⟩

theorem tenuredFinalizers_spec {H : Type} (visit : H → Nat → H) (status : H → Nat → Status)
    (fs : List Finalizer) (h : H) (queue : List Finalizer) :
    (tenuredFinalizers visit status fs h queue).list
      = withFate .kept (finalizerFates visit (tenuredFate visit status) fs h) ∧
    (tenuredFinalizers visit status fs h queue).finalizeQueue
      = (withFate .queued (finalizerFates visit (tenuredFate visit status) fs h)).reverse
        ++ queue ∧
    withFate .promoted (finalizerFates visit (tenuredFate visit status) fs h) = [] ∧
    (tenuredFinalizers visit status fs h queue).heap
      = fs.foldl (fun h f => visit (visit h f.id) f.target) h := by
  induction fs generalizing h queue with
  | nil => simp [tenuredFinalizers, finalizerFates, withFate]
  | cons f rest ih =>
    simp only [tenuredFinalizers, finalizerFates, withFate_cons, List.foldl_cons]
    by_cases h1 : status (visit h f.id) f.target = .Unreachable
    · obtain ⟨i1, i2, i3, i4⟩ := ih (visit (visit h f.id) f.target) (f :: queue)
      have hf : tenuredFate visit status h f = .queued := by simp [tenuredFate, h1]
      rw [if_pos h1, hf]
      simp only [reduceCtorEq, if_false, if_true]
      exact ⟨i1, by rw [i2]; simp, i3, i4⟩
    · obtain ⟨i1, i2, i3, i4⟩ := ih (visit (visit h f.id) f.target) queue
      have hf : tenuredFate visit status h f = .kept := by simp [tenuredFate, h1]
      rw [if_neg h1, hf]
      simp only [reduceCtorEq, if_false, if_true]
      exact ⟨by rw [i1], i2, i3, i4⟩

/-- Every record of a list has exactly one fate: the records kept, queued and
promoted make up the list. -/
theorem withFate_perm {H : Type} (visit : H → Nat → H) (fate : H → Finalizer → FinalizerFate)
    (fs : List Finalizer) (h : H) :
    (withFate .kept (finalizerFates visit fate fs h)
      ++ withFate .queued (finalizerFates visit fate fs h)
      ++ withFate .promoted (finalizerFates visit fate fs h)).Perm fs ∧
    (withFate .kept (finalizerFates visit fate fs h)).Sublist fs ∧
    (withFate .queued (finalizerFates visit fate fs h)).Sublist fs ∧
    (withFate .promoted (finalizerFates visit fate fs h)).Sublist fs ∧
    (finalizerFates visit fate fs h).map (fun x => x.1) = fs := by
  induction fs generalizing h with
  | nil => simp [finalizerFates, withFate]
  | cons f rest ih =>
    obtain ⟨i1, i2, i3, i4, i5⟩ := ih (visit (visit h f.id) f.target)
    simp only [finalizerFates, withFate_cons, List.map_cons, i5]
    cases hf : fate h f with
    | kept =>
      simp only [reduceCtorEq, if_false, if_true]
      refine ⟨?_, i2.cons₂ f, i3.cons f, i4.cons f, trivial⟩
      simpa using i1
    | queued =>
      simp only [reduceCtorEq, if_false, if_true]
      refine ⟨?_, i2.cons f, i3.cons₂ f, i4.cons f, trivial⟩
      refine List.Perm.trans ?_ (List.Perm.cons f i1)
      simp only [List.append_assoc]
      exact List.perm_middle
    | promoted =>
      simp only [reduceCtorEq, if_false, if_true]
      refine ⟨?_, i2.cons f, i3.cons f, i4.cons₂ f, trivial⟩
      refine List.Perm.trans ?_ (List.Perm.cons f i1)
      exact List.perm_middle


theorem referencesWithFate_cons (fate : ReferenceFate) (r : Reference) (g : ReferenceFate)
    (l : List (Reference × ReferenceFate)) :
    referencesWithFate fate ((r, g) :: l)
      = if g = fate then r :: referencesWithFate fate l else referencesWithFate fate l := by
  unfold referencesWithFate
  by_cases h : g = fate
  · simp [h]
  · simp [h]

theorem unlinkedReferences_cons (r : Reference) (g : ReferenceFate)
    (l : List (Reference × ReferenceFate)) :
    unlinkedReferences ((r, g) :: l)
      = if g = .dropped then r :: unlinkedReferences l
        else if g = .cleared then { r with target := 0 } :: unlinkedReferences l
        else unlinkedReferences l := by
  unfold unlinkedReferences
  cases g <;> simp

theorem youngReferences_spec {H : Type} (visit : H → Nat → H) (status : H → Nat → Status)
    (rs : List Reference) (h : H) (newTenured unlinked : List Reference) :
    (youngReferences visit status rs h newTenured unlinked).list
      = referencesWithFate .kept
          (referenceFates visit (youngReferenceFate visit status) rs h) ∧
    (youngReferences visit status rs h newTenured unlinked).firstNewTenured
      = (referencesWithFate .promoted
          (referenceFates visit (youngReferenceFate visit status) rs h)).reverse
        ++ newTenured ∧
    (youngReferences visit status rs h newTenured unlinked).unlinked
      = (unlinkedReferences
          (referenceFates visit (youngReferenceFate visit status) rs h)).reverse
        ++ unlinked := by
  induction rs generalizing h newTenured unlinked with
  | nil => simp [youngReferences, referenceFates, referencesWithFate, unlinkedReferences]
  | cons r rest ih =>
    simp only [youngReferences, referenceFates, referencesWithFate_cons,
      unlinkedReferences_cons]
    by_cases h1 : status h r.id = .Unreachable
    · have hf : youngReferenceFate visit status h r = .dropped := by
        simp [youngReferenceFate, h1]
      obtain ⟨i1, i2, i3⟩ := ih h newTenured (r :: unlinked)
      rw [if_pos h1, hf]
      simp only [reduceCtorEq, if_false, if_true, true_or]
      exact ⟨i1, i2, by rw [i3]; simp⟩
    · rw [if_neg h1]
      by_cases h2 : status h r.target = .Unreachable
      · have hf : youngReferenceFate visit status h r = .cleared := by
          simp [youngReferenceFate, h1, h2]
        obtain ⟨i1, i2, i3⟩ := ih h newTenured ({ r with target := 0 } :: unlinked)
        rw [if_pos h2, hf]
        simp only [reduceCtorEq, if_false, if_true, or_true]
        exact ⟨i1, i2, by rw [i3]; simp⟩
      · rw [if_neg h2]
        by_cases h3 : status (visit (visit h r.id) r.target) r.id = .Tenured
        · have hf : youngReferenceFate visit status h r = .promoted := by
            simp [youngReferenceFate, h1, h2, h3]
          obtain ⟨i1, i2, i3⟩ := ih (visit (visit h r.id) r.target) (r :: newTenured) unlinked
          rw [if_pos h3, hf]
          simp only [reduceCtorEq, if_false, if_true, or_self]
          exact ⟨i1, by rw [i2]; simp, i3⟩
        · have hf : youngReferenceFate visit status h r = .kept := by
            simp [youngReferenceFate, h1, h2, h3]
          obtain ⟨i1, i2, i3⟩ := ih (visit (visit h r.id) r.target) newTenured unlinked
          rw [if_neg h3, hf]
          simp only [reduceCtorEq, if_false, if_true, or_self]
          exact ⟨by rw [i1], i2, i3⟩

theorem tenuredReferences_spec {H : Type} (visit : H → Nat → H) (status : H → Nat → Status)
    (rs : List Reference) (h : H) (unlinked : List Reference) :
    (tenuredReferences visit status rs h unlinked).list
      = referencesWithFate .kept
          (referenceFates visit (tenuredReferenceFate status) rs h) ∧
    (tenuredReferences visit status rs h unlinked).unlinked
      = (unlinkedReferences
          (referenceFates visit (tenuredReferenceFate status) rs h)).reverse
        ++ unlinked := by
  induction rs generalizing h unlinked with
  | nil => simp [tenuredReferences, referenceFates, referencesWithFate, unlinkedReferences]
  | cons r rest ih =>
    simp only [tenuredReferences, referenceFates, referencesWithFate_cons,
      unlinkedReferences_cons]
    by_cases h1 : status h r.id = .Unreachable
    · have hf : tenuredReferenceFate status h r = .dropped := by
        simp [tenuredReferenceFate, h1]
      obtain ⟨i1, i3⟩ := ih h (r :: unlinked)
      rw [if_pos h1, hf]
      simp only [reduceCtorEq, if_false, if_true, true_or]
      exact ⟨i1, by rw [i3]; simp⟩
    · rw [if_neg h1]
      by_cases h2 : status h r.target = .Unreachable
      · have hf : tenuredReferenceFate status h r = .cleared := by
          simp [tenuredReferenceFate, h1, h2]
        obtain ⟨i1, i3⟩ := ih h ({ r with target := 0 } :: unlinked)
        rw [if_pos h2, hf]
        simp only [reduceCtorEq, if_false, if_true, or_true]
        exact ⟨i1, by rw [i3]; simp⟩
      · have hf : tenuredReferenceFate status h r = .kept := by
          simp [tenuredReferenceFate, h1, h2]
        obtain ⟨i1, i3⟩ := ih (visit (visit h r.id) r.target) unlinked
        rw [if_neg h2, hf]
        simp only [reduceCtorEq, if_false, if_true, or_self]
        exact ⟨by rw [i1], i3⟩

theorem referenceFates_fst {H : Type} (visit : H → Nat → H)
    (fate : H → Reference → ReferenceFate) (rs : List Reference) (h : H) :
    (referenceFates visit fate rs h).map (fun x => x.1) = rs ∧
    (referencesWithFate .kept (referenceFates visit fate rs h)).Sublist rs ∧
    (referencesWithFate .promoted (referenceFates visit fate rs h)).Sublist rs := by
  induction rs generalizing h with
  | nil => simp [referenceFates, referencesWithFate]
  | cons r rest ih =>
    obtain ⟨i1, i2, i3⟩ := ih (if fate h r = .dropped ∨ fate h r = .cleared then h
      else visit (visit h r.id) r.target)
    simp only [referenceFates, referencesWithFate_cons, List.map_cons, i1]
    cases hf : fate h r <;> simp only [reduceCtorEq, if_false, if_true] <;>
      rw [hf] at i2 i3
    · exact ⟨trivial, i2.cons r, i3.cons r⟩
    · exact ⟨trivial, i2.cons r, i3.cons r⟩
    · exact ⟨trivial, i2.cons r, i3.cons₂ r⟩
    · exact ⟨trivial, i2.cons₂ r, i3.cons r⟩


theorem mem_withFate (fate : FinalizerFate) (l : List (Finalizer × FinalizerFate))
    (f : Finalizer) : f ∈ withFate fate l ↔ (f, fate) ∈ l := by
  unfold withFate
  simp only [List.mem_map, List.mem_filter, decide_eq_true_eq]
  constructor
  · rintro ⟨x, ⟨hx, hf⟩, rfl⟩
    rw [← hf]; exact hx
  · intro h
    exact ⟨(f, fate), ⟨h, rfl⟩, rfl⟩

theorem mem_referencesWithFate (fate : ReferenceFate) (l : List (Reference × ReferenceFate))
    (r : Reference) : r ∈ referencesWithFate fate l ↔ (r, fate) ∈ l := by
  unfold referencesWithFate
  simp only [List.mem_map, List.mem_filter, decide_eq_true_eq]
  constructor
  · rintro ⟨x, ⟨hx, hf⟩, rfl⟩
    rw [← hf]; exact hx
  · intro h
    exact ⟨(r, fate), ⟨h, rfl⟩, rfl⟩

theorem mem_unlinkedReferences (l : List (Reference × ReferenceFate)) (r : Reference) :
    r ∈ unlinkedReferences l ↔
      (r, ReferenceFate.dropped) ∈ l ∨
      ∃ x, (x, ReferenceFate.cleared) ∈ l ∧ r = { x with target := 0 } := by
  unfold unlinkedReferences
  simp only [List.mem_filterMap]
  constructor
  · rintro ⟨⟨x, g⟩, hx, h⟩
    cases g <;> simp at h
    · left; rw [← h]; exact hx
    · right; exact ⟨x, hx, h.symm⟩
  · rintro (h | ⟨x, hx, h⟩)
    · exact ⟨(r, .dropped), h, by simp⟩
    · exact ⟨(x, .cleared), hx, by simp [h]⟩

/-- The lists `postVisit` leaves after a minor collection. -/
theorem postVisit_minor {H : Type} (visit : H → Nat → H) (status : H → Nat → Status)
    (h : H) (m : MachineLists) :
    (postVisit visit status .MinorCollection h m).lists.finalizers
      = withFate .kept (youngFinalizerFates visit status h m) ∧
    (postVisit visit status .MinorCollection h m).lists.tenuredFinalizers
      = (withFate .promoted (youngFinalizerFates visit status h m)).reverse
        ++ m.tenuredFinalizers ∧
    (postVisit visit status .MinorCollection h m).lists.finalizeQueue
      = (withFate .queued (youngFinalizerFates visit status h m)).reverse
        ++ m.finalizeQueue ∧
    (postVisit visit status .MinorCollection h m).lists.weakReferences
      = referencesWithFate .kept (youngReferenceFates visit status h m) ∧
    (postVisit visit status .MinorCollection h m).lists.tenuredWeakReferences
      = (referencesWithFate .promoted (youngReferenceFates visit status h m)).reverse
        ++ m.tenuredWeakReferences ∧
    (postVisit visit status .MinorCollection h m).unlinked
      = (unlinkedReferences (youngReferenceFates visit status h m)).reverse := by
  obtain ⟨f1, f2, f3, _⟩ := youngFinalizers_spec visit status m.finalizers h m.finalizeQueue []
  obtain ⟨w1, w2, w3⟩ := youngReferences_spec visit status m.weakReferences
    (youngFinalizers visit status m.finalizers h m.finalizeQueue []).heap [] []
  unfold postVisit youngFinalizerFates youngReferenceFates heapAfterFinalizers
  simp only [reduceCtorEq, if_false]
  refine ⟨f1, ?_, f2, w1, ?_, ?_⟩
  · rw [f3, List.append_nil]
  · rw [w2, List.append_nil]
  · rw [w3, List.append_nil]

/-- The lists `postVisit` leaves after a major collection. -/
theorem postVisit_major {H : Type} (visit : H → Nat → H) (status : H → Nat → Status)
    (h : H) (m : MachineLists) :
    (postVisit visit status .MajorCollection h m).lists.finalizers
      = withFate .kept (youngFinalizerFates visit status h m) ∧
    (postVisit visit status .MajorCollection h m).lists.tenuredFinalizers
      = (withFate .promoted (youngFinalizerFates visit status h m)).reverse
        ++ withFate .kept (tenuredFinalizerFates visit status h m) ∧
    (postVisit visit status .MajorCollection h m).lists.finalizeQueue
      = (withFate .queued (tenuredFinalizerFates visit status h m)).reverse
        ++ ((withFate .queued (youngFinalizerFates visit status h m)).reverse
        ++ m.finalizeQueue) ∧
    (postVisit visit status .MajorCollection h m).lists.weakReferences
      = referencesWithFate .kept (youngReferenceFates visit status h m) ∧
    (postVisit visit status .MajorCollection h m).lists.tenuredWeakReferences
      = (referencesWithFate .promoted (youngReferenceFates visit status h m)).reverse
        ++ referencesWithFate .kept (tenuredReferenceFates visit status h m) ∧
    (postVisit visit status .MajorCollection h m).unlinked
      = (unlinkedReferences (tenuredReferenceFates visit status h m)).reverse
        ++ (unlinkedReferences (youngReferenceFates visit status h m)).reverse := by
  obtain ⟨f1, f2, f3, _⟩ := youngFinalizers_spec visit status m.finalizers h m.finalizeQueue []
  obtain ⟨w1, w2, w3⟩ := youngReferences_spec visit status m.weakReferences
    (youngFinalizers visit status m.finalizers h m.finalizeQueue []).heap [] []
  obtain ⟨t1, t2, _, _⟩ := tenuredFinalizers_spec visit status m.tenuredFinalizers
    (youngReferences visit status m.weakReferences
      (youngFinalizers visit status m.finalizers h m.finalizeQueue []).heap [] []).heap
    (youngFinalizers visit status m.finalizers h m.finalizeQueue []).finalizeQueue
  obtain ⟨u1, u2⟩ := tenuredReferences_spec visit status m.tenuredWeakReferences
    (tenuredFinalizers visit status m.tenuredFinalizers
      (youngReferences visit status m.weakReferences
        (youngFinalizers visit status m.finalizers h m.finalizeQueue []).heap [] []).heap
      (youngFinalizers visit status m.finalizers h m.finalizeQueue []).finalizeQueue).heap
    (youngReferences visit status m.weakReferences
      (youngFinalizers visit status m.finalizers h m.finalizeQueue []).heap [] []).unlinked
  unfold postVisit youngFinalizerFates youngReferenceFates tenuredFinalizerFates
    tenuredReferenceFates heapAfterTenuredFinalizers heapAfterReferences heapAfterFinalizers
  simp only [if_true]
  refine ⟨f1, ?_, ?_, w1, ?_, ?_⟩
  · rw [f3, List.append_nil, t1]
  · rw [t2, f2]
  · rw [w2, List.append_nil, u1]
  · rw [u2, w3, List.append_nil]


theorem finalizerFates_fst {H : Type} (visit : H → Nat → H)
    (fate : H → Finalizer → FinalizerFate) (fs : List Finalizer) (h : H) :
    (finalizerFates visit fate fs h).map (fun x => x.1) = fs :=
  (withFate_perm visit fate fs h).2.2.2.2

theorem mem_finalizerFates {H : Type} (visit : H → Nat → H)
    (fate : H → Finalizer → FinalizerFate) (fs : List Finalizer) (h : H)
    (p : Finalizer × FinalizerFate) (hp : p ∈ finalizerFates visit fate fs h) : p.1 ∈ fs := by
  rw [← finalizerFates_fst visit fate fs h]
  exact List.mem_map.mpr ⟨p, hp, rfl⟩

/-- No finalizer record is lost or duplicated by `postVisit`: the three lists
together hold the records they held. -/
theorem postVisit_finalizers_perm {H : Type} (visit : H → Nat → H)
    (status : H → Nat → Status) (type : CollectionType) (h : H) (m : MachineLists) :
    ((postVisit visit status type h m).lists.finalizers
      ++ (postVisit visit status type h m).lists.tenuredFinalizers
      ++ (postVisit visit status type h m).lists.finalizeQueue).Perm
      (m.finalizers ++ m.tenuredFinalizers ++ m.finalizeQueue) := by
  obtain ⟨p1, _, _, _, _⟩ := withFate_perm visit (youngFate visit status) m.finalizers h
  have p1 : (withFate .kept (youngFinalizerFates visit status h m)
      ++ withFate .queued (youngFinalizerFates visit status h m)
      ++ withFate .promoted (youngFinalizerFates visit status h m)).Perm m.finalizers := p1
  cases type with
  | MinorCollection =>
    obtain ⟨a1, a2, a3, _⟩ := postVisit_minor visit status h m
    rw [a1, a2, a3]
    rw [← Multiset.coe_eq_coe] at p1 ⊢
    simp only [← Multiset.coe_add, Multiset.coe_reverse] at p1 ⊢
    rw [← p1]
    abel
  | MajorCollection =>
    obtain ⟨a1, a2, a3, _⟩ := postVisit_major visit status h m
    obtain ⟨p2, _, _, _, _⟩ := withFate_perm visit (tenuredFate visit status)
      m.tenuredFinalizers (heapAfterReferences visit status h m)
    obtain ⟨_, _, p3, _⟩ := tenuredFinalizers_spec visit status m.tenuredFinalizers
      (heapAfterReferences visit status h m) []
    have p2 : (withFate .kept (tenuredFinalizerFates visit status h m)
        ++ withFate .queued (tenuredFinalizerFates visit status h m)
        ++ withFate .promoted (tenuredFinalizerFates visit status h m)).Perm
        m.tenuredFinalizers := p2
    have p3 : withFate .promoted (tenuredFinalizerFates visit status h m) = [] := p3
    rw [p3, List.append_nil] at p2
    rw [a1, a2, a3]
    rw [← Multiset.coe_eq_coe] at p1 p2 ⊢
    simp only [← Multiset.coe_add, Multiset.coe_reverse] at p1 p2 ⊢
    rw [← p1, ← p2]
    abel

/-- C16 (counterexample): a young finalizer record that is not tenured itself,
for a target that is reachable and tenured, is left in the young list by
`postVisit`; and a young record that is tenured itself, for a target that is
reachable and not tenured, is moved to the tenured list. -/
theorem postVisit_promotes_by_record_status :
    sampleStatus [] [20] () 20 = .Tenured ∧ sampleStatus [] [20] () 10 = .Reachable ∧
    (postVisit sampleVisit (sampleStatus [] [20]) .MinorCollection ()
      ⟨[⟨10, 20, 0⟩], [], [], [], []⟩).lists = ⟨[⟨10, 20, 0⟩], [], [], [], []⟩ ∧
    sampleStatus [] [10] () 20 = .Reachable ∧ sampleStatus [] [10] () 10 = .Tenured ∧
    (postVisit sampleVisit (sampleStatus [] [10]) .MinorCollection ()
      ⟨[⟨10, 20, 0⟩], [], [], [], []⟩).lists = ⟨[], [⟨10, 20, 0⟩], [], [], []⟩ := by
  decide


theorem mem_referenceFates {H : Type} (visit : H → Nat → H)
    (fate : H → Reference → ReferenceFate) (rs : List Reference) (h : H)
    (p : Reference × ReferenceFate) (hp : p ∈ referenceFates visit fate rs h) : p.1 ∈ rs := by
  have := (referenceFates_fst visit fate rs h).1
  rw [← this]
  exact List.mem_map.mpr ⟨p, hp, rfl⟩

theorem finalizerFates_getElem {H : Type} (visit : H → Nat → H)
    (fate : H → Finalizer → FinalizerFate) (fs : List Finalizer) (h : H) (i : Nat)
    (f : Finalizer) (hf : fs[i]? = some f) :
    (f, fate (finalizerHeapAt visit fs h i) f) ∈ finalizerFates visit fate fs h := by
  induction fs generalizing h i with
  | nil => simp at hf
  | cons a rest ih =>
    cases i with
    | zero =>
      simp only [List.getElem?_cons_zero, Option.some.injEq] at hf
      subst hf
      simp [finalizerFates, finalizerHeapAt]
    | succ i =>
      simp only [List.getElem?_cons_succ] at hf
      have := ih (visit (visit h a.id) a.target) i hf
      simp only [finalizerFates, List.mem_cons]
      right
      simpa [finalizerHeapAt] using this

theorem referenceFates_getElem {H : Type} (visit : H → Nat → H)
    (fate : H → Reference → ReferenceFate) (rs : List Reference) (h : H) (i : Nat)
    (r : Reference) (hr : rs[i]? = some r) :
    (r, fate (referenceHeapAt visit fate rs h i) r) ∈ referenceFates visit fate rs h := by
  induction rs generalizing h i with
  | nil => simp at hr
  | cons a rest ih =>
    cases i with
    | zero =>
      simp only [List.getElem?_cons_zero, Option.some.injEq] at hr
      subst hr
      simp [referenceFates, referenceHeapAt]
    | succ i =>
      simp only [List.getElem?_cons_succ] at hr
      have := ih (if fate h a = .dropped ∨ fate h a = .cleared then h
        else visit (visit h a.id) a.target) i hr
      simp only [referenceFates, List.mem_cons]
      right
      simpa [referenceHeapAt] using this

/-- C18: in a minor collection `postVisit` leaves each tenured list as it was,
preceded by the records of the young list promoted in this pass; the records
it queues and the references it unlinks or clears all come from the young
lists.  In a major collection every record of the tenured finalizer list whose
target is unreachable when `postVisit` examines the record is put on the
finalize-ready queue, every other one stays in the tenured list, and each
young list afterwards holds only records it held before. -/
theorem postVisit_tenured_lists {H : Type} (visit : H → Nat → H)
    (status : H → Nat → Status) (h : H) (m : MachineLists) :
    ((postVisit visit status .MinorCollection h m).lists.tenuredFinalizers
        = (withFate .promoted (youngFinalizerFates visit status h m)).reverse
          ++ m.tenuredFinalizers ∧
      (postVisit visit status .MinorCollection h m).lists.tenuredWeakReferences
        = (referencesWithFate .promoted (youngReferenceFates visit status h m)).reverse
          ++ m.tenuredWeakReferences ∧
      (withFate .promoted (youngFinalizerFates visit status h m)).Sublist m.finalizers ∧
      (referencesWithFate .promoted (youngReferenceFates visit status h m)).Sublist
        m.weakReferences ∧
      (postVisit visit status .MinorCollection h m).lists.finalizeQueue
        = (withFate .queued (youngFinalizerFates visit status h m)).reverse
          ++ m.finalizeQueue ∧
      (withFate .queued (youngFinalizerFates visit status h m)).Sublist m.finalizers ∧
      (postVisit visit status .MinorCollection h m).unlinked
        = (unlinkedReferences (youngReferenceFates visit status h m)).reverse ∧
      ∀ x ∈ unlinkedReferences (youngReferenceFates visit status h m),
        ∃ r ∈ m.weakReferences, x.id = r.id) ∧
    ((∀ (i : Nat) (f : Finalizer), m.tenuredFinalizers[i]? = some f →
        (status (visit (finalizerHeapAt visit m.tenuredFinalizers
            (heapAfterReferences visit status h m) i) f.id) f.target = .Unreachable →
          f ∈ (postVisit visit status .MajorCollection h m).lists.finalizeQueue) ∧
        (status (visit (finalizerHeapAt visit m.tenuredFinalizers
            (heapAfterReferences visit status h m) i) f.id) f.target ≠ .Unreachable →
          f ∈ (postVisit visit status .MajorCollection h m).lists.tenuredFinalizers)) ∧
      (postVisit visit status .MajorCollection h m).lists.finalizers.Sublist m.finalizers ∧
      (postVisit visit status .MajorCollection h m).lists.weakReferences.Sublist
        m.weakReferences) := by
  obtain ⟨a1, a2, a3, a4, a5, a6⟩ := postVisit_minor visit status h m
  obtain ⟨b1, b2, b3, b4, _, _⟩ := postVisit_major visit status h m
  obtain ⟨_, s1, s2, s3, _⟩ := withFate_perm visit (youngFate visit status) m.finalizers h
  obtain ⟨_, r2, r3⟩ := referenceFates_fst visit (youngReferenceFate visit status)
    m.weakReferences (heapAfterFinalizers visit status h m)
  refine ⟨⟨a2, a5, s3, r3, a3, s2, a6, ?_⟩, ?_, ?_, ?_⟩
  · intro x hx
    rw [mem_unlinkedReferences] at hx
    rcases hx with hx | ⟨y, hy, hxy⟩
    · exact ⟨x, mem_referenceFates visit _ _ _ _ hx, rfl⟩
    · exact ⟨y, mem_referenceFates visit _ _ _ _ hy, by rw [hxy]⟩
  · intro i f hf
    have hmem := finalizerFates_getElem visit (tenuredFate visit status) m.tenuredFinalizers
      (heapAfterReferences visit status h m) i f hf
    have hmem : (f, tenuredFate visit status (finalizerHeapAt visit m.tenuredFinalizers
        (heapAfterReferences visit status h m) i) f)
        ∈ tenuredFinalizerFates visit status h m := hmem
    refine ⟨fun hu => ?_, fun hu => ?_⟩
    · rw [b3, List.mem_append, List.mem_reverse, mem_withFate]
      left
      simpa [tenuredFate, hu] using hmem
    · rw [b2, List.mem_append, mem_withFate (l := tenuredFinalizerFates visit status h m)]
      right
      simpa [tenuredFate, hu] using hmem
  · rw [b1]; exact s1
  · rw [b4]; exact r2


/-- C16 (amended): `postVisit` gives every record of the young finalizer list one
fate, in the heap state in which it examines the record: queued when the target
is unreachable, promoted when the target is not unreachable and the record
itself is tenured, kept otherwise (last part of the statement).  Afterwards a queued record is on the
finalize-ready queue, a promoted record in the tenured list, and the young list
holds exactly the kept records, in their original order; the three lists
together hold the records they held before, none lost and none twice; and a
record that was in the tenured list is in it or on the queue. -/
theorem postVisit_young_finalizers {H : Type} (visit : H → Nat → H)
    (status : H → Nat → Status) (type : CollectionType) (h : H) (m : MachineLists) :
    (youngFinalizerFates visit status h m).map (fun x => x.1) = m.finalizers ∧
    (∀ p ∈ youngFinalizerFates visit status h m,
      (p.2 = .queued → p.1 ∈ (postVisit visit status type h m).lists.finalizeQueue) ∧
      (p.2 = .promoted → p.1 ∈ (postVisit visit status type h m).lists.tenuredFinalizers) ∧
      (p.2 = .kept → p.1 ∈ (postVisit visit status type h m).lists.finalizers)) ∧
    (postVisit visit status type h m).lists.finalizers
      = withFate .kept (youngFinalizerFates visit status h m) ∧
    (postVisit visit status type h m).lists.finalizers.Sublist m.finalizers ∧
    ((postVisit visit status type h m).lists.finalizers
      ++ (postVisit visit status type h m).lists.tenuredFinalizers
      ++ (postVisit visit status type h m).lists.finalizeQueue).Perm
      (m.finalizers ++ m.tenuredFinalizers ++ m.finalizeQueue) ∧
    (∀ f ∈ m.tenuredFinalizers,
      f ∈ (postVisit visit status type h m).lists.tenuredFinalizers ∨
      f ∈ (postVisit visit status type h m).lists.finalizeQueue) ∧
    (∀ (i : Nat) (f : Finalizer), m.finalizers[i]? = some f →
      (status (visit (finalizerHeapAt visit m.finalizers h i) f.id) f.target = .Unreachable →
        (f, FinalizerFate.queued) ∈ youngFinalizerFates visit status h m) ∧
      (status (visit (finalizerHeapAt visit m.finalizers h i) f.id) f.target ≠ .Unreachable →
        status (visit (visit (finalizerHeapAt visit m.finalizers h i) f.id) f.target) f.id
          = .Tenured →
        (f, FinalizerFate.promoted) ∈ youngFinalizerFates visit status h m) ∧
      (status (visit (finalizerHeapAt visit m.finalizers h i) f.id) f.target ≠ .Unreachable →
        status (visit (visit (finalizerHeapAt visit m.finalizers h i) f.id) f.target) f.id
          ≠ .Tenured →
        (f, FinalizerFate.kept) ∈ youngFinalizerFates visit status h m)) := by
  have hidx : ∀ (i : Nat) (f : Finalizer), m.finalizers[i]? = some f →
      (status (visit (finalizerHeapAt visit m.finalizers h i) f.id) f.target = .Unreachable →
        (f, FinalizerFate.queued) ∈ youngFinalizerFates visit status h m) ∧
      (status (visit (finalizerHeapAt visit m.finalizers h i) f.id) f.target ≠ .Unreachable →
        status (visit (visit (finalizerHeapAt visit m.finalizers h i) f.id) f.target) f.id
          = .Tenured →
        (f, FinalizerFate.promoted) ∈ youngFinalizerFates visit status h m) ∧
      (status (visit (finalizerHeapAt visit m.finalizers h i) f.id) f.target ≠ .Unreachable →
        status (visit (visit (finalizerHeapAt visit m.finalizers h i) f.id) f.target) f.id
          ≠ .Tenured →
        (f, FinalizerFate.kept) ∈ youngFinalizerFates visit status h m) := by
    intro i f hf
    have hmem : (f, youngFate visit status (finalizerHeapAt visit m.finalizers h i) f)
        ∈ youngFinalizerFates visit status h m :=
      finalizerFates_getElem visit (youngFate visit status) m.finalizers h i f hf
    refine ⟨fun h1 => ?_, fun h1 h2 => ?_, fun h1 h2 => ?_⟩
    · simpa [youngFate, h1] using hmem
    · simpa [youngFate, h1, h2] using hmem
    · simpa [youngFate, h1, h2] using hmem
  have hsub := (withFate_perm visit (youngFate visit status) m.finalizers h).2.1
  have hfst := finalizerFates_fst visit (youngFate visit status) m.finalizers h
  cases type with
  | MinorCollection =>
    obtain ⟨a1, a2, a3, _⟩ := postVisit_minor visit status h m
    refine ⟨hfst, ?_, a1, by rw [a1]; exact hsub,
      postVisit_finalizers_perm visit status _ h m, ?_, hidx⟩
    · intro p hp
      rw [a1, a2, a3]
      refine ⟨fun hq => ?_, fun hq => ?_, fun hq => ?_⟩
      · rw [List.mem_append, List.mem_reverse, mem_withFate, ← hq]; exact Or.inl hp
      · rw [List.mem_append, List.mem_reverse, mem_withFate, ← hq]; exact Or.inl hp
      · rw [mem_withFate, ← hq]; exact hp
    · intro f hf
      rw [a2]
      exact Or.inl (List.mem_append_right _ hf)
  | MajorCollection =>
    obtain ⟨a1, a2, a3, _⟩ := postVisit_major visit status h m
    refine ⟨hfst, ?_, a1, by rw [a1]; exact hsub,
      postVisit_finalizers_perm visit status _ h m, ?_, hidx⟩
    · intro p hp
      rw [a1, a2, a3]
      refine ⟨fun hq => ?_, fun hq => ?_, fun hq => ?_⟩
      · rw [List.mem_append, List.mem_append, List.mem_reverse, List.mem_reverse,
          mem_withFate (l := youngFinalizerFates visit status h m), ← hq]
        exact Or.inr (Or.inl hp)
      · rw [List.mem_append, List.mem_reverse, mem_withFate, ← hq]; exact Or.inl hp
      · rw [mem_withFate, ← hq]; exact hp
    · intro f hf
      rw [a2, a3]
      have hfst2 := finalizerFates_fst visit (tenuredFate visit status) m.tenuredFinalizers
        (heapAfterReferences visit status h m)
      rw [← hfst2] at hf
      obtain ⟨p, hp, hpf⟩ := List.mem_map.mp hf
      obtain ⟨_, _, p3, _⟩ := tenuredFinalizers_spec visit status m.tenuredFinalizers
        (heapAfterReferences visit status h m) []
      have hp' : p ∈ tenuredFinalizerFates visit status h m := hp
      have hpp : (p.1, p.2) = p := rfl
      cases hfate : p.2 with
      | kept =>
        left
        rw [List.mem_append, mem_withFate, ← hpf, ← hfate]
        exact Or.inr hp'
      | queued =>
        right
        rw [List.mem_append, List.mem_reverse, mem_withFate, ← hpf, ← hfate]
        exact Or.inl hp'
      | promoted =>
        exfalso
        have : p.1 ∈ withFate .promoted
            (finalizerFates visit (tenuredFate visit status) m.tenuredFinalizers
              (heapAfterReferences visit status h m)) := by
          rw [mem_withFate, ← hfate]; exact hp
        rw [p3] at this
        exact absurd this (by simp)



/-- C19: `postVisit` gives every reference of the young weak-reference list one
fate, in the heap state in which it examines the reference: dropped when the
reference itself is unreachable, otherwise cleared when its target is
unreachable, otherwise promoted when the reference is tenured after the visit,
otherwise kept.  A dropped reference is unlinked with its target field as it
was, a cleared one is unlinked with a null target field, a promoted one is in
the tenured list and a kept one in the young list, both with their target
field as it was; the young list holds exactly the kept references.  Every
record on the finalize-ready queue afterwards is a finalizer record of the
queue or of a finalizer list, and without finalizer records the queue is left
as it was. -/
theorem postVisit_young_references {H : Type} (visit : H → Nat → H)
    (status : H → Nat → Status) (type : CollectionType) (h : H) (m : MachineLists) :
    (youngReferenceFates visit status h m).map (fun x => x.1) = m.weakReferences ∧
    (∀ p ∈ youngReferenceFates visit status h m,
      (p.2 = .dropped → p.1 ∈ (postVisit visit status type h m).unlinked) ∧
      (p.2 = .cleared →
        { p.1 with target := 0 } ∈ (postVisit visit status type h m).unlinked) ∧
      (p.2 = .promoted →
        p.1 ∈ (postVisit visit status type h m).lists.tenuredWeakReferences) ∧
      (p.2 = .kept → p.1 ∈ (postVisit visit status type h m).lists.weakReferences)) ∧
    (postVisit visit status type h m).lists.weakReferences
      = referencesWithFate .kept (youngReferenceFates visit status h m) ∧
    (∀ (i : Nat) (r : Reference), m.weakReferences[i]? = some r →
      (status (referenceHeapAt visit (youngReferenceFate visit status) m.weakReferences
          (heapAfterFinalizers visit status h m) i) r.id = .Unreachable →
        (r, ReferenceFate.dropped) ∈ youngReferenceFates visit status h m) ∧
      (status (referenceHeapAt visit (youngReferenceFate visit status) m.weakReferences
          (heapAfterFinalizers visit status h m) i) r.id ≠ .Unreachable →
        status (referenceHeapAt visit (youngReferenceFate visit status) m.weakReferences
          (heapAfterFinalizers visit status h m) i) r.target = .Unreachable →
        (r, ReferenceFate.cleared) ∈ youngReferenceFates visit status h m) ∧
      (status (referenceHeapAt visit (youngReferenceFate visit status) m.weakReferences
          (heapAfterFinalizers visit status h m) i) r.id ≠ .Unreachable →
        status (referenceHeapAt visit (youngReferenceFate visit status) m.weakReferences
          (heapAfterFinalizers visit status h m) i) r.target ≠ .Unreachable →
        (status (visit (visit (referenceHeapAt visit (youngReferenceFate visit status)
            m.weakReferences (heapAfterFinalizers visit status h m) i) r.id) r.target) r.id
            = .Tenured →
          (r, ReferenceFate.promoted) ∈ youngReferenceFates visit status h m) ∧
        (status (visit (visit (referenceHeapAt visit (youngReferenceFate visit status)
            m.weakReferences (heapAfterFinalizers visit status h m) i) r.id) r.target) r.id
            ≠ .Tenured →
          (r, ReferenceFate.kept) ∈ youngReferenceFates visit status h m))) ∧
    (∀ f ∈ (postVisit visit status type h m).lists.finalizeQueue,
      f ∈ m.finalizeQueue ∨ f ∈ m.finalizers ∨ f ∈ m.tenuredFinalizers) ∧
    (m.finalizers = [] → m.tenuredFinalizers = [] →
      (postVisit visit status type h m).lists.finalizeQueue = m.finalizeQueue) := by
  have hfst := (referenceFates_fst visit (youngReferenceFate visit status) m.weakReferences
    (heapAfterFinalizers visit status h m)).1
  have hidx : ∀ (i : Nat) (r : Reference), m.weakReferences[i]? = some r →
      (status (referenceHeapAt visit (youngReferenceFate visit status) m.weakReferences
          (heapAfterFinalizers visit status h m) i) r.id = .Unreachable →
        (r, ReferenceFate.dropped) ∈ youngReferenceFates visit status h m) ∧
      (status (referenceHeapAt visit (youngReferenceFate visit status) m.weakReferences
          (heapAfterFinalizers visit status h m) i) r.id ≠ .Unreachable →
        status (referenceHeapAt visit (youngReferenceFate visit status) m.weakReferences
          (heapAfterFinalizers visit status h m) i) r.target = .Unreachable →
        (r, ReferenceFate.cleared) ∈ youngReferenceFates visit status h m) ∧
      (status (referenceHeapAt visit (youngReferenceFate visit status) m.weakReferences
          (heapAfterFinalizers visit status h m) i) r.id ≠ .Unreachable →
        status (referenceHeapAt visit (youngReferenceFate visit status) m.weakReferences
          (heapAfterFinalizers visit status h m) i) r.target ≠ .Unreachable →
        (status (visit (visit (referenceHeapAt visit (youngReferenceFate visit status)
            m.weakReferences (heapAfterFinalizers visit status h m) i) r.id) r.target) r.id
            = .Tenured →
          (r, ReferenceFate.promoted) ∈ youngReferenceFates visit status h m) ∧
        (status (visit (visit (referenceHeapAt visit (youngReferenceFate visit status)
            m.weakReferences (heapAfterFinalizers visit status h m) i) r.id) r.target) r.id
            ≠ .Tenured →
          (r, ReferenceFate.kept) ∈ youngReferenceFates visit status h m)) := by
    intro i r hr
    have hmem : (r, youngReferenceFate visit status
        (referenceHeapAt visit (youngReferenceFate visit status) m.weakReferences
          (heapAfterFinalizers visit status h m) i) r)
        ∈ youngReferenceFates visit status h m :=
      referenceFates_getElem visit (youngReferenceFate visit status) m.weakReferences
        (heapAfterFinalizers visit status h m) i r hr
    refine ⟨fun h1 => ?_, fun h1 h2 => ?_, fun h1 h2 => ?_⟩
    · simpa [youngReferenceFate, h1] using hmem
    · simpa [youngReferenceFate, h1, h2] using hmem
    · refine ⟨fun h3 => ?_, fun h3 => ?_⟩
      · simpa [youngReferenceFate, h1, h2, h3] using hmem
      · simpa [youngReferenceFate, h1, h2, h3] using hmem
  have hqueue : ∀ f ∈ (postVisit visit status type h m).lists.finalizeQueue,
      f ∈ m.finalizeQueue ∨ f ∈ m.finalizers ∨ f ∈ m.tenuredFinalizers := by
    intro f hf
    have hp := postVisit_finalizers_perm visit status type h m
    have : f ∈ m.finalizers ++ m.tenuredFinalizers ++ m.finalizeQueue :=
      hp.mem_iff.mp (List.mem_append_right _ hf)
    simp only [List.mem_append] at this
    tauto
  cases type with
  | MinorCollection =>
    obtain ⟨_, _, a3, a4, a5, a6⟩ := postVisit_minor visit status h m
    refine ⟨hfst, ?_, a4, hidx, hqueue, ?_⟩
    · intro p hp
      rw [a4, a5, a6]
      refine ⟨fun hq => ?_, fun hq => ?_, fun hq => ?_, fun hq => ?_⟩
      · rw [List.mem_reverse, mem_unlinkedReferences, ← hq]; exact Or.inl hp
      · rw [List.mem_reverse, mem_unlinkedReferences]
        exact Or.inr ⟨p.1, by rw [← hq]; exact hp, rfl⟩
      · rw [List.mem_append, List.mem_reverse, mem_referencesWithFate, ← hq]; exact Or.inl hp
      · rw [mem_referencesWithFate, ← hq]; exact hp
    · intro h1 h2
      rw [a3]
      simp [youngFinalizerFates, h1, finalizerFates, withFate]
  | MajorCollection =>
    obtain ⟨_, _, b3, b4, b5, b6⟩ := postVisit_major visit status h m
    refine ⟨hfst, ?_, b4, hidx, hqueue, ?_⟩
    · intro p hp
      rw [b4, b5, b6]
      refine ⟨fun hq => ?_, fun hq => ?_, fun hq => ?_, fun hq => ?_⟩
      · rw [List.mem_append, List.mem_reverse, List.mem_reverse,
          mem_unlinkedReferences (l := youngReferenceFates visit status h m), ← hq]
        exact Or.inr (Or.inl hp)
      · rw [List.mem_append, List.mem_reverse, List.mem_reverse,
          mem_unlinkedReferences (l := youngReferenceFates visit status h m)]
        exact Or.inr (Or.inr ⟨p.1, by rw [← hq]; exact hp, rfl⟩)
      · rw [List.mem_append, List.mem_reverse, mem_referencesWithFate, ← hq]; exact Or.inl hp
      · rw [mem_referencesWithFate, ← hq]; exact hp
    · intro h1 h2
      rw [b3]
      simp [youngFinalizerFates, tenuredFinalizerFates, h1, h2, finalizerFates, withFate]


/-! ## Properties of finalization -/

/-- Between events the finalize-ready queue is empty and the records made so
far are, each once, in the young list, in the tenured list or among the
records whose routine was called. -/
theorem runEvents_inv {H : Type} (visit : H → Nat → H) (status : H → Nat → Status)
    (events : List (Event H)) (s : Finalization)
    (hq : s.lists.finalizeQueue = [])
    (hp : ((s.lists.finalizers ++ s.lists.tenuredFinalizers ++ s.invoked).map
      (fun f => f.id)).Perm (List.range s.allocated)) :
    (runEvents visit status s events).lists.finalizeQueue = [] ∧
    (((runEvents visit status s events).lists.finalizers
      ++ (runEvents visit status s events).lists.tenuredFinalizers
      ++ (runEvents visit status s events).invoked).map (fun f => f.id)).Perm
      (List.range (runEvents visit status s events).allocated) := by
  induction events generalizing s with
  | nil => exact ⟨hq, hp⟩
  | cons e rest ih =>
    cases e with
    | addFinalizer target finalize =>
      simp only [runEvents]
      apply ih
      · exact hq
      · simp only [addFinalizer, List.cons_append, List.map_cons]
        rw [List.range_succ]
        exact (List.Perm.cons _ hp).trans (List.perm_append_singleton _ _).symm
    | collect type heap =>
      simp only [runEvents]
      apply ih
      · rfl
      · have h1 := postVisit_finalizers_perm visit status type heap s.lists
        rw [hq, List.append_nil] at h1
        simp only [collect]
        refine List.Perm.trans ?_ hp
        apply List.Perm.map
        rw [← Multiset.coe_eq_coe] at h1 ⊢
        simp only [← Multiset.coe_add] at h1 ⊢
        rw [← h1]
        abel

/-- C17: after any sequence of registrations and collections followed by
`exit`, the records whose finalize routine was called are exactly the records
registered, each once: no routine is called twice for a record.  `collect`
calls the routine of exactly the records `postVisit` leaves on the
finalize-ready queue and leaves the queue empty; a record on that queue is in
neither finalizer list; `exit` calls the routine of exactly the records of the
young and the tenured list and leaves both empty. -/
theorem finalize_at_most_once {H : Type} (visit : H → Nat → H) (status : H → Nat → Status)
    (events : List (Event H)) :
    ((exit (runEvents visit status initialFinalization events)).invoked.map
      (fun f => f.id)).Nodup ∧
    ((exit (runEvents visit status initialFinalization events)).invoked.map
      (fun f => f.id)).Perm
      (List.range (runEvents visit status initialFinalization events).allocated) ∧
    (∀ (type : CollectionType) (h : H) (s : Finalization),
      (collect visit status type h s).invoked
        = s.invoked ++ (postVisit visit status type h s.lists).lists.finalizeQueue ∧
      (collect visit status type h s).lists.finalizeQueue = [] ∧
      (collect visit status type h s).lists.finalizers
        = (postVisit visit status type h s.lists).lists.finalizers ∧
      (collect visit status type h s).lists.tenuredFinalizers
        = (postVisit visit status type h s.lists).lists.tenuredFinalizers ∧
      ((s.lists.finalizers ++ s.lists.tenuredFinalizers ++ s.lists.finalizeQueue).Nodup →
        ∀ f ∈ (postVisit visit status type h s.lists).lists.finalizeQueue,
          f ∉ (postVisit visit status type h s.lists).lists.finalizers ∧
          f ∉ (postVisit visit status type h s.lists).lists.tenuredFinalizers)) ∧
    (∀ s : Finalization,
      (exit s).invoked = s.invoked ++ s.lists.finalizers ++ s.lists.tenuredFinalizers ∧
      (exit s).lists.finalizers = [] ∧ (exit s).lists.tenuredFinalizers = [] ∧
      (exit s).lists.finalizeQueue = s.lists.finalizeQueue) := by
  obtain ⟨h1, h2⟩ := runEvents_inv visit status events initialFinalization rfl
    (by simp [initialFinalization])
  have hperm : ((exit (runEvents visit status initialFinalization events)).invoked.map
      (fun f => f.id)).Perm
      (List.range (runEvents visit status initialFinalization events).allocated) := by
    refine List.Perm.trans ?_ h2
    apply List.Perm.map
    simp only [exit]
    rw [← Multiset.coe_eq_coe]
    simp only [← Multiset.coe_add]
    abel
  refine ⟨hperm.nodup_iff.mpr (List.nodup_range _), hperm, ?_, ?_⟩
  · intro type h s
    refine ⟨rfl, rfl, rfl, rfl, ?_⟩
    intro hnd f hf
    have hp := postVisit_finalizers_perm visit status type h s.lists
    have hnd' := hp.nodup_iff.mpr hnd
    rw [List.nodup_append] at hnd'
    obtain ⟨_, _, hdis⟩ := hnd'
    constructor
    · intro h'
      exact hdis (List.mem_append_left _ h') hf
    · intro h'
      exact hdis (List.mem_append_right _ h') hf
  · intro s
    exact ⟨rfl, rfl, rfl, rfl⟩


/-! ## Properties of the walk -/

theorem reportWhile_false {σ : Type} (visit : σ → Nat → σ × Bool) (s : σ × List Nat)
    (l : List Nat) (h : (reportWhile visit s l).2 = false) :
    reportWhile visit s l = ((reportWhile visit s l).1, false) := by
  rw [← h]

theorem mangle_length (c : Nat) : (mangle c).length = mangledSize c := by
  unfold mangle mangledSize
  by_cases h1 : c = 47
  · subst h1; decide
  by_cases h2 : c = 95
  · subst h2; decide
  by_cases h3 : c = 59
  · subst h3; decide
  by_cases h4 : c = 91
  · subst h4; decide
  by_cases h5 : c = 36
  · subst h5; decide
  simp [h1, h2, h3, h4, h5]

theorem mangle_flatten_length (l : List Nat) :
    ((l.map mangle).flatten).length = (l.map mangledSize).sum := by
  induction l with
  | nil => rfl
  | cons c rest ih =>
    simp only [List.map_cons, List.flatten_cons, List.length_append, List.sum_cons, ih,
      mangle_length]

/-- C24: for every byte `c`, `mangle` writes `_` for `/`, `_1` for `_`, `_2`
for `;`, `_3` for `[`, `_00024` for `$`, and the single byte `c` for any other
value; the number of bytes it writes, which is the value it returns, is
`mangledSize c`. -/
theorem mangle_substitutions (c : Nat) :
    mangle 47 = [95] ∧ mangle 95 = [95, 49] ∧ mangle 59 = [95, 50] ∧
    mangle 91 = [95, 51] ∧ mangle 36 = [95, 48, 48, 48, 50, 52] ∧
    (c = 47 ∨ c = 95 ∨ c = 59 ∨ c = 91 ∨ c = 36 ∨ mangle c = [c]) ∧
    (mangle c).length = mangledSize c := by
  refine ⟨rfl, rfl, rfl, rfl, rfl, ?_, mangle_length c⟩
  by_cases h1 : c = 47
  · exact Or.inl h1
  by_cases h2 : c = 95
  · exact Or.inr (Or.inl h2)
  by_cases h3 : c = 59
  · exact Or.inr (Or.inr (Or.inl h3))
  by_cases h4 : c = 91
  · exact Or.inr (Or.inr (Or.inr (Or.inl h4)))
  by_cases h5 : c = 36
  · exact Or.inr (Or.inr (Or.inr (Or.inr (Or.inl h5))))
  refine Or.inr (Or.inr (Or.inr (Or.inr (Or.inr ?_))))
  simp [mangle, h1, h2, h3, h4, h5]

/-- C25: for a method whose class name and own name are byte arrays (at least
the terminator), the undecorated name `makeJNIName` builds is `Java_`, the
mangling of each byte of the class name before its terminator, `_`, the
mangling of each byte of the method name before its terminator, and a zero
byte; the function returns (its final assertion holds), the number of bytes
written being the size computed beforehand plus one. -/
theorem makeJNIName_undecorated (className methodName methodSpec : Bytes)
    (hc : className ≠ []) (hm : methodName ≠ []) :
    makeJNIName className methodName methodSpec false
      = .ok ([74, 97, 118, 97, 95] ++ (className.dropLast).flatMap mangle ++ [95]
          ++ (methodName.dropLast).flatMap mangle ++ [0]) ∧
    ([74, 97, 118, 97, 95] ++ (className.dropLast).flatMap mangle ++ [95]
          ++ (methodName.dropLast).flatMap mangle ++ [0]).length
      = (5 + ((className.dropLast).map mangledSize).sum + 1
          + ((methodName.dropLast).map mangledSize).sum) + 1 := by
  have hlen : ([74, 97, 118, 97, 95] ++ (className.dropLast).flatMap mangle ++ [95]
          ++ (methodName.dropLast).flatMap mangle ++ [0]).length
      = (5 + ((className.dropLast).map mangledSize).sum + 1
          + ((methodName.dropLast).map mangledSize).sum) + 1 := by
    simp only [List.flatMap, List.length_append, mangle_flatten_length, List.length_cons,
      List.length_nil]
  refine ⟨?_, hlen⟩
  have hc0 : className.length ≠ 0 := fun h => hc (List.length_eq_zero.mp h)
  have hm0 : methodName.length ≠ 0 := fun h => hm (List.length_eq_zero.mp h)
  unfold makeJNIName
  rw [if_neg (by simp [hc0, hm0])]
  simp only [Bool.false_eq_true, false_and, if_false, List.append_nil, Nat.add_zero]
  simp only [List.flatMap] at hlen
  rw [if_neg (by omega), if_neg (by omega)]
  rfl

theorem makeJNIName_undecorated_witness :
    makeJNIName sampleNestedName [100, 0] [40, 41, 86, 0] false
      = .ok ([74, 97, 118, 97, 95] ++ (sampleNestedName.dropLast).flatMap mangle ++ [95]
          ++ ([100, 0].dropLast).flatMap mangle ++ [0]) ∧
    ([74, 97, 118, 97, 95] ++ (sampleNestedName.dropLast).flatMap mangle ++ [95]
          ++ ([100, 0].dropLast).flatMap mangle ++ [0]).length
      = (5 + ((sampleNestedName.dropLast).map mangledSize).sum + 1
          + (([100, 0].dropLast).map mangledSize).sum) + 1 :=
  makeJNIName_undecorated sampleNestedName [100, 0] [40, 41, 86, 0] (by decide) (by decide)

/-- C26 (counterexample): for the class `a/B$C` and the method `d`, the
undecorated name is not `Java_a_B_00024_d`: the `C` that follows the `$` of the
class name is written too. -/
theorem makeJNIName_nested_keeps_last_byte :
    makeJNIName sampleNestedName [100, 0] [40, 41, 86, 0] false
      ≠ .ok [74, 97, 118, 97, 95, 97, 95, 66, 95, 48, 48, 48, 50, 52, 95, 100, 0] := by
  rw [show makeJNIName sampleNestedName [100, 0] [40, 41, 86, 0] false = .ok sampleSymbol
    from rfl]
  intro h
  exact absurd (Except.ok.inj h) (by decide)

/-- C26 (amended): for the class `a/B$C` and a method `d`, whatever its
descriptor, the undecorated name is `Java_a_B_00024C_d`; and `parseMethodTable`
stores that name for the method `native void d()` declared alone in the
class. -/
theorem makeJNIName_nested_symbol (methodSpec : Bytes) :
    makeJNIName sampleNestedName [100, 0] methodSpec false = .ok sampleSymbol ∧
    (parseMethodTable sampleHash (freshClass 0 sampleNestedName none)
        [declNativeD]).toOption.map linkageNames = some [some sampleSymbol] := by
  refine ⟨?_, by decide⟩
  rw [(makeJNIName_undecorated sampleNestedName [100, 0] methodSpec (by decide) (by decide)).1]
  rfl

/-- The native map is never given an array: the declaration loop inserts native
methods in the virtual map. -/
theorem parseMethodsFrom_nativeMap (methodHash : Method → Nat) (owner : Bytes)
    (decls : List MethodDecl) (st st1 : MethodLoop) (hnat : st.nativeMap.array = none)
    (h : parseMethodsFrom methodHash owner st decls = .ok st1) :
    st1.nativeMap.array = none := by
  induction decls generalizing st with
  | nil =>
    simp only [parseMethodsFrom] at h
    have h := Except.ok.inj h
    subst h
    exact hnat
  | cons d ds ih =>
    simp only [parseMethodsFrom] at h
    cases h1 : parseMethod methodHash owner st d with
    | error e => rw [h1] at h; exact absurd h (by simp)
    | ok st2 =>
      rw [h1] at h
      refine ih st2 ?_ h
      unfold parseMethod at h1
      cases hc : parameterCount d.spec with
      | error e => rw [hc] at h1; exact absurd h1 (by simp)
      | ok count =>
        cases hf : parameterFootprint d.spec with
        | error e => rw [hc, hf] at h1; exact absurd h1 (by simp)
        | ok footprint =>
          rw [hc, hf] at h1
          dsimp only at h1
          have h1 := Except.ok.inj h1
          subst h1
          have ha : (assignSlot methodHash st (newMethod owner d count footprint)).1.nativeMap
              = st.nativeMap := by
            unfold assignSlot
            split
            · split <;> rfl
            · split <;> rfl
          show (registerNative methodHash _ _).nativeMap.array = none
          unfold registerNative
          split
          · have hfind : hashMapFindNode methodHash methodEqual
                (assignSlot methodHash st (newMethod owner d count footprint)).1.nativeMap
                (assignSlot methodHash st (newMethod owner d count footprint)).2 = none := by
              rw [ha]
              unfold hashMapFindNode
              rw [hnat]
            rw [hfind]
            show (assignSlot methodHash st (newMethod owner d count footprint)).1.nativeMap.array
              = none
            rw [ha]; exact hnat
          · rw [ha]; exact hnat

/-- Whatever the class file, every native method gets the undecorated name:
the lookup in the native map that decides on the decoration never finds
anything. -/
theorem linkNative_undecorated (methodHash : Method → Nat)
    (nativeMap : HashMap Method (Option Method)) (hnat : nativeMap.array = none)
    (m m1 : Method) (hm : m.flags &&& ACC_NATIVE ≠ 0)
    (h : linkNative methodHash nativeMap m = .ok m1) :
    ∃ n, makeJNIName m.class_ m.name m.spec false = .ok n ∧ m1.code = some (.jniName n) := by
  unfold linkNative at h
  rw [if_pos hm] at h
  have hfind : hashMapFind methodHash methodEqual nativeMap m = none := by
    unfold hashMapFind hashMapFindNode
    rw [hnat]
  rw [hfind] at h
  dsimp only at h
  cases hn : makeJNIName m.class_ m.name m.spec false with
  | error e =>
    simp only [Option.isSome_none] at h
    rw [hn] at h
    exact absurd h (by simp)
  | ok n =>
    simp only [Option.isSome_none] at h
    rw [hn] at h
    have h := Except.ok.inj h
    subst h
    exact ⟨n, rfl, rfl⟩

/-- C27 (evaluation at the failing input): in a class `X` declaring the two
native methods `d(int)` and `d(long)`, both get the undecorated name `Java_X_d`
(neither `Java_X_d__I` nor `Java_X_d__J`). -/
theorem parseMethodTable_overloaded_native_undecorated :
    (parseMethodTable sampleHash (freshClass 0 [88, 0] none)
        [declNativeDI, declNativeDJ]).toOption.map linkageNames
      = some [some [74, 97, 118, 97, 95, 88, 95, 100, 0],
              some [74, 97, 118, 97, 95, 88, 95, 100, 0]] := by
  decide

/-- C28 (evaluation at failing inputs): the decoration loop of `makeJNIName`
mangles the bytes of the class name at the positions of the parameter types.
For the class `a/B` and the method `d` of descriptor `(I)V` the decorated name
is `Java_a_B_d___` (not `Java_a_B_d__I`); for the class `a$` the loop writes six
bytes where one was counted and runs past the array; for the class `a` and the
descriptor `(II)V` it reads the class name past its end. -/
theorem makeJNIName_decorates_with_class_name :
    makeJNIName [97, 47, 66, 0] [100, 0] [40, 73, 41, 86, 0] true
      = .ok [74, 97, 118, 97, 95, 97, 95, 66, 95, 100, 95, 95, 95, 0] ∧
    makeJNIName [97, 36, 0] [100, 0] [40, 73, 41, 86, 0] true = .error .outOfBounds ∧
    makeJNIName [97, 0] [100, 0] [40, 73, 73, 41, 86, 0] true = .error .outOfBounds := by
  exact ⟨rfl, rfl, rfl⟩


/-! ## Properties of the descriptor scans -/

theorem skipToSemicolon_name (name rest : List Nat) (h0 : 0 ∉ name) (h59 : 59 ∉ name) :
    skipToSemicolon (name ++ 59 :: rest) = 59 :: rest := by
  induction name with
  | nil => simp [skipToSemicolon]
  | cons c cs ih =>
    have hc0 : c ≠ 0 := fun h => h0 (by simp [h])
    have hc59 : c ≠ 59 := fun h => h59 (by simp [h])
    simp only [List.cons_append, skipToSemicolon]
    rw [if_pos ⟨hc0, hc59⟩]
    exact ih (fun h => h0 (List.mem_cons_of_mem _ h)) (fun h => h59 (List.mem_cons_of_mem _ h))

theorem skipBrackets_replicate (n c : Nat) (s : List Nat) (hc : c ≠ 91) :
    skipBrackets (List.replicate n 91 ++ c :: s) = c :: s := by
  induction n with
  | zero => simp [skipBrackets, hc]
  | succ k ih =>
    simp only [List.replicate_succ, List.cons_append, skipBrackets, if_true]
    exact ih

/-- The element of a well-formed parameter type starts with a byte that is
neither zero, `)` nor `[`, and the scan of an object type from its `L` stops
right after its `;`. -/
theorem element_scan (e : ElementType) (hwf : e.wellFormed = true) (rest : List Nat) :
    ∃ c t, e.bytes ++ rest = c :: t ∧ c ≠ 0 ∧ c ≠ 41 ∧ c ≠ 91 ∧
      (c = 76 → (skipToSemicolon (c :: t)).tail = rest) ∧
      (c ≠ 76 → t = rest ∧ e = .primitive c) := by
  cases e with
  | primitive code =>
    simp only [ElementType.wellFormed, decide_eq_true_eq] at hwf
    refine ⟨code, rest, rfl, ?_, ?_, ?_, ?_, fun _ => ⟨rfl, rfl⟩⟩
    · rintro rfl; simp at hwf
    · rintro rfl; simp at hwf
    · rintro rfl; simp at hwf
    · rintro rfl; simp at hwf
  | object name =>
    simp only [ElementType.wellFormed, decide_eq_true_eq] at hwf
    refine ⟨76, name ++ 59 :: rest, by simp [ElementType.bytes], by decide, by decide,
      by decide, fun _ => ?_, fun h => absurd rfl h⟩
    have : skipToSemicolon (76 :: (name ++ 59 :: rest)) = skipToSemicolon (name ++ 59 :: rest) := by
      simp [skipToSemicolon]
    rw [this, skipToSemicolon_name name rest hwf.1 hwf.2]
    rfl

/-- What the `switch` of the two scans does at a well-formed parameter type:
the first byte is neither zero nor `)`, the scan stops right after the type,
and the first byte is `J` or `D` exactly for a long or a double that is not an
array, which take one byte. -/
theorem skipParameter_bytes (p : ParameterType) (hwf : p.element.wellFormed = true)
    (rest : List Nat) :
    ∃ c t, p.bytes ++ rest = c :: t ∧ c ≠ 0 ∧ c ≠ 41 ∧
      skipParameter c (c :: t) = rest ∧
      ((c = 74 ∨ c = 68) ↔ p.wide = true) ∧
      (p.wide = true → t = rest) := by
  obtain ⟨dims, e⟩ := p
  obtain ⟨c, t, hct, h0, h41, h91, hL, hP⟩ := element_scan e hwf rest
  cases dims with
  | zero =>
    refine ⟨c, t, by simpa [ParameterType.bytes] using hct, h0, h41, ?_, ?_, ?_⟩
    · unfold skipParameter
      by_cases h76 : c = 76
      · rw [if_pos h76]; exact hL h76
      · rw [if_neg h76, if_neg h91]; exact (hP h76).1
    · simp only [ParameterType.wide, decide_eq_true_eq, true_and]
      constructor
      · intro hc
        have h76 : c ≠ 76 := by rcases hc with h | h <;> omega
        rw [(hP h76).2]
        rcases hc with h | h
        · exact Or.inl (by rw [h])
        · exact Or.inr (by rw [h])
      · intro he
        by_cases h76 : c = 76
        · subst h76
          cases e with
          | primitive code =>
            simp only [ElementType.bytes, List.singleton_append, List.cons.injEq] at hct
            rcases he with h | h
            · injection h with h; omega
            · injection h with h; omega
          | object name => rcases he with h | h <;> exact absurd h (by simp)
        · have := (hP h76).2
          rw [this] at he
          rcases he with h | h
          · injection h with h; exact Or.inl h
          · injection h with h; exact Or.inr h
    · intro hw
      simp only [ParameterType.wide, decide_eq_true_eq, true_and] at hw
      have h76 : c ≠ 76 := by
        rintro rfl
        cases e with
        | primitive code =>
          simp only [ElementType.bytes, List.singleton_append, List.cons.injEq] at hct
          rcases hw with h | h
          · injection h with h; omega
          · injection h with h; omega
        | object name => rcases hw with h | h <;> exact absurd h (by simp)
      exact (hP h76).1
  | succ k =>
    refine ⟨91, List.replicate k 91 ++ (c :: t), ?_, by decide, by decide, ?_, ?_, ?_⟩
    · simp [ParameterType.bytes, List.replicate_succ, hct]
    · unfold skipParameter
      rw [if_neg (by decide), if_pos rfl]
      have hs : skipBrackets (91 :: (List.replicate k 91 ++ c :: t)) = c :: t := by
        have := skipBrackets_replicate (k + 1) c t h91
        simpa [List.replicate_succ] using this
      simp only [hs, List.head?_cons, Option.some.injEq]
      by_cases h76 : c = 76
      · rw [if_pos h76]; exact hL h76
      · rw [if_neg h76]; exact (hP h76).1
    · simp [ParameterType.wide]
    · simp [ParameterType.wide]

theorem parameterCountLoop_spec (params : List ParameterType)
    (hwf : ∀ p ∈ params, p.element.wellFormed = true) (tail : List Nat) (fuel count : Nat)
    (hfuel : params.length < fuel) :
    parameterCountLoop fuel (params.flatMap ParameterType.bytes ++ 41 :: tail) count
      = .ok (count + params.length) := by
  induction params generalizing fuel count with
  | nil =>
    obtain ⟨f, rfl⟩ : ∃ f, fuel = f + 1 := ⟨fuel - 1, by simp at hfuel; omega⟩
    simp [parameterCountLoop]
  | cons p ps ih =>
    obtain ⟨f, rfl⟩ : ∃ f, fuel = f + 1 := ⟨fuel - 1, by simp at hfuel; omega⟩
    obtain ⟨c, t, hct, h0, h41, hskip, _, _⟩ :=
      skipParameter_bytes p (hwf p (List.mem_cons_self _ _))
        (ps.flatMap ParameterType.bytes ++ 41 :: tail)
    have hs : (p :: ps).flatMap ParameterType.bytes ++ 41 :: tail = c :: t := by
      rw [← hct]; simp [List.flatMap_cons]
    rw [hs]
    simp only [parameterCountLoop]
    rw [if_pos ⟨h0, h41⟩, hskip,
      ih (fun q hq => hwf q (List.mem_cons_of_mem _ hq)) f (count + 1)
        (by simp at hfuel; omega)]
    simp only [List.length_cons]
    congr 1
    omega

theorem parameterFootprintLoop_spec (params : List ParameterType)
    (hwf : ∀ p ∈ params, p.element.wellFormed = true) (tail : List Nat)
    (fuel footprint : Nat) (hfuel : params.length < fuel) :
    parameterFootprintLoop fuel (params.flatMap ParameterType.bytes ++ 41 :: tail) footprint
      = .ok (footprint + params.length + (params.filter ParameterType.wide).length) := by
  induction params generalizing fuel footprint with
  | nil =>
    obtain ⟨f, rfl⟩ : ∃ f, fuel = f + 1 := ⟨fuel - 1, by simp at hfuel; omega⟩
    simp [parameterFootprintLoop]
  | cons p ps ih =>
    obtain ⟨f, rfl⟩ : ∃ f, fuel = f + 1 := ⟨fuel - 1, by simp at hfuel; omega⟩
    obtain ⟨c, t, hct, h0, h41, hskip, hwide, htail⟩ :=
      skipParameter_bytes p (hwf p (List.mem_cons_self _ _))
        (ps.flatMap ParameterType.bytes ++ 41 :: tail)
    have hs : (p :: ps).flatMap ParameterType.bytes ++ 41 :: tail = c :: t := by
      rw [← hct]; simp [List.flatMap_cons]
    rw [hs]
    simp only [parameterFootprintLoop]
    rw [if_pos ⟨h0, h41⟩]
    by_cases hw : p.wide = true
    · rw [if_pos (hwide.mpr hw)]
      simp only [List.tail_cons]
      rw [htail hw, ih (fun q hq => hwf q (List.mem_cons_of_mem _ hq)) f (footprint + 1 + 1)
        (by simp at hfuel; omega)]
      simp only [List.length_cons, List.filter_cons, hw, if_true]
      congr 1
      omega
    · rw [if_neg (fun h => hw (hwide.mp h)), hskip,
        ih (fun q hq => hwf q (List.mem_cons_of_mem _ hq)) f (footprint + 1)
          (by simp at hfuel; omega)]
      simp only [List.length_cons, List.filter_cons, hw, Bool.false_eq_true, if_false]
      congr 1
      omega

theorem descriptor_length (params : List ParameterType) (result : List Nat) :
    params.length < (descriptor params result).length + 1 := by
  have : ∀ ps : List ParameterType, ps.length ≤ (ps.flatMap ParameterType.bytes).length := by
    intro ps
    induction ps with
    | nil => simp
    | cons p rest ih =>
      have hp : 1 ≤ p.bytes.length := by
        obtain ⟨d, e⟩ := p
        cases e <;> simp [ParameterType.bytes, ElementType.bytes]
        omega
      simp only [List.flatMap_cons, List.length_append, List.length_cons]
      omega
  have := this params
  simp only [descriptor, List.length_cons, List.length_append]
  omega

/-- The two scans on a well-formed descriptor. -/
theorem parameterCount_descriptor (params : List ParameterType) (result : List Nat)
    (hwf : ∀ p ∈ params, p.element.wellFormed = true) :
    parameterCount (descriptor params result) = .ok params.length ∧
    parameterFootprint (descriptor params result)
      = .ok (params.length + (params.filter ParameterType.wide).length) := by
  have hfuel := descriptor_length params result
  constructor
  · unfold parameterCount
    have := parameterCountLoop_spec params hwf (result ++ [0])
      ((descriptor params result).length + 1) 0 hfuel
    simpa [descriptor] using this
  · unfold parameterFootprint
    have := parameterFootprintLoop_spec params hwf (result ++ [0])
      ((descriptor params result).length + 1) 0 hfuel
    simpa [descriptor] using this

/-- One iteration of the declaration loop appends a method holding the
parameter count and footprint of the descriptor, each plus one when the method
is not static. -/
theorem parseMethod_parameters (methodHash : Method → Nat) (owner : Bytes)
    (st st1 : MethodLoop) (d : MethodDecl) (h : parseMethod methodHash owner st d = .ok st1) :
    ∃ m count footprint, st1.methodTable = st.methodTable ++ [m] ∧
      parameterCount d.spec = .ok count ∧ parameterFootprint d.spec = .ok footprint ∧
      m.parameterCount = count + (if d.flags &&& ACC_STATIC = 0 then 1 else 0) ∧
      m.parameterFootprint = footprint + (if d.flags &&& ACC_STATIC = 0 then 1 else 0) := by
  unfold parseMethod at h
  cases hc : parameterCount d.spec with
  | error e => rw [hc] at h; exact absurd h (by simp)
  | ok count =>
    cases hf : parameterFootprint d.spec with
    | error e => rw [hc, hf] at h; exact absurd h (by simp)
    | ok footprint =>
      rw [hc, hf] at h
      dsimp only at h
      have h := Except.ok.inj h
      subst h
      have hreg : ∀ (s : MethodLoop) (m : Method),
          (registerNative methodHash s m).methodTable = s.methodTable := by
        intro s m
        unfold registerNative
        split
        · split <;> rfl
        · rfl
      have hassign : (assignSlot methodHash st (newMethod owner d count footprint)).1.methodTable
            = st.methodTable ∧
          (assignSlot methodHash st (newMethod owner d count footprint)).2.parameterCount
            = (newMethod owner d count footprint).parameterCount ∧
          (assignSlot methodHash st (newMethod owner d count footprint)).2.parameterFootprint
            = (newMethod owner d count footprint).parameterFootprint := by
        unfold assignSlot
        split
        · split <;> exact ⟨rfl, rfl, rfl⟩
        · split <;> exact ⟨rfl, rfl, rfl⟩
      refine ⟨(assignSlot methodHash st (newMethod owner d count footprint)).2, count,
        footprint, ?_, rfl, rfl, ?_, ?_⟩
      · show (registerNative methodHash _ _).methodTable ++ _ = _
        rw [hreg, hassign.1]
      · rw [hassign.2.1]
        unfold newMethod
        split <;> rfl
      · rw [hassign.2.2]
        unfold newMethod
        split <;> rfl

theorem parseMethodsFrom_parameters (methodHash : Method → Nat) (owner : Bytes)
    (decls : List MethodDecl) (st st1 : MethodLoop)
    (h : parseMethodsFrom methodHash owner st decls = .ok st1) :
    ∃ ms, st1.methodTable = st.methodTable ++ ms ∧
      List.Forall₂ (fun m d => ∃ count footprint,
        parameterCount d.spec = .ok count ∧ parameterFootprint d.spec = .ok footprint ∧
        m.parameterCount = count + (if d.flags &&& ACC_STATIC = 0 then 1 else 0) ∧
        m.parameterFootprint = footprint + (if d.flags &&& ACC_STATIC = 0 then 1 else 0))
        ms decls := by
  induction decls generalizing st with
  | nil =>
    simp only [parseMethodsFrom] at h
    have h := Except.ok.inj h
    subst h
    exact ⟨[], by simp, List.Forall₂.nil⟩
  | cons d ds ih =>
    simp only [parseMethodsFrom] at h
    cases h1 : parseMethod methodHash owner st d with
    | error e => rw [h1] at h; exact absurd h (by simp)
    | ok st2 =>
      rw [h1] at h
      obtain ⟨m, count, footprint, p1, p2, p3, p4, p5⟩ :=
        parseMethod_parameters methodHash owner st st2 d h1
      obtain ⟨ms, q1, q2⟩ := ih st2 h
      refine ⟨m :: ms, ?_, List.Forall₂.cons ⟨count, footprint, p2, p3, p4, p5⟩ q2⟩
      rw [q1, p1]; simp

theorem linkNatives_parameters (methodHash : Method → Nat)
    (nativeMap : HashMap Method (Option Method)) (table table1 : List Method)
    (h : linkNatives methodHash nativeMap table = .ok table1) :
    List.Forall₂ (fun m1 m => m1.parameterCount = m.parameterCount ∧
      m1.parameterFootprint = m.parameterFootprint) table1 table := by
  induction table generalizing table1 with
  | nil =>
    simp only [linkNatives] at h
    have h := (Except.ok.inj h).symm
    subst h
    exact List.Forall₂.nil
  | cons m rest ih =>
    simp only [linkNatives] at h
    cases h1 : linkNative methodHash nativeMap m with
    | error e => rw [h1] at h; exact absurd h (by simp)
    | ok m1 =>
      rw [h1] at h
      dsimp only at h
      cases h2 : linkNatives methodHash nativeMap rest with
      | error e => rw [h2] at h; exact absurd h (by simp)
      | ok others =>
        rw [h2] at h
        have h := (Except.ok.inj h).symm
        subst h
        refine List.Forall₂.cons ?_ (ih others h2)
        unfold linkNative at h1
        split at h1
        · dsimp only at h1
          split at h1
          · exact absurd h1 (by simp)
          · have h1 := (Except.ok.inj h1).symm
            subst h1
            exact ⟨rfl, rfl⟩
        · have h1 := (Except.ok.inj h1).symm
          subst h1
          exact ⟨rfl, rfl⟩

/-- The method records of the table `parseMethodTable` stores hold, in the
order of the declarations, the parameter count and footprint of each
descriptor, plus one for a method that is not static. -/
theorem parseMethodTable_parameters (methodHash : Method → Nat) (class_ c : Class)
    (decls : List MethodDecl) (h : parseMethodTable methodHash class_ decls = .ok c)
    (k : Nat) (d : MethodDecl) (hd : decls[k]? = some d) :
    ∃ m count footprint, (c.methodTable.getD [])[k]? = some m ∧
      parameterCount d.spec = .ok count ∧ parameterFootprint d.spec = .ok footprint ∧
      m.parameterCount = count + (if d.flags &&& ACC_STATIC = 0 then 1 else 0) ∧
      m.parameterFootprint = footprint + (if d.flags &&& ACC_STATIC = 0 then 1 else 0) := by
  obtain ⟨st, table, h1, h2, h3, _⟩ := parseMethodTable_ok methodHash class_ c decls h
  have hne : decls.length ≠ 0 := by
    intro h0
    rw [List.length_eq_zero.mp h0] at hd
    simp at hd
  rw [if_pos hne] at h3
  unfold parseMethods at h1
  cases h0 : initialMethodLoop methodHash class_ with
  | error e => rw [h0] at h1; exact absurd h1 (by simp)
  | ok st0 =>
    rw [h0] at h1
    dsimp only at h1
    have hempty : st0.methodTable = [] := by
      unfold initialMethodLoop at h0
      dsimp only at h0
      split at h0
      · split at h0
        · exact absurd h0 (by simp)
        · have h0 := (Except.ok.inj h0).symm
          subst h0; rfl
      · split at h0
        · have h0 := (Except.ok.inj h0).symm
          subst h0; rfl
        · split at h0
          · exact absurd h0 (by simp)
          · have h0 := (Except.ok.inj h0).symm
            subst h0; rfl
    obtain ⟨ms, q1, q2⟩ := parseMethodsFrom_parameters methodHash class_.name decls st0 st h1
    rw [hempty, List.nil_append] at q1
    have q3 := linkNatives_parameters methodHash st.nativeMap st.methodTable table h2
    rw [q1] at q3
    obtain ⟨m0, hm0, count, footprint, r1, r2, r3, r4⟩ := forall2_getElem? _ _ _ q2 k d hd
    obtain ⟨m, hm, s1, s2⟩ := forall2_getElem? _ _ _ q3 k m0 hm0
    refine ⟨m, count, footprint, ?_, r1, r2, by rw [s1, r3], by rw [s2, r4]⟩
    rw [h3]
    exact hm

/-- C29: for a descriptor made of well-formed parameter types, `parameterCount`
returns the number of parameter types (an array or class type counting once,
whatever its length), `parameterFootprint` returns that number plus one for
each parameter that is a long or a double and not an array, and the method
record `parseMethodTable` stores for a declaration with that descriptor holds
these two values, each plus one exactly when the method is not static. -/
theorem parameterCount_footprint_stored (params : List ParameterType) (result : List Nat)
    (hwf : ∀ p ∈ params, p.element.wellFormed = true) :
    parameterCount (descriptor params result) = .ok params.length ∧
    parameterFootprint (descriptor params result)
      = .ok (params.length + (params.filter ParameterType.wide).length) ∧
    ∀ (methodHash : Method → Nat) (class_ c : Class) (decls : List MethodDecl) (k : Nat)
      (d : MethodDecl), parseMethodTable methodHash class_ decls = .ok c →
      decls[k]? = some d → d.spec = descriptor params result →
      ∃ m, (c.methodTable.getD [])[k]? = some m ∧
        m.parameterCount
          = params.length + (if d.flags &&& ACC_STATIC = 0 then 1 else 0) ∧
        m.parameterFootprint
          = params.length + (params.filter ParameterType.wide).length
            + (if d.flags &&& ACC_STATIC = 0 then 1 else 0) := by
  obtain ⟨h1, h2⟩ := parameterCount_descriptor params result hwf
  refine ⟨h1, h2, ?_⟩
  intro methodHash class_ c decls k d h hd hspec
  obtain ⟨m, count, footprint, p1, p2, p3, p4, p5⟩ :=
    parseMethodTable_parameters methodHash class_ c decls h k d hd
  rw [hspec, h1] at p2
  rw [hspec, h2] at p3
  have p2 := Except.ok.inj p2
  have p3 := Except.ok.inj p3
  subst p2
  subst p3
  exact ⟨m, p1, p4, p5⟩

theorem parameterCount_footprint_stored_witness :
    (∀ p ∈ sampleParameters, p.element.wellFormed = true) ∧
    parameterCount (descriptor sampleParameters [86]) = .ok 5 ∧
    parameterFootprint (descriptor sampleParameters [86]) = .ok 6 ∧
    ∃ c m, parseMethodTable sampleHash (freshClass 0 [65, 0] (some sampleObject)) [declP]
        = .ok c ∧
      (c.methodTable.getD [])[0]? = some m ∧ m.parameterCount = 6 ∧
      m.parameterFootprint = 7 := by
  have h := parameterCount_footprint_stored sampleParameters [86] (by decide)
  obtain ⟨c, hc⟩ : ∃ c, parseMethodTable sampleHash (freshClass 0 [65, 0] (some sampleObject))
      [declP] = .ok c := ⟨_, rfl⟩
  obtain ⟨m, hm, h1, h2⟩ := h.2.2 sampleHash _ c [declP] 0 declP hc rfl rfl
  exact ⟨by decide, h.1, h.2.1.trans (congrArg Except.ok (by decide)), c, m, hc, hm,
    h1.trans (by decide), h2.trans (by decide)⟩

/-! ## Properties of the constant pool -/


theorem read_append (bytes rest : List Nat) :
    read bytes.length (bytes ++ rest) = .ok (bytes, rest) := by
  unfold read
  rw [if_pos (by simp)]
  simp

theorem readNumber_append (n : Nat) (bytes rest : List Nat) (h : bytes.length = n) :
    readNumber n (bytes ++ rest) = .ok (bigEndian bytes, rest) := by
  subst h
  unfold readNumber
  rw [read_append]

theorem bigEndian_twoBytes (n : Nat) (h : n < 65536) : bigEndian (twoBytes n) = n := by
  simp only [bigEndian, twoBytes, List.foldl_cons, List.foldl_nil]
  omega

theorem read2_twoBytes (n : Nat) (h : n < 65536) (rest : List Nat) :
    read2 (twoBytes n ++ rest) = .ok (n, rest) := by
  unfold read2
  rw [readNumber_append 2 (twoBytes n) rest rfl, bigEndian_twoBytes n h]

theorem read1_cons (c : Nat) (rest : List Nat) : read1 (c :: rest) = .ok (c, rest) := by
  unfold read1
  have := readNumber_append 1 [c] rest rfl
  simpa [bigEndian] using this

theorem inPool_lt (table : List (Option Constant)) (a : Nat) (h : inPool table a = true)
    (ht : table.length < 65536) : a < 65536 := by
  simp only [inPool, decide_eq_true_eq] at h
  omega

/-- The first loop on the bytes of one entry: the object made, the extra index
of a Long or Double entry, and the stream right after the entry. -/
theorem parseConstant_bytes (table : List (Option Constant)) (ht : table.length < 65536)
    (c : Constant) (hwf : c.wellFormed table = true) (rest : List Nat) :
    ∃ tag payload, c.bytes = tag :: payload ∧
      parseConstant tag (payload ++ rest) = .ok (firstObject c, c.slots - 1, rest) := by
  cases c with
  | integer bytes =>
    simp only [Constant.wellFormed, decide_eq_true_eq] at hwf
    refine ⟨_, _, rfl, ?_⟩
    simp [parseConstant, read4, readNumber_append 4 bytes rest hwf, firstObject,
      Constant.slots, CONSTANT_Integer]
  | float bytes =>
    simp only [Constant.wellFormed, decide_eq_true_eq] at hwf
    refine ⟨_, _, rfl, ?_⟩
    simp [parseConstant, read4, readNumber_append 4 bytes rest hwf, firstObject,
      Constant.slots, CONSTANT_Integer, CONSTANT_Float]
  | long bytes =>
    simp only [Constant.wellFormed, decide_eq_true_eq] at hwf
    refine ⟨_, _, rfl, ?_⟩
    simp [parseConstant, read8, readNumber_append 8 bytes rest hwf, firstObject,
      Constant.slots, CONSTANT_Integer, CONSTANT_Float, CONSTANT_Long]
  | double bytes =>
    simp only [Constant.wellFormed, decide_eq_true_eq] at hwf
    refine ⟨_, _, rfl, ?_⟩
    simp [parseConstant, read8, readNumber_append 8 bytes rest hwf, firstObject,
      Constant.slots, CONSTANT_Integer, CONSTANT_Float, CONSTANT_Long, CONSTANT_Double]
  | utf8 bytes =>
    simp only [Constant.wellFormed, decide_eq_true_eq] at hwf
    refine ⟨_, _, rfl, ?_⟩
    simp [parseConstant, List.append_assoc, read2_twoBytes _ hwf, read_append, firstObject,
      Constant.slots, CONSTANT_Integer, CONSTANT_Float, CONSTANT_Long, CONSTANT_Double,
      CONSTANT_Utf8]
  | class_ name =>
    have h1 := inPool_lt table name hwf ht
    refine ⟨_, _, rfl, ?_⟩
    simp [parseConstant, read2_twoBytes _ h1, firstObject,
      Constant.slots, CONSTANT_Integer, CONSTANT_Float, CONSTANT_Long, CONSTANT_Double,
      CONSTANT_Utf8, CONSTANT_Class]
  | string value =>
    simp only [Constant.wellFormed, Bool.and_eq_true] at hwf
    have h1 := inPool_lt table value hwf.1 ht
    refine ⟨_, _, rfl, ?_⟩
    simp [parseConstant, read2_twoBytes _ h1, firstObject,
      Constant.slots, CONSTANT_Integer, CONSTANT_Float, CONSTANT_Long, CONSTANT_Double,
      CONSTANT_Utf8, CONSTANT_Class, CONSTANT_String]
  | nameAndType name descriptor =>
    simp only [Constant.wellFormed, Bool.and_eq_true] at hwf
    have h1 := inPool_lt table name hwf.1 ht
    have h2 := inPool_lt table descriptor hwf.2 ht
    refine ⟨_, _, rfl, ?_⟩
    simp [parseConstant, List.append_assoc, read2_twoBytes _ h1, read2_twoBytes _ h2,
      firstObject,
      Constant.slots, CONSTANT_Integer, CONSTANT_Float, CONSTANT_Long, CONSTANT_Double,
      CONSTANT_Utf8, CONSTANT_Class, CONSTANT_String, CONSTANT_NameAndType]
  | fieldref c nt =>
    simp only [Constant.wellFormed, Bool.and_eq_true] at hwf
    have h1 := inPool_lt table c hwf.1.1 ht
    have h2 := inPool_lt table nt hwf.1.2 ht
    refine ⟨_, _, rfl, ?_⟩
    simp [parseConstant, List.append_assoc, read2_twoBytes _ h1, read2_twoBytes _ h2,
      firstObject,
      Constant.slots, CONSTANT_Integer, CONSTANT_Float, CONSTANT_Long, CONSTANT_Double,
      CONSTANT_Utf8, CONSTANT_Class, CONSTANT_String, CONSTANT_NameAndType, CONSTANT_Fieldref]
  | methodref c nt =>
    simp only [Constant.wellFormed, Bool.and_eq_true] at hwf
    have h1 := inPool_lt table c hwf.1.1 ht
    have h2 := inPool_lt table nt hwf.1.2 ht
    refine ⟨_, _, rfl, ?_⟩
    simp [parseConstant, List.append_assoc, read2_twoBytes _ h1, read2_twoBytes _ h2,
      firstObject,
      Constant.slots, CONSTANT_Integer, CONSTANT_Float, CONSTANT_Long, CONSTANT_Double,
      CONSTANT_Utf8, CONSTANT_Class, CONSTANT_String, CONSTANT_NameAndType, CONSTANT_Fieldref,
      CONSTANT_Methodref]
  | interfaceMethodref c nt =>
    simp only [Constant.wellFormed, Bool.and_eq_true] at hwf
    have h1 := inPool_lt table c hwf.1.1 ht
    have h2 := inPool_lt table nt hwf.1.2 ht
    refine ⟨_, _, rfl, ?_⟩
    simp [parseConstant, List.append_assoc, read2_twoBytes _ h1, read2_twoBytes _ h2,
      firstObject,
      Constant.slots, CONSTANT_Integer, CONSTANT_Float, CONSTANT_Long, CONSTANT_Double,
      CONSTANT_Utf8, CONSTANT_Class, CONSTANT_String, CONSTANT_NameAndType, CONSTANT_Fieldref,
      CONSTANT_Methodref, CONSTANT_InterfaceMethodref]

theorem slotTable_cons (c : Constant) (cs : List Constant) :
    slotTable (c :: cs) = some c :: (List.replicate (c.slots - 1) none ++ slotTable cs) := by
  simp [slotTable, List.flatMap_cons]

theorem slots_pos (c : Constant) : 1 ≤ c.slots := by
  cases c <;> simp [Constant.slots]

/-- The first loop of `parsePool` on the bytes of a pool: it stores, index by
index, the object made for each entry, leaves the second index of a Long or
Double entry null, and stops right after the last entry. -/
theorem parsePoolEntries_spec (table : List (Option Constant)) (ht : table.length < 65536)
    (n : Nat) (tail : List Nat) (cs : List Constant) (hwf : ∀ c ∈ cs, c.wellFormed table = true)
    (done : Pool) (fuel : Nat) (hn : done.length + (slotTable cs).length = n)
    (hfuel : cs.length < fuel) :
    parsePoolEntries n fuel done.length (done ++ List.replicate (n - done.length) none)
        (cs.flatMap Constant.bytes ++ tail)
      = .ok (done ++ (slotTable cs).map (Option.map firstObject), tail) := by
  induction cs generalizing done fuel with
  | nil =>
    obtain ⟨f, rfl⟩ : ∃ f, fuel = f + 1 := ⟨fuel - 1, by simp at hfuel; omega⟩
    simp only [slotTable, List.flatMap_nil, List.length_nil, Nat.add_zero] at hn
    simp [parsePoolEntries, hn, slotTable]
  | cons c cs ih =>
    obtain ⟨f, rfl⟩ : ∃ f, fuel = f + 1 := ⟨fuel - 1, by simp at hfuel; omega⟩
    have hpos := slots_pos c
    rw [slotTable_cons] at hn
    simp only [List.length_cons, List.length_append, List.length_replicate] at hn
    obtain ⟨tag, payload, hb, hp⟩ := parseConstant_bytes table ht c
      (hwf c (List.mem_cons_self _ _)) (cs.flatMap Constant.bytes ++ tail)
    have hs : (c :: cs).flatMap Constant.bytes ++ tail
        = tag :: (payload ++ (cs.flatMap Constant.bytes ++ tail)) := by
      simp [List.flatMap_cons, hb]
    rw [hs]
    simp only [parsePoolEntries]
    rw [if_pos (by omega), read1_cons]
    dsimp only
    rw [hp]
    dsimp only
    have hstore : arrayStore (done ++ List.replicate (n - done.length) none) done.length
        (some (firstObject c))
        = .ok (done ++ some (firstObject c) :: List.replicate (n - done.length - 1) none) := by
      unfold arrayStore
      rw [if_pos (by simp; omega)]
      congr 1
      obtain ⟨k, hk⟩ : ∃ k, n - done.length = k + 1 := ⟨n - done.length - 1, by omega⟩
      rw [hk, List.replicate_succ]
      simp
    rw [hstore]
    dsimp only
    have hsplit : done ++ some (firstObject c) :: List.replicate (n - done.length - 1) none
        = (done ++ some (firstObject c) :: List.replicate (c.slots - 1) none)
          ++ List.replicate
              (n - (done ++ some (firstObject c) :: List.replicate (c.slots - 1) none).length)
              none := by
      simp only [List.length_append, List.length_cons, List.length_replicate,
        List.append_assoc, List.cons_append]
      congr 2
      rw [← List.replicate_add]
      congr 1
      omega
    have hidx : done.length + (c.slots - 1) + 1
        = (done ++ some (firstObject c) :: List.replicate (c.slots - 1) none).length := by
      simp only [List.length_append, List.length_cons, List.length_replicate]
      omega
    rw [hsplit, hidx, ih (fun x hx => hwf x (List.mem_cons_of_mem _ hx)) _ f
      (by simp only [List.length_append, List.length_cons, List.length_replicate]; omega)
      (by simp at hfuel; omega)]
    simp [slotTable_cons]


/-- A loop over the pool that keeps an invariant at each index returns, with
the invariant at the end. -/
theorem poolLoop_range
    (body : Pool → Option PoolObject → Except Fault (Option (Option PoolObject))) (n : Nat)
    (Inv : Nat → Pool → Prop)
    (hstep : ∀ i pool, Inv i pool → i < n →
      ∃ o, pool[i]? = some o ∧
        ((body pool o = .ok none ∧ Inv (i + 1) pool) ∨
         (∃ v, body pool o = .ok (some v) ∧ Inv (i + 1) (pool.set i v)))) :
    ∀ (k i : Nat) (pool : Pool), i + k = n → Inv i pool →
      ∃ pool1, poolLoop body pool (List.range' i k) = .ok pool1 ∧ Inv n pool1 := by
  intro k
  induction k with
  | zero =>
    intro i pool hk hinv
    have : i = n := by omega
    subst this
    exact ⟨pool, rfl, hinv⟩
  | succ k ih =>
    intro i pool hk hinv
    obtain ⟨o, ho, hcase⟩ := hstep i pool hinv (by omega)
    simp only [List.range'_succ, poolLoop, ho]
    rcases hcase with ⟨hb, hnext⟩ | ⟨v, hb, hnext⟩
    · rw [hb]
      exact ih (i + 1) pool (by omega) hnext
    · rw [hb]
      have hi : i < pool.length := by
        rcases Nat.lt_or_ge i pool.length with h | h
        · exact h
        · rw [List.getElem?_eq_none h] at ho; exact absurd ho (by simp)
      simp only [arrayStore, if_pos hi]
      exact ih (i + 1) (pool.set i v) (by omega) hnext

theorem poolEntry_ok (table : List (Option Constant)) (pool : Pool) (a : Nat)
    (hl : pool.length = table.length) (h : inPool table a = true) :
    ∃ v, pool[a - 1]? = some v ∧ poolEntry pool a = .ok v := by
  simp only [inPool, decide_eq_true_eq] at h
  have hlt : a - 1 < pool.length := by omega
  refine ⟨pool[a - 1], List.getElem?_eq_getElem hlt, ?_⟩
  unfold poolEntry
  rw [if_neg (by omega), List.getElem?_eq_getElem hlt]

theorem getElem?_set_other {α : Type} (l : List α) (i j : Nat) (a : α) (h : j ≠ i) :
    (l.set i a)[j]? = l[j]? := by
  rw [List.getElem?_set_ne (Ne.symm h)]

theorem getElem?_set_same {α : Type} (l : List α) (i : Nat) (a : α) (h : i < l.length) :
    (l.set i a)[i]? = some a := by
  rw [List.getElem?_set_self h]


theorem ShapeInv.shapeSkip {table : List (Option Constant)} {i : Nat} {pool : Pool}
    (h : ShapeInv table i pool)
    (hnt : ∀ a b, table[i]? ≠ some (some (.nameAndType a b))) :
    ShapeInv table (i + 1) pool := by
  refine ⟨h.length, fun j hj => h.rest j (by omega), h.plain, h.empty, ?_, h.originals⟩
  intro j a b hj ht
  rcases Nat.lt_or_ge j i with hlt | hge
  · exact h.pairs j a b hlt ht
  · have : j = i := by omega
    subst this
    exact absurd ht (hnt a b)

theorem ShapeInv.shapeStore {table : List (Option Constant)} {i : Nat} {pool : Pool}
    (h : ShapeInv table i pool) (c : Constant) (ht : table[i]? = some (some c))
    (hc : c.plain = false) (v : Option PoolObject)
    (hv : ∀ body, v = some (.intArray body) →
      ∃ c, some c ∈ table ∧ firstObject c = .intArray body)
    (hp : ∀ a b, c = .nameAndType a b → ∃ x y, v = some (.pair x y)) :
    ShapeInv table (i + 1) (pool.set i v) := by
  have hi : i < pool.length := by
    rw [h.length]
    rcases Nat.lt_or_ge i table.length with hlt | hge
    · exact hlt
    · rw [List.getElem?_eq_none hge] at ht; exact absurd ht (by simp)
  refine ⟨by simp [h.length], ?_, ?_, ?_, ?_, ?_⟩
  · intro j hj
    rw [getElem?_set_other _ _ _ _ (by omega)]
    exact h.rest j (by omega)
  · intro j c1 htj hpl
    have hne : j ≠ i := by
      rintro rfl
      rw [ht] at htj
      injection htj with htj
      injection htj with htj
      subst htj
      rw [hc] at hpl
      exact absurd hpl (by simp)
    rw [getElem?_set_other _ _ _ _ hne]
    exact h.plain j c1 htj hpl
  · intro j htj
    have hne : j ≠ i := by
      rintro rfl
      rw [ht] at htj
      exact absurd htj (by simp)
    rw [getElem?_set_other _ _ _ _ hne]
    exact h.empty j htj
  · intro j a b hj htj
    by_cases hji : j = i
    · subst hji
      rw [ht] at htj
      injection htj with htj
      injection htj with htj
      obtain ⟨x, y, hxy⟩ := hp a b htj
      exact ⟨x, y, by rw [getElem?_set_same _ _ _ hi, hxy]⟩
    · rw [getElem?_set_other _ _ _ _ hji]
      exact h.pairs j a b (by omega) htj
  · intro j body hj
    by_cases hji : j = i
    · subst hji
      rw [getElem?_set_same _ _ _ hi] at hj
      injection hj with hj
      exact hv body hj
    · rw [getElem?_set_other _ _ _ _ hji] at hj
      exact h.originals j body hj

theorem wellFormed_string (table : List (Option Constant)) (s : Nat)
    (h : (Constant.string s).wellFormed table = true) :
    inPool table s = true ∧ ∃ bs, table[s - 1]? = some (some (.utf8 bs)) := by
  simp only [Constant.wellFormed, Bool.and_eq_true] at h
  refine ⟨h.1, ?_⟩
  have h2 := h.2
  split at h2
  · exact ⟨_, by assumption⟩
  · exact absurd h2 (by simp)

theorem wellFormed_reference (table : List (Option Constant)) (c : Constant) (ci nt : Nat)
    (hc : c = .fieldref ci nt ∨ c = .methodref ci nt ∨ c = .interfaceMethodref ci nt)
    (h : c.wellFormed table = true) :
    inPool table ci = true ∧ inPool table nt = true ∧
      ∃ a b, table[nt - 1]? = some (some (.nameAndType a b)) := by
  rcases hc with rfl | rfl | rfl
  all_goals
    simp only [Constant.wellFormed, Bool.and_eq_true] at h
    refine ⟨h.1.1, h.1.2, ?_⟩
    have h2 := h.2
    split at h2
    · exact ⟨_, _, by assumption⟩
    · exact absurd h2 (by simp)

/-- One iteration of the second loop of `parsePool` on a pool of well-formed
entries returns and keeps the invariant. -/
theorem resolveShape_step (table : List (Option Constant))
    (hwf : ∀ c, some c ∈ table → c.wellFormed table = true) (i : Nat) (pool : Pool)
    (hinv : ShapeInv table i pool) (hi : i < table.length) :
    ∃ o, pool[i]? = some o ∧
      ((resolveShape pool o = .ok none ∧ ShapeInv table (i + 1) pool) ∨
       (∃ v, resolveShape pool o = .ok (some v) ∧ ShapeInv table (i + 1) (pool.set i v))) := by
  have ht : table[i]? = some table[i] := List.getElem?_eq_getElem hi
  have hmem : table[i] ∈ table := List.getElem_mem hi
  have hpi : pool[i]? = some ((table[i]).map firstObject) := by
    rw [hinv.rest i (Nat.le_refl i), List.getElem?_map, ht]; rfl
  generalize table[i] = t at ht hmem hpi
  refine ⟨_, hpi, ?_⟩
  cases t with
  | none => exact Or.inl ⟨rfl, hinv.shapeSkip (fun a b => by rw [ht]; simp)⟩
  | some c =>
    have hwfc := hwf c hmem
    cases c with
    | integer bytes => exact Or.inl ⟨rfl, hinv.shapeSkip (fun a b => by rw [ht]; simp)⟩
    | float bytes => exact Or.inl ⟨rfl, hinv.shapeSkip (fun a b => by rw [ht]; simp)⟩
    | long bytes => exact Or.inl ⟨rfl, hinv.shapeSkip (fun a b => by rw [ht]; simp)⟩
    | double bytes => exact Or.inl ⟨rfl, hinv.shapeSkip (fun a b => by rw [ht]; simp)⟩
    | utf8 bytes => exact Or.inl ⟨rfl, hinv.shapeSkip (fun a b => by rw [ht]; simp)⟩
    | class_ a =>
      obtain ⟨v, hv1, hv2⟩ := poolEntry_ok table pool a hinv.length hwfc
      refine Or.inr ⟨v, ?_, hinv.shapeStore _ ht rfl v ?_ ?_⟩
      · simp [Option.map, firstObject, resolveShape, intArrayBody, CONSTANT_Class, hv2]
      · intro body hb
        subst hb
        exact hinv.originals (a - 1) body hv1
      · intro x y hxy; exact absurd hxy (by simp)
    | string s =>
      obtain ⟨h1, bs, h2⟩ := wellFormed_string table s hwfc
      obtain ⟨v, hv1, hv2⟩ := poolEntry_ok table pool s hinv.length h1
      have hv : v = some (.byteArray (bs ++ [0])) := by
        have := hinv.plain (s - 1) (.utf8 bs) h2 rfl
        rw [hv1] at this
        injection this
      subst hv
      refine Or.inr ⟨_, ?_, hinv.shapeStore _ ht rfl
        (some (.string (bs ++ [0]) 0 ((bs ++ [0]).length - 1) 0)) ?_ ?_⟩
      · simp [Option.map, firstObject, resolveShape, intArrayBody, CONSTANT_Class,
          CONSTANT_String, hv2]
      · intro body hb; exact absurd hb (by simp)
      · intro x y hxy; exact absurd hxy (by simp)
    | nameAndType a b =>
      simp only [Constant.wellFormed, Bool.and_eq_true] at hwfc
      obtain ⟨x, _, hx⟩ := poolEntry_ok table pool a hinv.length hwfc.1
      obtain ⟨y, _, hy⟩ := poolEntry_ok table pool b hinv.length hwfc.2
      refine Or.inr ⟨some (.pair x y), ?_, hinv.shapeStore _ ht rfl _ ?_ ?_⟩
      · simp [Option.map, firstObject, resolveShape, intArrayBody, CONSTANT_Class,
          CONSTANT_String, CONSTANT_NameAndType, hx, hy]
      · intro body hb; exact absurd hb (by simp)
      · intro _ _ _; exact ⟨x, y, rfl⟩
    | fieldref ci nt =>
      refine Or.inl ⟨?_, hinv.shapeSkip (fun a b => by rw [ht]; simp)⟩
      simp [Option.map, firstObject, resolveShape, intArrayBody, CONSTANT_Class,
        CONSTANT_String, CONSTANT_NameAndType, CONSTANT_Fieldref]
    | methodref ci nt =>
      refine Or.inl ⟨?_, hinv.shapeSkip (fun a b => by rw [ht]; simp)⟩
      simp [Option.map, firstObject, resolveShape, intArrayBody, CONSTANT_Class,
        CONSTANT_String, CONSTANT_NameAndType, CONSTANT_Methodref]
    | interfaceMethodref ci nt =>
      refine Or.inl ⟨?_, hinv.shapeSkip (fun a b => by rw [ht]; simp)⟩
      simp [Option.map, firstObject, resolveShape, intArrayBody, CONSTANT_Class,
        CONSTANT_String, CONSTANT_NameAndType, CONSTANT_InterfaceMethodref]

theorem ReferenceInv.referenceSkip {pool2 : Pool} {i : Nat} {pool : Pool}
    (h : ReferenceInv pool2 i pool) : ReferenceInv pool2 (i + 1) pool :=
  ⟨h.length, fun j hj => h.rest j (by omega), h.kept⟩

theorem ReferenceInv.referenceStore {pool2 : Pool} {i : Nat} {pool : Pool}
    (h : ReferenceInv pool2 i pool) (body : List Nat)
    (hi : pool2[i]? = some (some (.intArray body))) (v : Option PoolObject) :
    ReferenceInv pool2 (i + 1) (pool.set i v) := by
  refine ⟨by simp [h.length], ?_, ?_⟩
  · intro j hj
    rw [getElem?_set_other _ _ _ _ (by omega)]
    exact h.rest j (by omega)
  · intro j o hj hne
    have hji : j ≠ i := by
      rintro rfl
      rw [hi] at hj
      injection hj with hj
      exact hne body hj.symm
    rw [getElem?_set_other _ _ _ _ hji]
    exact h.kept j o hj hne

/-- One iteration of the third loop of `parsePool` on the pool the second loop
left for well-formed entries returns and keeps the invariant. -/
theorem resolveReference_step (table : List (Option Constant))
    (hwf : ∀ c, some c ∈ table → c.wellFormed table = true) (pool2 : Pool)
    (hshape : ShapeInv table table.length pool2) (i : Nat) (pool : Pool)
    (hinv : ReferenceInv pool2 i pool) (hi : i < table.length) :
    ∃ o, pool[i]? = some o ∧
      ((resolveReference pool o = .ok none ∧ ReferenceInv pool2 (i + 1) pool) ∨
       (∃ v, resolveReference pool o = .ok (some v) ∧
         ReferenceInv pool2 (i + 1) (pool.set i v))) := by
  have hi2 : i < pool2.length := by rw [hshape.length]; exact hi
  have hpi : pool[i]? = some pool2[i] := by
    rw [hinv.rest i (Nat.le_refl i)]; exact List.getElem?_eq_getElem hi2
  have hp2 : pool2[i]? = some pool2[i] := List.getElem?_eq_getElem hi2
  generalize pool2[i] = o at hpi hp2
  refine ⟨o, hpi, ?_⟩
  have hlen : pool.length = table.length := by rw [hinv.length, hshape.length]
  cases o with
  | none => exact Or.inl ⟨rfl, hinv.referenceSkip⟩
  | some obj =>
    cases obj with
    | int v => exact Or.inl ⟨rfl, hinv.referenceSkip⟩
    | float v => exact Or.inl ⟨rfl, hinv.referenceSkip⟩
    | long v => exact Or.inl ⟨rfl, hinv.referenceSkip⟩
    | byteArray v => exact Or.inl ⟨rfl, hinv.referenceSkip⟩
    | string d o l h => exact Or.inl ⟨rfl, hinv.referenceSkip⟩
    | pair x y => exact Or.inl ⟨rfl, hinv.referenceSkip⟩
    | reference x y z => exact Or.inl ⟨rfl, hinv.referenceSkip⟩
    | intArray body =>
      obtain ⟨c, hmem, hbody⟩ := hshape.originals i body hp2
      have hwfc := hwf c hmem
      have href : ∀ (tag ci nt : Nat),
          (tag = CONSTANT_Fieldref ∨ tag = CONSTANT_Methodref
            ∨ tag = CONSTANT_InterfaceMethodref) →
          body = [tag, ci, nt] →
          (c = .fieldref ci nt ∨ c = .methodref ci nt ∨ c = .interfaceMethodref ci nt) →
          ∃ v, resolveReference pool (some (.intArray body)) = .ok (some v) := by
        intro tag ci nt htag hb hc
        obtain ⟨h1, h2, a, b, h3⟩ := wellFormed_reference table c ci nt hc hwfc
        obtain ⟨cv, _, hcv⟩ := poolEntry_ok table pool ci hlen h1
        obtain ⟨nv, hnv1, hnv2⟩ := poolEntry_ok table pool nt hlen h2
        have hnt : nt - 1 < table.length := by
          simp only [inPool, decide_eq_true_eq] at h2; omega
        obtain ⟨x, y, hxy⟩ := hshape.pairs (nt - 1) a b hnt h3
        have := hinv.kept (nt - 1) _ hxy (fun body hb => by simp at hb)
        rw [hnv1] at this
        injection this with this
        subst this
        refine ⟨some (.reference cv x y), ?_⟩
        subst hb
        simp only [resolveReference, intArrayBody, List.getElem?_cons_zero,
          List.getElem?_cons_succ, if_pos htag, hcv, hnv2]
      cases c with
      | integer bytes => exact absurd hbody (by simp [firstObject])
      | float bytes => exact absurd hbody (by simp [firstObject])
      | long bytes => exact absurd hbody (by simp [firstObject])
      | double bytes => exact absurd hbody (by simp [firstObject])
      | utf8 bytes => exact absurd hbody (by simp [firstObject])
      | class_ a =>
        simp only [firstObject, PoolObject.intArray.injEq] at hbody
        subst hbody
        refine Or.inl ⟨?_, hinv.referenceSkip⟩
        simp [resolveReference, intArrayBody, CONSTANT_Class, CONSTANT_Fieldref,
          CONSTANT_Methodref, CONSTANT_InterfaceMethodref]
      | string a =>
        simp only [firstObject, PoolObject.intArray.injEq] at hbody
        subst hbody
        refine Or.inl ⟨?_, hinv.referenceSkip⟩
        simp [resolveReference, intArrayBody, CONSTANT_String, CONSTANT_Fieldref,
          CONSTANT_Methodref, CONSTANT_InterfaceMethodref]
      | nameAndType a b =>
        simp only [firstObject, PoolObject.intArray.injEq] at hbody
        subst hbody
        refine Or.inl ⟨?_, hinv.referenceSkip⟩
        simp [resolveReference, intArrayBody, CONSTANT_NameAndType, CONSTANT_Fieldref,
          CONSTANT_Methodref, CONSTANT_InterfaceMethodref]
      | fieldref ci nt =>
        simp only [firstObject, PoolObject.intArray.injEq] at hbody
        obtain ⟨v, hv⟩ := href _ ci nt (Or.inl rfl) hbody.symm (Or.inl rfl)
        exact Or.inr ⟨v, hv, hinv.referenceStore body hp2 v⟩
      | methodref ci nt =>
        simp only [firstObject, PoolObject.intArray.injEq] at hbody
        obtain ⟨v, hv⟩ := href _ ci nt (Or.inr (Or.inl rfl)) hbody.symm (Or.inr (Or.inl rfl))
        exact Or.inr ⟨v, hv, hinv.referenceStore body hp2 v⟩
      | interfaceMethodref ci nt =>
        simp only [firstObject, PoolObject.intArray.injEq] at hbody
        obtain ⟨v, hv⟩ := href _ ci nt (Or.inr (Or.inr rfl)) hbody.symm (Or.inr (Or.inr rfl))
        exact Or.inr ⟨v, hv, hinv.referenceStore body hp2 v⟩


theorem mem_slotTable (cs : List Constant) (c : Constant) (h : some c ∈ slotTable cs) :
    c ∈ cs := by
  induction cs with
  | nil => simp [slotTable] at h
  | cons d ds ih =>
    rw [slotTable_cons] at h
    simp only [List.mem_cons, List.mem_append, Option.some.injEq] at h
    rcases h with h | h | h
    · exact List.mem_cons.mpr (Or.inl h)
    · exact absurd (List.eq_of_mem_replicate h) (by simp)
    · exact List.mem_cons_of_mem _ (ih h)

theorem length_le_slotTable (cs : List Constant) : cs.length ≤ (slotTable cs).length := by
  induction cs with
  | nil => simp
  | cons d ds ih =>
    rw [slotTable_cons]
    simp only [List.length_cons, List.length_append, List.length_replicate]
    omega

/-- The entry at position `k` stands in the table at its pool index, and the
index after that is empty when the entry is a Long or a Double. -/
theorem slotTable_slotIndex (cs : List Constant) (k : Nat) (c : Constant)
    (h : cs[k]? = some c) :
    (slotTable cs)[slotIndex cs k]? = some (some c) ∧
    (c.slots = 2 → (slotTable cs)[slotIndex cs k + 1]? = some none) := by
  induction cs generalizing k with
  | nil => simp at h
  | cons d ds ih =>
    cases k with
    | zero =>
      simp only [List.getElem?_cons_zero, Option.some.injEq] at h
      subst h
      rw [slotTable_cons]
      refine ⟨by simp [slotIndex], fun h2 => ?_⟩
      simp [slotIndex, h2]
    | succ j =>
      simp only [List.getElem?_cons_succ] at h
      obtain ⟨i1, i2⟩ := ih j h
      have hidx : slotIndex (d :: ds) (j + 1) = d.slots + slotIndex ds j := by
        simp [slotIndex]
      have hpos := slots_pos d
      have hshift : ∀ m, (slotTable (d :: ds))[d.slots + m]? = (slotTable ds)[m]? := by
        intro m
        rw [slotTable_cons]
        have : d.slots + m = (some d :: List.replicate (d.slots - 1) none).length + m := by
          simp only [List.length_cons, List.length_replicate]; omega
        rw [← List.cons_append, this, List.getElem?_append_right (by omega)]
        simp
      rw [hidx]
      refine ⟨by rw [hshift]; exact i1, fun h2 => ?_⟩
      rw [Nat.add_assoc, hshift]
      exact i2 h2

/-- The function `parsePool` on the bytes of a pool of well-formed entries: it
returns, having read exactly the pool, and the pool it returns holds at each
index the object the first loop made for an entry that refers to no other, and
null at the second index of a Long or Double entry. -/
theorem parsePool_spec (cs : List Constant) (tail : List Nat)
    (hwf : ∀ c ∈ cs, c.wellFormed (slotTable cs) = true)
    (hcount : (slotTable cs).length + 1 < 65536) :
    ∃ pool, parsePool (poolBytes cs ++ tail) = .ok (pool, tail) ∧
      pool.length = (slotTable cs).length ∧
      (∀ (j : Nat) (c : Constant), (slotTable cs)[j]? = some (some c) → c.plain = true →
        pool[j]? = some (some (firstObject c))) ∧
      (∀ (j : Nat), (slotTable cs)[j]? = some none → pool[j]? = some none) := by
  have hwfT : ∀ c, some c ∈ slotTable cs → c.wellFormed (slotTable cs) = true :=
    fun c hc => hwf c (mem_slotTable cs c hc)
  have hcountEq : unsignedPred ((slotTable cs).length + 1) = (slotTable cs).length := by
    simp [unsignedPred]
  have h1 := parsePoolEntries_spec (slotTable cs) (by omega) (slotTable cs).length tail cs
    hwf []
    ((slotTable cs).length + 1) (by simp) (by have := length_le_slotTable cs; omega)
  simp only [List.length_nil, Nat.sub_zero, List.nil_append] at h1
  have hinit : ShapeInv (slotTable cs) 0
      ((slotTable cs).map (Option.map firstObject)) := by
    refine ⟨by simp, fun j _ => rfl, ?_, ?_, ?_, ?_⟩
    · intro j c hj _
      rw [List.getElem?_map, hj]; rfl
    · intro j hj
      rw [List.getElem?_map, hj]; rfl
    · intro j a b hj; exact absurd hj (by omega)
    · intro j body hj
      rw [List.getElem?_map] at hj
      cases ht : (slotTable cs)[j]? with
      | none => rw [ht] at hj; exact absurd hj (by simp)
      | some t =>
        rw [ht] at hj
        cases t with
        | none => exact absurd hj (by simp)
        | some c =>
          simp only [Option.map_some', Option.some.injEq] at hj
          exact ⟨c, List.mem_iff_getElem?.mpr ⟨j, ht⟩, hj⟩
  obtain ⟨pool2, h2, hshape⟩ := poolLoop_range resolveShape (slotTable cs).length
    (ShapeInv (slotTable cs))
    (fun i pool hinv hi => resolveShape_step (slotTable cs) hwfT i pool hinv hi)
    (slotTable cs).length 0 _ (by simp) hinit
  obtain ⟨pool3, h3, href⟩ := poolLoop_range resolveReference (slotTable cs).length
    (ReferenceInv pool2)
    (fun i pool hinv hi =>
      resolveReference_step (slotTable cs) hwfT pool2 hshape i pool hinv hi)
    (slotTable cs).length 0 pool2 (by simp) ⟨rfl, fun _ _ => rfl, fun _ _ h _ => h⟩
  rw [← List.range_eq_range'] at h2 h3
  refine ⟨pool3, ?_, by rw [href.length, hshape.length], ?_, ?_⟩
  · unfold parsePool poolBytes
    rw [List.append_assoc, read2_twoBytes _ hcount]
    simp only [hcountEq, h1, h2, h3]
  · intro j c hj hc
    exact href.kept j _ (hshape.plain j c hj hc)
      (fun body hb => by cases c <;> simp [firstObject, Constant.plain] at hb hc)
  · intro j hj
    exact href.kept j _ (hshape.empty j hj) (fun body hb => by simp at hb)

/-- C23: for every constant pool of well-formed entries, `parsePool` returns,
and the pool it returns holds, at the pool index of each Integer entry, an
integer box with the big-endian value of its four bytes, and at the pool index
of each Utf8 entry of length n a byte array of n + 1 bytes, the bytes of the
entry followed by a zero; the pool index of an entry is the number of indices
the entries before it take, two for a Long or Double entry (whose second index
stays null) and one for any other. -/
theorem parsePool_stores (cs : List Constant) (tail : List Nat)
    (hwf : ∀ c ∈ cs, c.wellFormed (slotTable cs) = true)
    (hcount : (slotTable cs).length + 1 < 65536) :
    ∃ pool, parsePool (poolBytes cs ++ tail) = .ok (pool, tail) ∧
      pool.length = ((cs.map Constant.slots).sum) ∧
      ∀ (k : Nat) (c : Constant), cs[k]? = some c →
        (∀ bytes, c = .integer bytes →
          pool[slotIndex cs k]? = some (some (.int (bigEndian bytes)))) ∧
        (∀ bytes, c = .utf8 bytes →
          pool[slotIndex cs k]? = some (some (.byteArray (bytes ++ [0]))) ∧
          (bytes ++ [0]).length = bytes.length + 1) ∧
        (∀ bytes, c = .long bytes ∨ c = .double bytes →
          pool[slotIndex cs k]? = some (some (.long (bigEndian bytes))) ∧
          pool[slotIndex cs k + 1]? = some none) := by
  obtain ⟨pool, h1, h2, h3, h4⟩ := parsePool_spec cs tail hwf hcount
  have hsum : (slotTable cs).length = (cs.map Constant.slots).sum := by
    clear hwf hcount h1 h2 h3 h4
    induction cs with
    | nil => rfl
    | cons d ds ih =>
      rw [slotTable_cons]
      have := slots_pos d
      simp only [List.length_cons, List.length_append, List.length_replicate, ih,
        List.map_cons, List.sum_cons]
      omega
  refine ⟨pool, h1, by rw [h2, hsum], ?_⟩
  intro k c hk
  obtain ⟨i1, i2⟩ := slotTable_slotIndex cs k c hk
  refine ⟨?_, ?_, ?_⟩
  · intro bytes hc
    subst hc
    exact h3 _ _ i1 rfl
  · intro bytes hc
    subst hc
    exact ⟨h3 _ _ i1 rfl, by simp⟩
  · intro bytes hc
    rcases hc with hc | hc
    · subst hc
      exact ⟨h3 _ _ i1 rfl, h4 _ (i2 rfl)⟩
    · subst hc
      exact ⟨h3 _ _ i1 rfl, h4 _ (i2 rfl)⟩

theorem parsePool_stores_witness :
    (∀ c ∈ samplePool, c.wellFormed (slotTable samplePool) = true) ∧
    (slotTable samplePool).length + 1 < 65536 ∧
    ∃ pool, parsePool (poolBytes samplePool ++ [202, 254]) = .ok (pool, [202, 254]) ∧
      pool.length = 13 ∧
      pool[0]? = some (some (.int 42)) ∧
      pool[1]? = some (some (.byteArray [72, 105, 0])) ∧
      pool[2]? = some (some (.long 256)) ∧ pool[3]? = some none := by
  obtain ⟨pool, h1, h2, h3⟩ :=
    parsePool_stores samplePool [202, 254] (by decide) (by decide)
  refine ⟨by decide, by decide, pool, h1, h2, ?_, ?_, ?_⟩
  · exact (h3 0 _ rfl).1 _ rfl
  · exact ((h3 1 _ rfl).2.1 _ rfl).1
  · exact (h3 2 _ rfl).2.2 _ (Or.inl rfl)

/-! ## Properties of class resolution -/


/-- Claim C21: for a name that the class map does not hold, that does not start
with `[` and for which the class finder returns no bytes, `resolveClass`
returns null after asking the finder once, leaves the class map and the
bootstrap class map as they were, and leaves an exception pending: the pending
one when there was one, a new class-not-found exception for the name
otherwise. -/
theorem resolveClass_not_found (ctx : Context) (depth : Nat) (st : Loader) (spec : Bytes)
    (hname : spec ≠ [])
    (hmiss : hashMapFind ctx.byteArrayHash byteArrayEqual st.classMap spec = none)
    (harray : spec.head? ≠ some 91)
    (hfind : ctx.find (cString spec) = none) :
    ∃ st1, resolveClass ctx (depth + 1) st spec = .ok (st1, none) ∧
      st1.classMap = st.classMap ∧
      st1.bootstrapClassMap = st.bootstrapClassMap ∧
      st1.asked = st.asked ++ [cString spec] ∧
      st1.exception =
        (match st.exception with
         | some pending => some pending
         | none => some (.classNotFound (notFoundMessage spec))) := by
  cases spec with
  | nil => exact absurd rfl hname
  | cons c rest =>
    have hc : c ≠ 91 := fun h => harray (by simp [h])
    cases hexc : st.exception with
    | none =>
      refine ⟨{ st with asked := st.asked ++ [cString (c :: rest)],
                        exception := some (.classNotFound (notFoundMessage (c :: rest))) }, ?_, rfl,
        rfl, rfl, rfl⟩
      simp only [resolveClass, hmiss, Loader.loadClass, if_neg hc, hfind, Loader.record, hexc,
        Option.isSome_none, Bool.false_eq_true, if_false]
    | some pending =>
      refine ⟨{ st with asked := st.asked ++ [cString (c :: rest)] }, ?_, rfl, rfl, rfl, hexc⟩
      simp only [resolveClass, hmiss, Loader.loadClass, if_neg hc, hfind, Loader.record, hexc,
        Option.isSome_some, if_true]

/-- Witness for `resolveClass_not_found`: the name `Z`, which the sample finder
does not hold, in the sample state. -/
theorem resolveClass_not_found_witness :
    ∃ st1, resolveClass sampleContext 1 sampleLoader [90, 0] = .ok (st1, none) ∧
      st1.classMap = sampleLoader.classMap ∧
      st1.bootstrapClassMap = sampleLoader.bootstrapClassMap ∧
      st1.asked = sampleLoader.asked ++ [cString [90, 0]] ∧
      st1.exception =
        (match sampleLoader.exception with
         | some pending => some pending
         | none => some (.classNotFound (notFoundMessage [90, 0]))) :=
  resolveClass_not_found sampleContext 0 sampleLoader [90, 0] (by decide) rfl (by decide) rfl

/-- Claim C30 (the code departs from it): the class `C` names the interface `I`
that the finder does not hold.  The resolution of `I` returns null with a
class-not-found exception pending; the interface loop of `parseInterfaceTable`
does not test it, inserts the null under the name `I` in its map and hands it to
`addInterfaces`, which dereferences it.  And for the name `D`, which has a
bootstrap class and a missing superclass, `parseClass` returns null and
`resolveClass` hands the null to `updateBootstrapClass`, which dereferences
it. -/
theorem resolveClass_missing_interface_dereferences_null :
    (resolveClass sampleContext 2 sampleLoader [73, 0]).toOption.map
        (fun r => (r.1.exception, r.2.isSome))
      = some (some (.classNotFound [73]), false) ∧
    (hashMapInsertMaybe sampleNameHash byteArrayEqual (makeHashMap Bytes (Option Class))
        [73, 0] none).1.size = 1 ∧
    faultOf (Loader.declaredInterfacesLoop sampleNameHash (resolveClass sampleContext 2)
        sampleLoader (makeHashMap Bytes (Option Class)) [[73, 0]]) = some .nullPointer ∧
    faultOf (resolveClass sampleContext 3 sampleLoader [67, 0]) = some .nullPointer ∧
    (Loader.parseClass sampleContext (resolveClass sampleContext 2) sampleLoader
        ⟨0, [68, 0], some [90, 0], [], [], [declX]⟩).toOption.map (fun r => r.2.isSome)
      = some false ∧
    faultOf (resolveClass sampleContext 3 sampleLoader [68, 0]) = some .nullPointer := by
  refine ⟨by rfl, by rfl, by rfl, by rfl, by rfl, by rfl⟩


theorem getD_ne_nil_lt {α : Type} (l : List (List α)) (i : Nat) (h : l.getD i [] ≠ []) :
    i < l.length := by
  by_contra hlt
  exact h (by simp [List.getD_eq_getElem?_getD, List.getElem?_eq_none (Nat.le_of_not_lt hlt)])

/-- The node `hashMapInsert` pushes is the one `hashMapFindNode` returns for
its key afterwards: it is the head of the key's bucket. -/
theorem hashMapFindNode_insert_self {κ ν : Type} (hash : κ → Nat) (equal : κ → κ → Bool)
    (map : HashMap κ ν) (key : κ) (value : ν) (hwf : map.WF hash)
    (hrefl : equal key key = true) :
    hashMapFindNode hash equal (hashMapInsert hash map key value) key = some (key, value) := by
  have hg := hashMapInsert_grow hash map hwf _ rfl
  have hpush : ∀ m2 : HashMap κ ν, m2.WF hash → m2.array ≠ none →
      hashMapFindNode hash equal
        (match m2.array with
         | none => m2
         | some array =>
           { m2 with array := some (array.set (hash key &&& (array.length - 1))
               ((key, value) :: array.getD (hash key &&& (array.length - 1)) [])) }) key
        = some (key, value) := by
    intro m2 g1 g3
    cases harr : m2.array with
    | none => exact absurd harr g3
    | some array =>
      have hb := g1 array harr
      have hlt := index_lt hash key array.length hb.1
      simp only [hashMapFindNode, List.length_set]
      rw [getD_set_self _ _ _ hlt]
      simp [chainFindNode, hrefl]
  exact hpush _ hg.1 hg.2.2.1

theorem chainFindNode_setSecond_other (key spec : Bytes) (value : Option Class)
    (chain : List (Bytes × Option Class)) (h : key ≠ spec) :
    chainFindNode byteArrayEqual key (chainSetSecond byteArrayEqual spec value chain)
      = chainFindNode byteArrayEqual key chain := by
  induction chain with
  | nil => rfl
  | cons n rest ih =>
    simp only [chainSetSecond]
    by_cases hs : byteArrayEqual spec n.1 = true
    · have hn : spec = n.1 := by
        unfold byteArrayEqual at hs
        exact of_decide_eq_true (by simpa using hs)
      have hk : byteArrayEqual key n.1 = false := by
        unfold byteArrayEqual
        rw [← hn]
        exact beq_false_of_ne h
      rw [if_pos hs]
      simp [chainFindNode, hk]
    · rw [if_neg hs]
      simp only [chainFindNode, ih]

/-- Storing a value in the node of a name leaves what `hashMapFindNode` returns
for any other name as it was. -/
theorem hashMapFindNode_setSecond_other (hash : Bytes → Nat)
    (map : HashMap Bytes (Option Class)) (key spec : Bytes) (value : Option Class)
    (h : key ≠ spec) :
    hashMapFindNode hash byteArrayEqual (hashMapSetSecond hash byteArrayEqual map spec value) key
      = hashMapFindNode hash byteArrayEqual map key := by
  unfold hashMapSetSecond
  cases harr : map.array with
  | none => simp [hashMapFindNode, harr]
  | some array =>
    simp only [hashMapFindNode, harr, List.length_set]
    by_cases hidx : hash spec &&& (array.length - 1) = hash key &&& (array.length - 1)
    · by_cases hlt : hash key &&& (array.length - 1) < array.length
      · rw [hidx, getD_set_self _ _ _ hlt]
        exact chainFindNode_setSecond_other key spec value _ h
      · have h1 : ∀ l : List (List (Bytes × Option Class)), l.length = array.length →
            l.getD (hash key &&& (array.length - 1)) [] = [] := by
          intro l hl
          have hle : l.length ≤ hash key &&& (array.length - 1) := by omega
          rw [List.getD_eq_getElem?_getD, List.getElem?_eq_none hle]
          rfl
        rw [h1 _ (List.length_set _ _ _), h1 _ rfl]
    · rw [getD_set_other _ _ _ _ hidx]

theorem chainFindNode_setSecond_self (spec : Bytes) (value : Option Class)
    (chain : List (Bytes × Option Class)) (p : Bytes × Option Class)
    (h : chainFindNode byteArrayEqual spec chain = some p) :
    chainFindNode byteArrayEqual spec (chainSetSecond byteArrayEqual spec value chain)
      = some (p.1, value) := by
  induction chain with
  | nil => simp [chainFindNode] at h
  | cons n rest ih =>
    simp only [chainFindNode] at h
    simp only [chainSetSecond]
    by_cases hs : byteArrayEqual spec n.1 = true
    · rw [if_pos hs] at h
      rw [if_pos hs]
      cases h
      simp [chainFindNode, hs]
    · rw [if_neg hs] at h
      rw [if_neg hs]
      simp only [chainFindNode, if_neg hs]
      exact ih h

/-- After a value is stored in the node found for a name, `hashMapFind` returns
that value for the name. -/
theorem hashMapFind_setSecond_self (hash : Bytes → Nat)
    (map : HashMap Bytes (Option Class)) (spec : Bytes) (b : Class) (value : Option Class)
    (h : hashMapFind hash byteArrayEqual map spec = some b) :
    hashMapFind hash byteArrayEqual (hashMapSetSecond hash byteArrayEqual map spec value) spec
      = value := by
  unfold hashMapFind at h ⊢
  cases hf : hashMapFindNode hash byteArrayEqual map spec with
  | none => rw [hf] at h; exact absurd h (by simp)
  | some p =>
    unfold hashMapFindNode at hf
    unfold hashMapSetSecond
    cases harr : map.array with
    | none => rw [harr] at hf; exact absurd hf (by simp)
    | some array =>
      rw [harr] at hf
      dsimp only at hf
      have hlt : hash spec &&& (array.length - 1) < array.length := by
        apply getD_ne_nil_lt
        intro hnil
        rw [hnil] at hf
        simp [chainFindNode] at hf
      simp only [hashMapFindNode, List.length_set]
      rw [getD_set_self _ _ _ hlt, chainFindNode_setSecond_self spec value _ p hf]

theorem hashMapFind_setSecond_other (hash : Bytes → Nat)
    (map : HashMap Bytes (Option Class)) (key spec : Bytes) (value : Option Class)
    (h : key ≠ spec) :
    hashMapFind hash byteArrayEqual (hashMapSetSecond hash byteArrayEqual map spec value) key
      = hashMapFind hash byteArrayEqual map key := by
  unfold hashMapFind
  rw [hashMapFindNode_setSecond_other hash map key spec value h]


theorem resolveSuper_keeps (P : Loader → Prop) (resolve : Resolver) (hr : Keeps P resolve)
    (st : Loader) (class_ : Class) (super : Option Bytes) (st1 : Loader) (r : Option Class)
    (hp : P st) (h : Loader.resolveSuper resolve st class_ super = .ok (st1, r)) : P st1 := by
  unfold Loader.resolveSuper at h
  split at h
  · cases h; exact hp
  · split at h
    · cases h
    · rename_i st2 sc heq
      have h2 := hr _ _ _ _ hp heq
      split at h
      · cases h; exact h2
      · split at h
        · cases h
        · cases h; exact h2

theorem declaredInterfacesLoop_keeps (P : Loader → Prop) (hash : Bytes → Nat)
    (resolve : Resolver) (hr : Keeps P resolve) (names : List Bytes) :
    ∀ (st : Loader) (map : HashMap Bytes (Option Class)) (st1 : Loader)
      (map1 : HashMap Bytes (Option Class)), P st →
      Loader.declaredInterfacesLoop hash resolve st map names = .ok (st1, map1) → P st1 := by
  induction names with
  | nil =>
    intro st map st1 map1 hp h
    simp only [Loader.declaredInterfacesLoop] at h
    cases h; exact hp
  | cons name rest ih =>
    intro st map st1 map1 hp h
    simp only [Loader.declaredInterfacesLoop] at h
    split at h
    · cases h
    · rename_i st2 interface heq
      have h2 := hr _ _ _ _ hp heq
      split at h
      · cases h
      · split at h
        · cases h
        · exact ih _ _ _ _ h2 h

theorem fillInterfaceTable_keeps (P : Loader → Prop) (resolve : Resolver)
    (hr : Keeps P resolve) (concrete : Bool) (nodes : List (Bytes × Option Class)) :
    ∀ (st : Loader) (table : List (Option (TableEntry Class))) (i : Nat) (st1 : Loader)
      (r : Option (List (Option (TableEntry Class)))), P st →
      Loader.fillInterfaceTable resolve concrete st table i nodes = .ok (st1, r) → P st1 := by
  induction nodes with
  | nil =>
    intro st table i st1 r hp h
    simp only [Loader.fillInterfaceTable] at h
    cases h; exact hp
  | cons node rest ih =>
    intro st table i st1 r hp h
    simp only [Loader.fillInterfaceTable] at h
    split at h
    · cases h
    · rename_i st2 interface heq
      have h2 := hr _ _ _ _ hp heq
      split at h
      · cases h; exact h2
      · split at h
        · cases h
        · split at h
          · split at h
            · cases h
            · split at h
              · cases h
              · split at h
                · cases h
                · exact ih _ _ _ _ _ h2 h
          · exact ih _ _ _ _ _ h2 h

theorem parseInterfaceTable_keeps (P : Loader → Prop) (hash : Bytes → Nat)
    (resolve : Resolver) (hr : Keeps P resolve) (st : Loader) (class_ : Class)
    (names : List Bytes) (st1 : Loader) (r : Class) (hp : P st)
    (h : Loader.parseInterfaceTable hash resolve st class_ names = .ok (st1, r)) : P st1 := by
  unfold Loader.parseInterfaceTable at h
  split at h
  · cases h
  · split at h
    · cases h
    · rename_i st2 map heq
      have h2 := declaredInterfacesLoop_keeps P hash resolve hr names _ _ _ _ hp heq
      split at h
      · dsimp only at h
        split at h
        · cases h
        · rename_i st3 heq3
          cases h
          exact fillInterfaceTable_keeps P resolve hr _ _ _ _ _ _ _ h2 heq3
        · rename_i st3 table heq3
          cases h
          exact fillInterfaceTable_keeps P resolve hr _ _ _ _ _ _ _ h2 heq3
      · cases h; exact h2

theorem parseClass_keeps (P : Loader → Prop) (ctx : Context) (resolve : Resolver)
    (hr : Keeps P resolve) (st : Loader) (file : ClassFile) (st1 : Loader) (r : Option Class)
    (hp : P st) (h : Loader.parseClass ctx resolve st file = .ok (st1, r)) : P st1 := by
  unfold Loader.parseClass at h
  split at h
  · cases h
  · rename_i st2 heq
    cases h
    exact resolveSuper_keeps P resolve hr _ _ _ _ _ hp heq
  · rename_i st2 class1 heq
    have h2 := resolveSuper_keeps P resolve hr _ _ _ _ _ hp heq
    split at h
    · cases h
    · rename_i st3 class2 heq3
      have h3 := parseInterfaceTable_keeps P _ resolve hr _ _ _ _ _ h2 heq3
      split at h
      · cases h; exact h3
      · split at h
        · cases h
        · split at h
          · cases h
          · cases h; exact h3

theorem makeArrayClass_keeps (P : Loader → Prop) (ctx : Context) (resolve : Resolver)
    (hr : Keeps P resolve) (st : Loader) (spec : Bytes) (st1 : Loader) (r : Option Class)
    (hp : P st) (h : Loader.makeArrayClass ctx resolve st spec = .ok (st1, r)) : P st1 := by
  unfold Loader.makeArrayClass at h
  split at h
  · cases h
  · split at h
    · cases h; exact hp
    · split at h
      · cases h
      · rename_i st2 elementClass heq
        have h2 := hr _ _ _ _ hp heq
        split at h
        · cases h; exact h2
        · cases h; exact h2

theorem loadClass_keeps (P : Loader → Prop) (ctx : Context) (resolve : Resolver)
    (hr : Keeps P resolve)
    (hasked : ∀ st names, P st → P { st with asked := names })
    (hboot : ∀ st spec b (v : Class), P st →
      hashMapFind ctx.byteArrayHash byteArrayEqual st.bootstrapClassMap spec = some b →
      P { st with bootstrapClassMap :=
            (hashMapSetSecond ctx.byteArrayHash byteArrayEqual st.bootstrapClassMap spec
              (some v)) })
    (st : Loader) (spec : Bytes) (c : Nat) (st1 : Loader) (r : Option Class)
    (hp : P st) (h : Loader.loadClass ctx resolve st spec c = .ok (st1, r)) : P st1 := by
  unfold Loader.loadClass at h
  split at h
  · split at h
    · cases h; exact hp
    · exact makeArrayClass_keeps P ctx resolve hr _ _ _ _ hp h
  · dsimp only at h
    split at h
    · cases h; exact hasked _ _ hp
    · split at h
      · cases h
      · rename_i st2 class_ heq
        have h2 := parseClass_keeps P ctx resolve hr _ _ _ _ (hasked _ _ hp) heq
        split at h
        · cases h; exact h2
        · rename_i b hb
          split at h
          · cases h
          · split at h
            · cases h
            · cases h
              exact hboot _ _ _ _ h2 hb

/-- A property of the state that the four updates made by `resolveClass`
keep (the trace of the finder, a value stored in a node of the bootstrap class
map, a class inserted in the class map under a name the map did not hold when
the call began, a pending exception) holds after every call of `resolveClass`
that returns, whatever the depth of the nested resolutions. -/
theorem resolveClass_keeps (P : Loader → Prop) (ctx : Context)
    (hasked : ∀ st names, P st → P { st with asked := names })
    (hexc : ∀ st e, P st → P { st with exception := e })
    (hboot : ∀ st spec b (v : Class), P st →
      hashMapFind ctx.byteArrayHash byteArrayEqual st.bootstrapClassMap spec = some b →
      P { st with bootstrapClassMap :=
            (hashMapSetSecond ctx.byteArrayHash byteArrayEqual st.bootstrapClassMap spec
              (some v)) })
    (hins : ∀ st0 st spec c, P st0 → P st →
      hashMapFind ctx.byteArrayHash byteArrayEqual st0.classMap spec = none →
      P { st with classMap := hashMapInsert ctx.byteArrayHash st.classMap spec (some c) })
    (depth : Nat) : Keeps P (resolveClass ctx depth) := by
  induction depth with
  | zero =>
    intro st key st1 r _ h
    simp [resolveClass] at h
  | succ d ih =>
    intro st key st1 r hp h
    simp only [resolveClass] at h
    split at h
    · cases h; exact hp
    · rename_i hmiss
      split at h
      · cases h
      · split at h
        · cases h
        · rename_i st2 class_ heq
          have h2 := loadClass_keeps P ctx _ ih hasked hboot _ _ _ _ _ hp heq
          cases class_ with
          | some c =>
            simp only [Loader.record] at h
            cases h
            exact hins _ _ _ _ hp h2 hmiss
          | none =>
            simp only [Loader.record] at h
            split at h
            · cases h; exact h2
            · cases h; exact hexc _ _ h2

/-- A sequence of calls of `resolveClass` keeps such a property too. -/
theorem resolveAll_keeps (P : Loader → Prop) (ctx : Context)
    (hr : ∀ depth, Keeps P (resolveClass ctx depth)) (calls : List (Nat × Bytes)) :
    ∀ (st st1 : Loader), P st → resolveAll ctx st calls = .ok st1 → P st1 := by
  induction calls with
  | nil =>
    intro st st1 hp h
    simp only [resolveAll] at h
    cases h; exact hp
  | cons call rest ih =>
    intro st st1 hp h
    simp only [resolveAll] at h
    split at h
    · cases h
    · rename_i st2 r heq
      exact ih _ _ (hr _ _ _ _ _ hp heq) h


theorem byteArrayEqual_eq (a b : Bytes) (h : byteArrayEqual a b = true) : a = b := by
  unfold byteArrayEqual at h
  exact of_decide_eq_true (by simpa using h)

theorem byteArrayEqual_refl (a : Bytes) : byteArrayEqual a a = true := by
  simp [byteArrayEqual]

theorem hashMapFind_insert_self (hash : Bytes → Nat) (map : HashMap Bytes (Option Class))
    (key : Bytes) (value : Option Class) (hwf : map.WF hash) :
    hashMapFind hash byteArrayEqual (hashMapInsert hash map key value) key = value := by
  unfold hashMapFind
  rw [hashMapFindNode_insert_self hash byteArrayEqual map key value hwf (byteArrayEqual_refl key)]

theorem caches_find (ctx : Context) (name : Bytes) (c : Class) (st : Loader)
    (h : st.caches ctx name c) :
    hashMapFind ctx.byteArrayHash byteArrayEqual st.classMap name = some c := by
  obtain ⟨hwf, hmem, hall⟩ := h
  unfold hashMapFind
  cases hf : hashMapFindNode ctx.byteArrayHash byteArrayEqual st.classMap name with
  | none =>
    have := hashMapFindNode_none _ _ _ _ hwf
      (fun k hk => by rw [byteArrayEqual_eq _ _ hk]) hf _ hmem
    rw [byteArrayEqual_refl] at this
    exact absurd this (by simp)
  | some n =>
    obtain ⟨h1, h2⟩ := hashMapFindNode_some _ _ _ _ _ hf
    exact hall n h1 (byteArrayEqual_eq _ _ h2).symm

theorem wellFormed_keeps (ctx : Context) (depth : Nat) :
    Keeps (fun st => st.classMap.WF ctx.byteArrayHash) (resolveClass ctx depth) :=
  resolveClass_keeps _ ctx (fun _ _ h => h) (fun _ _ h => h) (fun _ _ _ _ h _ => h)
    (fun _ st spec c _ h _ => (hashMapInsert_spec _ st.classMap spec (some c) h).1) depth

theorem caches_keeps (ctx : Context) (name : Bytes) (c : Class) (depth : Nat) :
    Keeps (Loader.caches ctx name c) (resolveClass ctx depth) := by
  refine resolveClass_keeps _ ctx (fun _ _ h => h) (fun _ _ h => h) (fun _ _ _ _ h _ => h)
    ?_ depth
  intro st0 st spec c2 h0 h hmiss
  have hne : spec ≠ name := by
    intro heq
    rw [heq, caches_find ctx name c st0 h0] at hmiss
    exact absurd hmiss (by simp)
  obtain ⟨hwf, hmem, hall⟩ := h
  obtain ⟨k1, _, _, k4⟩ := hashMapInsert_spec ctx.byteArrayHash st.classMap spec (some c2) hwf
  refine ⟨k1, ?_, ?_⟩
  · exact k4.mem_iff.mpr (List.mem_cons_of_mem _ hmem)
  · intro x hx hxn
    rcases List.mem_cons.mp (k4.mem_iff.mp hx) with hx | hx
    · rw [hx] at hxn
      exact absurd hxn hne
    · exact hall x hx hxn

theorem bootstrap_keeps (ctx : Context) (name : Bytes) (depth : Nat) :
    Keeps (fun st => (hashMapFind ctx.byteArrayHash byteArrayEqual
      st.bootstrapClassMap name).isSome = true) (resolveClass ctx depth) := by
  refine resolveClass_keeps _ ctx (fun _ _ h => h) (fun _ _ h => h) ?_
    (fun _ _ _ _ _ h _ => h) depth
  intro st spec b v h hb
  dsimp only at h ⊢
  by_cases heq : name = spec
  · rw [heq, hashMapFind_setSecond_self _ _ _ b _ hb]
    rfl
  · rw [hashMapFind_setSecond_other _ _ _ _ _ heq]
    exact h


theorem resolveClass_hit (ctx : Context) (depth : Nat) (st : Loader) (name : Bytes) (c : Class)
    (h : hashMapFind ctx.byteArrayHash byteArrayEqual st.classMap name = some c) :
    resolveClass ctx (depth + 1) st name = .ok (st, some c) := by
  simp only [resolveClass, h]

/-- A call of `resolveClass` that returns a class leaves the class in the class
map under the name; after a miss it is the class made by `loadClass`, inserted
in the class map that `loadClass` left. -/
theorem resolveClass_returns (ctx : Context) (depth : Nat) (st : Loader) (name : Bytes)
    (st1 : Loader) (c : Class) (hwf : st.classMap.WF ctx.byteArrayHash)
    (h : resolveClass ctx depth st name = .ok (st1, some c)) :
    hashMapFind ctx.byteArrayHash byteArrayEqual st1.classMap name = some c ∧
    st1.classMap.WF ctx.byteArrayHash ∧
    (hashMapFind ctx.byteArrayHash byteArrayEqual st.classMap name = none →
      ∃ d first st2, depth = d + 1 ∧
        Loader.loadClass ctx (resolveClass ctx d) st name first = .ok (st2, some c) ∧
        name.head? = some first ∧
        st1 = { st2 with
                classMap := hashMapInsert ctx.byteArrayHash st2.classMap name (some c) }) := by
  cases depth with
  | zero => simp [resolveClass] at h
  | succ d =>
    simp only [resolveClass] at h
    split at h
    · rename_i class_ hhit
      cases h
      exact ⟨hhit, hwf, fun hmiss => by rw [hmiss] at hhit; exact absurd hhit (by simp)⟩
    · cases name with
      | nil => cases h
      | cons first rest =>
        dsimp only at h
        split at h
        · cases h
        · rename_i st2 class_ heq
          have hwf2 := loadClass_keeps (fun st => st.classMap.WF ctx.byteArrayHash) ctx _
            (wellFormed_keeps ctx d) (fun _ _ h => h) (fun _ _ _ _ h _ => h) _ _ _ _ _ hwf heq
          cases class_ with
          | none =>
            simp only [Loader.record] at h
            split at h <;> cases h
          | some c2 =>
            simp only [Loader.record] at h
            cases h
            refine ⟨hashMapFind_insert_self _ _ _ _ hwf2,
              (hashMapInsert_spec _ _ _ _ hwf2).1, fun _ => ⟨d, first, st2, rfl, heq, rfl, rfl⟩⟩

theorem sampleResolved_nodes :
    sampleResolved.classMap.nodes = [([79, 0], some sampleResolvedClass)] := by
  rfl

/-! ## Properties of the interface branch of `parseMethodTable` -/

/-- Claim C34 (the code departs from it): in a map whose bucket 0 holds the two
entries (16, 20) and (0, 10) and whose bucket 1 holds the entry (1, 30), the
iteration from `hashMapIterator` by `hashMapIteratorNext` until null visits the
two entries of bucket 0 only.  The iterator made for the second node of the
chain carries the index plus one, so the bucket scan that follows the end of
the chain starts after bucket 1. -/
theorem hashMapIteratorNext_skips_bucket_after_chain :
    crowdedMap.size = 3 ∧
    crowdedMap.nodes = [(16, 20), (0, 10), (1, 30)] ∧
    (hashMapIterator crowdedMap).map (fun it => (it.node, it.index)) = some ((16, 20), 1) ∧
    ((hashMapIterator crowdedMap).bind hashMapIteratorNext).map (fun it => (it.node, it.index))
      = some ((0, 10), 2) ∧
    ((((hashMapIterator crowdedMap).bind hashMapIteratorNext).bind hashMapIteratorNext).map
      (fun it => it.node)) = none ∧
    hashMapNodes crowdedMap = [(16, 20), (0, 10)] ∧
    (1, 30) ∉ hashMapNodes crowdedMap := by
  refine ⟨by decide, by decide, by decide, by decide, by decide, by decide, by decide⟩

/-- Claim C31 (the code departs from it): the interface `J` has the interface
`I`, whose virtual table holds `m()V`, in its interface table and declares
`x()V`.  The loop that should add the methods of `I` runs while `j` is below
the running count, which is zero, so the signature map is empty when the
declarations are read, and the virtual table built for `J` holds `x()V`
only. -/
theorem parseMethodTable_interface_ignores_super_interfaces :
    sampleInterface.virtualTable = some [some sampleM] ∧
    (initialMethodLoop sampleHash sampleSubInterface).toOption.map
        (fun st => (st.virtualMap.nodes, st.virtualCount)) = some ([], 0) ∧
    (parseMethodTable sampleHash sampleSubInterface [declAbstractX]).toOption.map
        (fun c => c.virtualTable)
      = some (some [some ⟨0x401, 0, 1, 1, [120, 0], [40, 41, 86, 0], [74, 0], none⟩]) := by
  refine ⟨rfl, by decide, by decide⟩

/-- Claim C36 (the code departs from it): the interface `I` declares `x()V`,
then `a()V`; the declaration loop gives `x` the offset 0 and `a` the offset 1.
The virtual table is filled in the order of the iteration over the signature
map, that is by bucket: with a hash that puts `a` in a bucket before the one of
`x`, entry 0 of the table is `a` (offset 1) and entry 1 is `x` (offset 0). -/
theorem parseMethodTable_interface_table_in_bucket_order :
    (parseMethodTable sampleHash (freshClass ACC_INTERFACE [73, 0] (some sampleObject))
        [declAbstractX, declAbstractA]).toOption.map
        (fun c => (c.methodTable.map (List.map (fun m => (m.name, m.offset))),
          c.virtualTable.map (List.map (Option.map (fun m => (m.name, m.offset))))))
      = some (some [([120, 0], 0), ([97, 0], 1)],
          some [some ([97, 0], 1), some ([120, 0], 0)]) := by
  rfl


theorem makeJNIName_plain_ok (className methodName methodSpec : Bytes)
    (hc : className ≠ []) (hm : methodName ≠ []) :
    ∃ n, makeJNIName className methodName methodSpec false = .ok n := by
  have hlen : ([74, 97, 118, 97, 95] ++ ((className.dropLast).map mangle).flatten ++ [95]
          ++ ((methodName.dropLast).map mangle).flatten ++ [0]).length
      = (5 + ((className.dropLast).map mangledSize).sum + 1
          + ((methodName.dropLast).map mangledSize).sum) + 1 := by
    simp only [List.length_append, mangle_flatten_length, List.length_cons, List.length_nil]
  have hc0 : className.length ≠ 0 := fun h => hc (List.length_eq_zero.mp h)
  have hm0 : methodName.length ≠ 0 := fun h => hm (List.length_eq_zero.mp h)
  unfold makeJNIName
  rw [if_neg (by simp [hc0, hm0])]
  simp only [Bool.false_eq_true, false_and, if_false, List.append_nil, Nat.add_zero]
  rw [if_neg (by omega), if_neg (by omega)]
  exact ⟨_, rfl⟩

theorem parseMethod_names (methodHash : Method → Nat) (owner : Bytes)
    (st st1 : MethodLoop) (d : MethodDecl) (h : parseMethod methodHash owner st d = .ok st1) :
    ∃ m, st1.methodTable = st.methodTable ++ [m] ∧ m.name = d.name ∧ m.class_ = owner := by
  unfold parseMethod at h
  cases hc : parameterCount d.spec with
  | error e => rw [hc] at h; exact absurd h (by simp)
  | ok count =>
    cases hf : parameterFootprint d.spec with
    | error e => rw [hc, hf] at h; exact absurd h (by simp)
    | ok footprint =>
      rw [hc, hf] at h
      dsimp only at h
      have h := Except.ok.inj h
      subst h
      have hreg : ∀ (s : MethodLoop) (m : Method),
          (registerNative methodHash s m).methodTable = s.methodTable := by
        intro s m
        unfold registerNative
        split
        · split <;> rfl
        · rfl
      have hnew : (newMethod owner d count footprint).name = d.name ∧
          (newMethod owner d count footprint).class_ = owner := by
        unfold newMethod; split <;> exact ⟨rfl, rfl⟩
      have hassign : ∀ (s : MethodLoop) (m : Method),
          (assignSlot methodHash s m).1.methodTable = s.methodTable ∧
          (assignSlot methodHash s m).2.name = m.name ∧
          (assignSlot methodHash s m).2.class_ = m.class_ := by
        intro s m
        unfold assignSlot
        split
        · dsimp only
          split <;> exact ⟨rfl, rfl, rfl⟩
        · split <;> exact ⟨rfl, rfl, rfl⟩
      refine ⟨_, ?_, ((hassign st _).2.1).trans hnew.1, ((hassign st _).2.2).trans hnew.2⟩
      dsimp only
      rw [hreg, (hassign st _).1]

theorem parseMethodsFrom_names (methodHash : Method → Nat) (owner : Bytes)
    (decls : List MethodDecl) (st st1 : MethodLoop)
    (h : parseMethodsFrom methodHash owner st decls = .ok st1) :
    ∃ ms, st1.methodTable = st.methodTable ++ ms ∧
      ∀ m ∈ ms, m.class_ = owner ∧ ∃ d ∈ decls, m.name = d.name := by
  induction decls generalizing st with
  | nil =>
    simp only [parseMethodsFrom] at h
    have h := Except.ok.inj h
    subst h
    exact ⟨[], by simp, by simp⟩
  | cons d ds ih =>
    simp only [parseMethodsFrom] at h
    cases h1 : parseMethod methodHash owner st d with
    | error e => rw [h1] at h; exact absurd h (by simp)
    | ok st2 =>
      rw [h1] at h
      obtain ⟨m, p1, p2, p3⟩ := parseMethod_names methodHash owner st st2 d h1
      obtain ⟨ms, q1, q2⟩ := ih st2 h
      refine ⟨m :: ms, by rw [q1, p1]; simp, ?_⟩
      intro x hx
      rcases List.mem_cons.mp hx with hx | hx
      · rw [hx]
        exact ⟨p3, d, List.mem_cons_self _ _, p2⟩
      · obtain ⟨r1, e, he, r2⟩ := q2 x hx
        exact ⟨r1, e, List.mem_cons_of_mem _ he, r2⟩

theorem linkNatives_total (methodHash : Method → Nat)
    (nativeMap : HashMap Method (Option Method)) (hnat : nativeMap.array = none)
    (table : List Method) (hnames : ∀ m ∈ table, m.class_ ≠ [] ∧ m.name ≠ []) :
    ∃ table1, linkNatives methodHash nativeMap table = .ok table1 := by
  induction table with
  | nil => exact ⟨[], rfl⟩
  | cons m rest ih =>
    obtain ⟨rest1, hrest⟩ := ih (fun x hx => hnames x (List.mem_cons_of_mem _ hx))
    have hm := hnames m (List.mem_cons_self _ _)
    have hlink : ∃ m1, linkNative methodHash nativeMap m = .ok m1 := by
      unfold linkNative
      split
      · have hfind : hashMapFind methodHash methodEqual nativeMap m = none := by
          unfold hashMapFind hashMapFindNode
          rw [hnat]
        obtain ⟨n, hn⟩ := makeJNIName_plain_ok m.class_ m.name m.spec hm.1 hm.2
        simp only [hfind, Option.isSome_none, hn]
        exact ⟨_, rfl⟩
      · exact ⟨_, rfl⟩
    obtain ⟨m1, hm1⟩ := hlink
    simp only [linkNatives, hm1, hrest]
    exact ⟨_, rfl⟩

/-- Claim C32 (the code departs from it): the interface `M extends O` declares
no method; `parseMethodTable` returns, and the virtual table of `M` is null
although the virtual table of its superclass `O` holds two methods.  The branch
for a class without virtual declarations, which is to inherit both tables from
the superclass, stores the local variable `superVirtualTable`, and that is
assigned in the concrete branch only.  The interface table is the
superclass's. -/
theorem parseMethodTable_interface_without_methods_null_table :
    ∃ c, parseMethodTable sampleHash (freshClass ACC_INTERFACE [77, 0] (some sampleObject)) []
        = .ok c ∧
      c.super = some sampleObject ∧
      sampleObject.virtualTable = some [some sampleT, some sampleH] ∧
      c.virtualTable = none ∧
      c.interfaceTable = sampleObject.interfaceTable :=
  ⟨_, rfl, rfl, rfl, rfl, rfl⟩

/-- What `parseMethodTable` stores for a class with a superclass whose class
file declares no non-static method (the inherited virtual table of a concrete
class holding no null entry, the interface table of an interface holding
interfaces, the descriptors well formed, the class name and the method names
not empty): the function returns; the interface table of the class is its
superclass's; its virtual table is the value of the local variable
`superVirtualTable`, which is its superclass's virtual table for a concrete
class and is still null for an interface. -/
theorem parseMethodTable_shares_super_tables (methodHash : Method → Nat) (class_ sup : Class)
    (S : List Method) (decls : List MethodDecl)
    (hsuper : class_.super = some sup)
    (hS : (superVirtualTable class_).getD [] = S.map some)
    (hitable : class_.flags &&& ACC_INTERFACE ≠ 0 →
      ∀ e ∈ class_.interfaceTable.getD [], ∃ i, e = some (.interface i))
    (hstatic : ∀ d ∈ decls, d.flags &&& ACC_STATIC ≠ 0)
    (hspec : ∀ d ∈ decls,
      (parameterCount d.spec).toBool = true ∧ (parameterFootprint d.spec).toBool = true)
    (hname : class_.name ≠ []) (hnames : ∀ d ∈ decls, d.name ≠ []) :
    ∃ c, parseMethodTable methodHash class_ decls = .ok c ∧
      c.interfaceTable = sup.interfaceTable ∧
      c.virtualTable = (if class_.flags &&& ACC_INTERFACE ≠ 0 then none else sup.virtualTable) := by
  obtain ⟨st0, h0, _, hnat0, hT0, _, hd0, _, _⟩ :=
    initialMethodLoop_inv methodHash class_ S hS hitable
  obtain ⟨st, hst⟩ := parseMethodsFrom_total methodHash class_.name decls hspec st0
  have hnat := parseMethodsFrom_nativeMap methodHash class_.name decls st0 st hnat0 hst
  have hcount := (parseMethodsFrom_count methodHash class_.name decls st0 st hst).2.2 hstatic
  rw [hd0] at hcount
  obtain ⟨ms, hms, hall⟩ := parseMethodsFrom_names methodHash class_.name decls st0 st hst
  rw [hT0, List.nil_append] at hms
  obtain ⟨table, htable⟩ := linkNatives_total methodHash st.nativeMap hnat st.methodTable (by
    intro m hm
    rw [hms] at hm
    obtain ⟨r1, d, hd, r2⟩ := hall m hm
    exact ⟨by rw [r1]; exact hname, by rw [r2]; exact hnames d hd⟩)
  have hparse : parseMethods methodHash class_ decls = .ok st := by
    unfold parseMethods
    rw [h0]
    exact hst
  have hres : ∃ c, parseMethodTable methodHash class_ decls = .ok c ∧
      c.interfaceTable = sup.interfaceTable ∧ c.virtualTable = superVirtualTable class_ := by
    unfold parseMethodTable
    simp only [hparse, htable, hcount, if_true, hsuper]
    exact ⟨_, rfl, rfl, rfl⟩
  obtain ⟨c, h1, h2, h3⟩ := hres
  refine ⟨c, h1, h2, ?_⟩
  rw [h3]
  unfold superVirtualTable
  split
  · rfl
  · rw [hsuper]

/-- Witness for `parseMethodTable_shares_super_tables`: the class `C extends O`
declaring only the static method `s()V`. -/
theorem parseMethodTable_shares_super_tables_witness :
    ∃ c, parseMethodTable sampleHash (freshClass 0 [67, 0] (some sampleObject)) [declStaticS]
        = .ok c ∧
      c.interfaceTable = sampleObject.interfaceTable ∧
      c.virtualTable = (if (freshClass 0 [67, 0] (some sampleObject)).flags &&& ACC_INTERFACE ≠ 0
        then none else sampleObject.virtualTable) :=
  parseMethodTable_shares_super_tables sampleHash (freshClass 0 [67, 0] (some sampleObject))
    sampleObject [sampleT, sampleH] [declStaticS] rfl rfl
    (fun h => absurd h (by decide)) (by decide) (by decide) (by decide) (by decide)


/-! ## Properties of the thread tree and of array class names -/

/-- Claim C35 (the code departs from it): thread 0 has the children 1 and 2,
thread 1 made first, so that it is the last of its siblings.  Removing thread 1
stores null in `parent->child`, which detaches thread 2 as well: only the root
is reachable afterwards, and the assertion holds.  Removing thread 3 of the
second tree, which has the child 4 and the peers 2 and 1, makes 4 the child of
0 and 2 its peer, and detaches thread 1. -/
theorem dispose_detaches_other_threads :
    reachableThreads sampleTree.threads 4 sampleTree.rootThread = [0, 2, 1] ∧
    (dispose sampleTree 1).toOption.map (fun m => reachableThreads m.threads 4 m.rootThread)
      = some [0] ∧
    reachableThreads sampleDeepTree.threads 6 sampleDeepTree.rootThread = [0, 3, 4, 2, 1] ∧
    (dispose sampleDeepTree 3).toOption.map
        (fun m => reachableThreads m.threads 6 m.rootThread)
      = some [0, 4, 2] := by
  refine ⟨by decide, by decide, by decide, by decide⟩

/-- Claim C37 (the code departs from it): for an element name that starts with
`[` the function stores `[` into the element name instead of the new array, so
that the first byte of the name it resolves is never written, whatever follows
the `[`.  With a zero in that byte the name resolved for the element name
`[LA;` is the empty string, and no class is returned; the class named `[[LA;`
exists. -/
theorem resolveObjectArrayClass_first_byte_unwritten :
    (∀ rest : Bytes, objectArraySpec (91 :: rest)
      = .ok (none :: (91 :: rest).map some, 91 :: rest)) ∧
    (resolveObjectArrayClass sampleContext 3 0 sampleLoader [91, 76, 65, 59, 0]).toOption.map
        (fun r => (r.1.asked, r.2.isSome)) = some ([[]], false) ∧
    (resolveClass sampleContext 3 sampleLoader [91, 91, 76, 65, 59, 0]).toOption.map
        (fun r => r.2.map (fun c => (c.name, c.arrayDimensions)))
      = some (some ([91, 91, 76, 65, 59, 0], 2)) := by
  refine ⟨fun rest => ?_, by rfl, by rfl⟩
  have hdrop : List.drop (1 + (rest.length + 1))
      (none :: none :: List.replicate rest.length (none : Option Nat)) = [] :=
    List.drop_eq_nil_of_le (by simp; omega)
  have hle : 1 + (rest.length + 1) ≤ rest.length + 1 + 1 := by omega
  simp only [objectArraySpec, makeByteArray, copyBytes, List.replicate_succ, List.set_cons_zero,
    List.length_cons, List.length_replicate, if_true, le_refl, true_and, if_pos hle,
    List.take_succ_cons, List.take_zero, List.take_length, List.map_cons, hdrop,
    List.append_nil, List.cons_append, List.nil_append]


/-! ## Properties of the byte ranges of the fields -/

theorem le_pad (W n : Nat) (hW : 0 < W) : n ≤ pad W n := by
  unfold pad
  have := Nat.mod_lt n hW
  dsimp only
  split <;> omega

theorem parseFieldsFrom_ranges (W : Nat) (owner : Bytes) (hW : 0 < W) (lo : Nat)
    (decls : List FieldDecl) (st st1 : FieldLoop)
    (h : parseFieldsFrom W owner st decls = .ok st1)
    (hin : ∀ f ∈ st.fields, Field.within W lo st.memberOffset f)
    (hord : st.fields.Pairwise (Field.before W))
    (hlo : lo ≤ st.memberOffset) :
    (∀ f ∈ st1.fields, Field.within W lo st1.memberOffset f) ∧
    st1.fields.Pairwise (Field.before W) ∧
    ∃ fs, st1.fields = st.fields ++ fs ∧
      List.Forall₂ (fun f d => f.flags = d.flags ∧ f.name = d.name ∧ f.spec = d.spec) fs
        decls := by
  induction decls generalizing st with
  | nil =>
    simp only [parseFieldsFrom] at h
    injection h with h
    subst h
    exact ⟨hin, hord, [], by simp, List.Forall₂.nil⟩
  | cons d ds ih =>
    simp only [parseFieldsFrom] at h
    cases h1 : parseField W owner st d with
    | error e => simp [h1] at h
    | ok st2 =>
      simp only [h1] at h
      obtain ⟨f, hf, hfl, _, hmono, _, hinst⟩ := parseField_spec W owner st st2 d hW h1
      have hnames : f.name = d.name ∧ f.spec = d.spec := by
        unfold parseField at h1
        cases hc : fieldCode (d.spec.headD 0) with
        | error e => rw [hc] at h1; exact absurd h1 (by simp)
        | ok code =>
          rw [hc] at h1
          dsimp only at h1
          split at h1
          · injection h1 with h1
            subst h1
            have := List.append_cancel_left hf
            injection this with this
            rw [← this]
            exact ⟨rfl, rfl⟩
          · split at h1
            · exact absurd h1 (by simp)
            · injection h1 with h1
              subst h1
              have := List.append_cancel_left hf
              injection this with this
              rw [← this]
              exact ⟨rfl, rfl⟩
      have hin2 : ∀ g ∈ st2.fields, Field.within W lo st2.memberOffset g := by
        intro g hg
        rw [hf] at hg
        rcases List.mem_append.mp hg with hg | hg
        · intro hgi
          obtain ⟨size, s1, s2, s3⟩ := hin g hg hgi
          exact ⟨size, s1, s2, le_trans s3 hmono⟩
        · have hgf : g = f := by simpa using hg
          subst hgf
          intro hgi
          obtain ⟨i1, _, i3, i4, _⟩ := hinst (by rw [← hfl]; exact hgi)
          exact ⟨_, i3, le_trans hlo i1, by omega⟩
      have hord2 : st2.fields.Pairwise (Field.before W) := by
        rw [hf, List.pairwise_append]
        refine ⟨hord, List.pairwise_singleton _ _, ?_⟩
        intro a ha b hb
        have hbf : b = f := by simpa using hb
        subst hbf
        intro hai hbi
        obtain ⟨size, s1, _, s3⟩ := hin a ha hai
        obtain ⟨i1, _⟩ := hinst (by rw [← hfl]; exact hbi)
        exact ⟨size, s1, le_trans s3 i1⟩
      obtain ⟨r1, r2, fs, r3, r4⟩ := ih st2 h hin2 hord2 (le_trans hlo hmono)
      refine ⟨r1, r2, f :: fs, ?_, List.Forall₂.cons ⟨hfl, hnames.1, hnames.2⟩ r4⟩
      rw [r3, hf]
      simp

theorem parseFieldTable_fixedSize (W B : Nat) (class_ : Class) (decls : List FieldDecl)
    (st : FieldLoop) (hst : parseFields W class_ decls = .ok st) (c : Class)
    (hc : parseFieldTable W B class_ decls = .ok c) :
    c.fixedSize = pad W st.memberOffset := by
  unfold parseFieldTable at hc
  rw [hst] at hc
  dsimp only at hc
  have hframe : ∀ (c0 : Class), c0.fixedSize = pad W st.memberOffset →
      computeObjectMask W B c0 = .ok c → c.fixedSize = pad W st.memberOffset := by
    intro c0 h0 hc0
    rcases computeObjectMask_frame W B c0 c hc0 with h | ⟨m, h⟩
    · rw [h]; exact h0
    · rw [h]; exact h0
  cases hsup : class_.super with
  | none =>
    rw [hsup] at hc
    exact hframe _ rfl hc
  | some s =>
    rw [hsup] at hc
    dsimp only at hc
    by_cases hmo : st.memberOffset = s.fixedSize
    · rw [if_pos hmo] at hc
      injection hc with hc
      rw [← hc]
    · rw [if_neg hmo] at hc
      exact hframe _ rfl hc

/-- Claim C38: for every class and every field table with legal descriptors the
declaration loop of `parseFieldTable` returns one field per declaration, in
declaration order; of two instance fields the byte range of the one declared
first ends at or before the offset of the other, so that the ranges are
pairwise disjoint; every range lies between the fixed size of the superclass
(one word without superclass) and the member offset padded to the word size,
which is a multiple of the word size and is the fixed size `parseFieldTable`
stores, next to the field table built by the loop. -/
theorem parseFieldTable_instance_ranges (W B : Nat) (class_ : Class)
    (decls : List FieldDecl) (hW : 0 < W)
    (hspec : ∀ d ∈ decls, (fieldCode (d.spec.headD 0)).toBool = true) :
    ∃ st, parseFields W class_ decls = .ok st ∧
      List.Forall₂ (fun f d => f.flags = d.flags ∧ f.name = d.name ∧ f.spec = d.spec)
        st.fields decls ∧
      st.fields.Pairwise (Field.before W) ∧
      (∀ f ∈ st.fields,
        Field.within W (initialMemberOffset W class_) (pad W st.memberOffset) f) ∧
      pad W st.memberOffset % W = 0 ∧
      (∀ c, parseFieldTable W B class_ decls = .ok c →
        c.fixedSize = pad W st.memberOffset ∧ (decls ≠ [] → c.fieldTable = some st.fields)) := by
  obtain ⟨st, hst⟩ := parseFieldsFrom_total W class_.name decls hspec
    ⟨initialMemberOffset W class_, 0, []⟩
  obtain ⟨r1, r2, fs, r3, r4⟩ := parseFieldsFrom_ranges W class_.name hW
    (initialMemberOffset W class_) decls _ st hst (by intro f hf; simp at hf)
    List.Pairwise.nil (le_refl _)
  rw [List.nil_append] at r3
  refine ⟨st, hst, by rw [r3]; exact r4, r2, ?_, pad_aligned W _ hW, fun c hc =>
    ⟨parseFieldTable_fixedSize W B class_ decls st hst c hc,
      fun hne => parseFieldTable_fieldTable W B class_ decls st hst c hc hne⟩⟩
  intro f hf hfi
  obtain ⟨size, s1, s2, s3⟩ := r1 f hf hfi
  exact ⟨size, s1, s2, le_trans s3 (le_pad W _ hW)⟩

/-- Witness for `parseFieldTable_instance_ranges`: the class `A` extending the
sample root declares `byte b; Object f;` on a 32-bit build. -/
theorem parseFieldTable_instance_ranges_witness :
    ∃ st, parseFields 4 (freshClass 0 [65, 0] (some sampleRoot)) [declByteB, declRefF]
        = .ok st ∧
      List.Forall₂ (fun f d => f.flags = d.flags ∧ f.name = d.name ∧ f.spec = d.spec)
        st.fields [declByteB, declRefF] ∧
      st.fields.Pairwise (Field.before 4) ∧
      (∀ f ∈ st.fields,
        Field.within 4 (initialMemberOffset 4 (freshClass 0 [65, 0] (some sampleRoot)))
          (pad 4 st.memberOffset) f) ∧
      pad 4 st.memberOffset % 4 = 0 ∧
      (∀ c, parseFieldTable 4 32 (freshClass 0 [65, 0] (some sampleRoot))
          [declByteB, declRefF] = .ok c →
        c.fixedSize = pad 4 st.memberOffset ∧
        ([declByteB, declRefF] ≠ [] → c.fieldTable = some st.fields)) :=
  parseFieldTable_instance_ranges 4 32 (freshClass 0 [65, 0] (some sampleRoot))
    [declByteB, declRefF] (by decide) (by decide)


/-! ## Properties of the cross references of the constant pool -/

theorem utf8At_spec (table : List (Option Constant)) (n : Nat) (bytes : List Nat)
    (h : utf8At table n = some bytes) :
    1 ≤ n ∧ table[n - 1]? = some (some (.utf8 bytes)) := by
  unfold utf8At at h
  split at h
  · exact absurd h (by simp)
  · rename_i hn
    split at h
    · rename_i b hb
      injection h with h
      subst h
      exact ⟨by omega, hb⟩
    · exact absurd h (by simp)

theorem entryAt_spec (table : List (Option Constant)) (n : Nat) (c : Constant)
    (h : entryAt table n = some c) :
    1 ≤ n ∧ table[n - 1]? = some (some c) := by
  unfold entryAt at h
  split at h
  · exact absurd h (by simp)
  · rename_i hn
    split at h
    · rename_i b hb
      injection h with h
      subst h
      exact ⟨by omega, hb⟩
    · exact absurd h (by simp)

theorem inPool_of_getElem? (table : List (Option Constant)) (n : Nat)
    (x : Option Constant) (h1 : 1 ≤ n) (h : table[n - 1]? = some x) :
    inPool table n = true := by
  have hlt : n - 1 < table.length := by
    by_contra hge
    rw [List.getElem?_eq_none (Nat.le_of_not_lt hge)] at h
    exact absurd h (by simp)
  simp only [inPool, decide_eq_true_eq]
  omega

theorem poolEntry_of (pool : Pool) (n : Nat) (v : Option PoolObject) (h1 : 1 ≤ n)
    (h : pool[n - 1]? = some v) : poolEntry pool n = .ok v := by
  unfold poolEntry
  rw [if_neg (by omega), h]

theorem typed_wellFormed (table : List (Option Constant)) (c : Constant)
    (h : c.typed table = true) : c.wellFormed table = true := by
  cases c with
  | integer b => exact h
  | float b => exact h
  | long b => exact h
  | double b => exact h
  | utf8 b => exact h
  | class_ a =>
    simp only [Constant.typed, Option.isSome_iff_exists] at h
    obtain ⟨b, hb⟩ := h
    obtain ⟨h1, h2⟩ := utf8At_spec table a b hb
    exact inPool_of_getElem? table a _ h1 h2
  | string a =>
    simp only [Constant.typed, Option.isSome_iff_exists] at h
    obtain ⟨b, hb⟩ := h
    obtain ⟨h1, h2⟩ := utf8At_spec table a b hb
    simp only [Constant.wellFormed, inPool_of_getElem? table a _ h1 h2, h2, Bool.and_self]
  | nameAndType a d =>
    simp only [Constant.typed, Bool.and_eq_true, Option.isSome_iff_exists] at h
    obtain ⟨⟨b1, hb1⟩, ⟨b2, hb2⟩⟩ := h
    obtain ⟨h1, h2⟩ := utf8At_spec table a b1 hb1
    obtain ⟨h3, h4⟩ := utf8At_spec table d b2 hb2
    simp only [Constant.wellFormed, inPool_of_getElem? table a _ h1 h2,
      inPool_of_getElem? table d _ h3 h4, Bool.and_self]
  | fieldref k nt =>
    simp only [Constant.typed] at h
    split at h
    · rename_i a n d hk hnt
      obtain ⟨h1, h2⟩ := entryAt_spec table k _ hk
      obtain ⟨h3, h4⟩ := entryAt_spec table nt _ hnt
      simp only [Constant.wellFormed, inPool_of_getElem? table k _ h1 h2,
        inPool_of_getElem? table nt _ h3 h4, h4, Bool.and_self]
    · exact absurd h (by simp)
  | methodref k nt =>
    simp only [Constant.typed] at h
    split at h
    · rename_i a n d hk hnt
      obtain ⟨h1, h2⟩ := entryAt_spec table k _ hk
      obtain ⟨h3, h4⟩ := entryAt_spec table nt _ hnt
      simp only [Constant.wellFormed, inPool_of_getElem? table k _ h1 h2,
        inPool_of_getElem? table nt _ h3 h4, h4, Bool.and_self]
    · exact absurd h (by simp)
  | interfaceMethodref k nt =>
    simp only [Constant.typed] at h
    split at h
    · rename_i a n d hk hnt
      obtain ⟨h1, h2⟩ := entryAt_spec table k _ hk
      obtain ⟨h3, h4⟩ := entryAt_spec table nt _ hnt
      simp only [Constant.wellFormed, inPool_of_getElem? table k _ h1 h2,
        inPool_of_getElem? table nt _ h3 h4, h4, Bool.and_self]
    · exact absurd h (by simp)


theorem SecondLoopInv.secondSkip {table : List (Option Constant)} {i : Nat} {pool : Pool}
    (h : SecondLoopInv table i pool)
    (hcur : ∀ c, table[i]? = some (some c) → pool[i]? = some (afterSecondLoop table c)) :
    SecondLoopInv table (i + 1) pool := by
  refine ⟨h.length, fun j hj => h.rest j (by omega), fun j c hj hc => ?_, h.plain, h.empty⟩
  by_cases hji : j = i
  · subst hji; exact hcur c hc
  · exact h.done j c (by omega) hc

theorem SecondLoopInv.secondStore {table : List (Option Constant)} {i : Nat} {pool : Pool}
    (h : SecondLoopInv table i pool) (c : Constant) (hc : table[i]? = some (some c))
    (hplain : c.plain = false) :
    SecondLoopInv table (i + 1) (pool.set i (afterSecondLoop table c)) := by
  have hi : i < pool.length := by
    rw [h.length]
    by_contra hge
    rw [List.getElem?_eq_none (Nat.le_of_not_lt hge)] at hc
    exact absurd hc (by simp)
  refine ⟨by rw [List.length_set]; exact h.length, fun j hj => ?_, fun j d hj hd => ?_,
    fun j d hd hp => ?_, fun j hj => ?_⟩
  · rw [getElem?_set_other _ _ _ _ (by omega)]
    exact h.rest j (by omega)
  · by_cases hji : j = i
    · subst hji
      rw [hc] at hd
      injection hd with hd
      injection hd with hd
      subst hd
      exact getElem?_set_same _ _ _ hi
    · rw [getElem?_set_other _ _ _ _ hji]
      exact h.done j d (by omega) hd
  · have hji : j ≠ i := by
      intro hji
      subst hji
      rw [hc] at hd
      injection hd with hd
      injection hd with hd
      subst hd
      rw [hplain] at hp
      exact absurd hp (by simp)
    rw [getElem?_set_other _ _ _ _ hji]
    exact h.plain j d hd hp
  · have hji : j ≠ i := by
      intro hji
      subst hji
      rw [hc] at hj
      exact absurd hj (by simp)
    rw [getElem?_set_other _ _ _ _ hji]
    exact h.empty j hj

theorem SecondLoopInv.byteArray {table : List (Option Constant)} {i : Nat} {pool : Pool}
    (h : SecondLoopInv table i pool) (n : Nat) (bytes : List Nat)
    (hn : utf8At table n = some bytes) :
    poolEntry pool n = .ok (some (.byteArray (bytes ++ [0]))) := by
  obtain ⟨h1, h2⟩ := utf8At_spec table n bytes hn
  exact poolEntry_of pool n _ h1 (h.plain (n - 1) (.utf8 bytes) h2 rfl)

theorem secondLoop_step (table : List (Option Constant))
    (htyped : ∀ c, some c ∈ table → c.typed table = true) (i : Nat) (pool : Pool)
    (hinv : SecondLoopInv table i pool) (hi : i < table.length) :
    ∃ o, pool[i]? = some o ∧
      ((resolveShape pool o = .ok none ∧ SecondLoopInv table (i + 1) pool) ∨
       (∃ v, resolveShape pool o = .ok (some v) ∧
         SecondLoopInv table (i + 1) (pool.set i v))) := by
  have ht : table[i]? = some table[i] := List.getElem?_eq_getElem hi
  have hmem : table[i] ∈ table := List.getElem_mem hi
  have hpi : pool[i]? = some ((table[i]).map firstObject) := by
    rw [hinv.rest i (Nat.le_refl i), List.getElem?_map, ht]; rfl
  generalize table[i] = t at ht hmem hpi
  refine ⟨_, hpi, ?_⟩
  have hskip : ∀ c, t = some c → afterSecondLoop table c = some (firstObject c) →
      SecondLoopInv table (i + 1) pool := by
    intro c hc hafter
    refine hinv.secondSkip (fun d hd => ?_)
    rw [ht, hc] at hd
    injection hd with hd
    injection hd with hd
    subst hd
    rw [hpi, hc, hafter]
    rfl
  cases t with
  | none => exact Or.inl ⟨rfl, hinv.secondSkip (fun a b => by rw [ht] at b; exact absurd b (by simp))⟩
  | some c =>
    have htc := htyped c hmem
    cases c with
    | integer bytes => exact Or.inl ⟨rfl, hskip _ rfl rfl⟩
    | float bytes => exact Or.inl ⟨rfl, hskip _ rfl rfl⟩
    | long bytes => exact Or.inl ⟨rfl, hskip _ rfl rfl⟩
    | double bytes => exact Or.inl ⟨rfl, hskip _ rfl rfl⟩
    | utf8 bytes => exact Or.inl ⟨rfl, hskip _ rfl rfl⟩
    | class_ a =>
      simp only [Constant.typed, Option.isSome_iff_exists] at htc
      obtain ⟨b, hb⟩ := htc
      have he := hinv.byteArray a b hb
      refine Or.inr ⟨_, ?_, hinv.secondStore _ ht rfl⟩
      simp [Option.map, firstObject, resolveShape, intArrayBody, CONSTANT_Class, he,
        afterSecondLoop, byteArrayAt, hb]
    | string s =>
      simp only [Constant.typed, Option.isSome_iff_exists] at htc
      obtain ⟨b, hb⟩ := htc
      have he := hinv.byteArray s b hb
      refine Or.inr ⟨_, ?_, hinv.secondStore _ ht rfl⟩
      simp [Option.map, firstObject, resolveShape, intArrayBody, CONSTANT_Class,
        CONSTANT_String, he, afterSecondLoop, hb]
    | nameAndType a d =>
      simp only [Constant.typed, Bool.and_eq_true, Option.isSome_iff_exists] at htc
      obtain ⟨⟨b1, hb1⟩, ⟨b2, hb2⟩⟩ := htc
      have he1 := hinv.byteArray a b1 hb1
      have he2 := hinv.byteArray d b2 hb2
      refine Or.inr ⟨_, ?_, hinv.secondStore _ ht rfl⟩
      simp [Option.map, firstObject, resolveShape, intArrayBody, CONSTANT_Class,
        CONSTANT_String, CONSTANT_NameAndType, he1, he2, afterSecondLoop, byteArrayAt, hb1,
        hb2]
    | fieldref ci nt =>
      refine Or.inl ⟨?_, hskip _ rfl rfl⟩
      simp [Option.map, firstObject, resolveShape, intArrayBody, CONSTANT_Class,
        CONSTANT_String, CONSTANT_NameAndType, CONSTANT_Fieldref]
    | methodref ci nt =>
      refine Or.inl ⟨?_, hskip _ rfl rfl⟩
      simp [Option.map, firstObject, resolveShape, intArrayBody, CONSTANT_Class,
        CONSTANT_String, CONSTANT_NameAndType, CONSTANT_Methodref]
    | interfaceMethodref ci nt =>
      refine Or.inl ⟨?_, hskip _ rfl rfl⟩
      simp [Option.map, firstObject, resolveShape, intArrayBody, CONSTANT_Class,
        CONSTANT_String, CONSTANT_NameAndType, CONSTANT_InterfaceMethodref]

theorem ThirdLoopInv.thirdSkip {table : List (Option Constant)} {i : Nat} {pool : Pool}
    (h : ThirdLoopInv table i pool)
    (hcur : ∀ c, table[i]? = some (some c) → afterThirdLoop table c = afterSecondLoop table c) :
    ThirdLoopInv table (i + 1) pool := by
  refine ⟨h.length, fun j c hj hc => h.rest j c (by omega) hc, fun j c hj hc => ?_, h.kept,
    h.empty⟩
  by_cases hji : j = i
  · subst hji
    rw [hcur c hc]
    exact h.rest j c (Nat.le_refl j) hc
  · exact h.done j c (by omega) hc

theorem ThirdLoopInv.thirdStore {table : List (Option Constant)} {i : Nat} {pool : Pool}
    (h : ThirdLoopInv table i pool) (c : Constant) (hc : table[i]? = some (some c))
    (href : c.isReference = true) :
    ThirdLoopInv table (i + 1) (pool.set i (afterThirdLoop table c)) := by
  have hi : i < pool.length := by
    rw [h.length]
    by_contra hge
    rw [List.getElem?_eq_none (Nat.le_of_not_lt hge)] at hc
    exact absurd hc (by simp)
  refine ⟨by rw [List.length_set]; exact h.length, fun j d hj hd => ?_, fun j d hj hd => ?_,
    fun j d hd hp => ?_, fun j hj => ?_⟩
  · rw [getElem?_set_other _ _ _ _ (by omega)]
    exact h.rest j d (by omega) hd
  · by_cases hji : j = i
    · subst hji
      rw [hc] at hd
      injection hd with hd
      injection hd with hd
      subst hd
      exact getElem?_set_same _ _ _ hi
    · rw [getElem?_set_other _ _ _ _ hji]
      exact h.done j d (by omega) hd
  · have hji : j ≠ i := by
      intro hji
      subst hji
      rw [hc] at hd
      injection hd with hd
      injection hd with hd
      subst hd
      rw [href] at hp
      exact absurd hp (by simp)
    rw [getElem?_set_other _ _ _ _ hji]
    exact h.kept j d hd hp
  · have hji : j ≠ i := by
      intro hji
      subst hji
      rw [hc] at hj
      exact absurd hj (by simp)
    rw [getElem?_set_other _ _ _ _ hji]
    exact h.empty j hj

theorem thirdLoop_reference (table : List (Option Constant))
    (pool : Pool) (i : Nat) (hinv : ThirdLoopInv table i pool) (tag k nt : Nat)
    (htag : tag = CONSTANT_Fieldref ∨ tag = CONSTANT_Methodref
      ∨ tag = CONSTANT_InterfaceMethodref)
    (href : (match entryAt table k, entryAt table nt with
             | some (.class_ _), some (.nameAndType _ _) => true
             | _, _ => false) = true) :
    resolveReference pool (some (.intArray [tag, k, nt])) = .ok (some (referenceAt table k nt)) := by
  split at href
  · rename_i a n d hk hnt
    obtain ⟨h1, h2⟩ := entryAt_spec table k _ hk
    obtain ⟨h3, h4⟩ := entryAt_spec table nt _ hnt
    have e1 := poolEntry_of pool k _ h1 (hinv.kept (k - 1) _ h2 rfl)
    have e2 := poolEntry_of pool nt _ h3 (hinv.kept (nt - 1) _ h4 rfl)
    simp only [afterSecondLoop] at e1 e2
    simp only [resolveReference, intArrayBody, List.getElem?_cons_zero, htag, if_true,
      List.getElem?_cons_succ, e1, e2, referenceAt, hk, hnt]
  · exact absurd href (by simp)

theorem thirdLoop_step (table : List (Option Constant))
    (htyped : ∀ c, some c ∈ table → c.typed table = true) (i : Nat) (pool : Pool)
    (hinv : ThirdLoopInv table i pool) (hi : i < table.length) :
    ∃ o, pool[i]? = some o ∧
      ((resolveReference pool o = .ok none ∧ ThirdLoopInv table (i + 1) pool) ∨
       (∃ v, resolveReference pool o = .ok (some v) ∧
         ThirdLoopInv table (i + 1) (pool.set i v))) := by
  have ht : table[i]? = some table[i] := List.getElem?_eq_getElem hi
  have hmem : table[i] ∈ table := List.getElem_mem hi
  generalize table[i] = t at ht hmem
  cases t with
  | none =>
    exact ⟨none, hinv.empty i ht, Or.inl ⟨rfl, hinv.thirdSkip (fun a b => by
      rw [ht] at b; exact absurd b (by simp))⟩⟩
  | some c =>
    have htc := htyped c hmem
    have hpi := hinv.rest i c (Nat.le_refl i) ht
    refine ⟨_, hpi, ?_⟩
    have hskip : afterThirdLoop table c = afterSecondLoop table c →
        ThirdLoopInv table (i + 1) pool := by
      intro hafter
      refine hinv.thirdSkip (fun d hd => ?_)
      rw [ht] at hd
      injection hd with hd
      injection hd with hd
      subst hd
      exact hafter
    cases c with
    | integer bytes => exact Or.inl ⟨rfl, hskip rfl⟩
    | float bytes => exact Or.inl ⟨rfl, hskip rfl⟩
    | long bytes => exact Or.inl ⟨rfl, hskip rfl⟩
    | double bytes => exact Or.inl ⟨rfl, hskip rfl⟩
    | utf8 bytes => exact Or.inl ⟨rfl, hskip rfl⟩
    | class_ a =>
      simp only [Constant.typed, Option.isSome_iff_exists] at htc
      obtain ⟨b, hb⟩ := htc
      refine Or.inl ⟨?_, hskip rfl⟩
      simp [afterSecondLoop, byteArrayAt, hb, resolveReference]
    | string s =>
      simp only [Constant.typed, Option.isSome_iff_exists] at htc
      obtain ⟨b, hb⟩ := htc
      refine Or.inl ⟨?_, hskip rfl⟩
      simp [afterSecondLoop, hb, resolveReference]
    | nameAndType a d => exact Or.inl ⟨rfl, hskip rfl⟩
    | fieldref k nt =>
      exact Or.inr ⟨_, thirdLoop_reference table pool i hinv _ k nt (Or.inl rfl) htc,
        hinv.thirdStore _ ht rfl⟩
    | methodref k nt =>
      exact Or.inr ⟨_, thirdLoop_reference table pool i hinv _ k nt (Or.inr (Or.inl rfl)) htc,
        hinv.thirdStore _ ht rfl⟩
    | interfaceMethodref k nt =>
      exact Or.inr ⟨_, thirdLoop_reference table pool i hinv _ k nt (Or.inr (Or.inr rfl)) htc,
        hinv.thirdStore _ ht rfl⟩


/-- The function `parsePool` on the bytes of a pool whose entries name entries
of the expected kind: it returns, having read exactly the pool, and the pool it
returns holds at the index of each entry the value the third loop leaves for
it. -/
theorem parsePool_final (cs : List Constant) (tail : List Nat)
    (htyped : ∀ c ∈ cs, c.typed (slotTable cs) = true)
    (hcount : (slotTable cs).length + 1 < 65536) :
    ∃ pool, parsePool (poolBytes cs ++ tail) = .ok (pool, tail) ∧
      ∀ (j : Nat) (c : Constant), (slotTable cs)[j]? = some (some c) →
        pool[j]? = some (afterThirdLoop (slotTable cs) c) := by
  have htypedT : ∀ c, some c ∈ slotTable cs → c.typed (slotTable cs) = true :=
    fun c hc => htyped c (mem_slotTable cs c hc)
  have hwf : ∀ c ∈ cs, c.wellFormed (slotTable cs) = true :=
    fun c hc => typed_wellFormed _ c (htyped c hc)
  have hcountEq : unsignedPred ((slotTable cs).length + 1) = (slotTable cs).length := by
    simp [unsignedPred]
  have h1 := parsePoolEntries_spec (slotTable cs) (by omega) (slotTable cs).length tail cs
    hwf []
    ((slotTable cs).length + 1) (by simp) (by have := length_le_slotTable cs; omega)
  simp only [List.length_nil, Nat.sub_zero, List.nil_append] at h1
  have hinit : SecondLoopInv (slotTable cs) 0
      ((slotTable cs).map (Option.map firstObject)) := by
    refine ⟨by simp, fun j _ => rfl, fun j c hj => absurd hj (by omega), ?_, ?_⟩
    · intro j c hj _
      rw [List.getElem?_map, hj]; rfl
    · intro j hj
      rw [List.getElem?_map, hj]; rfl
  obtain ⟨pool2, h2, hsecond⟩ := poolLoop_range resolveShape (slotTable cs).length
    (SecondLoopInv (slotTable cs))
    (fun i pool hinv hi => secondLoop_step (slotTable cs) htypedT i pool hinv hi)
    (slotTable cs).length 0 _ (by simp) hinit
  have hinit3 : ThirdLoopInv (slotTable cs) 0 pool2 := by
    refine ⟨hsecond.length, fun j c _ hc => ?_, fun j c hj => absurd hj (by omega),
      fun j c hc _ => ?_, hsecond.empty⟩
    · exact hsecond.done j c (by
        by_contra hge
        rw [List.getElem?_eq_none (Nat.le_of_not_lt hge)] at hc
        exact absurd hc (by simp)) hc
    · exact hsecond.done j c (by
        by_contra hge
        rw [List.getElem?_eq_none (Nat.le_of_not_lt hge)] at hc
        exact absurd hc (by simp)) hc
  obtain ⟨pool3, h3, hthird⟩ := poolLoop_range resolveReference (slotTable cs).length
    (ThirdLoopInv (slotTable cs))
    (fun i pool hinv hi => thirdLoop_step (slotTable cs) htypedT i pool hinv hi)
    (slotTable cs).length 0 pool2 (by simp) hinit3
  rw [← List.range_eq_range'] at h2 h3
  refine ⟨pool3, ?_, fun j c hc => ?_⟩
  · unfold parsePool poolBytes
    rw [List.append_assoc, read2_twoBytes _ hcount]
    simp only [hcountEq, h1, h2, h3]
  · exact hthird.done j c (by
      by_contra hge
      rw [List.getElem?_eq_none (Nat.le_of_not_lt hge)] at hc
      exact absurd hc (by simp)) hc

/-- Claim C33: for every constant pool whose entries name entries of the
expected kind, wherever they stand in the pool, `parsePool` returns, and in the
pool it returns a Class entry holds the byte array of the Utf8 entry it names,
a String entry a string over those bytes of the length of the Utf8 entry (the
terminator left out), a NameAndType entry the pair of the byte arrays of its
name and descriptor, and a Fieldref, Methodref or InterfaceMethodref entry a
reference made of what the Class entry it names holds and of the name and the
descriptor of the NameAndType entry it names. -/
theorem parsePool_cross_references (cs : List Constant) (tail : List Nat)
    (htyped : ∀ c ∈ cs, c.typed (slotTable cs) = true)
    (hcount : (slotTable cs).length + 1 < 65536) :
    ∃ pool, parsePool (poolBytes cs ++ tail) = .ok (pool, tail) ∧
      ∀ (k : Nat) (c : Constant), cs[k]? = some c →
        (∀ a, c = .class_ a → ∃ bytes, utf8At (slotTable cs) a = some bytes ∧
          pool[slotIndex cs k]? = some (some (.byteArray (bytes ++ [0])))) ∧
        (∀ a, c = .string a → ∃ bytes, utf8At (slotTable cs) a = some bytes ∧
          pool[slotIndex cs k]? = some (some (.string (bytes ++ [0]) 0 bytes.length 0))) ∧
        (∀ n d, c = .nameAndType n d → ∃ name descriptor,
          utf8At (slotTable cs) n = some name ∧ utf8At (slotTable cs) d = some descriptor ∧
          pool[slotIndex cs k]? = some (some (.pair (some (.byteArray (name ++ [0])))
            (some (.byteArray (descriptor ++ [0])))))) ∧
        (∀ x nt, c = .fieldref x nt ∨ c = .methodref x nt ∨ c = .interfaceMethodref x nt →
          ∃ a n d className name descriptor,
            entryAt (slotTable cs) x = some (.class_ a) ∧
            entryAt (slotTable cs) nt = some (.nameAndType n d) ∧
            utf8At (slotTable cs) a = some className ∧
            utf8At (slotTable cs) n = some name ∧
            utf8At (slotTable cs) d = some descriptor ∧
            pool[slotIndex cs k]? = some (some (.reference
              (some (.byteArray (className ++ [0]))) (some (.byteArray (name ++ [0])))
              (some (.byteArray (descriptor ++ [0])))))) := by
  obtain ⟨pool, h1, h2⟩ := parsePool_final cs tail htyped hcount
  have htypedT : ∀ c, some c ∈ slotTable cs → c.typed (slotTable cs) = true :=
    fun c hc => htyped c (mem_slotTable cs c hc)
  have hentry : ∀ n c, entryAt (slotTable cs) n = some c → c.typed (slotTable cs) = true := by
    intro n c hn
    exact htypedT c (List.mem_iff_getElem?.mpr ⟨n - 1, (entryAt_spec _ n c hn).2⟩)
  have href : ∀ x nt (c : Constant), c.typed (slotTable cs) = true →
      afterThirdLoop (slotTable cs) c = referenceAt (slotTable cs) x nt →
      (match entryAt (slotTable cs) x, entryAt (slotTable cs) nt with
       | some (.class_ _), some (.nameAndType _ _) => true
       | _, _ => false) = true →
      ∀ (j : Nat), pool[j]? = some (afterThirdLoop (slotTable cs) c) →
      ∃ a n d className name descriptor,
        entryAt (slotTable cs) x = some (.class_ a) ∧
        entryAt (slotTable cs) nt = some (.nameAndType n d) ∧
        utf8At (slotTable cs) a = some className ∧
        utf8At (slotTable cs) n = some name ∧
        utf8At (slotTable cs) d = some descriptor ∧
        pool[j]? = some (some (.reference
          (some (.byteArray (className ++ [0]))) (some (.byteArray (name ++ [0])))
          (some (.byteArray (descriptor ++ [0]))))) := by
    intro x nt c _ hafter hmatch j hj
    split at hmatch
    · rename_i a n d hx hnt
      have t1 := hentry x _ hx
      have t2 := hentry nt _ hnt
      simp only [Constant.typed, Option.isSome_iff_exists] at t1
      simp only [Constant.typed, Bool.and_eq_true, Option.isSome_iff_exists] at t2
      obtain ⟨bc, hbc⟩ := t1
      obtain ⟨⟨bn, hbn⟩, ⟨bd, hbd⟩⟩ := t2
      refine ⟨a, n, d, bc, bn, bd, hx, hnt, hbc, hbn, hbd, ?_⟩
      rw [hj, hafter]
      simp [referenceAt, hx, hnt, byteArrayAt, hbc, hbn, hbd]
    · exact absurd hmatch (by simp)
  refine ⟨pool, h1, fun k c hk => ?_⟩
  obtain ⟨i1, _⟩ := slotTable_slotIndex cs k c hk
  have hfinal := h2 _ c i1
  have htc := htyped c (List.mem_iff_getElem?.mpr ⟨k, hk⟩)
  refine ⟨?_, ?_, ?_, ?_⟩
  · intro a hc
    subst hc
    simp only [Constant.typed, Option.isSome_iff_exists] at htc
    obtain ⟨b, hb⟩ := htc
    refine ⟨b, hb, ?_⟩
    rw [hfinal]
    simp [afterThirdLoop, afterSecondLoop, byteArrayAt, hb]
  · intro a hc
    subst hc
    simp only [Constant.typed, Option.isSome_iff_exists] at htc
    obtain ⟨b, hb⟩ := htc
    refine ⟨b, hb, ?_⟩
    rw [hfinal]
    simp [afterThirdLoop, afterSecondLoop, hb]
  · intro n d hc
    subst hc
    simp only [Constant.typed, Bool.and_eq_true, Option.isSome_iff_exists] at htc
    obtain ⟨⟨bn, hbn⟩, ⟨bd, hbd⟩⟩ := htc
    refine ⟨bn, bd, hbn, hbd, ?_⟩
    rw [hfinal]
    simp [afterThirdLoop, afterSecondLoop, byteArrayAt, hbn, hbd]
  · intro x nt hc
    rcases hc with hc | hc | hc
    · subst hc
      exact href x nt _ htc rfl htc _ hfinal
    · subst hc
      exact href x nt _ htc rfl htc _ hfinal
    · subst hc
      exact href x nt _ htc rfl htc _ hfinal

/-- Witness for `parsePool_cross_references`: the pool whose Methodref entry
comes first, before the Class and NameAndType entries it names, themselves
before the Utf8 entries they name. -/
theorem parsePool_cross_references_witness :
    (∀ c ∈ forwardPool, c.typed (slotTable forwardPool) = true) ∧
    ∃ pool, parsePool (poolBytes forwardPool ++ [202, 254]) = .ok (pool, [202, 254]) ∧
      pool[0]? = some (some (.reference (some (.byteArray [65, 0]))
        (some (.byteArray [109, 0])) (some (.byteArray [40, 41, 86, 0])))) ∧
      pool[1]? = some (some (.byteArray [65, 0])) ∧
      pool[2]? = some (some (.pair (some (.byteArray [109, 0]))
        (some (.byteArray [40, 41, 86, 0])))) ∧
      pool[6]? = some (some (.string [65, 0] 0 1 0)) := by
  obtain ⟨pool, h1, h2⟩ :=
    parsePool_cross_references forwardPool [202, 254] (by decide) (by decide)
  refine ⟨by decide, pool, h1, ?_, ?_, ?_, ?_⟩
  · obtain ⟨a, n, d, bc, bn, bd, e1, e2, e3, e4, e5, e6⟩ :=
      (h2 0 _ rfl).2.2.2 2 3 (Or.inr (Or.inl rfl))
    have ha : a = 4 := by
      have : entryAt (slotTable forwardPool) 2 = some (.class_ 4) := rfl
      rw [this] at e1
      injection e1 with e1
      injection e1 with e1
      exact e1.symm
    have hnd : n = 5 ∧ d = 6 := by
      have : entryAt (slotTable forwardPool) 3 = some (.nameAndType 5 6) := rfl
      rw [this] at e2
      injection e2 with e2
      injection e2 with e21 e22
      exact ⟨e21.symm, e22.symm⟩
    rw [ha] at e3
    rw [hnd.1] at e4
    rw [hnd.2] at e5
    have hbc : bc = [65] := (Option.some.inj e3).symm
    have hbn : bn = [109] := (Option.some.inj e4).symm
    have hbd : bd = [40, 41, 86] := (Option.some.inj e5).symm
    rw [hbc, hbn, hbd] at e6
    exact e6
  · obtain ⟨b, e1, e2⟩ := (h2 1 _ rfl).1 4 rfl
    have hb : b = [65] := (Option.some.inj e1).symm
    rw [hb] at e2
    exact e2
  · obtain ⟨bn, bd, e1, e2, e3⟩ := (h2 2 _ rfl).2.2.1 5 6 rfl
    have hbn : bn = [109] := (Option.some.inj e1).symm
    have hbd : bd = [40, 41, 86] := (Option.some.inj e2).symm
    rw [hbn, hbd] at e3
    exact e3
  · obtain ⟨b, e1, e2⟩ := (h2 6 _ rfl).2.1 4 rfl
    have hb : b = [65] := (Option.some.inj e1).symm
    rw [hb] at e2
    exact e2

/-! ## A resolution that returns enters no name twice -/

theorem fails_bind {α β : Type} (x : Except Fault α) (k : α → Except Fault β)
    (h : Fails x) : Fails (x.bind k) := by
  obtain ⟨e, he⟩ := h
  exact ⟨e, by rw [he]; rfl⟩

theorem ext_refl (ctx : Context) (st : Loader) : Ext ctx st st :=
  ⟨fun _ _ h => h, fun _ => rfl⟩

theorem ext_trans {ctx : Context} {a b c : Loader} (h1 : Ext ctx a b) (h2 : Ext ctx b c) :
    Ext ctx a c :=
  ⟨fun k v h => h2.1 k v (h1.1 k v h), fun k => (h2.2 k).trans (h1.2 k)⟩

theorem same_refl (st : Loader) : Same st st := rfl

theorem same_trans {a b c : Loader} (h1 : Same a b) (h2 : Same b c) : Same a c :=
  Eq.trans h2 h1

theorem eqv_refl (ctx : Context) (w : Loader) : Eqv ctx w w :=
  ⟨fun _ => rfl, fun _ => rfl, rfl⟩

theorem eqv_trans {ctx : Context} {a b c : Loader} (h1 : Eqv ctx a b) (h2 : Eqv ctx b c) :
    Eqv ctx a c :=
  ⟨fun k => (h2.1 k).trans (h1.1 k), fun k => (h2.2.1 k).trans (h1.2.1 k),
    h2.2.2.trans h1.2.2⟩

theorem eqv_ext {ctx : Context} {st w w1 : Loader} (h1 : Ext ctx st w) (h2 : Eqv ctx w w1) :
    Ext ctx st w1 :=
  ⟨fun k v h => by rw [h2.1 k]; exact h1.1 k v h, fun k => (h2.2.1 k).trans (h1.2 k)⟩

theorem eqv_same {ctx : Context} {st w w1 : Loader} (h1 : Same st w) (h2 : Eqv ctx w w1) :
    Same st w1 :=
  Eq.trans h2.2.2 h1

theorem leads_mono {α : Type} {ctx : Context} {Bad : Resolver → Loader → Prop}
    {st st1 : Loader} {G : Resolver → Loader → Except Fault α}
    (h : Leads ctx Bad st G) (hext : Ext ctx st st1) (hsame : Same st st1) :
    Leads ctx Bad st1 G :=
  fun w hw hs R2 hR2 hf => h w (ext_trans hext hw) (same_trans hsame hs) R2 hR2 hf

/-- From one computation to another that makes the first stop with a fault
whenever it does itself. -/
theorem leads_step {α β : Type} {ctx : Context} {Bad : Resolver → Loader → Prop}
    {st st1 : Loader} {G : Resolver → Loader → Except Fault α}
    {G1 : Resolver → Loader → Except Fault β}
    (h : Leads ctx Bad st G) (hext : Ext ctx st st1) (hsame : Same st st1)
    (hstep : ∀ w, Ext ctx st1 w → Same st1 w → ∀ R2, HitLike ctx R2 →
      Fails (G1 R2 w) → Fails (G R2 w)) :
    Leads ctx Bad st1 G1 := by
  intro w hw hs R2 hR2 hf
  refine h w (ext_trans hext hw) (same_trans hsame hs) R2 hR2 (fun w1 h1 => ?_)
  exact hstep w1 (eqv_ext hw h1) (eqv_same hs h1) R2 hR2 (hf w1 h1)

theorem finds_mem (ctx : Context) (st : Loader) (k : Bytes) (v : Class)
    (h : st.finds ctx k = some v) : (k, some v) ∈ st.classMap.nodes := by
  unfold Loader.finds hashMapFind at h
  cases hf : hashMapFindNode ctx.byteArrayHash byteArrayEqual st.classMap k with
  | none => rw [hf] at h; exact absurd h (by simp)
  | some n =>
    rw [hf] at h
    obtain ⟨h1, h2⟩ := hashMapFindNode_some _ _ _ _ _ hf
    have hn : n = (k, some v) := by
      rw [← Prod.eta n, ← byteArrayEqual_eq _ _ h2]
      exact congrArg _ h
    rw [← hn]; exact h1

theorem mem_finds (ctx : Context) (st : Loader) (hs : st.sound ctx) (k : Bytes)
    (v : Option Class) (h : (k, v) ∈ st.classMap.nodes) : st.finds ctx k = v := by
  unfold Loader.finds hashMapFind
  rw [hashMapFindNode_unique ctx.byteArrayHash byteArrayEqual st.classMap k (k, v) hs.1 h
    (byteArrayEqual_refl k) rfl (fun x hx hxe =>
      List.inj_on_of_nodup_map hs.2.1 hx h (byteArrayEqual_eq _ _ hxe).symm)]

theorem finds_none (ctx : Context) (st : Loader) (hs : st.sound ctx) (k : Bytes)
    (h : st.finds ctx k = none) : ∀ n ∈ st.classMap.nodes, n.1 ≠ k := by
  intro n hn hk
  have := mem_finds ctx st hs n.1 n.2 hn
  rw [hk, h] at this
  exact hs.2.2 n hn this.symm

theorem finds_none_of (ctx : Context) (st : Loader) (k : Bytes)
    (h : ∀ n ∈ st.classMap.nodes, n.1 ≠ k) : st.finds ctx k = none := by
  cases hf : st.finds ctx k with
  | none => rfl
  | some v => exact absurd rfl (h _ (finds_mem ctx st k v hf))

/-- Inserting a class under a name the class map does not hold keeps the class
map sound, makes the class found under the name and changes nothing for the
other names. -/
theorem insert_sound (ctx : Context) (st : Loader) (hs : st.sound ctx) (k : Bytes) (c : Class)
    (h : st.finds ctx k = none) :
    Loader.sound ctx
      { st with classMap := hashMapInsert ctx.byteArrayHash st.classMap k (some c) } ∧
    Loader.finds ctx
      { st with classMap := hashMapInsert ctx.byteArrayHash st.classMap k (some c) } k
      = some c ∧
    ∀ k1, k1 ≠ k → Loader.finds ctx
      { st with classMap := hashMapInsert ctx.byteArrayHash st.classMap k (some c) } k1
      = st.finds ctx k1 := by
  obtain ⟨k1, _, _, k4⟩ := hashMapInsert_spec ctx.byteArrayHash st.classMap k (some c) hs.1
  have hnone := finds_none ctx st hs k h
  have hsound : Loader.sound ctx
      { st with classMap := hashMapInsert ctx.byteArrayHash st.classMap k (some c) } := by
    refine ⟨k1, ?_, ?_⟩
    · have hp := (k4.map Prod.fst).nodup_iff
      dsimp only
      rw [hp, List.map_cons, List.nodup_cons]
      refine ⟨?_, hs.2.1⟩
      intro hmem
      obtain ⟨n, hn, hk⟩ := List.mem_map.mp hmem
      exact hnone n hn hk
    · intro n hn
      rcases List.mem_cons.mp (k4.mem_iff.mp hn) with hn | hn
      · rw [hn]; simp
      · exact hs.2.2 n hn
  refine ⟨hsound, ?_, ?_⟩
  · exact mem_finds ctx _ hsound k (some c) (k4.mem_iff.mpr (List.mem_cons_self _ _))
  · intro k2 hk2
    cases hf : st.finds ctx k2 with
    | some v =>
      exact mem_finds ctx _ hsound k2 (some v)
        (k4.mem_iff.mpr (List.mem_cons_of_mem _ (finds_mem ctx st k2 v hf)))
    | none =>
      apply finds_none_of
      intro n hn
      rcases List.mem_cons.mp (k4.mem_iff.mp hn) with hn | hn
      · rw [hn]; exact fun h => hk2 h.symm
      · exact finds_none ctx st hs k2 hf n hn


theorem resolveSuper_thread (ctx : Context) (Bad : Resolver → Loader → Prop)
    (Inv : Loader → Prop) (R : Resolver) (st0 : Loader) (hR : ChildOK ctx Bad Inv st0 R)
    (st : Loader) (class_ : Class) (super : Option Bytes) (st1 : Loader) (out : Option Class)
    (hinv : Inv st) (he0 : Ext ctx st0 st) (hs0 : Same st0 st)
    (hlead : Leads ctx Bad st (fun R2 w => Loader.resolveSuper R2 w class_ super))
    (h : Loader.resolveSuper R st class_ super = .ok (st1, out)) :
    Inv st1 ∧ Ext ctx st st1 ∧
    (∀ c1, out = some c1 → Same st st1 ∧
      ∀ w, Ext ctx st1 w → Same st1 w → ∀ R2, HitLike ctx R2 →
        Loader.resolveSuper R2 w class_ super = .ok (w, some c1) ∨
        Fails (Loader.resolveSuper R2 w class_ super)) ∧
    (out = none → st1.exception.isSome = true) := by
  cases super with
  | none =>
    simp only [Loader.resolveSuper] at h
    cases h
    refine ⟨hinv, ext_refl ctx st, fun c1 hc => ⟨same_refl st, fun w _ _ R2 _ => Or.inl ?_⟩,
      fun h => absurd h (by simp)⟩
    simp only [Loader.resolveSuper]
    rw [hc]
  | some name =>
    simp only [Loader.resolveSuper] at h
    cases hr : R st name with
    | error e => rw [hr] at h; cases h
    | ok p =>
      obtain ⟨st2, sc⟩ := p
      rw [hr] at h
      dsimp only at h
      have hchild : Leads ctx Bad st (fun R2 w => R2 w name) :=
        leads_step hlead (ext_refl ctx st) (same_refl st) (fun w _ _ R2 _ hf => by
          obtain ⟨e, he⟩ := hf
          exact ⟨e, by simp only [Loader.resolveSuper, he]⟩)
      obtain ⟨i1, i2, i3, i4⟩ := hR st name st2 sc hinv he0 hs0 hchild hr
      by_cases hexc : st2.exception.isSome = true
      · rw [if_pos hexc] at h
        cases h
        exact ⟨i1, i2, fun c1 hc => absurd hc (by simp), fun _ => hexc⟩
      · rw [if_neg hexc] at h
        cases sc with
        | none => cases h
        | some sc1 =>
          dsimp only at h
          cases h
          obtain ⟨j1, j2⟩ := i3 sc1 rfl
          refine ⟨i1, i2, fun c1 hc => ⟨j2, fun w hw hs R2 hR2 => ?_⟩,
            fun h => absurd h (by simp)⟩
          have hfind := hw.1 name sc1 j1
          have hwexc : ¬ w.exception.isSome = true := by
            unfold Same at hs
            rw [hs]; exact hexc
          rcases hR2 w name sc1 hfind with hok | ⟨e, he⟩
          · left
            simp only [Loader.resolveSuper, hok, if_neg hwexc]
            rw [← hc]
          · right
            exact ⟨e, by simp only [Loader.resolveSuper, he]⟩

theorem declaredInterfacesLoop_thread (ctx : Context) (Bad : Resolver → Loader → Prop)
    (Inv : Loader → Prop) (R : Resolver) (st0 : Loader) (hR : ChildOK ctx Bad Inv st0 R)
    (hash : Bytes → Nat)
    (names : List Bytes) :
    ∀ (st : Loader) (map : HashMap Bytes (Option Class)) (st1 : Loader)
      (map1 : HashMap Bytes (Option Class)), Inv st → Ext ctx st0 st → Same st0 st →
      Leads ctx Bad st (fun R2 w => Loader.declaredInterfacesLoop hash R2 w map names) →
      Loader.declaredInterfacesLoop hash R st map names = .ok (st1, map1) →
      Inv st1 ∧ Ext ctx st st1 ∧ Same st st1 ∧
      ∀ w, Ext ctx st1 w → Same st1 w → ∀ R2, HitLike ctx R2 →
        Loader.declaredInterfacesLoop hash R2 w map names = .ok (w, map1) ∨
        Fails (Loader.declaredInterfacesLoop hash R2 w map names) := by
  induction names with
  | nil =>
    intro st map st1 map1 hinv _ _ _ h
    simp only [Loader.declaredInterfacesLoop] at h
    cases h
    exact ⟨hinv, ext_refl ctx st, same_refl st, fun w _ _ R2 _ => Or.inl rfl⟩
  | cons name rest ih =>
    intro st map st1 map1 hinv he0 hs0 hlead h
    simp only [Loader.declaredInterfacesLoop] at h
    cases hr : R st name with
    | error e => rw [hr] at h; cases h
    | ok p =>
      obtain ⟨st2, interface⟩ := p
      rw [hr] at h
      dsimp only at h
      have hchild : Leads ctx Bad st (fun R2 w => R2 w name) :=
        leads_step hlead (ext_refl ctx st) (same_refl st) (fun w _ _ R2 _ hf => by
          obtain ⟨e, he⟩ := hf
          exact ⟨e, by simp only [Loader.declaredInterfacesLoop, he]⟩)
      obtain ⟨i1, i2, i3, _⟩ := hR st name st2 interface hinv he0 hs0 hchild hr
      cases interface with
      | none => cases h
      | some i =>
        dsimp only at h
        obtain ⟨j1, j2⟩ := i3 i rfl
        cases hadd : addInterfaces hash i
            (hashMapInsertMaybe hash byteArrayEqual map name (some i)).1 with
        | error e => rw [hadd] at h; cases h
        | ok map2 =>
          rw [hadd] at h
          dsimp only at h
          have hhit : ∀ w, Ext ctx st2 w → ∀ R2, HitLike ctx R2 →
              Loader.declaredInterfacesLoop hash R2 w map (name :: rest)
                = Loader.declaredInterfacesLoop hash R2 w map2 rest ∨
              Fails (Loader.declaredInterfacesLoop hash R2 w map (name :: rest)) := by
            intro w hw R2 hR2
            rcases hR2 w name i (hw.1 name i j1) with hok | ⟨e, he⟩
            · left
              simp only [Loader.declaredInterfacesLoop, hok, hadd]
            · right
              exact ⟨e, by simp only [Loader.declaredInterfacesLoop, he]⟩
          have hlead2 : Leads ctx Bad st2
              (fun R2 w => Loader.declaredInterfacesLoop hash R2 w map2 rest) :=
            leads_step hlead i2 j2 (fun w hw _ R2 hR2 hf => by
              rcases hhit w hw R2 hR2 with heq | hfail
              · rw [heq]; exact hf
              · exact hfail)
          obtain ⟨k1, k2, k3, k4⟩ := ih st2 map2 st1 map1 i1 (ext_trans he0 i2) (same_trans hs0 j2) hlead2 h
          refine ⟨k1, ext_trans i2 k2, same_trans j2 k3, fun w hw hs R2 hR2 => ?_⟩
          rcases hhit w (ext_trans k2 hw) R2 hR2 with heq | hfail
          · rw [heq]
            exact k4 w hw hs R2 hR2
          · exact Or.inr hfail

theorem fillInterfaceTable_thread (ctx : Context) (Bad : Resolver → Loader → Prop)
    (Inv : Loader → Prop) (R : Resolver) (st0 : Loader) (hR : ChildOK ctx Bad Inv st0 R) (concrete : Bool)
    (nodes : List (Bytes × Option Class)) :
    ∀ (st : Loader) (table : List (Option (TableEntry Class))) (i : Nat) (st1 : Loader)
      (out : Option (List (Option (TableEntry Class)))), Inv st → Ext ctx st0 st →
      Same st0 st → Leads ctx Bad st (fun R2 w => Loader.fillInterfaceTable R2 concrete w table i nodes) →
      Loader.fillInterfaceTable R concrete st table i nodes = .ok (st1, out) →
      Inv st1 ∧ Ext ctx st st1 ∧ (Same st st1 ∨ st1.exception.isSome = true) := by
  induction nodes with
  | nil =>
    intro st table i st1 out hinv _ _ _ h
    simp only [Loader.fillInterfaceTable] at h
    cases h
    exact ⟨hinv, ext_refl ctx st, Or.inl (same_refl st)⟩
  | cons node rest ih =>
    intro st table i st1 out hinv he0 hs0 hlead h
    simp only [Loader.fillInterfaceTable] at h
    cases hr : R st node.1 with
    | error e => rw [hr] at h; cases h
    | ok p =>
      obtain ⟨st2, interface⟩ := p
      rw [hr] at h
      dsimp only at h
      have hchild : Leads ctx Bad st (fun R2 w => R2 w node.1) :=
        leads_step hlead (ext_refl ctx st) (same_refl st) (fun w _ _ R2 _ hf => by
          obtain ⟨e, he⟩ := hf
          exact ⟨e, by simp only [Loader.fillInterfaceTable, he]⟩)
      obtain ⟨i1, i2, i3, i4⟩ := hR st node.1 st2 interface hinv he0 hs0 hchild hr
      by_cases hexc : st2.exception.isSome = true
      · rw [if_pos hexc] at h
        cases h
        exact ⟨i1, i2, Or.inr hexc⟩
      · rw [if_neg hexc] at h
        cases interface with
        | none => exact absurd (i4 rfl) hexc
        | some c =>
          obtain ⟨j1, j2⟩ := i3 c rfl
          have hnext : ∀ (table2 : List (Option (TableEntry Class))) (i2 : Nat),
              (∀ w, Ext ctx st2 w → Same st2 w → ∀ R2, HitLike ctx R2 →
                Fails (Loader.fillInterfaceTable R2 concrete w table2 i2 rest) →
                Fails (Loader.fillInterfaceTable R2 concrete w table i (node :: rest))) →
              Loader.fillInterfaceTable R concrete st2 table2 i2 rest = .ok (st1, out) →
              Inv st1 ∧ Ext ctx st st1 ∧ (Same st st1 ∨ st1.exception.isSome = true) := by
            intro table2 i3 hstep h2
            obtain ⟨k1, k2, k3⟩ := ih st2 table2 i3 st1 out i1 (ext_trans he0 i2)
              (same_trans hs0 j2) (leads_step hlead i2 j2 hstep) h2
            refine ⟨k1, ext_trans i2 k2, ?_⟩
            rcases k3 with k3 | k3
            · exact Or.inl (same_trans j2 k3)
            · exact Or.inr k3
          have hwexc : ∀ w, Same st2 w → ¬ w.exception.isSome = true := by
            intro w hs
            unfold Same at hs
            rw [hs]; exact hexc
          cases hs1 : arrayStore table i ((some c).map TableEntry.interface) with
          | error e => rw [hs1] at h; cases h
          | ok table1 =>
            rw [hs1] at h
            dsimp only at h
            cases concrete with
            | false =>
              simp only [Bool.false_eq_true, if_false] at h
              refine hnext table1 (i + 1) (fun w hw hs R2 hR2 hf => ?_) h
              rcases hR2 w node.1 c (hw.1 _ _ j1) with hok | ⟨e, he⟩
              · simp only [Loader.fillInterfaceTable, hok, if_neg (hwexc w hs), hs1,
                  Bool.false_eq_true, if_false]
                exact hf
              · exact ⟨e, by simp only [Loader.fillInterfaceTable, he]⟩
            | true =>
              simp only [if_true] at h
              cases hvt : c.virtualTable with
              | none => rw [hvt] at h; cases h
              | some ivtable =>
                rw [hvt] at h
                dsimp only at h
                cases hs2 : arrayStore table1 (i + 1)
                    (some (.vtable (List.replicate ivtable.length none))) with
                | error e => rw [hs2] at h; cases h
                | ok table2 =>
                  rw [hs2] at h
                  dsimp only at h
                  refine hnext table2 (i + 2) (fun w hw hs R2 hR2 hf => ?_) h
                  rcases hR2 w node.1 c (hw.1 _ _ j1) with hok | ⟨e, he⟩
                  · simp only [Loader.fillInterfaceTable, hok, if_neg (hwexc w hs), hs1,
                      if_true, hvt, hs2]
                    exact hf
                  · exact ⟨e, by simp only [Loader.fillInterfaceTable, he]⟩


theorem leads_shift {α β : Type} {ctx : Context} {Bad : Resolver → Loader → Prop}
    {st st1 : Loader} {G : Resolver → Loader → Except Fault α}
    {G1 : Resolver → Loader → Except Fault β}
    (h : Leads ctx Bad st G) (hext : Ext ctx st st1) (hsame : Same st st1)
    (hstep : ∀ w, Ext ctx st1 w → Same st1 w → ∀ R2, HitLike ctx R2 →
      (∀ w1, Eqv ctx w w1 → Fails (G1 R2 w1)) → ∀ w1, Eqv ctx w w1 → Fails (G R2 w1)) :
    Leads ctx Bad st1 G1 := by
  intro w hw hs R2 hR2 hf
  exact h w (ext_trans hext hw) (same_trans hsame hs) R2 hR2 (hstep w hw hs R2 hR2 hf)

theorem interfaceTableRest_thread (ctx : Context) (Bad : Resolver → Loader → Prop)
    (Inv : Loader → Prop) (R : Resolver) (st0 : Loader) (hR : ChildOK ctx Bad Inv st0 R)
    (hash : Bytes → Nat)
    (st : Loader) (class_ : Class) (names : List Bytes)
    (map0 : HashMap Bytes (Option Class)) (st1 : Loader) (out : Class)
    (P : Resolver → Loader → Except Fault (Loader × Class))
    (hP : ∀ R2 w, P R2 w =
      match Loader.declaredInterfacesLoop hash R2 w map0 names with
      | .error e => .error e
      | .ok (st1, map) =>
        if map.size ≠ 0 then
          let concrete : Bool := class_.flags &&& ACC_INTERFACE = 0
          let length := if concrete then map.size * 2 else map.size
          match Loader.fillInterfaceTable R2 concrete st1 (List.replicate length none) 0
              (hashMapNodes map) with
          | .error e => .error e
          | .ok (st2, none) => .ok (st2, class_)
          | .ok (st2, some table) => .ok (st2, { class_ with interfaceTable := some table })
        else .ok (st1, { class_ with interfaceTable := none }))
    (hinv : Inv st) (he0 : Ext ctx st0 st) (hs0 : Same st0 st)
    (hlead : Leads ctx Bad st P) (h : P R st = .ok (st1, out)) :
    Inv st1 ∧ Ext ctx st st1 ∧ (Same st st1 ∨ st1.exception.isSome = true) := by
  rw [hP] at h
  cases hd : Loader.declaredInterfacesLoop hash R st map0 names with
  | error e => rw [hd] at h; cases h
  | ok p =>
    obtain ⟨st2, map⟩ := p
    rw [hd] at h
    dsimp only at h
    have hlead1 : Leads ctx Bad st
        (fun R2 w => Loader.declaredInterfacesLoop hash R2 w map0 names) :=
      leads_step hlead (ext_refl ctx st) (same_refl st) (fun w _ _ R2 _ hf => by
        obtain ⟨e, he⟩ := hf
        exact ⟨e, by rw [hP, he]⟩)
    obtain ⟨i1, i2, i3, i4⟩ := declaredInterfacesLoop_thread ctx Bad Inv R st0 hR hash names
      st map0 st2 map hinv he0 hs0 hlead1 hd
    by_cases hsize : map.size ≠ 0
    · rw [if_pos hsize] at h
      have hlead2 : Leads ctx Bad st2 (fun R2 w =>
          Loader.fillInterfaceTable R2 (decide (class_.flags &&& ACC_INTERFACE = 0)) w
            (List.replicate (if (decide (class_.flags &&& ACC_INTERFACE = 0)) = true
              then map.size * 2 else map.size) none) 0 (hashMapNodes map)) :=
        leads_step hlead i2 i3 (fun w hw hs R2 hR2 hf => by
          rcases i4 w hw hs R2 hR2 with hok | ⟨e, he⟩
          · obtain ⟨e, he⟩ := hf
            refine ⟨e, ?_⟩
            rw [hP, hok]
            dsimp only
            rw [if_pos hsize, he]
          · exact ⟨e, by rw [hP, he]⟩)
      cases hfill : Loader.fillInterfaceTable R (decide (class_.flags &&& ACC_INTERFACE = 0)) st2
          (List.replicate (if (decide (class_.flags &&& ACC_INTERFACE = 0)) = true
            then map.size * 2 else map.size) none) 0 (hashMapNodes map) with
      | error e => rw [hfill] at h; cases h
      | ok q =>
        obtain ⟨st3, table⟩ := q
        obtain ⟨k1, k2, k3⟩ := fillInterfaceTable_thread ctx Bad Inv R st0 hR _ _ st2 _ 0 st3
          table i1 (ext_trans he0 i2) (same_trans hs0 i3) hlead2 hfill
        rw [hfill] at h
        have hst : st1 = st3 := by
          cases table with
          | none => cases h; rfl
          | some t => cases h; rfl
        rw [hst]
        refine ⟨k1, ext_trans i2 k2, ?_⟩
        rcases k3 with k3 | k3
        · exact Or.inl (same_trans i3 k3)
        · exact Or.inr k3
    · rw [if_neg hsize] at h
      cases h
      exact ⟨i1, i2, Or.inl i3⟩

theorem parseInterfaceTable_thread (ctx : Context) (Bad : Resolver → Loader → Prop)
    (Inv : Loader → Prop) (R : Resolver) (st0 : Loader) (hR : ChildOK ctx Bad Inv st0 R)
    (hash : Bytes → Nat)
    (st : Loader) (class_ : Class) (names : List Bytes) (st1 : Loader) (out : Class)
    (hinv : Inv st) (he0 : Ext ctx st0 st) (hs0 : Same st0 st)
    (hlead : Leads ctx Bad st
      (fun R2 w => Loader.parseInterfaceTable hash R2 w class_ names))
    (h : Loader.parseInterfaceTable hash R st class_ names = .ok (st1, out)) :
    Inv st1 ∧ Ext ctx st st1 ∧ (Same st st1 ∨ st1.exception.isSome = true) := by
  cases hsup : class_.super with
  | none =>
    exact interfaceTableRest_thread ctx Bad Inv R st0 hR hash st class_ names
      (makeHashMap Bytes (Option Class)) st1 out _
      (fun R2 w => by simp only [Loader.parseInterfaceTable, hsup]) hinv he0 hs0 hlead h
  | some s =>
    cases hadd : addInterfaces hash s (makeHashMap Bytes (Option Class)) with
    | error e =>
      simp only [Loader.parseInterfaceTable, hsup, hadd] at h
      cases h
    | ok map0 =>
      exact interfaceTableRest_thread ctx Bad Inv R st0 hR hash st class_ names map0 st1 out _
        (fun R2 w => by simp only [Loader.parseInterfaceTable, hsup, hadd]) hinv he0 hs0
        hlead h

theorem parseClass_thread (ctx : Context) (Bad : Resolver → Loader → Prop)
    (Inv : Loader → Prop) (R : Resolver) (st0 : Loader) (hR : ChildOK ctx Bad Inv st0 R)
    (st : Loader) (file : ClassFile) (st1 : Loader) (out : Option Class)
    (hinv : Inv st) (he0 : Ext ctx st0 st) (hs0 : Same st0 st)
    (hlead : Leads ctx Bad st (fun R2 w => Loader.parseClass ctx R2 w file))
    (h : Loader.parseClass ctx R st file = .ok (st1, out)) :
    Inv st1 ∧ Ext ctx st st1 ∧ (∀ c, out = some c → Same st st1) ∧
    (out = none → st1.exception.isSome = true) := by
  unfold Loader.parseClass at h
  cases hs : Loader.resolveSuper R st (freshClass file.flags file.name none) file.super with
  | error e => rw [hs] at h; cases h
  | ok p =>
    obtain ⟨st2, o2⟩ := p
    rw [hs] at h
    have hlead1 : Leads ctx Bad st (fun R2 w =>
        Loader.resolveSuper R2 w (freshClass file.flags file.name none) file.super) :=
      leads_step hlead (ext_refl ctx st) (same_refl st) (fun w _ _ R2 _ hf => by
        obtain ⟨e, he⟩ := hf
        exact ⟨e, by simp only [Loader.parseClass, he]⟩)
    obtain ⟨i1, i2, i3, i4⟩ := resolveSuper_thread ctx Bad Inv R st0 hR st _ _ st2 o2 hinv he0
      hs0 hlead1 hs
    cases o2 with
    | none =>
      cases h
      exact ⟨i1, i2, fun c hc => absurd hc (by simp), fun _ => i4 rfl⟩
    | some class1 =>
      dsimp only at h
      obtain ⟨j1, j2⟩ := i3 class1 rfl
      have hlead2 : Leads ctx Bad st2 (fun R2 w =>
          Loader.parseInterfaceTable ctx.byteArrayHash R2 w class1 file.interfaces) :=
        leads_step hlead i2 j1 (fun w hw hs1 R2 hR2 hf => by
          rcases j2 w hw hs1 R2 hR2 with hok | ⟨e, he⟩
          · obtain ⟨e, he⟩ := hf
            exact ⟨e, by simp only [Loader.parseClass, hok, he]⟩
          · exact ⟨e, by simp only [Loader.parseClass, he]⟩)
      cases hp : Loader.parseInterfaceTable ctx.byteArrayHash R st2 class1 file.interfaces with
      | error e => rw [hp] at h; cases h
      | ok q =>
        obtain ⟨st3, class2⟩ := q
        rw [hp] at h
        dsimp only at h
        obtain ⟨k1, k2, k3⟩ := parseInterfaceTable_thread ctx Bad Inv R st0 hR _ st2 class1 _
          st3 class2 i1 (ext_trans he0 i2) (same_trans hs0 j1) hlead2 hp
        by_cases hexc : st3.exception.isSome = true
        · rw [if_pos hexc] at h
          cases h
          exact ⟨k1, ext_trans i2 k2, fun c hc => absurd hc (by simp), fun _ => hexc⟩
        · rw [if_neg hexc] at h
          have hst : st1 = st3 ∧ out ≠ none := by
            split at h
            · cases h
            · split at h
              · cases h
              · cases h
                exact ⟨rfl, by simp⟩
          rw [hst.1]
          refine ⟨k1, ext_trans i2 k2, fun c _ => ?_, fun hn => absurd hn hst.2⟩
          rcases k3 with k3 | k3
          · exact same_trans j1 k3
          · exact absurd k3 hexc

theorem boots_false (ctx : Context) (st : Loader) (k : Bytes)
    (h : hashMapFind ctx.byteArrayHash byteArrayEqual st.bootstrapClassMap k = none) :
    st.boots ctx k = false := by
  unfold Loader.boots
  rw [h]
  rfl

theorem boots_none (ctx : Context) (st : Loader) (k : Bytes) (h : st.boots ctx k = false) :
    hashMapFind ctx.byteArrayHash byteArrayEqual st.bootstrapClassMap k = none := by
  unfold Loader.boots at h
  cases hf : hashMapFind ctx.byteArrayHash byteArrayEqual st.bootstrapClassMap k with
  | none => rfl
  | some v => rw [hf] at h; exact absurd h (by simp)

theorem makeArrayClass_thread (ctx : Context) (Bad : Resolver → Loader → Prop)
    (Inv : Loader → Prop) (R : Resolver) (st0 : Loader) (hR : ChildOK ctx Bad Inv st0 R)
    (st : Loader) (spec : Bytes) (st1 : Loader) (out : Option Class)
    (hinv : Inv st) (he0 : Ext ctx st0 st) (hs0 : Same st0 st)
    (hlead : Leads ctx Bad st (fun R2 w => Loader.makeArrayClass ctx R2 w spec))
    (h : Loader.makeArrayClass ctx R st spec = .ok (st1, out)) :
    Inv st1 ∧ Ext ctx st st1 ∧ (∀ c, out = some c → Same st st1) := by
  unfold Loader.makeArrayClass at h
  cases he : arrayElementSpec spec with
  | error e => rw [he] at h; cases h
  | ok p =>
    obtain ⟨elementSpec, dimensions⟩ := p
    rw [he] at h
    dsimp only at h
    cases hb : hashMapFind ctx.byteArrayHash byteArrayEqual st.bootstrapClassMap elementSpec with
    | some elementClass =>
      rw [hb] at h
      cases h
      exact ⟨hinv, ext_refl ctx st, fun _ _ => same_refl st⟩
    | none =>
      rw [hb] at h
      dsimp only at h
      cases hr : R st elementSpec with
      | error e => rw [hr] at h; cases h
      | ok q =>
        obtain ⟨st2, elementClass⟩ := q
        rw [hr] at h
        dsimp only at h
        have hchild : Leads ctx Bad st (fun R2 w => R2 w elementSpec) :=
          leads_step hlead (ext_refl ctx st) (same_refl st) (fun w hw _ R2 _ hf => by
            obtain ⟨e, hfe⟩ := hf
            have hbw := boots_none ctx w elementSpec
              ((hw.2 elementSpec).trans (boots_false ctx st elementSpec hb))
            exact ⟨e, by simp only [Loader.makeArrayClass, he, hbw, hfe]⟩)
        obtain ⟨i1, i2, i3, i4⟩ := hR st elementSpec st2 elementClass hinv he0 hs0 hchild hr
        by_cases hexc : st2.exception.isSome = true
        · rw [if_pos hexc] at h
          cases h
          exact ⟨i1, i2, fun c hc => absurd hc (by simp)⟩
        · rw [if_neg hexc] at h
          cases h
          refine ⟨i1, i2, fun c _ => ?_⟩
          cases elementClass with
          | none => exact absurd (i4 rfl) hexc
          | some ec => exact (i3 ec rfl).2


theorem eqv_asked (ctx : Context) (w : Loader) (names : List Bytes) :
    Eqv ctx w { w with asked := names } :=
  ⟨fun _ => rfl, fun _ => rfl, rfl⟩

theorem ext_asked (ctx : Context) (w : Loader) (names : List Bytes) :
    Ext ctx w { w with asked := names } :=
  ⟨fun _ _ h => h, fun _ => rfl⟩

/-- Storing a class in the node the bootstrap class map has for a name leaves
entries under the same names. -/
theorem boots_setSecond (ctx : Context) (st : Loader) (spec : Bytes) (b v : Class)
    (hb : hashMapFind ctx.byteArrayHash byteArrayEqual st.bootstrapClassMap spec = some b)
    (k : Bytes) :
    Loader.boots ctx { st with bootstrapClassMap := (hashMapSetSecond ctx.byteArrayHash
      byteArrayEqual st.bootstrapClassMap spec (some v)) } k = st.boots ctx k := by
  unfold Loader.boots
  dsimp only
  by_cases heq : k = spec
  · rw [heq, hashMapFind_setSecond_self _ _ _ b _ hb, hb]
    rfl
  · rw [hashMapFind_setSecond_other _ _ _ _ _ heq]

theorem loadClass_thread (ctx : Context) (Bad : Resolver → Loader → Prop)
    (Inv : Loader → Prop) (R : Resolver) (st0 : Loader) (hR : ChildOK ctx Bad Inv st0 R)
    (hasked : ∀ (st : Loader) names, Inv st → Inv { st with asked := names })
    (hboot : ∀ (st : Loader) m, Inv st → Inv { st with bootstrapClassMap := m })
    (st : Loader) (spec : Bytes) (a : Nat) (st1 : Loader) (out : Option Class)
    (hinv : Inv st) (he0 : Ext ctx st0 st) (hs0 : Same st0 st)
    (hlead : Leads ctx Bad st (fun R2 w => Loader.loadClass ctx R2 w spec a))
    (h : Loader.loadClass ctx R st spec a = .ok (st1, out)) :
    Inv st1 ∧ Ext ctx st st1 ∧ (∀ c, out = some c → Same st st1) := by
  unfold Loader.loadClass at h
  by_cases ha : a = 91
  · rw [if_pos ha] at h
    cases hb : hashMapFind ctx.byteArrayHash byteArrayEqual st.bootstrapClassMap spec with
    | some class_ =>
      rw [hb] at h
      cases h
      exact ⟨hinv, ext_refl ctx st, fun _ _ => same_refl st⟩
    | none =>
      rw [hb] at h
      dsimp only at h
      have hlead1 : Leads ctx Bad st (fun R2 w => Loader.makeArrayClass ctx R2 w spec) :=
        leads_step hlead (ext_refl ctx st) (same_refl st) (fun w hw _ R2 _ hf => by
          have hbw : hashMapFind ctx.byteArrayHash byteArrayEqual w.bootstrapClassMap spec
              = none := by
            apply boots_none
            rw [hw.2 spec]
            exact boots_false ctx st spec hb
          obtain ⟨e, he⟩ := hf
          refine ⟨e, ?_⟩
          simp only [Loader.loadClass, if_pos ha, hbw]
          exact he)
      exact makeArrayClass_thread ctx Bad Inv R st0 hR st spec st1 out hinv he0 hs0 hlead1 h
  · rw [if_neg ha] at h
    dsimp only at h
    cases hfile : ctx.find (cString spec) with
    | none =>
      rw [hfile] at h
      cases h
      exact ⟨hasked st _ hinv, ext_asked ctx st _, fun _ hc => absurd hc (by simp)⟩
    | some file =>
      rw [hfile] at h
      dsimp only at h
      cases hp : Loader.parseClass ctx R { st with asked := st.asked ++ [cString spec] } file with
      | error e => rw [hp] at h; cases h
      | ok p =>
        obtain ⟨st2, class_⟩ := p
        rw [hp] at h
        dsimp only at h
        have hlead1 : Leads ctx Bad { st with asked := st.asked ++ [cString spec] }
            (fun R2 w => Loader.parseClass ctx R2 w file) :=
          leads_shift hlead (ext_asked ctx st _) rfl (fun w _ _ R2 _ hf w1 h1 => by
            obtain ⟨e, he⟩ := hf { w1 with asked := w1.asked ++ [cString spec] }
              (eqv_trans h1 (eqv_asked ctx w1 _))
            refine ⟨e, ?_⟩
            simp only [Loader.loadClass, if_neg ha, hfile, he])
        obtain ⟨i1, i2, i3, _⟩ := parseClass_thread ctx Bad Inv R st0 hR
          { st with asked := st.asked ++ [cString spec] } file st2 class_
          (hasked st _ hinv) (ext_trans he0 (ext_asked ctx st _)) (same_trans hs0 rfl) hlead1 hp
        have i2a : Ext ctx st st2 := ext_trans (ext_asked ctx st _) i2
        cases hb : hashMapFind ctx.byteArrayHash byteArrayEqual st2.bootstrapClassMap spec with
        | none =>
          rw [hb] at h
          cases h
          exact ⟨i1, i2a, fun c hc => same_trans rfl (i3 c hc)⟩
        | some b =>
          rw [hb] at h
          dsimp only at h
          cases class_ with
          | none => cases h
          | some parsed =>
            dsimp only at h
            cases hu : updateBootstrapClass ctx.same b parsed with
            | error e => rw [hu] at h; cases h
            | ok updated =>
              rw [hu] at h
              cases h
              refine ⟨hboot st2 _ i1, ext_trans i2a ⟨fun _ _ hk => hk, ?_⟩,
                fun _ _ => same_trans rfl (i3 parsed rfl)⟩
              exact boots_setSecond ctx st2 spec b updated hb

/-- The function `resolveClass` returns the class found for a name the class
map holds, unless it has no depth left. -/
theorem resolveClass_hitLike (ctx : Context) (depth : Nat) :
    HitLike ctx (resolveClass ctx depth) := by
  intro w k v h
  cases depth with
  | zero => exact Or.inr ⟨_, rfl⟩
  | succ d => exact Or.inl (resolveClass_hit ctx d w k v h)

/-- Names each of whose loading resolves another one of them, none being in the
class map: `resolveClass` returns for none of them, whatever the depth. -/
theorem resolveClass_stuck (ctx : Context) (S : List Bytes) (st : Loader)
    (hclosed : ∀ N ∈ S, ∃ B ∈ S, Reaches ctx st N B) (depth : Nat) :
    ∀ w, Ext ctx st w → Same st w → (∀ N ∈ S, w.finds ctx N = none) →
      ∀ N ∈ S, Fails (resolveClass ctx depth w N) := by
  induction depth with
  | zero => intro w _ _ _ N _; exact ⟨_, rfl⟩
  | succ d ih =>
    intro w hw hs hnone N hN
    obtain ⟨B, hB, a, rest, hN1, hleads⟩ := hclosed N hN
    have hfind : hashMapFind ctx.byteArrayHash byteArrayEqual w.classMap N = none :=
      hnone N hN
    have hbad : Fails (Loader.loadClass ctx (resolveClass ctx d) w N a) :=
      hleads w hw hs (resolveClass ctx d) (resolveClass_hitLike ctx d)
        (fun w1 h1 => ih w1 (eqv_ext hw h1) (eqv_same hs h1)
          (fun M hM => by rw [h1.1 M]; exact hnone M hM) B hB)
    obtain ⟨e, he⟩ := hbad
    refine ⟨e, ?_⟩
    subst hN1
    simp only [resolveClass, hfind, he]

/-- A call of `resolveClass` that returns, made while the names `S` are being
loaded, in a state whose class map is sound: the class map is sound afterwards,
the state extended, none of the names `S` has entered the class map; a class
returned is found under the name and no exception has become pending; when
null is returned an exception is pending. -/
theorem resolveClass_sound (ctx : Context) (depth : Nat) :
    ∀ (S : List Bytes) (st : Loader) (X : Bytes) (st1 : Loader) (r : Option Class),
      st.sound ctx → Pending ctx st S X → resolveClass ctx depth st X = .ok (st1, r) →
      st1.sound ctx ∧ Ext ctx st st1 ∧ (∀ N ∈ S, st1.finds ctx N = none) ∧
      (∀ c, r = some c → st1.finds ctx X = some c ∧ Same st st1) ∧
      (r = none → st1.exception.isSome = true) := by
  induction depth with
  | zero => intro S st X st1 r _ _ h; cases h
  | succ d ih =>
    intro S st X st1 r hsound hpend h0
    have h := h0
    simp only [resolveClass] at h
    cases hfind : hashMapFind ctx.byteArrayHash byteArrayEqual st.classMap X with
    | some class_ =>
      rw [hfind] at h
      cases h
      exact ⟨hsound, ext_refl ctx st, fun N hN => (hpend N hN).1,
        fun c hc => ⟨by cases hc; exact hfind, same_refl st⟩, fun hc => absurd hc (by simp)⟩
    | none =>
      rw [hfind] at h
      cases X with
      | nil => cases h
      | cons a rest =>
        dsimp only at h
        by_cases hXS : (a :: rest) ∈ S
        · have hclosed : ∀ N ∈ S, ∃ B ∈ S, Reaches ctx st N B := by
            intro N hN
            obtain ⟨B, hB, hreach⟩ := (hpend N hN).2
            rcases hB with hB | hB
            · exact ⟨B, hB, hreach⟩
            · exact ⟨B, by rw [hB]; exact hXS, hreach⟩
          obtain ⟨e, he⟩ := resolveClass_stuck ctx S st hclosed (d + 1) st (ext_refl ctx st)
            (same_refl st) (fun N hN => (hpend N hN).1) (a :: rest) hXS
          rw [he] at h0
          cases h0
        · cases hl : Loader.loadClass ctx (resolveClass ctx d) st (a :: rest) a with
          | error e => rw [hl] at h; cases h
          | ok p =>
            obtain ⟨st2, class_⟩ := p
            rw [hl] at h
            dsimp only at h
            have hchild : ChildOK ctx
                (fun R2 w => Fails (Loader.loadClass ctx R2 w (a :: rest) a))
                (fun u => u.sound ctx ∧ ∀ N ∈ (a :: rest) :: S, u.finds ctx N = none)
                st (resolveClass ctx d) := by
              intro u key u1 r1 hu he hs hleadc hru
              have hpu : Pending ctx u ((a :: rest) :: S) key := by
                intro N hN
                refine ⟨hu.2 N hN, ?_⟩
                rcases List.mem_cons.mp hN with hN | hN
                · exact ⟨key, Or.inr rfl, a, rest, hN, by rw [hN]; exact hleadc⟩
                · obtain ⟨B, hB, a1, rest1, hN1, hreach⟩ := (hpend N hN).2
                  refine ⟨B, Or.inl ?_, a1, rest1, hN1, leads_mono hreach he hs⟩
                  rcases hB with hB | hB
                  · exact List.mem_cons_of_mem _ hB
                  · rw [hB]; exact List.mem_cons_self _ _
              obtain ⟨j1, j2, j3, j4, j5⟩ := ih _ u key u1 r1 hu.1 hpu hru
              exact ⟨⟨j1, j3⟩, j2, j4, j5⟩
            have hlead : Leads ctx (fun R2 w => Fails (Loader.loadClass ctx R2 w (a :: rest) a))
                st (fun R2 w => Loader.loadClass ctx R2 w (a :: rest) a) :=
              fun w _ _ R2 _ hf => hf w (eqv_refl ctx w)
            have hinv : st.sound ctx ∧ ∀ N ∈ (a :: rest) :: S, st.finds ctx N = none := by
              refine ⟨hsound, fun N hN => ?_⟩
              rcases List.mem_cons.mp hN with hN | hN
              · rw [hN]; exact hfind
              · exact (hpend N hN).1
            obtain ⟨⟨k1, k2⟩, k3, k4⟩ := loadClass_thread ctx _ _ _ st hchild
              (fun _ _ hu => hu) (fun _ _ hu => hu) st (a :: rest) a st2 class_ hinv
              (ext_refl ctx st) (same_refl st) hlead hl
            cases class_ with
            | none =>
              simp only [Loader.record] at h
              by_cases hexc : st2.exception.isSome = true
              · rw [if_pos hexc] at h
                cases h
                exact ⟨k1, k3, fun N hN => k2 N (List.mem_cons_of_mem _ hN),
                  fun c hc => absurd hc (by simp), fun _ => hexc⟩
              · rw [if_neg hexc] at h
                cases h
                exact ⟨k1, ext_trans k3 ⟨fun _ _ hk => hk, fun _ => rfl⟩,
                  fun N hN => k2 N (List.mem_cons_of_mem _ hN),
                  fun c hc => absurd hc (by simp), fun _ => rfl⟩
            | some c =>
              simp only [Loader.record] at h
              cases h
              have hX : st2.finds ctx (a :: rest) = none := k2 _ (List.mem_cons_self _ _)
              obtain ⟨m1, m2, m3⟩ := insert_sound ctx st2 k1 (a :: rest) c hX
              refine ⟨m1, ext_trans k3 ⟨fun k v hk => ?_, fun _ => rfl⟩, fun N hN => ?_,
                fun c1 hc => ⟨by cases hc; exact m2, same_trans (k4 c rfl) rfl⟩,
                fun hc => absurd hc (by simp)⟩
              · have hne : k ≠ a :: rest := by
                  intro hk1
                  rw [hk1, hX] at hk
                  exact absurd hk (by simp)
                rw [m3 k hne]; exact hk
              · have hne : N ≠ a :: rest := fun hN1 => hXS (hN1 ▸ hN)
                rw [m3 N hne]
                exact k2 N (List.mem_cons_of_mem _ hN)

/-- A sequence of calls of `resolveClass` that return, begun with a sound class
map, leaves every class in the class map under its name. -/
theorem resolveAll_sound (ctx : Context) (calls : List (Nat × Bytes)) :
    ∀ (st st1 : Loader), st.sound ctx → resolveAll ctx st calls = .ok st1 →
      st1.sound ctx ∧ Ext ctx st st1 := by
  induction calls with
  | nil =>
    intro st st1 hs h
    simp only [resolveAll] at h
    cases h
    exact ⟨hs, ext_refl ctx st⟩
  | cons call rest ih =>
    intro st st1 hs h
    simp only [resolveAll] at h
    cases hr : resolveClass ctx call.1 st call.2 with
    | error e => rw [hr] at h; cases h
    | ok p =>
      obtain ⟨st2, r⟩ := p
      rw [hr] at h
      dsimp only at h
      obtain ⟨j1, j2, _⟩ := resolveClass_sound ctx call.1 [] st call.2 st2 r hs
        (fun _ hN => absurd hN (List.not_mem_nil _)) hr
      obtain ⟨j3, j4⟩ := ih st2 st1 j1 h
      exact ⟨j3, ext_trans j2 j4⟩


/-- Claim C22: when `resolveClass` returns a class for a name, the class map
holds the class under the name, and a later call with the name returns the
same class and the same state, so that the class finder is not asked and
nothing is parsed: at once, and also after any sequence of other calls of
`resolveClass` that return.  When the class map did not hold the name and the
bootstrap class map has an entry for it, the class returned and cached is the
class the bootstrap class map holds under the name after the call.  The class
map is one that `resolveClass` has built: well formed, no name in two nodes, no
null value. -/
theorem resolveClass_caches (ctx : Context) (depth : Nat) (st : Loader) (name : Bytes)
    (st1 : Loader) (c : Class) (hsound : st.sound ctx)
    (h : resolveClass ctx depth st name = .ok (st1, some c)) :
    hashMapFind ctx.byteArrayHash byteArrayEqual st1.classMap name = some c ∧
    (∀ later, resolveClass ctx (later + 1) st1 name = .ok (st1, some c)) ∧
    (∀ calls st2, resolveAll ctx st1 calls = .ok st2 →
      ∀ later, resolveClass ctx (later + 1) st2 name = .ok (st2, some c)) ∧
    (hashMapFind ctx.byteArrayHash byteArrayEqual st.classMap name = none →
      (hashMapFind ctx.byteArrayHash byteArrayEqual st.bootstrapClassMap name).isSome = true →
      hashMapFind ctx.byteArrayHash byteArrayEqual st1.bootstrapClassMap name = some c) := by
  obtain ⟨hfind, _, hload⟩ := resolveClass_returns ctx depth st name st1 c hsound.1 h
  obtain ⟨hsound1, _⟩ := resolveClass_sound ctx depth [] st name st1 (some c) hsound
    (fun _ hN => absurd hN (List.not_mem_nil _)) h
  refine ⟨hfind, fun later => resolveClass_hit ctx later st1 name c hfind, ?_, ?_⟩
  · intro calls st2 hcalls later
    obtain ⟨_, hext⟩ := resolveAll_sound ctx calls st1 st2 hsound1 hcalls
    exact resolveClass_hit ctx later st2 name c (hext.1 name c hfind)
  · intro hmiss hboot
    obtain ⟨d, first, st2, _, hl, _, hst1⟩ := hload hmiss
    unfold Loader.loadClass at hl
    split at hl
    · split at hl
      · rename_i class_ hb
        cases hl
        rw [hst1]
        exact hb
      · rename_i hb
        rw [hb] at hboot
        exact absurd hboot (by simp)
    · dsimp only at hl
      split at hl
      · cases hl
      · split at hl
        · cases hl
        · rename_i file hfile st3 class_ heq
          have hb3 : (hashMapFind ctx.byteArrayHash byteArrayEqual
              st3.bootstrapClassMap name).isSome = true := parseClass_keeps (fun st => (hashMapFind ctx.byteArrayHash byteArrayEqual
            st.bootstrapClassMap name).isSome = true) ctx _ (bootstrap_keeps ctx name d)
            { st with asked := st.asked ++ [cString name] } _ _ _ hboot heq
          split at hl
          · rename_i hb
            rw [hb] at hb3
            exact absurd hb3 (by simp)
          · rename_i b hb
            split at hl
            · cases hl
            · split at hl
              · cases hl
              · cases hl
                rw [hst1]
                exact hashMapFind_setSecond_self _ _ _ b _ hb

/-- Witness for `resolveClass_caches`: the sample machine resolves `O`, for
which the bootstrap class map has an entry, then `A` and `O` again. -/
theorem resolveClass_caches_witness :
    Loader.sound sampleContext sampleLoader ∧
    hashMapFind sampleContext.byteArrayHash byteArrayEqual sampleResolved.classMap [79, 0]
      = some sampleResolvedClass ∧
    resolveClass sampleContext 1 sampleResolved [79, 0]
      = .ok (sampleResolved, some sampleResolvedClass) ∧
    (∀ st2, resolveAll sampleContext sampleResolved [(3, [65, 0]), (3, [90, 0])] = .ok st2 →
      resolveClass sampleContext 1 st2 [79, 0] = .ok (st2, some sampleResolvedClass)) ∧
    hashMapFind sampleContext.byteArrayHash byteArrayEqual sampleResolved.bootstrapClassMap
      [79, 0] = some sampleResolvedClass :=
  have hs : Loader.sound sampleContext sampleLoader :=
    ⟨makeHashMap_wellFormed _, List.nodup_nil, fun _ hn => absurd hn (List.not_mem_nil _)⟩
  have h := resolveClass_caches sampleContext 2 sampleLoader [79, 0] sampleResolved
    sampleResolvedClass hs rfl
  ⟨hs, h.1, h.2.1 0, fun st2 h2 => h.2.2.1 _ st2 h2 0, h.2.2.2 rfl rfl⟩

end vm
